import Mathlib
set_option linter.unusedSectionVars false

/-!
DynamicKDTree: a shallow embedding of `src/KDTree.h`

The class `gbi::KDTree<PointWrapper, Dimension>` is embedded as a record of its
members together with one Lean function per member function.

* `PointData` (`void*`) is a natural number, `0` standing for `nullptr`.
* `std::vector<PointData>` is a list; `at(i)` outside the vector throws and
  `operator[]` outside the vector is undefined behaviour: both end the call
  abnormally, which the embedding renders as `none`.
* `std::unordered_map` and `std::map` are association lists kept sorted by key,
  `std::set` is a sorted list.  `operator[]` on a map inserts a
  value-initialised entry when the key is absent; the embedding threads that
  insertion through the state wherever the entry can survive the function.
* `PointWrapper(h).Get(i)` is the parameter `Get h i`, `Dimension` is a parameter.
* `UInt` floors and `Int` balances are unbounded (`Nat`, `Int`): a wrap-around
  needs a tree with 2^31 points.
* The three `while` loops run on fuel; running out of fuel is `none` as well.
-/

namespace gbi

abbrev PointData := Nat
abbrev SizeT := Nat
abbrev UInt := Nat

/-- Association list standing for `std::unordered_map<K, V>` and `std::map<K, V>`. -/
abbrev Map (K V : Type) := List (K × V)

namespace Map

variable {K V : Type} [DecidableEq K] [LT K] [∀ a b : K, Decidable (a < b)]

/-- The value stored under `k`, as `find(k)` followed by a read of `->second`. -/
def find : Map K V → K → Option V
  | [], _ => none
  | (k', v) :: r, k => if k = k' then some v else find r k

/-- The assignment `m[k] = v`. -/
def set : Map K V → K → V → Map K V
  | [], k, v => [(k, v)]
  | (k', v') :: r, k, v =>
    if k = k' then (k, v) :: r
    else if k < k' then (k, v) :: (k', v') :: r
    else (k', v') :: set r k v

/-- The call `m.erase(k)`. -/
def erase : Map K V → K → Map K V
  | [], _ => []
  | (k', v) :: r, k => if k = k' then erase r k else (k', v) :: erase r k

/-- The key of `m.begin()` of a `std::map`: the least key. -/
def minKey : Map K V → Option K
  | [] => none
  | (k, _) :: r =>
    match minKey r with
    | none => some k
    | some m => if m < k then some m else some k

/-- The key of `m.rbegin()` of a `std::map`: the greatest key. -/
def maxKey : Map K V → Option K
  | [] => none
  | (k, _) :: r =>
    match maxKey r with
    | none => some k
    | some m => if k < m then some m else some k

end Map

/-- The call `s.insert(p)` on a `std::set<SizeT>`. -/
def setInsert : List SizeT → SizeT → List SizeT
  | [], p => [p]
  | q :: r, p => if p = q then q :: r else if p < q then p :: q :: r else q :: setInsert r p

/-- The call `s.erase(p)` on a `std::set<SizeT>`. -/
def setErase (s : List SizeT) (p : SizeT) : List SizeT := s.filter (fun q => decide (q ≠ p))

/-- The element `*s.begin()` of a `std::set<SizeT>`: the least element. -/
def setMin : List SizeT → Option SizeT
  | [] => none
  | q :: r =>
    match setMin r with
    | none => some q
    | some m => if m < q then some m else some q

/-- The priority index `std::map<Int, std::map<UInt, std::set<SizeT>>>`. -/
abbrev PriorityIndex := Map Int (Map UInt (List SizeT))

/-- The statement `index[b][f].insert(p)`. -/
def indexInsert (ix : PriorityIndex) (b : Int) (f : UInt) (p : SizeT) : PriorityIndex :=
  let inner := (ix.find b).getD []
  ix.set b (inner.set f (setInsert ((inner.find f).getD []) p))

/-- The block, repeated three times in the source, that erases `p` from `index[b][f]` and
prunes the bucket and the balance key when they become empty. -/
def indexErase (ix : PriorityIndex) (b : Int) (f : UInt) (p : SizeT) : PriorityIndex :=
  let inner := (ix.find b).getD []
  let s := setErase ((inner.find f).getD []) p
  if s.length = 0 then
    if (inner.erase f).length = 0 then ix.erase b else ix.set b (inner.erase f)
  else ix.set b (inner.set f s)

/-- The data members of `KDTree`. -/
structure KDTree where
  pointDataVector : List PointData
  indexedPointData : Map PointData SizeT
  nodeFloor : Map SizeT UInt
  lowerIndex : Map SizeT SizeT
  upperIndex : Map SizeT SizeT
  parentIndex : Map SizeT SizeT
  boundaries : Map PointData (List PointData)
  balanceByIndex : Map SizeT Int
  indexByBalanceAndFloor : PriorityIndex
  origin : PointData
deriving DecidableEq, Repr

/-- The tree built by the constructor `KDTree()`. -/
def KDTree.empty : KDTree := ⟨[], [], [], [], [], [], [], [], [], 0⟩

/-- The read `indexedPointData[k]`. -/
def idxAt (t : KDTree) (k : PointData) : SizeT × KDTree :=
  match t.indexedPointData.find k with
  | some v => (v, t)
  | none => (0, { t with indexedPointData := t.indexedPointData.set k 0 })

/-- The read `nodeFloor[k]`. -/
def floorAt (t : KDTree) (k : SizeT) : UInt × KDTree :=
  match t.nodeFloor.find k with
  | some v => (v, t)
  | none => (0, { t with nodeFloor := t.nodeFloor.set k 0 })

/-- The read `balanceByIndex[k]`. -/
def balanceAt (t : KDTree) (k : SizeT) : Int × KDTree :=
  match t.balanceByIndex.find k with
  | some v => (v, t)
  | none => (0, { t with balanceByIndex := t.balanceByIndex.set k 0 })

/-- The read `lowerIndex[k]`. -/
def lowerAt (t : KDTree) (k : SizeT) : SizeT × KDTree :=
  match t.lowerIndex.find k with
  | some v => (v, t)
  | none => (0, { t with lowerIndex := t.lowerIndex.set k 0 })

/-- The read `upperIndex[k]`. -/
def upperAt (t : KDTree) (k : SizeT) : SizeT × KDTree :=
  match t.upperIndex.find k with
  | some v => (v, t)
  | none => (0, { t with upperIndex := t.upperIndex.set k 0 })

/-- The call `pointDataVector.at(i)`, also used for an in-bounds requirement of
`pointDataVector[i]`. -/
def vecAt (t : KDTree) (i : SizeT) : Option PointData := t.pointDataVector[i]?

def InsertInternal (t : KDTree) (data : PointData) : SizeT × KDTree :=
  let v := t.pointDataVector ++ [data]
  let index := v.length - 1
  (index, { t with pointDataVector := v, indexedPointData := t.indexedPointData.set data index })

def GetLower (t : KDTree) (pointData : PointData) : Option (PointData × KDTree) :=
  let r := idxAt t pointData
  match r.2.lowerIndex.find r.1 with
  | some l =>
    match vecAt r.2 l with
    | some h => some (h, r.2)
    | none => none
  | none => some (0, r.2)

def GetUpper (t : KDTree) (pointData : PointData) : Option (PointData × KDTree) :=
  let r := idxAt t pointData
  match r.2.upperIndex.find r.1 with
  | some u =>
    match vecAt r.2 u with
    | some h => some (h, r.2)
    | none => none
  | none => some (0, r.2)

def GetParent (t : KDTree) (pointData : PointData) : Option (PointData × KDTree) :=
  let r := idxAt t pointData
  match r.2.parentIndex.find r.1 with
  | some p =>
    match vecAt r.2 p with
    | some h => some (h, r.2)
    | none => none
  | none => some (0, r.2)

def SetLower (t : KDTree) (parent child : PointData) : KDTree :=
  let rp := idxAt t parent
  let rc := idxAt rp.2 child
  let t1 := { rc.2 with lowerIndex := rc.2.lowerIndex.set rp.1 rc.1 }
  let t2 := { t1 with parentIndex := t1.parentIndex.set rc.1 rp.1 }
  let rf := floorAt t2 rp.1
  { rf.2 with nodeFloor := rf.2.nodeFloor.set rc.1 (rf.1 + 1) }

def SetUpper (t : KDTree) (parent child : PointData) : KDTree :=
  let rp := idxAt t parent
  let rc := idxAt rp.2 child
  let t1 := { rc.2 with upperIndex := rc.2.upperIndex.set rp.1 rc.1 }
  let t2 := { t1 with parentIndex := t1.parentIndex.set rc.1 rp.1 }
  let rf := floorAt t2 rp.1
  { rf.2 with nodeFloor := rf.2.nodeFloor.set rc.1 (rf.1 + 1) }

/-- The value-initialised `std::array<PointData, Dimension * 2>`. -/
def nullSlots (Dimension : Nat) : List PointData := List.replicate (2 * Dimension) 0

/-- The assignment `boundaries[q][j] = v`. -/
def boundaryAssign (Dimension : Nat) (b : Map PointData (List PointData)) (q : PointData)
    (j : Nat) (v : PointData) : Map PointData (List PointData) :=
  b.set q (((b.find q).getD (nullSlots Dimension)).set j v)

/-- The read `boundaries[q][j]` where the entry of `q` is known to be present. -/
def boundaryRead (Dimension : Nat) (b : Map PointData (List PointData)) (q : PointData)
    (j : Nat) : PointData :=
  ((b.find q).getD (nullSlots Dimension)).getD j 0

section Coordinates

variable {α : Type} [DecidableEq α] [LT α] [∀ a b : α, Decidable (a < b)]
variable (Dimension : Nat) (Get : PointData → Nat → α)

/-- One round of the outer loop of `UpdateBoundaries(updateList, point)`. -/
def UpdateBoundariesStep (point : PointData) (b : Map PointData (List PointData))
    (q : PointData) : Map PointData (List PointData) :=
  match b.find q with
  | none =>
    (List.range Dimension).foldl
      (fun b i => boundaryAssign Dimension (boundaryAssign Dimension b q (2 * i) point) q (2 * i + 1) point) b
  | some _ =>
    (List.range Dimension).foldl
      (fun b i =>
        let b1 := if Get point i < Get (boundaryRead Dimension b q (2 * i)) i
          then boundaryAssign Dimension b q (2 * i) point else b
        if Get (boundaryRead Dimension b1 q (2 * i + 1)) i < Get point i
          then boundaryAssign Dimension b1 q (2 * i + 1) point else b1) b

/-- The overload `UpdateBoundaries(const std::vector<PointData> &, PointData)`. -/
def UpdateBoundariesList (t : KDTree) (updateList : List PointData) (point : PointData) : KDTree :=
  { t with boundaries := updateList.foldl (UpdateBoundariesStep Dimension Get point) t.boundaries }

def InternalRemoveBalancePriority (t : KDTree) (pointIndex : SizeT) : KDTree :=
  match t.balanceByIndex.find pointIndex with
  | some pointBalance =>
    let rf := floorAt t pointIndex
    { rf.2 with indexByBalanceAndFloor := indexErase rf.2.indexByBalanceAndFloor pointBalance rf.1 pointIndex }
  | none => t

def UpdateBalance (t : KDTree) (pointToUpdate : PointData) (increment : Bool) : KDTree :=
  let ri := idxAt t pointToUpdate
  let updateIndex := ri.1
  let t1 := InternalRemoveBalancePriority ri.2 updateIndex
  let rb := balanceAt t1 updateIndex
  let nb : Int := if increment then rb.1 + 1 else rb.1 - 1
  let t2 := { rb.2 with balanceByIndex := rb.2.balanceByIndex.set updateIndex nb }
  let rf := floorAt t2 updateIndex
  { rf.2 with indexByBalanceAndFloor := indexInsert rf.2.indexByBalanceAndFloor nb rf.1 updateIndex }

def IsLeaf (t : KDTree) (pointIndex : SizeT) : Bool :=
  (t.lowerIndex.find pointIndex).isNone && (t.upperIndex.find pointIndex).isNone

/-- The function returns the two reference parameters `boundariesSlot` and
`insertedSomething`. -/
def UpdateBoundariesWithPoint (t : KDTree) (other : PointData) (boundariesSlot : List PointData)
    (insertedSomething : Bool) : List PointData × Bool :=
  if other ≠ 0 then
    let slot1 := (List.range Dimension).foldl
      (fun s i => (s.set (2 * i) other).set (2 * i + 1) other) boundariesSlot
    let slot2 :=
      match t.boundaries.find other with
      | some ob =>
        (List.range Dimension).foldl
          (fun s i =>
            let s1 := s.set (2 * i)
              (if Get (s.getD (2 * i) 0) i < Get (ob.getD (2 * i) 0) i
                then s.getD (2 * i) 0 else ob.getD (2 * i) 0)
            s1.set (2 * i + 1)
              (if Get (s1.getD (2 * i + 1) 0) i < Get (ob.getD (2 * i + 1) 0) i
                then ob.getD (2 * i + 1) 0 else s1.getD (2 * i + 1) 0)) slot1
      | none => slot1
    (slot2, true)
  else (boundariesSlot, insertedSomething)

/-- The overload `UpdateBoundaries(SizeT)`.  The local array `boundariesSlot` starts
uninitialised in the source; it is read only after every slot has been assigned. -/
def UpdateBoundaries (t : KDTree) (pointIndex : SizeT) : Option KDTree :=
  match vecAt t pointIndex with
  | none => none
  | some self =>
    let t1 := { t with boundaries := t.boundaries.erase self }
    let lowerPoint : Option PointData :=
      match t1.lowerIndex.find pointIndex with
      | some l => vecAt t1 l
      | none => some 0
    let upperPoint : Option PointData :=
      match t1.upperIndex.find pointIndex with
      | some u => vecAt t1 u
      | none => some 0
    match lowerPoint, upperPoint with
    | some lp, some up =>
      let r1 := UpdateBoundariesWithPoint Dimension Get t1 lp (nullSlots Dimension) false
      let r2 := UpdateBoundariesWithPoint Dimension Get t1 up r1.1 r1.2
      if r2.2 then some { t1 with boundaries := t1.boundaries.set self r2.1 } else some t1
    | _, _ => none

end Coordinates

/-- The pattern `if (m.find(last) != m.end()) m[item] = m[last]; else m.erase(item);` of
`MoveLastElementTo`. -/
def copyEntry {V : Type} (m : Map SizeT V) (itemIndex lastIndex : SizeT) : Map SizeT V :=
  match m.find lastIndex with
  | some v => m.set itemIndex v
  | none => m.erase itemIndex

/-- The container `lowerIndex` after the first statement of the `itemIndex != lastIndex`
block of `MoveLastElementTo`, which repoints the parent of the last position. -/
def relinkLower (t : KDTree) (itemIndex lastIndex : SizeT) : Map SizeT SizeT :=
  match t.parentIndex.find lastIndex with
  | some pl =>
    if t.lowerIndex.find pl = some lastIndex then t.lowerIndex.set pl itemIndex
    else t.lowerIndex
  | none => t.lowerIndex

/-- The container `upperIndex` after the same statement. -/
def relinkUpper (t : KDTree) (itemIndex lastIndex : SizeT) : Map SizeT SizeT :=
  match t.parentIndex.find lastIndex with
  | some pl =>
    if t.lowerIndex.find pl = some lastIndex then t.upperIndex
    else if t.upperIndex.find pl = some lastIndex then t.upperIndex.set pl itemIndex
    else t.upperIndex
  | none => t.upperIndex

/-- The function `MoveLastElementTo`, written container by container: `moved` is the
state at the end of the `itemIndex != lastIndex` block.  The reads `nodeFloor[itemIndex]`,
`nodeFloor[lastIndex]` and `balanceByIndex[lastIndex]` may insert an entry, which the
function overwrites or erases before it returns. -/
def MoveLastElementTo (t : KDTree) (itemIndex : SizeT) : Option KDTree :=
  let lastIndex := t.pointDataVector.length - 1
  match vecAt t itemIndex, vecAt t lastIndex with
  | some previousDataAtLocation, some lastData =>
    let moved : KDTree :=
      if itemIndex ≠ lastIndex then
        { pointDataVector := t.pointDataVector.set itemIndex lastData
          indexedPointData := t.indexedPointData.set lastData itemIndex
          nodeFloor := t.nodeFloor.set itemIndex ((t.nodeFloor.find lastIndex).getD 0)
          lowerIndex := copyEntry (relinkLower t itemIndex lastIndex) itemIndex lastIndex
          upperIndex := copyEntry (relinkUpper t itemIndex lastIndex) itemIndex lastIndex
          parentIndex := copyEntry t.parentIndex itemIndex lastIndex
          boundaries := t.boundaries.erase previousDataAtLocation
          balanceByIndex := copyEntry t.balanceByIndex itemIndex lastIndex
          indexByBalanceAndFloor :=
            match t.balanceByIndex.find lastIndex with
            | some bl =>
              indexInsert t.indexByBalanceAndFloor bl ((t.nodeFloor.find itemIndex).getD 0) itemIndex
            | none => t.indexByBalanceAndFloor
          origin := t.origin }
      else t
    some {
      pointDataVector := moved.pointDataVector.take (moved.pointDataVector.length - 1)
      indexedPointData := moved.indexedPointData.erase previousDataAtLocation
      nodeFloor := moved.nodeFloor.erase lastIndex
      lowerIndex := moved.lowerIndex.erase lastIndex
      upperIndex := moved.upperIndex.erase lastIndex
      parentIndex := moved.parentIndex.erase lastIndex
      boundaries := moved.boundaries
      balanceByIndex := moved.balanceByIndex.erase lastIndex
      indexByBalanceAndFloor :=
        indexErase moved.indexByBalanceAndFloor ((moved.balanceByIndex.find lastIndex).getD 0)
          ((moved.nodeFloor.find lastIndex).getD 0) lastIndex
      origin := moved.origin }
  | _, _ => none

/-- The state of `RemoveLeaf` just before its call of `MoveLastElementTo`, written
container by container: the link from the parent is cleared (`isLower` tells which one),
and the balance, priority, floor and parent entries of the leaf are erased.  The read
`nodeFloor[pointIndex]` may insert an entry that is erased right after. -/
def detachLeaf (t : KDTree) (pointIndex : SizeT) (isLower : Bool) : KDTree :=
  { pointDataVector := t.pointDataVector
    indexedPointData := t.indexedPointData
    nodeFloor := t.nodeFloor.erase pointIndex
    lowerIndex :=
      match t.parentIndex.find pointIndex with
      | some pp => if isLower then t.lowerIndex.erase pp else t.lowerIndex
      | none => t.lowerIndex
    upperIndex :=
      match t.parentIndex.find pointIndex with
      | some pp => if isLower then t.upperIndex else t.upperIndex.erase pp
      | none => t.upperIndex
    parentIndex := t.parentIndex.erase pointIndex
    boundaries := t.boundaries
    balanceByIndex :=
      match t.balanceByIndex.find pointIndex with
      | some _ => t.balanceByIndex.erase pointIndex
      | none => t.balanceByIndex
    indexByBalanceAndFloor :=
      match t.balanceByIndex.find pointIndex with
      | some b =>
        indexErase t.indexByBalanceAndFloor b ((t.nodeFloor.find pointIndex).getD 0) pointIndex
      | none => t.indexByBalanceAndFloor
    origin := t.origin }

/-- The function returns the parent handle and the reference parameter
`incrementNewLeafBalance`, whose incoming value is `incr`. -/
def RemoveLeaf (t : KDTree) (pointIndex : SizeT) (incr : Bool) :
    Option ((PointData × Bool) × KDTree) :=
  let isLower : Bool :=
    match t.parentIndex.find pointIndex with
    | some pp => decide (t.lowerIndex.find pp = some pointIndex)
    | none => incr
  let parent : Option PointData :=
    match t.parentIndex.find pointIndex with
    | some pp => vecAt t pp
    | none => some 0
  match parent with
  | none => none
  | some parentData =>
    match MoveLastElementTo (detachLeaf t pointIndex isLower) pointIndex with
    | some t4 => some ((parentData, isLower), t4)
    | none => none

section Coordinates

variable {α : Type} [DecidableEq α] [LT α] [∀ a b : α, Decidable (a < b)]
variable (Dimension : Nat) (Get : PointData → Nat → α)

/-- The overload `HasLowerCoordinate(UInt, SizeT, SizeT)`. -/
def HasLowerCoordinate (t : KDTree) (dim : UInt) (var1 var2 : SizeT) : Option Bool :=
  match vecAt t var1, vecAt t var2 with
  | some p1, some p2 => some (decide (Get p1 dim < Get p2 dim))
  | _, _ => none

/-- The overload `HasLowerCoordinate(UInt, PointData, SizeT)`. -/
def HasLowerCoordinateData (t : KDTree) (dim : UInt) (var1 : PointData) (var2 : SizeT) :
    Option (Bool × KDTree) :=
  let r := idxAt t var1
  match HasLowerCoordinate Get r.2 dim r.1 var2 with
  | some b => some (b, r.2)
  | none => none

/-- The overload `HasHigherCoordinate(UInt, SizeT, SizeT)`. -/
def HasHigherCoordinate (t : KDTree) (dim : UInt) (var1 var2 : SizeT) : Option Bool :=
  match HasLowerCoordinate Get t dim var1 var2 with
  | some b => some (!b)
  | none => none

/-- The overload `HasHigherCoordinate(UInt, PointData, SizeT)`. -/
def HasHigherCoordinateData (t : KDTree) (dim : UInt) (var1 : PointData) (var2 : SizeT) :
    Option (Bool × KDTree) :=
  let r := idxAt t var1
  match HasHigherCoordinate Get r.2 dim r.1 var2 with
  | some b => some (b, r.2)
  | none => none

def GetBestReplacementCandidate (t : KDTree) (index : SizeT) : Option (SizeT × KDTree) :=
  let rf := floorAt t index
  let dim := rf.1 % Dimension
  let rb := balanceAt rf.2 index
  if rb.1 < 0 then
    let rl := lowerAt rb.2 index
    let result := rl.1
    match vecAt rl.2 result with
    | none => none
    | some child =>
      match rl.2.boundaries.find child with
      | none => some (result, rl.2)
      | some arr =>
        match HasHigherCoordinateData Get rl.2 dim (arr.getD (dim * 2) 0) result with
        | none => none
        | some (true, t1) =>
          let ri := idxAt t1 (arr.getD (dim * 2) 0)
          some (ri.1, ri.2)
        | some (false, t1) => some (result, t1)
  else
    let ru := upperAt rb.2 index
    let result := ru.1
    match vecAt ru.2 result with
    | none => none
    | some child =>
      match ru.2.boundaries.find child with
      | none => some (result, ru.2)
      | some arr =>
        match HasLowerCoordinateData Get ru.2 dim (arr.getD (dim * 2) 0) result with
        | none => none
        | some (true, t1) =>
          let ri := idxAt t1 (arr.getD (dim * 2) 0)
          some (ri.1, ri.2)
        | some (false, t1) => some (result, t1)

end Coordinates

def SwapNodes (t : KDTree) (dst src : SizeT) : Option KDTree :=
  match vecAt t dst, vecAt t src with
  | some hd, some hs =>
    let t1 := if hd = t.origin then { t with origin := hs } else t
    let t2 := { t1 with boundaries := (t1.boundaries.erase hd).erase hs }
    let t3 := { t2 with pointDataVector := (t2.pointDataVector.set dst hs).set src hd }
    let ra := idxAt t3 hs
    let rb := idxAt ra.2 hd
    some { rb.2 with indexedPointData := (rb.2.indexedPointData.set hs rb.1).set hd ra.1 }
  | _, _ => none

section Coordinates

variable {α : Type} [DecidableEq α] [LT α] [∀ a b : α, Decidable (a < b)]
variable (Dimension : Nat) (Get : PointData → Nat → α)

/-- The condition `insertedPoint.Get(dim) < currentPoint.Get(dim) || (... == ... &&
balanceByIndex[indexedPointData[current]] > 0)` of the loop of `Insert`; the balance is
read, and its entry inserted when absent, only when the two coordinates are equal. -/
def goesLower (point : PointData) (t : KDTree) (current : PointData) (dim : UInt) :
    Bool × KDTree :=
  if Get point dim < Get current dim then (true, t)
  else if Get point dim = Get current dim then
    let ri := idxAt t current
    let rb := balanceAt ri.2 ri.1
    (decide (0 < rb.1), rb.2)
  else (false, t)

/-- One round of the `while (current != nullptr)` loop of `Insert`: the side is chosen,
`current` moves to the child on that side and the balance of the node just left is
updated.  It returns the new `current` and `upper`. -/
def InsertStep (point : PointData) (t : KDTree) (current : PointData) (dim : UInt) :
    Option ((PointData × Bool) × KDTree) :=
  let goLower := goesLower Get point t current dim
  let next := if goLower.1 then GetLower goLower.2 current else GetUpper goLower.2 current
  match next with
  | none => none
  | some (child, t1) => some ((child, !goLower.1), UpdateBalance t1 current (!goLower.1))

/-- The `while (current != nullptr)` loop of `Insert`; it returns the locals `parent`,
`upper` and `updateList`. -/
def InsertLoop (point : PointData) :
    Nat → KDTree → PointData → PointData → UInt → Bool → List PointData →
      Option ((PointData × Bool × List PointData) × KDTree)
  | 0, t, current, parent, _, upper, updateList =>
    if current = 0 then some ((parent, upper, updateList), t) else none
  | fuel + 1, t, current, parent, dim, upper, updateList =>
    if current = 0 then some ((parent, upper, updateList), t)
    else
      match InsertStep Get point t current dim with
      | none => none
      | some ((child, upper1), t1) =>
        InsertLoop point fuel t1 child current ((dim + 1) % Dimension) upper1
          (updateList ++ [current])

def Insert (fuel : Nat) (t : KDTree) (point : PointData) : Option KDTree :=
  if point ≠ 0 then
    match InsertLoop Dimension Get point fuel t t.origin 0 0 false [] with
    | none => none
    | some ((parent, upper, updateList), t1) =>
      let t2 := (InsertInternal t1 point).2
      let t3 := UpdateBoundariesList Dimension Get t2 updateList point
      if parent ≠ 0 then
        if upper then some (SetUpper t3 parent point) else some (SetLower t3 parent point)
      else
        let t4 := { t3 with origin := point }
        let ri := idxAt t4 point
        some { ri.2 with nodeFloor := ri.2.nodeFloor.set ri.1 0 }
  else some t

/-- The loop `while (!IsLeaf(current))` of `Erase`, with the `push_back` that follows it. -/
def SwapChainLoop : Nat → KDTree → SizeT → List SizeT → Option (List SizeT × KDTree)
  | 0, t, current, swapChain =>
    if IsLeaf t current then some (swapChain ++ [current], t) else none
  | fuel + 1, t, current, swapChain =>
    if IsLeaf t current then some (swapChain ++ [current], t)
    else
      match GetBestReplacementCandidate Dimension Get t current with
      | none => none
      | some (next, t1) => SwapChainLoop fuel t1 next (swapChain ++ [current])

/-- The `for` loop of `Erase` over consecutive pairs of the swap chain. -/
def SwapAlong : KDTree → List SizeT → Option KDTree
  | t, a :: b :: r =>
    match SwapNodes t a b with
    | some t1 => SwapAlong t1 (b :: r)
    | none => none
  | t, _ => some t

/-- The test `m.find(i) != m.end() && pointDataVector.at(m[i]) == current` of the
propagation loop, for `m` one of `lowerIndex`, `upperIndex`. -/
def childIs (t : KDTree) (m : Map SizeT SizeT) (i : SizeT) (current : PointData) : Option Bool :=
  match m.find i with
  | none => some false
  | some c =>
    match vecAt t c with
    | some h => some (decide (h = current))
    | none => none

/-- The loop `while (current != nullptr)` of `Erase`. -/
def PropagateLoop : Nat → KDTree → PointData → Option KDTree
  | 0, t, current => if current = 0 then some t else none
  | fuel + 1, t, current =>
    if current = 0 then some t
    else
      match GetParent t current with
      | none => none
      | some (parent, t1) =>
        let ri := idxAt t1 current
        match UpdateBoundaries Dimension Get ri.2 ri.1 with
        | none => none
        | some t2 =>
          if parent ≠ 0 then
            let rp := idxAt t2 parent
            match childIs rp.2 rp.2.lowerIndex rp.1 current with
            | none => none
            | some true => PropagateLoop fuel (UpdateBalance rp.2 parent true) parent
            | some false =>
              match childIs rp.2 rp.2.upperIndex rp.1 current with
              | none => none
              | some true => PropagateLoop fuel (UpdateBalance rp.2 parent false) parent
              | some false => PropagateLoop fuel rp.2 parent
          else PropagateLoop fuel t2 parent

def Erase (fuel : Nat) (t : KDTree) (point : PointData) : Option KDTree :=
  let found : Option ((PointData × Bool) × KDTree) :=
    match t.indexedPointData.find point with
    | some pointIndex =>
      match SwapChainLoop Dimension Get fuel t pointIndex [] with
      | none => none
      | some (swapChain, t1) =>
        match SwapAlong t1 swapChain with
        | none => none
        | some t2 => RemoveLeaf t2 (swapChain.getLastD 0) false
    | none => some ((0, false), t)
  match found with
  | none => none
  | some ((newLeaf, incrementNewLeafBalance), t3) =>
    if newLeaf ≠ 0 then
      PropagateLoop Dimension Get fuel (UpdateBalance t3 newLeaf incrementNewLeafBalance) newLeaf
    else some { t3 with origin := 0 }

/-- The candidate search of `RebalanceIteration` in one balance bucket: the least
position of the least floor, `none` when the dereferenced set is empty. -/
def firstOfBucket (bucket : Map UInt (List SizeT)) : Option SizeT :=
  match bucket.minKey with
  | none => none
  | some f => setMin ((bucket.find f).getD [])

/-- The candidate search of `RebalanceIteration` on a non-empty priority index, up to the
last assignment of `toRebalancePtr`, which stays null when no bucket qualifies. -/
def selectRebalance (t : KDTree) : Option (PointData × KDTree) :=
  match t.indexByBalanceAndFloor.minKey, t.indexByBalanceAndFloor.maxKey with
  | some lowest, some highest =>
    let lowBucket := (t.indexByBalanceAndFloor.find lowest).getD []
    let highBucket := (t.indexByBalanceAndFloor.find highest).getD []
    let low : Option (Option SizeT) :=
      if lowest < -1 ∧ 0 < lowBucket.length then (firstOfBucket lowBucket).map some else some none
    let high : Option (Option SizeT) :=
      if 1 < highest ∧ 0 < highBucket.length then (firstOfBucket highBucket).map some else some none
    match low, high with
    | some (some toRebalanceLow), some (some toRebalanceHigh) =>
      let rl := balanceAt t toRebalanceLow
      let rh := balanceAt rl.2 toRebalanceHigh
      if rh.1.natAbs < rl.1.natAbs then (vecAt rh.2 toRebalanceLow).map (fun h => (h, rh.2))
      else (vecAt rh.2 toRebalanceHigh).map (fun h => (h, rh.2))
    | some (some toRebalanceLow), some none => (vecAt t toRebalanceLow).map (fun h => (h, t))
    | some none, some (some toRebalanceHigh) => (vecAt t toRebalanceHigh).map (fun h => (h, t))
    | some none, some none => some (0, t)
    | _, _ => none
  | _, _ => none

def RebalanceIteration (fuel : Nat) (t : KDTree) : Option (Bool × KDTree) :=
  if 0 < t.indexByBalanceAndFloor.length then
    match selectRebalance t with
    | none => none
    | some (toRebalancePtr, t1) =>
      if toRebalancePtr ≠ 0 then
        match Erase Dimension Get fuel t1 toRebalancePtr with
        | none => none
        | some t2 =>
          match Insert Dimension Get fuel t2 toRebalancePtr with
          | none => none
          | some t3 => some (true, t3)
      else some (false, t1)
  else some (false, t)

end Coordinates

end gbi

namespace gbi

/-- The set `index[b][f]` of the priority index, empty when a key is absent. -/
def bucket (ix : PriorityIndex) (b : Int) (f : UInt) : List SizeT :=
  (((ix.find b).getD []).find f).getD []

/-- A handle is live when the reverse map has an entry for it. -/
def live (t : KDTree) (g : PointData) : Bool :=
  (t.indexedPointData.find g).isSome

/-- A call of the public interface. -/
inductive Call where
  | insert (h : PointData)
  | erase (h : PointData)
deriving DecidableEq, Repr

section Coordinates

variable {α : Type} [DecidableEq α] [LT α] [∀ a b : α, Decidable (a < b)]
variable (Dimension : Nat) (Get : PointData → Nat → α)

/-- A sequence of public calls run from left to right. -/
def runCalls (fuel : Nat) : KDTree → List Call → Option KDTree
  | t, [] => some t
  | t, Call.insert h :: r =>
    match Insert Dimension Get fuel t h with
    | some t1 => runCalls fuel t1 r
    | none => none
  | t, Call.erase h :: r =>
    match Erase Dimension Get fuel t h with
    | some t1 => runCalls fuel t1 r
    | none => none

end Coordinates

/-- One-dimensional points whose coordinate is the value of the handle. -/
def lineGet : PointData → Nat → Nat := fun h _ => h

end gbi

namespace gbi

/-- The priority index is in sync with `balanceByIndex`: a position has the balance `b`
exactly when it is a member of a bucket filed under the balance key `b`. -/
def IndexInSync (t : KDTree) : Prop :=
  ∀ p b, t.balanceByIndex.find p = some b ↔ ∃ f, p ∈ bucket t.indexByBalanceAndFloor b f

/-- No bucket of the priority index is empty: every balance key has at least one floor
and every floor has at least one position. -/
def NoEmptyBucket (ix : PriorityIndex) : Prop :=
  ∀ b inner, ix.find b = some inner →
    inner ≠ [] ∧ ∀ f s, inner.find f = some s → s ≠ []

end gbi

namespace gbi

/-- The vector and the reverse map are mutually inverse and no null handle is stored. -/
structure StoreOK (t : KDTree) : Prop where
  nonnull : 0 ∉ t.pointDataVector
  idx_vec : ∀ h i : Nat, t.indexedPointData.find h = some i ↔ t.pointDataVector[i]? = some h

/-- The parent and child links mirror each other, a parent sits at a smaller position than
its child, and no position is both the lower and the upper child of its parent. -/
structure TopoOK (t : KDTree) : Prop where
  parent_lt : ∀ c p : Nat, t.parentIndex.find c = some p → p < c ∧ c < t.pointDataVector.length
  parent_child : ∀ c p : Nat, t.parentIndex.find c = some p →
    t.lowerIndex.find p = some c ∨ t.upperIndex.find p = some c
  lower_parent : ∀ p c : Nat, t.lowerIndex.find p = some c → t.parentIndex.find c = some p
  upper_parent : ∀ p c : Nat, t.upperIndex.find p = some c → t.parentIndex.find c = some p
  lower_ne_upper : ∀ p c : Nat, t.lowerIndex.find p = some c → t.upperIndex.find p ≠ some c

/-- The part of the invariant of insert-built trees that does not speak of balances:
consistent store and links, a floor for every position, boundary slots that hold live
handles stored further down the vector than the owner, boundary entries for live handles
only, and the root handle in slot `0`. -/
structure BaseInv (Dimension : Nat) (t : KDTree) : Prop where
  store : StoreOK t
  topo : TopoOK t
  floor_some : ∀ p : Nat, p < t.pointDataVector.length → ∃ f : Nat, t.nodeFloor.find p = some f
  bnd : ∀ (q g : Nat) (arr : List Nat), t.pointDataVector[q]? = some g →
    t.boundaries.find g = some arr →
    arr.length = 2 * Dimension ∧
      ∀ j : Nat, j < 2 * Dimension → ∃ r : Nat, t.indexedPointData.find (arr.getD j 0) = some r ∧ q < r
  bnd_live : ∀ (g : Nat) (arr : List Nat), t.boundaries.find g = some arr →
    ∃ q : Nat, t.pointDataVector[q]? = some g
  origin_head : t.origin = t.pointDataVector.headD 0

/-- The balance of position `p` agrees with its children: a leaf has no balance entry, a
position with an upper child only has a positive balance, a position with a lower child
only has a negative one. -/
def BalAt (t : KDTree) (p : Nat) : Prop :=
  (IsLeaf t p = false →
    ∃ b : Int, t.balanceByIndex.find p = some b ∧ (t.lowerIndex.find p = none → 1 ≤ b) ∧
      (t.upperIndex.find p = none → b ≤ -1)) ∧
  (IsLeaf t p = true → t.balanceByIndex.find p = none)

/-- The invariant of the trees built by `Insert` alone. -/
structure InsertInv (Dimension : Nat) (t : KDTree) : Prop where
  base : BaseInv Dimension t
  bal : ∀ p : Nat, BalAt t p

/-- The state with which the descent of `Insert` leaves its loop: either the tree is
empty, or the last visited handle `parent` lacks the child on the chosen side and its
balance already counts the point that is about to be attached there. -/
structure ExitOK (Dimension : Nat) (t : KDTree) (parent : Nat) (upper : Bool) : Prop where
  base : BaseInv Dimension t
  root_case : parent = 0 → t.pointDataVector = [] ∧ ∀ p : Nat, BalAt t p
  attach_case : parent ≠ 0 → ∃ pp : Nat, t.indexedPointData.find parent = some pp ∧
    (∀ p : Nat, p ≠ pp → BalAt t p) ∧
    (upper = true → t.upperIndex.find pp = none ∧
      ∃ b : Int, t.balanceByIndex.find pp = some b ∧ (t.lowerIndex.find pp = none → 1 ≤ b)) ∧
    (upper = false → t.lowerIndex.find pp = none ∧
      ∃ b : Int, t.balanceByIndex.find pp = some b ∧ (t.upperIndex.find pp = none → b ≤ -1))

/-- Every member but the balances and the priority index. -/
def frame (t : KDTree) :
    List PointData × Map PointData SizeT × Map SizeT UInt × Map SizeT SizeT × Map SizeT SizeT ×
      Map SizeT SizeT × Map PointData (List PointData) × PointData :=
  (t.pointDataVector, t.indexedPointData, t.nodeFloor, t.lowerIndex, t.upperIndex,
    t.parentIndex, t.boundaries, t.origin)

/-- The members that the upward walk of `Erase` leaves alone. -/
def core (t : KDTree) :
    List PointData × Map PointData SizeT × Map SizeT SizeT × Map SizeT SizeT × Map SizeT SizeT :=
  (t.pointDataVector, t.indexedPointData, t.parentIndex, t.lowerIndex, t.upperIndex)

/-- What the upward walk of `Erase` relies on: parent and child links point to valid
positions and the measure `mu` decreases from a child to its parent. -/
structure WalkOK (mu : Nat → Nat) (t : KDTree) : Prop where
  store : StoreOK t
  parent_ok : ∀ c p : Nat, t.parentIndex.find c = some p →
    p < t.pointDataVector.length ∧ mu p < mu c
  lower_ok : ∀ p c : Nat, t.lowerIndex.find p = some c → c < t.pointDataVector.length
  upper_ok : ∀ p c : Nat, t.upperIndex.find p = some c → c < t.pointDataVector.length

end gbi

namespace gbi

/-- The members that `SwapNodes` leaves alone. -/
def links (t : KDTree) :
    Map SizeT SizeT × Map SizeT SizeT × Map SizeT SizeT × Map SizeT UInt × Map SizeT Int ×
      PriorityIndex :=
  (t.parentIndex, t.lowerIndex, t.upperIndex, t.nodeFloor, t.balanceByIndex,
    t.indexByBalanceAndFloor)

end gbi

namespace gbi

/-- Every slot of a boundary array holds `point` or a handle with the property `P`. -/
def slotsOK (Dimension : Nat) (point : Nat) (P : Nat → Prop) (arr : List Nat) : Prop :=
  arr.length = 2 * Dimension ∧ ∀ j : Nat, j < 2 * Dimension → arr.getD j 0 = point ∨ P (arr.getD j 0)

/-- The boundary entry of `q` is present and all its slots are fine; other entries are
those of `B`. -/
def entryOK (Dimension : Nat) (point : Nat) (P : Nat → Prop) (B : Map PointData (List PointData)) (q : Nat)
    (b : Map PointData (List PointData)) : Prop :=
  (∀ g : Nat, g ≠ q → b.find g = B.find g) ∧
    ∃ arr, b.find q = some arr ∧ slotsOK Dimension point P arr

/-- Every entry of the boundary map `B` belongs to a handle stored in `t` and holds, in
each slot, `point` or a live handle stored further down the vector than the owner. -/
def bndGood (Dimension : Nat) (point : Nat) (t : KDTree) (B : Map PointData (List PointData)) :
    Prop :=
  ∀ (g : Nat) (arr : List Nat), B.find g = some arr →
    ∃ q : Nat, t.pointDataVector[q]? = some g ∧
      slotsOK Dimension point (fun s => ∃ r : Nat, t.indexedPointData.find s = some r ∧ q < r) arr

end gbi

namespace gbi

/-- The child of position `p` on one side: the upper child when `up`, else the lower. -/
def childOn (t : KDTree) (p : SizeT) (up : Bool) : Option SizeT :=
  if up then t.upperIndex.find p else t.lowerIndex.find p

/-- The positions met by following `parentIndex` upwards from `q`, nearest first, in at
most `fuel` steps. -/
def ancestors (t : KDTree) : Nat → SizeT → List SizeT
  | 0, _ => []
  | fuel + 1, q =>
    match t.parentIndex.find q with
    | some p => p :: ancestors t fuel p
    | none => []

/-- Position `q` is a strict descendant of position `p`: `p` is met on the way up from
`q`.  The vector length bounds the number of steps. -/
def strictDescendant (t : KDTree) (p q : SizeT) : Prop :=
  p ∈ ancestors t t.pointDataVector.length q

/-- Position `q` lies in the subtree rooted at position `c`. -/
def inSubtree (t : KDTree) (c q : SizeT) : Prop :=
  q = c ∨ strictDescendant t c q

/-- The balance key `b` heads the negative side of the priority index: it is a key below
`-1` and no key is smaller. -/
def mostNegative (ix : PriorityIndex) (b : Int) : Prop :=
  b < -1 ∧ (ix.find b).isSome ∧ ∀ b' : Int, (ix.find b').isSome → b ≤ b'

/-- The balance key `b` heads the positive side of the priority index: it is a key above
`1` and no key is greater. -/
def mostPositive (ix : PriorityIndex) (b : Int) : Prop :=
  1 < b ∧ (ix.find b).isSome ∧ ∀ b' : Int, (ix.find b').isSome → b' ≤ b

/-- Position `p` is the candidate of the bucket of the balance key `b`: the smallest
position at the smallest floor filed under `b`. -/
def isCandidate (ix : PriorityIndex) (b : Int) (p : SizeT) : Prop :=
  ∃ f : UInt, p ∈ bucket ix b f ∧ (∀ q ∈ bucket ix b f, p ≤ q) ∧
    ∀ f' : UInt, bucket ix b f' ≠ [] → f ≤ f'

/-- The selection rule as the specification words it: the candidate of the only side that
qualifies, and with both sides qualifying the negative candidate exactly when its absolute
balance is strictly larger than that of the positive candidate. -/
def specSelected (t : KDTree) (p : SizeT) : Prop :=
  (∃ bn : Int, mostNegative t.indexByBalanceAndFloor bn ∧
      (∀ bp : Int, ¬ mostPositive t.indexByBalanceAndFloor bp) ∧
      isCandidate t.indexByBalanceAndFloor bn p) ∨
  (∃ bp : Int, mostPositive t.indexByBalanceAndFloor bp ∧
      (∀ bn : Int, ¬ mostNegative t.indexByBalanceAndFloor bn) ∧
      isCandidate t.indexByBalanceAndFloor bp p) ∨
  (∃ (bn bp : Int) (pn pp : SizeT), mostNegative t.indexByBalanceAndFloor bn ∧
      mostPositive t.indexByBalanceAndFloor bp ∧
      isCandidate t.indexByBalanceAndFloor bn pn ∧ isCandidate t.indexByBalanceAndFloor bp pp ∧
      p = if ((t.balanceByIndex.find pp).getD 0).natAbs < ((t.balanceByIndex.find pn).getD 0).natAbs
        then pn else pp)

/-- The tree built by `Insert` of `1`, `2`, `3` on a line: a chain to the upper side. -/
def threeChainTree : KDTree :=
  ⟨[1, 2, 3], [(1, 0), (2, 1), (3, 2)], [(0, 0), (1, 1), (2, 2)], [], [(0, 1), (1, 2)],
    [(1, 0), (2, 1)], [(1, [2, 3]), (2, [3, 3])], [(0, 2), (1, 1)],
    [(1, [(1, [1])]), (2, [(0, [0])])], 1⟩

section Coordinates

variable {α : Type} [DecidableEq α] [LT α] [∀ a b : α, Decidable (a < b)]
variable (Dimension : Nat) (Get : PointData → Nat → α)

/-- The side that the placement rule chooses for `point` at the node stored at position
`p` and reached at depth `depth`: lower (`false`) exactly when the coordinate of `point` on
the axis `depth mod Dimension` is strictly less than that of the node, or equal to it while
the balance of the node (an absent entry counts as `0`) is greater than `0`; upper (`true`)
otherwise. -/
def specSide (point : PointData) (t : KDTree) (p : SizeT) (depth : Nat) : Bool :=
  !decide (Get point (depth % Dimension) < Get (t.pointDataVector.getD p 0) (depth % Dimension) ∨
    (Get point (depth % Dimension) = Get (t.pointDataVector.getD p 0) (depth % Dimension) ∧
      0 < (t.balanceByIndex.find p).getD 0))

/-- The walk of the placement rule from position `p` at depth `depth`, read off the state
`t` before the insertion: the visited positions with the side taken at each; the walk stops
at the first absent child.  At most `fuel` nodes are visited. -/
def specDescent (point : PointData) (t : KDTree) : Nat → SizeT → Nat → List (SizeT × Bool)
  | 0, _, _ => []
  | fuel + 1, p, depth =>
    match childOn t p (specSide Dimension Get point t p depth) with
    | some c => (p, specSide Dimension Get point t p depth) :: specDescent point t fuel c (depth + 1)
    | none => [(p, specSide Dimension Get point t p depth)]

/-- The walk of the placement rule from `origin`; no node is visited on the empty tree. -/
def specWalk (point : PointData) (t : KDTree) (fuel : Nat) : List (SizeT × Bool) :=
  if t.origin = 0 then []
  else specDescent Dimension Get point t fuel ((t.indexedPointData.find t.origin).getD 0) 0

end Coordinates

/-- The balance entry that the balance rule prescribes after the insertion: the old
balance, an absent entry counting as `0`, plus one for a node left through its upper side
(`some true`), minus one for a node left through its lower side (`some false`), and the old
entry as it is for a position that was not visited (`none`). -/
def bumped (b : Option Int) (side : Option Bool) : Option Int :=
  match side with
  | some up => some (b.getD 0 + (if up then 1 else -1))
  | none => b

section Coordinates

variable {α : Type} [DecidableEq α] [LT α] [∀ a b : α, Decidable (a < b)]
variable (Dimension : Nat) (Get : PointData → Nat → α)

/-- The state `t'` is the state `t` with `point` attached as a new leaf at the end of the
walk `path`: under the last visited position `pl`, on the side `up`. -/
structure Attached (point : Nat) (t t' : KDTree) (path : List (Nat × Bool)) (pl : Nat)
    (up : Bool) : Prop where
  last : path.getLast? = some (pl, up)
  absent : childOn t pl up = none
  range : ∀ e ∈ path, e.1 < t.pointDataVector.length
  vec : t'.pointDataVector = t.pointDataVector ++ [point]
  idx : t'.indexedPointData = t.indexedPointData.set point t.pointDataVector.length
  lower : t'.lowerIndex =
    if up then t.lowerIndex else t.lowerIndex.set pl t.pointDataVector.length
  upper : t'.upperIndex =
    if up then t.upperIndex.set pl t.pointDataVector.length else t.upperIndex
  parent : t'.parentIndex = t.parentIndex.set t.pointDataVector.length pl
  floor : ∃ f : Nat, t.nodeFloor.find pl = some f ∧
    t'.nodeFloor = t.nodeFloor.set t.pointDataVector.length (f + 1)
  bnd : t'.boundaries =
    (path.map (fun e => t.pointDataVector.getD e.1 0)).foldl
      (UpdateBoundariesStep Dimension Get point) t.boundaries
  bal : ∀ k : Nat, t'.balanceByIndex.find k = bumped (t.balanceByIndex.find k) (path.lookup k)
  origin : t'.origin = t.origin

/-- The state `t'` is the empty-vector state `t` with `point` stored as the root. -/
structure Rooted (point : Nat) (t t' : KDTree) : Prop where
  vec : t'.pointDataVector = [point]
  idx : t'.indexedPointData = t.indexedPointData.set point 0
  lower : t'.lowerIndex = t.lowerIndex
  upper : t'.upperIndex = t.upperIndex
  parent : t'.parentIndex = t.parentIndex
  floor : t'.nodeFloor = t.nodeFloor.set 0 0
  bnd : t'.boundaries = t.boundaries
  bal : t'.balanceByIndex = t.balanceByIndex
  origin : t'.origin = point

end Coordinates

/-- Floors count the depth: the root position `0` has floor `0`, a position with a parent
entry has the floor of its parent plus one, and every position but `0` has a parent
entry. -/
structure FloorInv (t : KDTree) : Prop where
  root : t.pointDataVector ≠ [] → t.nodeFloor.find 0 = some 0
  child : ∀ c p : Nat, t.parentIndex.find c = some p →
    ∃ f : Nat, t.nodeFloor.find p = some f ∧ t.nodeFloor.find c = some (f + 1)
  has_parent : ∀ c : Nat, 0 < c → c < t.pointDataVector.length →
    ∃ p : Nat, t.parentIndex.find c = some p

section Ordered

variable {α : Type} [LinearOrder α]
variable (Dimension : Nat) (Get : PointData → Nat → α)

/-- The KD ordering: for every position `p` with axis `nodeFloor[p] mod Dimension`, every
point in the subtree of the lower child of `p` has a coordinate on that axis less than or
equal to that of the point of `p`, and every point in the subtree of the upper child has a
coordinate greater than or equal to it. -/
def KDOrdered (t : KDTree) : Prop :=
  ∀ (p c q f gp gq : Nat), t.nodeFloor.find p = some f → t.pointDataVector[p]? = some gp →
    t.pointDataVector[q]? = some gq → inSubtree t c q →
    (t.lowerIndex.find p = some c → Get gq (f % Dimension) ≤ Get gp (f % Dimension)) ∧
    (t.upperIndex.find p = some c → Get gp (f % Dimension) ≤ Get gq (f % Dimension))

end Ordered

section Ordered

variable {α : Type} [LinearOrder α]
variable (Dimension : Nat) (Get : PointData → Nat → α)

/-- The handle `s` is stored at a strict descendant of position `p` and its coordinate on
axis `i` is the minimum over all strict descendants of `p`. -/
def minSlot (t : KDTree) (p : SizeT) (i : Nat) (s : PointData) : Prop :=
  (∃ r : SizeT, t.indexedPointData.find s = some r ∧ strictDescendant t p r) ∧
    ∀ (q : SizeT) (x : PointData), strictDescendant t p q → t.pointDataVector[q]? = some x →
      Get s i ≤ Get x i

/-- The handle `s` is stored at a strict descendant of position `p` and its coordinate on
axis `i` is the maximum over all strict descendants of `p`. -/
def maxSlot (t : KDTree) (p : SizeT) (i : Nat) (s : PointData) : Prop :=
  (∃ r : SizeT, t.indexedPointData.find s = some r ∧ strictDescendant t p r) ∧
    ∀ (q : SizeT) (x : PointData), strictDescendant t p q → t.pointDataVector[q]? = some x →
      Get x i ≤ Get s i

/-- Exact boundaries: a leaf has no boundary entry, and the entry of any other position
holds in slot `2i` a least and in slot `2i+1` a greatest strict descendant on axis `i`. -/
def BndExact (t : KDTree) : Prop :=
  ∀ (p g : Nat), t.pointDataVector[p]? = some g →
    (IsLeaf t p = true → t.boundaries.find g = none) ∧
    (IsLeaf t p = false → ∃ arr : List Nat, t.boundaries.find g = some arr ∧
      arr.length = 2 * Dimension ∧
      ∀ i : Nat, i < Dimension →
        minSlot Get t p i (arr.getD (2 * i) 0) ∧ maxSlot Get t p i (arr.getD (2 * i + 1) 0))

end Ordered

end gbi
namespace gbi

/-- The priority index is in sync with `balanceByIndex` and `nodeFloor`: a position is a
member of the bucket filed under the balance `b` and the floor `f` exactly when its balance
is `b` and its floor is `f`. -/
def IndexFaithful (t : KDTree) : Prop :=
  ∀ (p : SizeT) (b : Int) (f : UInt), p ∈ bucket t.indexByBalanceAndFloor b f ↔
    (t.balanceByIndex.find p = some b ∧ t.nodeFloor.find p = some f)

/-- Boundary slots point down the tree: a leaf has no boundary entry, and the entry of any
other position has `2 * Dimension` slots, each holding a live handle stored at a strict
descendant of the position. -/
def BndDesc (Dimension : Nat) (t : KDTree) : Prop :=
  ∀ (p g : Nat), t.pointDataVector[p]? = some g →
    (IsLeaf t p = true → t.boundaries.find g = none) ∧
    (IsLeaf t p = false → ∃ arr : List Nat, t.boundaries.find g = some arr ∧
      arr.length = 2 * Dimension ∧
      ∀ j : Nat, j < 2 * Dimension →
        ∃ r : Nat, t.indexedPointData.find (arr.getD j 0) = some r ∧ strictDescendant t p r)

/-- The height of the tree: the greatest floor of a position of the vector, `0` for the
empty tree. -/
def height (t : KDTree) : Nat :=
  ((List.range t.pointDataVector.length).map (fun p => (t.nodeFloor.find p).getD 0)).foldl max 0

instance instDecidableInSubtree (t : KDTree) (c q : SizeT) : Decidable (inSubtree t c q) :=
  inferInstanceAs (Decidable (q = c ∨ c ∈ ancestors t t.pointDataVector.length q))

/-- The number of points in the subtree rooted at position `c`. -/
def subtreeCount (t : KDTree) (c : SizeT) : Nat :=
  ((List.range t.pointDataVector.length).filter (fun q => decide (inSubtree t c q))).length

/-- The number of points in the upper (`up`) or lower subtree of position `p`, `0` when the
child on that side is absent. -/
def sideCount (t : KDTree) (p : SizeT) (up : Bool) : Nat :=
  match childOn t p up with
  | some c => subtreeCount t c
  | none => 0

/-- Balances are exact size skews: the balance of every position, an absent entry counting
as `0`, is the number of points in its upper subtree minus the number in its lower one. -/
def SizeSkew (t : KDTree) : Prop :=
  ∀ p : SizeT, (t.balanceByIndex.find p).getD 0 =
    (sideCount t p true : Int) - (sideCount t p false : Int)

/-- The renaming of positions by the compaction of `Erase`: the former last position of
the vector takes the place of the removed leaf `L`, every other position keeps its name. -/
def compacted (t : KDTree) (L : SizeT) (q : SizeT) : SizeT :=
  if q = t.pointDataVector.length - 1 then L else q

end gbi
namespace gbi

/-- A call of the public interface: `Insert`, `Erase` or `RebalanceIteration`. -/
inductive Op where
  | insert (h : PointData)
  | erase (h : PointData)
  | rebalance
deriving DecidableEq, Repr

section Coordinates

variable {α : Type} [DecidableEq α] [LT α] [∀ a b : α, Decidable (a < b)]
variable (Dimension : Nat) (Get : PointData → Nat → α)

/-- A sequence of public calls, `RebalanceIteration` among them, run from left to right;
the boolean that `RebalanceIteration` returns is dropped. -/
def runOps (fuel : Nat) : KDTree → List Op → Option KDTree
  | t, [] => some t
  | t, Op.insert h :: r =>
    match Insert Dimension Get fuel t h with
    | some t1 => runOps fuel t1 r
    | none => none
  | t, Op.erase h :: r =>
    match Erase Dimension Get fuel t h with
    | some t1 => runOps fuel t1 r
    | none => none
  | t, Op.rebalance :: r =>
    match RebalanceIteration Dimension Get fuel t with
    | some res => runOps fuel res.2 r
    | none => none

end Coordinates

/-- What every state reached by public calls satisfies, whatever else went wrong: no
bucket of the priority index is empty and the vector stores no null handle. -/
def Sound (t : KDTree) : Prop :=
  NoEmptyBucket t.indexByBalanceAndFloor ∧ 0 ∉ t.pointDataVector

/-- The state `s` has the priority index and the vector of the state `t`. -/
def Keeps (t s : KDTree) : Prop :=
  s.indexByBalanceAndFloor = t.indexByBalanceAndFloor ∧ s.pointDataVector = t.pointDataVector

/-- The state reached by `Insert` of `3`, `1`, `2`, `4`, `5` and `Erase` of `1`, `2` on a
line: three stored handles, and a parent entry of position `2` that names position `3`. -/
def staleParentTree : KDTree :=
  ⟨[3, 4, 5], [(3, 0), (4, 1), (5, 2)], [(0, 0), (1, 1), (2, 2)], [], [(0, 1), (1, 2)],
    [(1, 0), (2, 3)], [(3, [4, 5]), (4, [5, 5])], [(0, 2), (1, 1)],
    [(1, [(0, [1])]), (2, [(0, [0])])], 3⟩

end gbi

namespace gbi

section Coordinates

variable {α : Type} [DecidableEq α] [LT α] [∀ a b : α, Decidable (a < b)]
variable (Dimension : Nat) (Get : PointData → Nat → α)

/-- C4: `Insert` of the null handle returns normally and leaves every component of the
tree as it was, whatever the tree and the fuel. -/
theorem C4_insert_null_noop (fuel : Nat) (t : KDTree) :
    Insert Dimension Get fuel t 0 = some t := by
  simp [Insert]

theorem insert_empty (fuel : Nat) (h : PointData) (hh : h ≠ 0) :
    Insert Dimension Get fuel KDTree.empty h
      = some ⟨[h], [(h, 0)], [(0, 0)], [], [], [], [], [], [], h⟩ := by
  cases fuel <;>
    simp [Insert, hh, InsertLoop, KDTree.empty, InsertInternal, UpdateBoundariesList, idxAt,
      Map.find, Map.set]

theorem erase_single (fuel : Nat) (h : PointData) :
    Erase Dimension Get fuel ⟨[h], [(h, 0)], [(0, 0)], [], [], [], [], [], [], h⟩ h
      = some KDTree.empty := by
  cases fuel <;>
    simp [Erase, SwapChainLoop, IsLeaf, SwapAlong, RemoveLeaf, detachLeaf, MoveLastElementTo, vecAt,
      Map.find, Map.erase, indexErase, setErase, KDTree.empty]

/-- C5: for a non-null handle `h`, `Insert(h)` on the freshly constructed tree followed by
`Erase(h)` returns the empty tree: every container is empty and `origin` is null. -/
theorem C5_insert_erase_roundtrip (fuel : Nat) (h : PointData) (hh : h ≠ 0) :
    (Insert Dimension Get fuel KDTree.empty h).bind (fun t => Erase Dimension Get fuel t h)
      = some KDTree.empty := by
  rw [insert_empty Dimension Get fuel h hh]
  exact erase_single Dimension Get fuel h

end Coordinates

/-- Witness for C5 with handle `7`, three dimensions and no fuel. -/
theorem C5_insert_erase_roundtrip_witness :
    (7 : PointData) ≠ 0 ∧
      (Insert 3 lineGet 0 KDTree.empty 7).bind (fun t => Erase 3 lineGet 0 t 7)
        = some KDTree.empty :=
  ⟨by decide, C5_insert_erase_roundtrip 3 lineGet 0 7 (by decide)⟩

/-- C3: after `Insert(1)` on the empty tree, `Erase(2)` of the handle `2`, which is not
live, returns a tree whose `origin` is null although handle `1` is still stored: the call
is not a no-op. -/
theorem C3_erase_absent_clears_origin :
    (Insert 1 lineGet 4 KDTree.empty 1).bind (fun t => some t.origin) = some 1 ∧
      ((Insert 1 lineGet 4 KDTree.empty 1).bind (fun t => Erase 1 lineGet 4 t 2)).bind
        (fun t => some (t.origin, t.pointDataVector)) = some (0, [1]) := by
  decide

/-- C1: the eleven calls below insert only handles that are not live and erase only live
handles; seven inserts and four erases leave three live handles, the vector holds three,
but `indexedPointData` holds four entries. -/
theorem C1_count_diverges :
    (runCalls 1 lineGet 8 KDTree.empty
        [Call.insert 5, Call.insert 7, Call.insert 2, Call.insert 6, Call.insert 3,
          Call.insert 4, Call.erase 6, Call.erase 7, Call.insert 6, Call.erase 4,
          Call.erase 2]).bind
      (fun t => some (t.pointDataVector, t.indexedPointData))
      = some ([5, 6, 3], [(3, 2), (4, 0), (5, 0), (6, 1)]) := by
  decide

/-- C6: after five inserts and two erases of live handles the vector holds three handles
but `parentIndex` maps position `2` to position `3`, which is not a valid position, and
`upperIndex[1] = 2` has no matching parent entry. -/
theorem C6_stale_parent_link :
    (runCalls 1 lineGet 8 KDTree.empty
        [Call.insert 3, Call.insert 1, Call.insert 2, Call.insert 4, Call.insert 5,
          Call.erase 1, Call.erase 2]).bind
      (fun t => some (t.pointDataVector.length, t.parentIndex.find 2, t.upperIndex.find 1))
      = some (3, some 3, some 2) := by
  decide

/-- C7: after four inserts and the erase of the root handle, position `0` has the lower
child `1` holding handle `1`, but its cached minimum and maximum on axis `0` are both
handle `4`, whose coordinate is above that of handle `1`. -/
theorem C7_boundary_misses_lower_child :
    (runCalls 1 lineGet 8 KDTree.empty
        [Call.insert 2, Call.insert 1, Call.insert 3, Call.insert 4, Call.erase 2]).bind
      (fun t => some (t.pointDataVector, t.lowerIndex.find 0, t.boundaries.find 3))
      = some ([3, 1, 4], some 1, some [4, 4]) ∧ lineGet 1 0 < lineGet 4 0 := by
  decide

/-- C8: after four inserts and two erases of live handles, position `1` has balance `0`
and floor `1` but is a member of the bucket of balance `1` and floor `0`. -/
theorem C8_index_out_of_sync :
    (runCalls 1 lineGet 8 KDTree.empty
        [Call.insert 2, Call.insert 1, Call.insert 3, Call.insert 4, Call.erase 1,
          Call.erase 2]).bind
      (fun t => some (t.balanceByIndex.find 1, t.nodeFloor.find 1,
        bucket t.indexByBalanceAndFloor 1 0))
      = some (some 0, some 1, [0, 1]) := by
  decide

end gbi

namespace gbi

namespace Map

variable {K V : Type} [DecidableEq K] [LT K] [∀ a b : K, Decidable (a < b)]

theorem find_set (m : Map K V) (k k' : K) (v : V) :
    (m.set k v).find k' = if k' = k then some v else m.find k' := by
  induction m with
  | nil => simp [set, find]
  | cons e r ih =>
    obtain ⟨k0, v0⟩ := e
    simp only [set]
    by_cases h1 : k = k0
    · subst h1
      by_cases h2 : k' = k <;> simp [find, h2]
    · simp only [h1, if_false]
      by_cases h3 : k < k0
      · by_cases h2 : k' = k <;> simp [find, h2, h3]
      · simp only [h3, if_false, find, ih]
        by_cases h2 : k' = k
        · subst h2; simp [h1]
        · simp [h2]

theorem find_erase (m : Map K V) (k k' : K) :
    (m.erase k).find k' = if k' = k then none else m.find k' := by
  induction m with
  | nil => simp [erase, find]
  | cons e r ih =>
    obtain ⟨k0, v0⟩ := e
    simp only [erase]
    by_cases h1 : k = k0
    · subst h1
      simp only [if_true, ih]
      by_cases h2 : k' = k <;> simp [find, h2]
    · simp only [h1, if_false, find, ih]
      by_cases h2 : k' = k
      · subst h2; simp [h1]
      · simp [h2]

theorem minKey_none (m : Map K V) : m.minKey = none ↔ m = [] := by
  cases m with
  | nil => simp [minKey]
  | cons e r =>
    obtain ⟨k0, v0⟩ := e
    simp only [minKey]
    cases h : minKey r with
    | none => simp
    | some x => by_cases h2 : x < k0 <;> simp [h2]

theorem maxKey_none (m : Map K V) : m.maxKey = none ↔ m = [] := by
  cases m with
  | nil => simp [maxKey]
  | cons e r =>
    obtain ⟨k0, v0⟩ := e
    simp only [maxKey]
    cases h : maxKey r with
    | none => simp
    | some x => by_cases h2 : k0 < x <;> simp [h2]

theorem find_isSome_of_minKey (m : Map K V) (k : K) (h : m.minKey = some k) :
    ∃ v, m.find k = some v := by
  induction m generalizing k with
  | nil => simp [minKey] at h
  | cons e r ih =>
    obtain ⟨k0, v0⟩ := e
    simp only [minKey] at h
    simp only [find]
    by_cases hk : k = k0
    · exact ⟨v0, by simp [hk]⟩
    · simp only [hk, if_false]
      cases hr : minKey r with
      | none => rw [hr] at h; simp at h; exact absurd h.symm hk
      | some x =>
        rw [hr] at h
        by_cases h2 : x < k0
        · simp [h2] at h; subst h; exact ih x hr
        · simp [h2] at h; exact absurd h.symm hk

theorem find_isSome_of_maxKey (m : Map K V) (k : K) (h : m.maxKey = some k) :
    ∃ v, m.find k = some v := by
  induction m generalizing k with
  | nil => simp [maxKey] at h
  | cons e r ih =>
    obtain ⟨k0, v0⟩ := e
    simp only [maxKey] at h
    simp only [find]
    by_cases hk : k = k0
    · exact ⟨v0, by simp [hk]⟩
    · simp only [hk, if_false]
      cases hr : maxKey r with
      | none => rw [hr] at h; simp at h; exact absurd h.symm hk
      | some x =>
        rw [hr] at h
        by_cases h2 : k0 < x
        · simp [h2] at h; subst h; exact ih x hr
        · simp [h2] at h; exact absurd h.symm hk

end Map

theorem minKey_le_of_find {V : Type} (m : Map Int V) (k : Int) (v : V) (h : m.find k = some v) :
    ∃ k0, m.minKey = some k0 ∧ k0 ≤ k := by
  induction m with
  | nil => simp [Map.find] at h
  | cons e r ih =>
    obtain ⟨k1, v1⟩ := e
    simp only [Map.minKey]
    simp only [Map.find] at h
    cases hr : Map.minKey r with
    | none =>
      have hnil : r = [] := (Map.minKey_none r).1 hr
      subst hnil
      by_cases hk : k = k1
      · exact ⟨k1, rfl, by omega⟩
      · simp [hk, Map.find] at h
    | some x =>
      by_cases hk : k = k1
      · by_cases h2 : x < k1
        · exact ⟨x, by simp [h2], by omega⟩
        · exact ⟨k1, by simp [h2], by omega⟩
      · simp only [hk, if_false] at h
        obtain ⟨k0, hk0, hle⟩ := ih h
        rw [hr] at hk0
        have hx : x = k0 := by simpa using hk0
        by_cases h2 : x < k1
        · exact ⟨x, by simp [h2], by omega⟩
        · exact ⟨k1, by simp [h2], by omega⟩

theorem le_maxKey_of_find {V : Type} (m : Map Int V) (k : Int) (v : V) (h : m.find k = some v) :
    ∃ k0, m.maxKey = some k0 ∧ k ≤ k0 := by
  induction m with
  | nil => simp [Map.find] at h
  | cons e r ih =>
    obtain ⟨k1, v1⟩ := e
    simp only [Map.maxKey]
    simp only [Map.find] at h
    cases hr : Map.maxKey r with
    | none =>
      have hnil : r = [] := (Map.maxKey_none r).1 hr
      subst hnil
      by_cases hk : k = k1
      · exact ⟨k1, rfl, by omega⟩
      · simp [hk, Map.find] at h
    | some x =>
      by_cases hk : k = k1
      · by_cases h2 : k1 < x
        · exact ⟨x, by simp [h2], by omega⟩
        · exact ⟨k1, by simp [h2], by omega⟩
      · simp only [hk, if_false] at h
        obtain ⟨k0, hk0, hle⟩ := ih h
        rw [hr] at hk0
        have hx : x = k0 := by simpa using hk0
        by_cases h2 : k1 < x
        · exact ⟨x, by simp [h2], by omega⟩
        · exact ⟨k1, by simp [h2], by omega⟩

theorem setMin_mem (s : List SizeT) (hs : s ≠ []) : ∃ x, setMin s = some x ∧ x ∈ s := by
  induction s with
  | nil => exact absurd rfl hs
  | cons q r ih =>
    simp only [setMin]
    cases hr : setMin r with
    | none => exact ⟨q, rfl, by simp⟩
    | some m =>
      have hrne : r ≠ [] := by
        intro h; subst h; simp [setMin] at hr
      obtain ⟨x, hx, hmem⟩ := ih hrne
      rw [hr] at hx
      have hxm : m = x := by simpa using hx
      by_cases h2 : m < q
      · exact ⟨m, by simp [h2], by simp [hxm, hmem]⟩
      · exact ⟨q, by simp [h2], by simp⟩

/-- In a balance bucket without empty parts the candidate search finds a member. -/
theorem firstOfBucket_mem (inner : Map UInt (List SizeT)) (hne : inner ≠ [])
    (hsets : ∀ f s, inner.find f = some s → s ≠ []) :
    ∃ f x, firstOfBucket inner = some x ∧ x ∈ (inner.find f).getD [] := by
  cases hm : inner.minKey with
  | none => exact absurd ((Map.minKey_none inner).1 hm) hne
  | some f =>
    obtain ⟨s, hs⟩ := Map.find_isSome_of_minKey inner f hm
    obtain ⟨x, hx, hmem⟩ := setMin_mem s (hsets f s hs)
    exact ⟨f, x, by simp [firstOfBucket, hm, hs, hx], by simp [hs, hmem]⟩

end gbi

namespace gbi

/-- A member of the first bucket of a balance key has that balance. -/
theorem balance_of_first (t : KDTree) (hsync : IndexInSync t)
    (hne : NoEmptyBucket t.indexByBalanceAndFloor) (b : Int) (inner : Map UInt (List SizeT))
    (hb : t.indexByBalanceAndFloor.find b = some inner) :
    ∃ x, firstOfBucket inner = some x ∧ t.balanceByIndex.find x = some b := by
  obtain ⟨hin, hsets⟩ := hne b inner hb
  obtain ⟨f, x, hx, hmem⟩ := firstOfBucket_mem inner hin hsets
  refine ⟨x, hx, (hsync x b).2 ⟨f, ?_⟩⟩
  simpa [bucket, hb] using hmem

theorem balanceAt_vec (t : KDTree) (a : SizeT) :
    (balanceAt t a).2.pointDataVector = t.pointDataVector := by
  unfold balanceAt
  split <;> rfl

theorem vecAt_ne_zero (t s : KDTree) (hnull : 0 ∉ t.pointDataVector)
    (hs : s.pointDataVector = t.pointDataVector) (i : SizeT) (h : PointData)
    (hv : vecAt s i = some h) : h ≠ 0 := by
  intro hz
  subst hz
  apply hnull
  rw [← hs]
  exact List.getElem?_mem hv

theorem select_balanced (t : KDTree) (hsync : IndexInSync t)
    (hne : NoEmptyBucket t.indexByBalanceAndFloor)
    (hbal : ∀ p b, t.balanceByIndex.find p = some b → b.natAbs ≤ 1)
    (hlen : 0 < t.indexByBalanceAndFloor.length) : selectRebalance t = some (0, t) := by
  unfold selectRebalance
  have hnil : t.indexByBalanceAndFloor ≠ [] := by
    intro h; rw [h] at hlen; simp at hlen
  cases hmin : t.indexByBalanceAndFloor.minKey with
  | none => exact absurd ((Map.minKey_none _).1 hmin) hnil
  | some lo =>
    cases hmax : t.indexByBalanceAndFloor.maxKey with
    | none => exact absurd ((Map.maxKey_none _).1 hmax) hnil
    | some hi =>
      obtain ⟨il, hil⟩ := Map.find_isSome_of_minKey _ lo hmin
      obtain ⟨ih, hih⟩ := Map.find_isSome_of_maxKey _ hi hmax
      obtain ⟨xl, -, hxl⟩ := balance_of_first t hsync hne lo il hil
      obtain ⟨xh, -, hxh⟩ := balance_of_first t hsync hne hi ih hih
      have h1 := hbal xl lo hxl
      have h2 := hbal xh hi hxh
      have hlo : ¬ lo < -1 := by omega
      have hhi : ¬ 1 < hi := by omega
      simp [hlo, hhi]

theorem select_unbalanced (t : KDTree) (hsync : IndexInSync t)
    (hne : NoEmptyBucket t.indexByBalanceAndFloor) (hnull : 0 ∉ t.pointDataVector)
    (p : SizeT) (b : Int) (hp : t.balanceByIndex.find p = some b) (hb : 1 < b.natAbs)
    (h : PointData) (s : KDTree) (hsel : selectRebalance t = some (h, s)) : h ≠ 0 := by
  obtain ⟨f, hpf⟩ := (hsync p b).1 hp
  have hfind : ∃ inner, t.indexByBalanceAndFloor.find b = some inner := by
    cases h : t.indexByBalanceAndFloor.find b with
    | none => simp [bucket, h, Map.find] at hpf
    | some inner => exact ⟨inner, rfl⟩
  obtain ⟨inner, hinner⟩ := hfind
  obtain ⟨lo, hmin, hlo⟩ := minKey_le_of_find _ b inner hinner
  obtain ⟨hi, hmax, hhi⟩ := le_maxKey_of_find _ b inner hinner
  obtain ⟨il, hil⟩ := Map.find_isSome_of_minKey _ lo hmin
  obtain ⟨ih, hih⟩ := Map.find_isSome_of_maxKey _ hi hmax
  obtain ⟨xl, hfl, -⟩ := balance_of_first t hsync hne lo il hil
  obtain ⟨xh, hfh, -⟩ := balance_of_first t hsync hne hi ih hih
  have hill : 0 < il.length := List.length_pos.2 (hne lo il hil).1
  have hihl : 0 < ih.length := List.length_pos.2 (hne hi ih hih).1
  have hvv : (balanceAt (balanceAt t xl).2 xh).2.pointDataVector = t.pointDataVector := by
    rw [balanceAt_vec, balanceAt_vec]
  unfold selectRebalance at hsel
  simp only [hmin, hmax, hil, hih, Option.getD_some, hill, hihl, and_true, hfl, hfh,
    Option.map_some'] at hsel
  by_cases h1 : lo < -1 <;> by_cases h2 : 1 < hi
  · simp only [h1, h2, if_true] at hsel
    split at hsel
    · cases hv : vecAt (balanceAt (balanceAt t xl).2 xh).2 xl with
      | none => rw [hv] at hsel; simp at hsel
      | some g =>
        rw [hv] at hsel
        simp at hsel
        rw [← hsel.1]
        exact vecAt_ne_zero t _ hnull hvv xl g hv
    · cases hv : vecAt (balanceAt (balanceAt t xl).2 xh).2 xh with
      | none => rw [hv] at hsel; simp at hsel
      | some g =>
        rw [hv] at hsel
        simp at hsel
        rw [← hsel.1]
        exact vecAt_ne_zero t _ hnull hvv xh g hv
  · simp only [h1, h2, if_true, if_false] at hsel
    cases hv : vecAt t xl with
    | none => rw [hv] at hsel; simp at hsel
    | some g =>
      rw [hv] at hsel
      simp at hsel
      rw [← hsel.1]
      exact vecAt_ne_zero t t hnull rfl xl g hv
  · simp only [h1, h2, if_true, if_false] at hsel
    cases hv : vecAt t xh with
    | none => rw [hv] at hsel; simp at hsel
    | some g =>
      rw [hv] at hsel
      simp at hsel
      rw [← hsel.1]
      exact vecAt_ne_zero t t hnull rfl xh g hv
  · omega

section Coordinates

variable {α : Type} [DecidableEq α] [LT α] [∀ a b : α, Decidable (a < b)]
variable (Dimension : Nat) (Get : PointData → Nat → α)

theorem rebalance_balanced (fuel : Nat) (t : KDTree) (hsync : IndexInSync t)
    (hne : NoEmptyBucket t.indexByBalanceAndFloor)
    (hbal : ∀ p b, t.balanceByIndex.find p = some b → b.natAbs ≤ 1) :
    RebalanceIteration Dimension Get fuel t = some (false, t) := by
  unfold RebalanceIteration
  by_cases hlen : 0 < t.indexByBalanceAndFloor.length
  · simp [hlen, select_balanced t hsync hne hbal hlen]
  · simp [hlen]

theorem rebalance_unbalanced (fuel : Nat) (t : KDTree) (hsync : IndexInSync t)
    (hne : NoEmptyBucket t.indexByBalanceAndFloor) (hnull : 0 ∉ t.pointDataVector)
    (p : SizeT) (b : Int) (hp : t.balanceByIndex.find p = some b) (hb : 1 < b.natAbs)
    (t' : KDTree) : RebalanceIteration Dimension Get fuel t ≠ some (false, t') := by
  have hlen : 0 < t.indexByBalanceAndFloor.length := by
    obtain ⟨f, hpf⟩ := (hsync p b).1 hp
    cases h : t.indexByBalanceAndFloor with
    | nil => rw [h] at hpf; simp [bucket, Map.find] at hpf
    | cons e r => simp
  unfold RebalanceIteration
  simp only [hlen, if_true]
  cases hsel : selectRebalance t with
  | none => simp
  | some r =>
    obtain ⟨h, s⟩ := r
    have hh := select_unbalanced t hsync hne hnull p b hp hb h s hsel
    simp only [hh, ne_eq, not_false_eq_true, if_true]
    cases hE : Erase Dimension Get fuel s h with
    | none => simp
    | some t2 =>
      cases hI : Insert Dimension Get fuel t2 h with
      | none => simp [hI]
      | some t3 => simp [hI]

/-- In a state whose priority index is in sync with `balanceByIndex`, has no empty bucket
and whose vector stores no null handle, `RebalanceIteration` returns `false` exactly when
no balance has absolute value above 1, and a call that returns `false` leaves the state as
it was. -/
theorem rebalance_false_iff_balanced (fuel : Nat) (t : KDTree) (hsync : IndexInSync t)
    (hne : NoEmptyBucket t.indexByBalanceAndFloor) (hnull : 0 ∉ t.pointDataVector) :
    ((∃ t', RebalanceIteration Dimension Get fuel t = some (false, t')) ↔
        ∀ p b, t.balanceByIndex.find p = some b → b.natAbs ≤ 1) ∧
      ∀ t', RebalanceIteration Dimension Get fuel t = some (false, t') → t' = t := by
  by_cases hbal : ∀ p b, t.balanceByIndex.find p = some b → b.natAbs ≤ 1
  · have hr := rebalance_balanced Dimension Get fuel t hsync hne hbal
    refine ⟨⟨fun _ => hbal, fun _ => ⟨t, hr⟩⟩, ?_⟩
    intro t' ht'
    rw [hr] at ht'
    simpa using ht'.symm
  · have hex : ∃ p b, t.balanceByIndex.find p = some b ∧ 1 < b.natAbs := by
      by_contra hcon
      apply hbal
      intro p b hp
      by_contra hlt
      exact hcon ⟨p, b, hp, by omega⟩
    obtain ⟨p, b, hp, hb⟩ := hex
    have hr := rebalance_unbalanced Dimension Get fuel t hsync hne hnull p b hp hb
    refine ⟨⟨fun ⟨t', ht'⟩ => absurd ht' (hr t'), fun h => absurd h hbal⟩, ?_⟩
    intro t' ht'
    exact absurd ht' (hr t')

end Coordinates

/-- The tree built by `Insert(1)`, `Insert(2)` on a line has its index in sync. -/
theorem twoPointTree_inSync :
    IndexInSync ⟨[1, 2], [(1, 0), (2, 1)], [(0, 0), (1, 1)], [], [(0, 1)], [(1, 0)],
      [(1, [2, 2])], [(0, 1)], [(1, [(0, [0])])], 1⟩ := by
  intro p b
  simp only [bucket, Map.find]
  constructor
  · intro h
    by_cases hp : p = 0
    · subst hp
      simp at h
      subst h
      exact ⟨0, by decide⟩
    · simp [hp] at h
  · rintro ⟨f, hf⟩
    by_cases hb1 : b = 1
    · subst hb1
      by_cases hf0 : f = 0
      · subst hf0
        simp [Map.find] at hf
        simp [hf]
      · simp [Map.find, hf0] at hf
    · simp [hb1, Map.find] at hf

end gbi
namespace gbi

theorem idxAt_hit (t : KDTree) (h : Nat) (i : Nat)
    (hf : t.indexedPointData.find h = some i) : idxAt t h = (i, t) := by
  simp [idxAt, hf]

theorem floorAt_hit (t : KDTree) (p : Nat) (f : Nat)
    (hf : t.nodeFloor.find p = some f) : floorAt t p = (f, t) := by
  simp [floorAt, hf]

theorem balanceAt_hit (t : KDTree) (p : Nat) (b : Int)
    (hf : t.balanceByIndex.find p = some b) : balanceAt t p = (b, t) := by
  simp [balanceAt, hf]

theorem lowerAt_hit (t : KDTree) (p c : Nat)
    (hf : t.lowerIndex.find p = some c) : lowerAt t p = (c, t) := by
  simp [lowerAt, hf]

theorem upperAt_hit (t : KDTree) (p c : Nat)
    (hf : t.upperIndex.find p = some c) : upperAt t p = (c, t) := by
  simp [upperAt, hf]

theorem core_floorAt (t : KDTree) (p : Nat) : core (floorAt t p).2 = core t := by
  unfold floorAt
  split <;> rfl

theorem core_balanceAt (t : KDTree) (p : Nat) : core (balanceAt t p).2 = core t := by
  unfold balanceAt
  split <;> rfl

theorem core_InternalRemoveBalancePriority (t : KDTree) (p : Nat) :
    core (InternalRemoveBalancePriority t p) = core t := by
  unfold InternalRemoveBalancePriority
  split
  · exact core_floorAt t p
  · rfl

/-- On a live handle `UpdateBalance` changes nothing but balances, floors and the index. -/
theorem core_UpdateBalance (t : KDTree) (g : Nat) (i : Nat) (incr : Bool)
    (hf : t.indexedPointData.find g = some i) : core (UpdateBalance t g incr) = core t := by
  unfold UpdateBalance
  rw [idxAt_hit t g i hf]
  simp only
  have h1 := core_InternalRemoveBalancePriority t i
  have h2 := core_balanceAt (InternalRemoveBalancePriority t i) i
  generalize InternalRemoveBalancePriority t i = t1 at *
  generalize hb : balanceAt t1 i = rb at *
  have h3 := core_floorAt
    { rb.2 with balanceByIndex := rb.2.balanceByIndex.set i (if incr then rb.1 + 1 else rb.1 - 1) } i
  unfold core at *
  simp only at h3
  rw [← h1, ← h2]
  exact h3

theorem StoreOK.inj {t : KDTree} (hs : StoreOK t) {i j : Nat} {h : Nat}
    (hi : t.pointDataVector[i]? = some h) (hj : t.pointDataVector[j]? = some h) : i = j := by
  have h1 := (hs.idx_vec h i).2 hi
  have h2 := (hs.idx_vec h j).2 hj
  rw [h1] at h2
  exact Option.some.inj h2

theorem StoreOK.lt_length {t : KDTree} (hs : StoreOK t) {i : Nat} {h : Nat}
    (hi : t.indexedPointData.find h = some i) : i < t.pointDataVector.length := by
  have h1 := (hs.idx_vec h i).1 hi
  exact (List.getElem?_eq_some.1 h1).1

theorem StoreOK.ne_zero {t : KDTree} (hs : StoreOK t) {i : Nat} {h : Nat}
    (hi : t.pointDataVector[i]? = some h) : h ≠ 0 := by
  intro hz
  subst hz
  exact hs.nonnull (List.getElem?_mem hi)

theorem InsertInv.store {D : Nat} {t : KDTree} (inv : InsertInv D t) : StoreOK t :=
  inv.base.store

theorem InsertInv.topo {D : Nat} {t : KDTree} (inv : InsertInv D t) : TopoOK t :=
  inv.base.topo

theorem InsertInv.floor_some {D : Nat} {t : KDTree} (inv : InsertInv D t) (p : Nat)
    (hp : p < t.pointDataVector.length) : ∃ f : Nat, t.nodeFloor.find p = some f :=
  inv.base.floor_some p hp

theorem InsertInv.bnd {D : Nat} {t : KDTree} (inv : InsertInv D t) (q g : Nat) (arr : List Nat)
    (hq : t.pointDataVector[q]? = some g) (hb : t.boundaries.find g = some arr) :
    arr.length = 2 * D ∧
      ∀ j : Nat, j < 2 * D → ∃ r : Nat, t.indexedPointData.find (arr.getD j 0) = some r ∧ q < r :=
  inv.base.bnd q g arr hq hb

theorem InsertInv.bal_nonleaf {D : Nat} {t : KDTree} (inv : InsertInv D t) (p : Nat)
    (hp : IsLeaf t p = false) :
    ∃ b : Int, t.balanceByIndex.find p = some b ∧ (t.lowerIndex.find p = none → 1 ≤ b) ∧
      (t.upperIndex.find p = none → b ≤ -1) :=
  (inv.bal p).1 hp

theorem vecAt_some_of_lt (t : KDTree) (i : Nat) (hi : i < t.pointDataVector.length) :
    ∃ h, vecAt t i = some h := by
  exact ⟨t.pointDataVector[i], by simp [vecAt, hi]⟩

end gbi
namespace gbi

theorem WalkOK.of_core {mu : Nat → Nat} {t s : KDTree} (hw : WalkOK mu t)
    (hc : core s = core t) : WalkOK mu s := by
  simp only [core, Prod.mk.injEq] at hc
  obtain ⟨h1, h2, h3, h4, h5⟩ := hc
  constructor
  · constructor
    · rw [h1]; exact hw.store.nonnull
    · rw [h1, h2]; exact hw.store.idx_vec
  · rw [h1, h3]; exact hw.parent_ok
  · rw [h1, h4]; exact hw.lower_ok
  · rw [h1, h5]; exact hw.upper_ok

section Coordinates

variable {α : Type} [DecidableEq α] [LT α] [∀ a b : α, Decidable (a < b)]
variable (Dimension : Nat) (Get : PointData → Nat → α)

/-- The per-position recompute returns and touches only `boundaries` when the position
and its children are valid. -/
theorem UpdateBoundaries_ok (t : KDTree) (i : Nat) (hi : i < t.pointDataVector.length)
    (hl : ∀ c, t.lowerIndex.find i = some c → c < t.pointDataVector.length)
    (hu : ∀ c, t.upperIndex.find i = some c → c < t.pointDataVector.length) :
    ∃ t', UpdateBoundaries Dimension Get t i = some t' ∧ core t' = core t := by
  unfold UpdateBoundaries
  obtain ⟨self, hself⟩ := vecAt_some_of_lt t i hi
  rw [hself]
  simp only
  cases hcl : t.lowerIndex.find i with
  | none =>
    cases hcu : t.upperIndex.find i with
    | none =>
      simp only
      split <;> exact ⟨_, rfl, rfl⟩
    | some cu =>
      obtain ⟨gu, hgu⟩ := vecAt_some_of_lt t cu (hu cu hcu)
      simp only [vecAt] at hgu
      simp only [vecAt, hgu]
      split <;> exact ⟨_, rfl, rfl⟩
  | some cl =>
    obtain ⟨gl, hgl⟩ := vecAt_some_of_lt t cl (hl cl hcl)
    simp only [vecAt] at hgl
    cases hcu : t.upperIndex.find i with
    | none =>
      simp only [vecAt, hgl]
      split <;> exact ⟨_, rfl, rfl⟩
    | some cu =>
      obtain ⟨gu, hgu⟩ := vecAt_some_of_lt t cu (hu cu hcu)
      simp only [vecAt] at hgu
      simp only [vecAt, hgl, hgu]
      split <;> exact ⟨_, rfl, rfl⟩

theorem PropagateLoop_null (fuel : Nat) (t : KDTree) :
    PropagateLoop Dimension Get fuel t 0 = some t := by
  cases fuel <;> simp [PropagateLoop]

theorem childIs_some (t : KDTree) (m : Map SizeT SizeT) (i : Nat) (current : Nat)
    (hm : ∀ c, m.find i = some c → c < t.pointDataVector.length) :
    ∃ b, childIs t m i current = some b := by
  unfold childIs
  cases hc : m.find i with
  | none => exact ⟨false, rfl⟩
  | some c =>
    obtain ⟨g, hg⟩ := vecAt_some_of_lt t c (hm c hc)
    simp only [hg]
    exact ⟨_, rfl⟩

/-- The upward walk of `Erase` returns and leaves the vector, the reverse map and the
topology alone, whenever the links are valid and a measure decreases towards the root. -/
theorem PropagateLoop_ok (mu : Nat → Nat) (fuel : Nat) :
    ∀ (t : KDTree) (current : Nat) (pc : Nat), WalkOK mu t →
      t.indexedPointData.find current = some pc → mu pc < fuel →
      ∃ t', PropagateLoop Dimension Get fuel t current = some t' ∧ core t' = core t := by
  induction fuel with
  | zero => intro t current pc _ _ h; omega
  | succ fuel ih =>
    intro t current pc hw hc hfuel
    have hpcv := (hw.store.idx_vec current pc).1 hc
    have hcur : current ≠ 0 := hw.store.ne_zero hpcv
    have hpclt : pc < t.pointDataVector.length := hw.store.lt_length hc
    unfold PropagateLoop
    simp only [hcur, if_false]
    unfold GetParent
    simp only [idxAt_hit t current pc hc]
    obtain ⟨t2, ht2, hcore2⟩ := UpdateBoundaries_ok Dimension Get t pc hpclt
      (fun c h => hw.lower_ok pc c h) (fun c h => hw.upper_ok pc c h)
    have hw2 : WalkOK mu t2 := hw.of_core hcore2
    cases hp : t.parentIndex.find pc with
    | none =>
      simp only [idxAt_hit t current pc hc, ht2, ne_eq, not_true_eq_false, if_false]
      exact ⟨t2, PropagateLoop_null Dimension Get fuel t2, hcore2⟩
    | some p =>
      obtain ⟨hplt, hmu⟩ := hw.parent_ok pc p hp
      obtain ⟨ph, hph⟩ := vecAt_some_of_lt t p hplt
      have hph0 : ph ≠ 0 := hw.store.ne_zero hph
      have hidx : t.indexedPointData.find ph = some p := (hw.store.idx_vec ph p).2 hph
      have hidx2 : t2.indexedPointData.find ph = some p := by
        have := hcore2
        simp only [core, Prod.mk.injEq] at this
        rw [this.2.1]; exact hidx
      simp only [hph, idxAt_hit t current pc hc, ht2, hph0, ne_eq, not_false_eq_true, if_true,
        idxAt_hit t2 ph p hidx2]
      obtain ⟨bl, hbl⟩ := childIs_some t2 t2.lowerIndex p current (fun c h => hw2.lower_ok p c h)
      obtain ⟨bu, hbu⟩ := childIs_some t2 t2.upperIndex p current (fun c h => hw2.upper_ok p c h)
      rw [hbl]
      cases bl with
      | true =>
        simp only
        have hc3 := core_UpdateBalance t2 ph p true hidx2
        have hw3 : WalkOK mu (UpdateBalance t2 ph true) := hw2.of_core hc3
        have hidx3 : (UpdateBalance t2 ph true).indexedPointData.find ph = some p := by
          have := hc3
          simp only [core, Prod.mk.injEq] at this
          rw [this.2.1]; exact hidx2
        obtain ⟨t', ht', hcore'⟩ := ih _ ph p hw3 hidx3 (by omega)
        exact ⟨t', ht', by rw [hcore', hc3, hcore2]⟩
      | false =>
        simp only
        rw [hbu]
        cases bu with
        | true =>
          simp only
          have hc3 := core_UpdateBalance t2 ph p false hidx2
          have hw3 : WalkOK mu (UpdateBalance t2 ph false) := hw2.of_core hc3
          have hidx3 : (UpdateBalance t2 ph false).indexedPointData.find ph = some p := by
            have := hc3
            simp only [core, Prod.mk.injEq] at this
            rw [this.2.1]; exact hidx2
          obtain ⟨t', ht', hcore'⟩ := ih _ ph p hw3 hidx3 (by omega)
          exact ⟨t', ht', by rw [hcore', hc3, hcore2]⟩
        | false =>
          simp only
          obtain ⟨t', ht', hcore'⟩ := ih t2 ph p hw2 hidx2 (by omega)
          exact ⟨t', ht', by rw [hcore', hcore2]⟩

end Coordinates

end gbi
namespace gbi

theorem swap_store (vec : List PointData) (idx : Map PointData SizeT) (a b : Nat)
    (x y : Nat) (hnn : 0 ∉ vec)
    (hiv : ∀ h i, idx.find h = some i ↔ vec[i]? = some h)
    (hx : vec[a]? = some x) (hy : vec[b]? = some y) :
    0 ∉ (vec.set a y).set b x ∧
      ∀ h i, ((idx.set y a).set x b).find h = some i ↔ ((vec.set a y).set b x)[i]? = some h := by
  have ha : a < vec.length := (List.getElem?_eq_some.1 hx).1
  have hb : b < vec.length := (List.getElem?_eq_some.1 hy).1
  have hx0 : x ≠ 0 := fun h => hnn (h ▸ List.getElem?_mem hx)
  have hy0 : y ≠ 0 := fun h => hnn (h ▸ List.getElem?_mem hy)
  constructor
  · intro h0
    rcases List.mem_or_eq_of_mem_set h0 with h1 | h1
    · rcases List.mem_or_eq_of_mem_set h1 with h2 | h2
      · exact hnn h2
      · exact hy0 h2.symm
    · exact hx0 h1.symm
  · intro h i
    rw [Map.find_set, Map.find_set, List.getElem?_set, List.getElem?_set]
    simp only [List.length_set, ha, hb, if_true]
    by_cases hib : b = i
    · subst hib
      simp only [if_true]
      by_cases hhx : h = x
      · simp [hhx]
      · simp only [hhx, if_false]
        have : some x = some h ↔ False := by
          constructor
          · intro e; exact hhx (Option.some.inj e).symm
          · exact False.elim
        rw [this]
        by_cases hhy : h = y
        · subst hhy
          simp only [if_true, iff_false]
          intro e
          have hab : a = b := Option.some.inj e
          subst hab
          rw [hx] at hy
          exact hhx (Option.some.inj hy).symm
        · simp only [hhy, if_false, iff_false]
          intro e
          have := (hiv h b).1 e
          rw [hy] at this
          exact hhy (Option.some.inj this).symm
    · simp only [hib, if_false]
      by_cases hia : a = i
      · subst hia
        simp only [if_true]
        by_cases hhx : h = x
        · subst hhx
          simp only [if_true]
          constructor
          · intro e; exact absurd (Option.some.inj e) hib
          · intro e
            have hyh : y = h := Option.some.inj e
            subst hyh
            have := (hiv y a).2 hx
            rw [(hiv y b).2 hy] at this
            exact absurd (Option.some.inj this) hib
        · simp only [hhx, if_false]
          by_cases hhy : h = y
          · simp [hhy]
          · simp only [hhy, if_false]
            constructor
            · intro e
              have := (hiv h a).1 e
              rw [hx] at this
              exact absurd (Option.some.inj this).symm hhx
            · intro e; exact absurd (Option.some.inj e).symm hhy
      · simp only [hia, if_false]
        by_cases hhx : h = x
        · subst hhx
          simp only [if_true]
          constructor
          · intro e; exact absurd (Option.some.inj e) hib
          · intro e
            have := (hiv h i).2 e
            rw [(hiv h a).2 hx] at this
            exact absurd (Option.some.inj this) hia
        · simp only [hhx, if_false]
          by_cases hhy : h = y
          · subst hhy
            simp only [if_true]
            constructor
            · intro e; exact absurd (Option.some.inj e) hia
            · intro e
              have := (hiv h i).2 e
              rw [(hiv h b).2 hy] at this
              exact absurd (Option.some.inj this) hib
          · simp only [hhy, if_false]
            exact hiv h i

/-- On valid positions `SwapNodes` returns, exchanges the two handles in the vector and in
the reverse map, and leaves the links alone. -/
theorem SwapNodes_ok (t : KDTree) (a b : Nat) (hs : StoreOK t)
    (ha : a < t.pointDataVector.length) (hb : b < t.pointDataVector.length) :
    ∃ t', SwapNodes t a b = some t' ∧ StoreOK t' ∧
      t'.pointDataVector.length = t.pointDataVector.length ∧ links t' = links t ∧
      t'.pointDataVector[b]? = t.pointDataVector[a]? ∧
      ∀ g, (t'.indexedPointData.find g).isSome = (t.indexedPointData.find g).isSome := by
  obtain ⟨x, hx⟩ := vecAt_some_of_lt t a ha
  obtain ⟨y, hy⟩ := vecAt_some_of_lt t b hb
  have hx' : t.pointDataVector[a]? = some x := hx
  have hy' : t.pointDataVector[b]? = some y := hy
  have hix : t.indexedPointData.find x = some a := (hs.idx_vec x a).2 hx'
  have hiy : t.indexedPointData.find y = some b := (hs.idx_vec y b).2 hy'
  obtain ⟨hnn, hiv⟩ := swap_store t.pointDataVector t.indexedPointData a b x y hs.nonnull
    hs.idx_vec hx' hy'
  have hlive : ∀ g, (((t.indexedPointData.set y a).set x b).find g).isSome
      = (t.indexedPointData.find g).isSome := by
    intro g
    rw [Map.find_set, Map.find_set]
    by_cases hgx : g = x
    · simp [hgx, hix]
    · by_cases hgy : g = y
      · subst hgy
        simp [hgx, hiy]
      · simp [hgx, hgy]
  have hget : ((t.pointDataVector.set a y).set b x)[b]? = t.pointDataVector[a]? := by
    rw [List.getElem?_set]
    simp [hb, hx']
  unfold SwapNodes
  simp only [hx, hy]
  split <;> simp only [idxAt, hix, hiy] <;>
    exact ⟨_, rfl, ⟨hnn, hiv⟩, by simp, rfl, hget, hlive⟩

end gbi
namespace gbi

/-- The pairwise swaps along a chain of valid positions return, keep the store
consistent, leave the links alone and carry the first handle to the last position. -/
theorem SwapAlong_ok (rest : List Nat) :
    ∀ (a : Nat) (t : KDTree), StoreOK t → a < t.pointDataVector.length →
      (∀ x ∈ rest, x < t.pointDataVector.length) →
      ∃ t', SwapAlong t (a :: rest) = some t' ∧ StoreOK t' ∧
        t'.pointDataVector.length = t.pointDataVector.length ∧ links t' = links t ∧
        t'.pointDataVector[rest.getLastD a]? = t.pointDataVector[a]? ∧
        ∀ g, (t'.indexedPointData.find g).isSome = (t.indexedPointData.find g).isSome := by
  induction rest with
  | nil =>
    intro a t hs _ _
    exact ⟨t, rfl, hs, rfl, rfl, rfl, fun _ => rfl⟩
  | cons b rest ih =>
    intro a t hs ha hall
    have hb : b < t.pointDataVector.length := hall b (by simp)
    obtain ⟨t1, h1, hs1, hl1, hk1, hg1, hv1⟩ := SwapNodes_ok t a b hs ha hb
    have hall1 : ∀ x ∈ rest, x < t1.pointDataVector.length := by
      intro x hx
      rw [hl1]
      exact hall x (by simp [hx])
    obtain ⟨t2, h2, hs2, hl2, hk2, hg2, hv2⟩ := ih b t1 hs1 (by rw [hl1]; exact hb) hall1
    refine ⟨t2, ?_, hs2, by rw [hl2, hl1], by rw [hk2, hk1], ?_, ?_⟩
    · simp only [SwapAlong, h1]
      exact h2
    · rw [List.getLastD_cons, hg2, hg1]
    · intro g
      rw [hv2, hv1]

end gbi
namespace gbi

section Coordinates

variable {α : Type} [DecidableEq α] [LT α] [∀ a b : α, Decidable (a < b)]
variable (Dimension : Nat) (Get : PointData → Nat → α)

theorem HasLowerCoordinateData_hit (t : KDTree) (dim : Nat) (g : Nat) (r c : Nat)
    (x : Nat) (hg : t.indexedPointData.find g = some r)
    (hr : t.pointDataVector[r]? = some g) (hc : t.pointDataVector[c]? = some x) :
    HasLowerCoordinateData Get t dim g c = some (decide (Get g dim < Get x dim), t) := by
  simp [HasLowerCoordinateData, idxAt_hit t g r hg, HasLowerCoordinate, vecAt, hr, hc]

theorem HasHigherCoordinateData_hit (t : KDTree) (dim : Nat) (g : Nat) (r c : Nat)
    (x : Nat) (hg : t.indexedPointData.find g = some r)
    (hr : t.pointDataVector[r]? = some g) (hc : t.pointDataVector[c]? = some x) :
    HasHigherCoordinateData Get t dim g c = some (!decide (Get g dim < Get x dim), t) := by
  simp [HasHigherCoordinateData, idxAt_hit t g r hg, HasHigherCoordinate, HasLowerCoordinate,
    vecAt, hr, hc]

/-- On a tree built by `Insert` the replacement candidate of a non-leaf position is a
valid position further down the vector, and the search leaves the tree as it is. -/
theorem GetBestReplacementCandidate_ok (hD : 0 < Dimension) (t : KDTree)
    (inv : InsertInv Dimension t) (p : Nat) (hp : p < t.pointDataVector.length)
    (hnl : IsLeaf t p = false) :
    ∃ c : Nat, GetBestReplacementCandidate Dimension Get t p = some (c, t) ∧ p < c ∧
      c < t.pointDataVector.length := by
  obtain ⟨f, hf⟩ := inv.floor_some p hp
  obtain ⟨b, hb, hb1, hb2⟩ := inv.bal_nonleaf p hnl
  have hdim : f % Dimension * 2 < 2 * Dimension := by
    have h : f % Dimension < Dimension := Nat.mod_lt f hD
    rw [Nat.mul_comm 2 Dimension]
    exact Nat.mul_lt_mul_of_pos_right h (by decide)
  -- the common tail: a child `l` of `p`
  have tail : ∀ l, t.parentIndex.find l = some p →
      ∀ cmp : KDTree → UInt → PointData → SizeT → Option (Bool × KDTree),
      (∀ (g : Nat) (r : Nat) (x : Nat), t.indexedPointData.find g = some r →
        t.pointDataVector[r]? = some g → t.pointDataVector[l]? = some x →
        ∃ bb, cmp t (f % Dimension) g l = some (bb, t)) →
      ∃ c : Nat, (match vecAt t l with
        | none => none
        | some child =>
          match t.boundaries.find child with
          | none => some (l, t)
          | some arr =>
            match cmp t (f % Dimension) (arr.getD (f % Dimension * 2) 0) l with
            | none => none
            | some (true, t1) =>
              let ri := idxAt t1 (arr.getD (f % Dimension * 2) 0)
              some (ri.1, ri.2)
            | some (false, t1) => some (l, t1)) = some (c, t) ∧ p < c ∧
        c < t.pointDataVector.length := by
    intro l hl cmp hcmp
    obtain ⟨hpl, hln⟩ := inv.topo.parent_lt l p hl
    obtain ⟨child, hchild⟩ := vecAt_some_of_lt t l hln
    have hchild' : t.pointDataVector[l]? = some child := hchild
    simp only [hchild]
    cases hbd : t.boundaries.find child with
    | none => exact ⟨l, rfl, hpl, hln⟩
    | some arr =>
      obtain ⟨_, hslots⟩ := inv.bnd l child arr hchild' hbd
      obtain ⟨r, hr, hlr⟩ := hslots _ hdim
      have hrv := (inv.store.idx_vec _ r).1 hr
      have hrn := inv.store.lt_length hr
      obtain ⟨bb, hbb⟩ := hcmp _ r child hr hrv hchild'
      simp only [hbb]
      cases bb with
      | true =>
        simp only [idxAt_hit t _ r hr]
        exact ⟨r, rfl, Nat.lt_trans hpl hlr, hrn⟩
      | false => exact ⟨l, rfl, hpl, hln⟩
  unfold GetBestReplacementCandidate
  simp only [floorAt_hit t p f hf, balanceAt_hit t p b hb]
  by_cases hneg : b < 0
  · simp only [hneg, if_true]
    cases hl : t.lowerIndex.find p with
    | none => have := hb1 hl; omega
    | some l =>
      simp only [lowerAt_hit t p l hl]
      exact tail l (inv.topo.lower_parent p l hl) (HasHigherCoordinateData Get)
        (fun g r x h1 h2 h3 => ⟨_, HasHigherCoordinateData_hit Get t _ g r l x h1 h2 h3⟩)
  · simp only [hneg, if_false]
    cases hu : t.upperIndex.find p with
    | none => have := hb2 hu; omega
    | some u =>
      simp only [upperAt_hit t p u hu]
      exact tail u (inv.topo.upper_parent p u hu) (HasLowerCoordinateData Get)
        (fun g r x h1 h2 h3 => ⟨_, HasLowerCoordinateData_hit Get t _ g r u x h1 h2 h3⟩)

end Coordinates

end gbi
namespace gbi

section Coordinates

variable {α : Type} [DecidableEq α] [LT α] [∀ a b : α, Decidable (a < b)]
variable (Dimension : Nat) (Get : PointData → Nat → α)

/-- On a tree built by `Insert` the swap-chain loop ends at a leaf within as many rounds
as there are positions behind the start, visits valid positions only and leaves the tree
as it is. -/
theorem SwapChainLoop_ok (hD : 0 < Dimension) (t : KDTree) (inv : InsertInv Dimension t)
    (fuel : Nat) :
    ∀ (current : Nat) (acc : List Nat), current < t.pointDataVector.length →
      t.pointDataVector.length ≤ fuel + current + 1 →
      ∃ rest : List Nat, SwapChainLoop Dimension Get fuel t current acc = some (acc ++ current :: rest, t) ∧
        (∀ x ∈ rest, x < t.pointDataVector.length) ∧
        IsLeaf t (rest.getLastD current) = true := by
  induction fuel with
  | zero =>
    intro current acc hc hf
    cases hl : IsLeaf t current with
    | true =>
      refine ⟨[], ?_, by simp, by simpa using hl⟩
      simp [SwapChainLoop, hl]
    | false =>
      obtain ⟨c, -, h1, h2⟩ := GetBestReplacementCandidate_ok Dimension Get hD t inv current hc hl
      omega
  | succ fuel ih =>
    intro current acc hc hf
    cases hl : IsLeaf t current with
    | true =>
      refine ⟨[], ?_, by simp, by simpa using hl⟩
      simp [SwapChainLoop, hl]
    | false =>
      obtain ⟨c, hg, h1, h2⟩ := GetBestReplacementCandidate_ok Dimension Get hD t inv current hc hl
      obtain ⟨rest, hr, hall, hleaf⟩ := ih c (acc ++ [current]) h2 (by omega)
      refine ⟨c :: rest, ?_, ?_, ?_⟩
      · simp only [SwapChainLoop, hl, hg]
        simpa using hr
      · intro x hx
        rcases List.mem_cons.1 hx with h | h
        · rw [h]; exact h2
        · exact hall x h
      · rw [List.getLastD_cons]
        exact hleaf

end Coordinates

end gbi
namespace gbi

theorem copyEntry_find {V : Type} (m : Map SizeT V) (item last k : Nat) :
    (copyEntry m item last).find k = if k = item then m.find last else m.find k := by
  unfold copyEntry
  cases h : m.find last with
  | none => simp only [Map.find_erase]
  | some v => simp only [Map.find_set]

theorem relinkLower_find (t : KDTree) (item last k : Nat) :
    (relinkLower t item last).find k =
      if t.parentIndex.find last = some k ∧ t.lowerIndex.find k = some last then some item
      else t.lowerIndex.find k := by
  unfold relinkLower
  cases hp : t.parentIndex.find last with
  | none => simp
  | some pl =>
    by_cases hl : t.lowerIndex.find pl = some last
    · simp only [hl, if_true, Map.find_set]
      by_cases hk : k = pl
      · subst hk; simp [hl]
      · have : ¬ (some pl = some k ∧ t.lowerIndex.find k = some last) := by
          rintro ⟨h1, -⟩
          exact hk (Option.some.inj h1).symm
        simp only [hk, if_false, this]
    · simp only [hl, if_false]
      have : ¬ (some pl = some k ∧ t.lowerIndex.find k = some last) := by
        rintro ⟨h1, h2⟩
        have := Option.some.inj h1
        subst this
        exact hl h2
      simp only [this, if_false]

theorem relinkUpper_find (t : KDTree) (item last k : Nat) :
    (relinkUpper t item last).find k =
      if t.parentIndex.find last = some k ∧ t.lowerIndex.find k ≠ some last ∧
          t.upperIndex.find k = some last then some item
      else t.upperIndex.find k := by
  unfold relinkUpper
  cases hp : t.parentIndex.find last with
  | none => simp
  | some pl =>
    by_cases hl : t.lowerIndex.find pl = some last
    · simp only [hl, if_true]
      have : ¬ (some pl = some k ∧ t.lowerIndex.find k ≠ some last ∧
          t.upperIndex.find k = some last) := by
        rintro ⟨h1, h2, -⟩
        have := Option.some.inj h1
        subst this
        exact h2 hl
      simp only [this, if_false]
    · simp only [hl, if_false]
      by_cases hu : t.upperIndex.find pl = some last
      · simp only [hu, if_true, Map.find_set]
        by_cases hk : k = pl
        · subst hk; simp [hl, hu]
        · have : ¬ (some pl = some k ∧ t.lowerIndex.find k ≠ some last ∧
              t.upperIndex.find k = some last) := by
            rintro ⟨h1, -⟩
            exact hk (Option.some.inj h1).symm
          simp only [hk, if_false, this]
      · simp only [hu, if_false]
        have : ¬ (some pl = some k ∧ t.lowerIndex.find k ≠ some last ∧
            t.upperIndex.find k = some last) := by
          rintro ⟨h1, -, h3⟩
          have := Option.some.inj h1
          subst this
          exact hu h3
        simp only [this, if_false]

/-- The vector and reverse map after `MoveLastElementTo`. -/
theorem move_store (vec : List Nat) (idx : Map PointData SizeT) (item : Nat) (x y : Nat)
    (hnn : 0 ∉ vec) (hiv : ∀ h i : Nat, idx.find h = some i ↔ vec[i]? = some h)
    (hx : vec[item]? = some x) (hy : vec[vec.length - 1]? = some y) :
    (item ≠ vec.length - 1 →
      0 ∉ (vec.set item y).take (vec.length - 1) ∧
      (∀ h i : Nat, ((idx.set y item).erase x).find h = some i ↔
        ((vec.set item y).take (vec.length - 1))[i]? = some h) ∧
      ∀ g : Nat, (((idx.set y item).erase x).find g).isSome
        = (decide (g ≠ x) && (idx.find g).isSome)) ∧
    (item = vec.length - 1 →
      0 ∉ vec.take (vec.length - 1) ∧
      (∀ h i : Nat, (idx.erase x).find h = some i ↔ (vec.take (vec.length - 1))[i]? = some h) ∧
      ∀ g : Nat, ((idx.erase x).find g).isSome = (decide (g ≠ x) && (idx.find g).isSome)) := by
  have hi : item < vec.length := (List.getElem?_eq_some.1 hx).1
  have hinj : ∀ (i j h : Nat), vec[i]? = some h → vec[j]? = some h → i = j := by
    intro i j h h1 h2
    have e1 := (hiv h i).2 h1
    rw [(hiv h j).2 h2] at e1
    exact (Option.some.inj e1).symm
  constructor
  · intro hne
    have hxy : x ≠ y := by
      intro e; subst e
      exact hne (hinj _ _ _ hx hy)
    refine ⟨?_, ?_, ?_⟩
    · intro h0
      have h1 := List.mem_of_mem_take h0
      rcases List.mem_or_eq_of_mem_set h1 with h2 | h2
      · exact hnn h2
      · exact hnn (h2 ▸ List.getElem?_mem hy)
    · intro h i
      rw [Map.find_erase, Map.find_set, List.getElem?_take, List.getElem?_set]
      simp only [hi, if_true]
      by_cases hhx : h = x
      · subst hhx
        simp only [if_true]
        constructor
        · intro e; cases e
        · intro e
          exfalso
          by_cases hlt : i < vec.length - 1
          · simp only [hlt, if_true] at e
            by_cases hii : item = i
            · simp only [hii, if_true] at e
              exact hxy (Option.some.inj e).symm
            · simp only [hii, if_false] at e
              exact hii (hinj _ _ _ hx e)
          · simp [hlt] at e
      · simp only [hhx, if_false]
        by_cases hhy : h = y
        · subst hhy
          simp only [if_true]
          constructor
          · intro e
            have := Option.some.inj e
            subst this
            have : item < vec.length - 1 := by omega
            simp [this]
          · intro e
            by_cases hlt : i < vec.length - 1
            · simp only [hlt, if_true] at e
              by_cases hii : item = i
              · rw [hii]
              · simp only [hii, if_false] at e
                have := hinj _ _ _ e hy
                omega
            · simp [hlt] at e
        · simp only [hhy, if_false]
          constructor
          · intro e
            have hv := (hiv h i).1 e
            have hil : i < vec.length := (List.getElem?_eq_some.1 hv).1
            have h1 : i ≠ vec.length - 1 := by
              intro e1; rw [e1, hy] at hv; exact hhy (Option.some.inj hv).symm
            have h2 : item ≠ i := by
              intro e1; rw [← e1, hx] at hv; exact hhx (Option.some.inj hv).symm
            have : i < vec.length - 1 := by omega
            simp [this, h2, hv]
          · intro e
            by_cases hlt : i < vec.length - 1
            · simp only [hlt, if_true] at e
              by_cases hii : item = i
              · simp only [hii, if_true] at e
                exact absurd (Option.some.inj e).symm hhy
              · simp only [hii, if_false] at e
                exact (hiv h i).2 e
            · simp [hlt] at e
    · intro g
      rw [Map.find_erase, Map.find_set]
      by_cases hgx : g = x
      · simp [hgx]
      · by_cases hgy : g = y
        · subst hgy
          simp [hgx, (hiv g _).2 hy]
        · simp [hgx, hgy]
  · intro heq
    refine ⟨?_, ?_, ?_⟩
    · intro h0
      exact hnn (List.mem_of_mem_take h0)
    · intro h i
      rw [Map.find_erase, List.getElem?_take]
      by_cases hhx : h = x
      · subst hhx
        simp only [if_true]
        constructor
        · intro e; cases e
        · intro e
          exfalso
          by_cases hlt : i < vec.length - 1
          · simp only [hlt, if_true] at e
            have := hinj _ _ _ hx e
            omega
          · simp [hlt] at e
      · simp only [hhx, if_false]
        constructor
        · intro e
          have hv := (hiv h i).1 e
          have hil : i < vec.length := (List.getElem?_eq_some.1 hv).1
          have h1 : i ≠ item := by
            intro e1; rw [e1, hx] at hv; exact hhx (Option.some.inj hv).symm
          have : i < vec.length - 1 := by omega
          simp [this, hv]
        · intro e
          by_cases hlt : i < vec.length - 1
          · simp only [hlt, if_true] at e
            exact (hiv h i).2 e
          · simp [hlt] at e
    · intro g
      rw [Map.find_erase]
      by_cases hgx : g = x
      · simp [hgx]
      · simp [hgx]

end gbi
namespace gbi

/-- After `RemoveLeaf` has detached the leaf `item`, `MoveLastElementTo` returns a tree
whose store is consistent, whose links point to valid positions and whose parent links
decrease the measure that reads the refilled slot as the old last position. -/
theorem MoveLastElementTo_ok (t : KDTree) (item x : Nat) (hs : StoreOK t)
    (hx : t.pointDataVector[item]? = some x)
    (M1 : ∀ c p : Nat, t.parentIndex.find c = some p →
      p < c ∧ c < t.pointDataVector.length ∧ c ≠ item ∧ p ≠ item)
    (M2 : ∀ p c : Nat, t.lowerIndex.find p = some c → t.parentIndex.find c = some p)
    (M3 : ∀ p c : Nat, t.upperIndex.find p = some c → t.parentIndex.find c = some p)
    (M4 : ∀ p c : Nat, t.lowerIndex.find p = some c → t.upperIndex.find p ≠ some c) :
    ∃ t', MoveLastElementTo t item = some t' ∧
      WalkOK (fun k => if k = item then t.pointDataVector.length - 1 else k) t' ∧
      t'.pointDataVector.length = t.pointDataVector.length - 1 ∧
      ∀ g : Nat, (t'.indexedPointData.find g).isSome
        = (decide (g ≠ x) && (t.indexedPointData.find g).isSome) := by
  have hi : item < t.pointDataVector.length := (List.getElem?_eq_some.1 hx).1
  obtain ⟨y, hy⟩ := vecAt_some_of_lt t (t.pointDataVector.length - 1) (by omega)
  have hy' : t.pointDataVector[t.pointDataVector.length - 1]? = some y := hy
  obtain ⟨hA, hB⟩ := move_store t.pointDataVector t.indexedPointData item x y hs.nonnull
    hs.idx_vec hx hy'
  have hxv : vecAt t item = some x := hx
  -- no entry of the child maps names the last position as a parent
  have hlastL : ∀ c : Nat, t.lowerIndex.find (t.pointDataVector.length - 1) ≠ some c := by
    intro c hc
    have := M1 c _ (M2 _ c hc)
    omega
  have hlastU : ∀ c : Nat, t.upperIndex.find (t.pointDataVector.length - 1) ≠ some c := by
    intro c hc
    have := M1 c _ (M3 _ c hc)
    omega
  unfold MoveLastElementTo
  simp only [hxv, hy]
  by_cases hil : item = t.pointDataVector.length - 1
  · obtain ⟨h1, h2, h3⟩ := hB hil
    simp only [hil, ne_eq, not_true_eq_false, if_false]
    refine ⟨_, rfl, ⟨⟨h1, h2⟩, ?_, ?_, ?_⟩, by simp, h3⟩
    · intro c p hc
      simp only [Map.find_erase] at hc
      by_cases hcl : c = t.pointDataVector.length - 1
      · simp [hcl] at hc
      · simp only [hcl, if_false] at hc
        obtain ⟨m1, m2, m3, m4⟩ := M1 c p hc
        simp only [List.length_take]
        have hp : ¬ p = t.pointDataVector.length - 1 := by omega
        simp only [hcl, hp, if_false]
        omega
    · intro p c hc
      simp only [Map.find_erase] at hc
      by_cases hpl : p = t.pointDataVector.length - 1
      · simp [hpl] at hc
      · simp only [hpl, if_false] at hc
        obtain ⟨m1, m2, m3, m4⟩ := M1 c p (M2 p c hc)
        simp only [List.length_take]
        omega
    · intro p c hc
      simp only [Map.find_erase] at hc
      by_cases hpl : p = t.pointDataVector.length - 1
      · simp [hpl] at hc
      · simp only [hpl, if_false] at hc
        obtain ⟨m1, m2, m3, m4⟩ := M1 c p (M3 p c hc)
        simp only [List.length_take]
        omega
  · obtain ⟨h1, h2, h3⟩ := hA hil
    simp only [hil, ne_eq, not_false_eq_true, if_true, List.length_set]
    refine ⟨_, rfl, ⟨⟨h1, h2⟩, ?_, ?_, ?_⟩, by simp, h3⟩
    · intro c p hc
      simp only [Map.find_erase, copyEntry_find] at hc
      simp only [List.length_take, List.length_set]
      by_cases hcl : c = t.pointDataVector.length - 1
      · simp [hcl] at hc
      · simp only [hcl, if_false] at hc
        by_cases hci : c = item
        · simp only [hci, if_true] at hc
          obtain ⟨m1, m2, m3, m4⟩ := M1 _ p hc
          simp only [hci, m4, if_true, if_false]
          omega
        · simp only [hci, if_false] at hc
          obtain ⟨m1, m2, m3, m4⟩ := M1 _ p hc
          simp only [hci, m4, if_false]
          omega
    · intro p c hc
      simp only [Map.find_erase, copyEntry_find, relinkLower_find] at hc
      simp only [List.length_take, List.length_set]
      by_cases hpl : p = t.pointDataVector.length - 1
      · simp [hpl] at hc
      · simp only [hpl, if_false] at hc
        by_cases hpi : p = item
        · simp only [hpi, if_true] at hc
          split at hc
          · next hcond =>
            have := M1 _ _ hcond.1
            omega
          · exact absurd hc (hlastL c)
        · simp only [hpi, if_false] at hc
          split at hc
          · have := Option.some.inj hc
            omega
          · next hcond =>
            obtain ⟨m1, m2, m3, m4⟩ := M1 c p (M2 p c hc)
            have : c ≠ t.pointDataVector.length - 1 := by
              intro e
              subst e
              exact hcond ⟨M2 p _ hc, hc⟩
            omega
    · intro p c hc
      simp only [Map.find_erase, copyEntry_find, relinkUpper_find] at hc
      simp only [List.length_take, List.length_set]
      by_cases hpl : p = t.pointDataVector.length - 1
      · simp [hpl] at hc
      · simp only [hpl, if_false] at hc
        by_cases hpi : p = item
        · simp only [hpi, if_true] at hc
          split at hc
          · next hcond =>
            have := M1 _ _ hcond.1
            omega
          · exact absurd hc (hlastU c)
        · simp only [hpi, if_false] at hc
          split at hc
          · have := Option.some.inj hc
            omega
          · next hcond =>
            obtain ⟨m1, m2, m3, m4⟩ := M1 c p (M3 p c hc)
            have : c ≠ t.pointDataVector.length - 1 := by
              intro e
              subst e
              apply hcond
              refine ⟨M3 p _ hc, ?_, hc⟩
              intro hl
              exact M4 p _ hl hc
            omega

end gbi
namespace gbi

theorem IsLeaf_true_iff (t : KDTree) (p : Nat) :
    IsLeaf t p = true ↔ t.lowerIndex.find p = none ∧ t.upperIndex.find p = none := by
  unfold IsLeaf
  cases t.lowerIndex.find p <;> cases t.upperIndex.find p <;> simp

theorem IsLeaf_false_iff (t : KDTree) (p : Nat) :
    IsLeaf t p = false ↔ t.lowerIndex.find p ≠ none ∨ t.upperIndex.find p ≠ none := by
  unfold IsLeaf
  cases t.lowerIndex.find p <;> cases t.upperIndex.find p <;> simp

/-- On a consistent tree `RemoveLeaf` of a leaf returns; the handle of the leaf is no
longer live, every other handle is, and the result is fit for the upward walk. -/
theorem RemoveLeaf_ok (s : KDTree) (ck x : Nat) (incr : Bool) (hs : StoreOK s) (ht : TopoOK s)
    (hx : s.pointDataVector[ck]? = some x) (hleaf : IsLeaf s ck = true) :
    ∃ (ph : Nat) (inc : Bool) (t' : KDTree), RemoveLeaf s ck incr = some ((ph, inc), t') ∧
      WalkOK (fun k => if k = ck then s.pointDataVector.length - 1 else k) t' ∧
      t'.pointDataVector.length = s.pointDataVector.length - 1 ∧
      (∀ g : Nat, (t'.indexedPointData.find g).isSome
        = (decide (g ≠ x) && (s.indexedPointData.find g).isSome)) ∧
      (ph = 0 ∨ ∃ pos : Nat, t'.indexedPointData.find ph = some pos) := by
  obtain ⟨hl0, hu0⟩ := (IsLeaf_true_iff s ck).1 hleaf
  have hnp : ∀ c : Nat, s.parentIndex.find c ≠ some ck := by
    intro c hc
    rcases ht.parent_child c ck hc with h | h
    · rw [hl0] at h; cases h
    · rw [hu0] at h; cases h
  have M1 : ∀ c p : Nat, (s.parentIndex.erase ck).find c = some p →
      p < c ∧ c < s.pointDataVector.length ∧ c ≠ ck ∧ p ≠ ck := by
    intro c p hc
    rw [Map.find_erase] at hc
    by_cases hck : c = ck
    · simp [hck] at hc
    · simp only [hck, if_false] at hc
      obtain ⟨h1, h2⟩ := ht.parent_lt c p hc
      refine ⟨h1, h2, hck, ?_⟩
      intro e
      subst e
      exact hnp c hc
  have hdv : ∀ b : Bool, (detachLeaf s ck b).pointDataVector = s.pointDataVector := fun _ => rfl
  have hdi : ∀ b : Bool, (detachLeaf s ck b).indexedPointData = s.indexedPointData := fun _ => rfl
  have hdp : ∀ b : Bool, (detachLeaf s ck b).parentIndex = s.parentIndex.erase ck := fun _ => rfl
  have hmove : ∀ b : Bool,
      (∀ p c : Nat, (detachLeaf s ck b).lowerIndex.find p = some c →
        s.lowerIndex.find p = some c ∧ c ≠ ck) →
      (∀ p c : Nat, (detachLeaf s ck b).upperIndex.find p = some c →
        s.upperIndex.find p = some c ∧ c ≠ ck) →
      ∃ t', MoveLastElementTo (detachLeaf s ck b) ck = some t' ∧
        WalkOK (fun k => if k = ck then s.pointDataVector.length - 1 else k) t' ∧
        t'.pointDataVector.length = s.pointDataVector.length - 1 ∧
        ∀ g : Nat, (t'.indexedPointData.find g).isSome
          = (decide (g ≠ x) && (s.indexedPointData.find g).isSome) := by
    intro b hL hU
    exact MoveLastElementTo_ok (detachLeaf s ck b) ck x ⟨hs.nonnull, hs.idx_vec⟩ hx M1
      (by
        intro p c hc
        obtain ⟨h1, h2⟩ := hL p c hc
        rw [hdp, Map.find_erase]
        simp only [h2, if_false]
        exact ht.lower_parent p c h1)
      (by
        intro p c hc
        obtain ⟨h1, h2⟩ := hU p c hc
        rw [hdp, Map.find_erase]
        simp only [h2, if_false]
        exact ht.upper_parent p c h1)
      (by
        intro p c hc hu
        exact ht.lower_ne_upper p c (hL p c hc).1 (hU p c hu).1)
  unfold RemoveLeaf
  cases hp : s.parentIndex.find ck with
  | none =>
    simp only
    obtain ⟨t', h1, h2, h3, h4⟩ := hmove incr
      (by
        intro p c hc
        simp only [detachLeaf, hp] at hc
        refine ⟨hc, ?_⟩
        intro e; subst e
        have := ht.lower_parent p _ hc
        rw [hp] at this; cases this)
      (by
        intro p c hc
        simp only [detachLeaf, hp] at hc
        refine ⟨hc, ?_⟩
        intro e; subst e
        have := ht.upper_parent p _ hc
        rw [hp] at this; cases this)
    exact ⟨0, incr, t', by rw [h1], h2, h3, h4, Or.inl rfl⟩
  | some pp =>
    obtain ⟨hpp1, hpp2⟩ := ht.parent_lt ck pp hp
    obtain ⟨ph, hph⟩ := vecAt_some_of_lt s pp (by omega)
    have hph' : s.pointDataVector[pp]? = some ph := hph
    simp only [hph]
    obtain ⟨t', h1, h2, h3, h4⟩ := hmove (decide (s.lowerIndex.find pp = some ck))
      (by
        intro p c hc
        simp only [detachLeaf, hp] at hc
        by_cases hlow : s.lowerIndex.find pp = some ck
        · simp only [hlow, decide_True, if_true, Map.find_erase] at hc
          by_cases hppp : p = pp
          · simp [hppp] at hc
          · simp only [hppp, if_false] at hc
            refine ⟨hc, ?_⟩
            intro e; subst e
            have hpc := ht.lower_parent p _ hc
            rw [hp] at hpc
            exact hppp (Option.some.inj hpc).symm
        · simp only [hlow, decide_False, Bool.false_eq_true, if_false] at hc
          refine ⟨hc, ?_⟩
          intro e; subst e
          have hpc := ht.lower_parent p _ hc
          rw [hp] at hpc
          have := Option.some.inj hpc
          subst this
          exact hlow hc)
      (by
        intro p c hc
        simp only [detachLeaf, hp] at hc
        by_cases hlow : s.lowerIndex.find pp = some ck
        · simp only [hlow, decide_True, if_true] at hc
          refine ⟨hc, ?_⟩
          intro e; subst e
          have hpc := ht.upper_parent p _ hc
          rw [hp] at hpc
          have := Option.some.inj hpc
          subst this
          exact ht.lower_ne_upper _ _ hlow hc
        · simp only [hlow, decide_False, Bool.false_eq_true, if_false, Map.find_erase] at hc
          by_cases hppp : p = pp
          · simp [hppp] at hc
          · simp only [hppp, if_false] at hc
            refine ⟨hc, ?_⟩
            intro e; subst e
            have hpc := ht.upper_parent p _ hc
            rw [hp] at hpc
            exact hppp (Option.some.inj hpc).symm)
    refine ⟨ph, _, t', by rw [h1], h2, h3, h4, Or.inr ?_⟩
    have hlive : (t'.indexedPointData.find ph).isSome = true := by
      rw [h4]
      have hne : ph ≠ x := by
        intro e
        subst e
        have := hs.inj hph' hx
        omega
      simp [hne, (hs.idx_vec ph pp).2 hph']
    exact Option.isSome_iff_exists.1 hlive

end gbi
namespace gbi

theorem TopoOK.of_links {t s : KDTree} (ht : TopoOK t) (hl : links s = links t)
    (hn : s.pointDataVector.length = t.pointDataVector.length) : TopoOK s := by
  simp only [links, Prod.mk.injEq] at hl
  obtain ⟨h1, h2, h3, -⟩ := hl
  constructor
  · rw [h1, hn]; exact ht.parent_lt
  · rw [h1, h2, h3]; exact ht.parent_child
  · rw [h1, h2]; exact ht.lower_parent
  · rw [h1, h3]; exact ht.upper_parent
  · rw [h2, h3]; exact ht.lower_ne_upper

theorem StoreOK.of_same_core {t s : KDTree} (hs : StoreOK t) (hc : core s = core t) : StoreOK s := by
  simp only [core, Prod.mk.injEq] at hc
  obtain ⟨h1, h2, -⟩ := hc
  constructor
  · rw [h1]; exact hs.nonnull
  · rw [h1, h2]; exact hs.idx_vec

section Coordinates

variable {α : Type} [DecidableEq α] [LT α] [∀ a b : α, Decidable (a < b)]
variable (Dimension : Nat) (Get : PointData → Nat → α)

/-- On a tree that satisfies the invariant of insert-built trees, `Erase` of a live handle
returns with as much fuel as the tree has points; the result stores one handle less, the
erased handle is no longer live, every other handle keeps its liveness, and the vector
and the reverse map are mutually inverse. -/
theorem Erase_ok (hD : 0 < Dimension) (t : KDTree) (inv : InsertInv Dimension t) (h i : Nat)
    (hlive : t.indexedPointData.find h = some i) (fuel : Nat)
    (hf : t.pointDataVector.length ≤ fuel) :
    ∃ t', Erase Dimension Get fuel t h = some t' ∧ StoreOK t' ∧
      t'.pointDataVector.length = t.pointDataVector.length - 1 ∧
      ∀ g : Nat, (t'.indexedPointData.find g).isSome
        = (decide (g ≠ h) && (t.indexedPointData.find g).isSome) := by
  have hi : i < t.pointDataVector.length := inv.store.lt_length hlive
  have hiv : t.pointDataVector[i]? = some h := (inv.store.idx_vec h i).1 hlive
  obtain ⟨rest, hchain, hall, hleaf⟩ :=
    SwapChainLoop_ok Dimension Get hD t inv fuel i [] hi (by omega)
  obtain ⟨t2, hsw, hs2, hl2, hk2, hg2, hv2⟩ := SwapAlong_ok rest i t inv.store hi hall
  have ht2 : TopoOK t2 := inv.topo.of_links hk2 hl2
  have hleaf2 : IsLeaf t2 (rest.getLastD i) = true := by
    have hk := hk2
    simp only [links, Prod.mk.injEq] at hk
    unfold IsLeaf at hleaf ⊢
    rw [hk.2.1, hk.2.2.1]
    exact hleaf
  obtain ⟨ph, inc, t4, hrl, hw4, hl4, hv4, hph⟩ :=
    RemoveLeaf_ok t2 (rest.getLastD i) h false hs2 ht2 (by rw [hg2]; exact hiv) hleaf2
  have hlive4 : ∀ g : Nat, (t4.indexedPointData.find g).isSome
      = (decide (g ≠ h) && (t.indexedPointData.find g).isSome) := by
    intro g
    rw [hv4, hv2]
  unfold Erase
  simp only [hlive, hchain, List.nil_append, hsw, List.getLastD_cons, hrl]
  by_cases hp0 : ph = 0
  · simp only [hp0, ne_eq, not_true_eq_false, if_false]
    exact ⟨_, rfl, ⟨hw4.store.nonnull, hw4.store.idx_vec⟩, by rw [← hl2]; exact hl4, hlive4⟩
  · simp only [hp0, ne_eq, not_false_eq_true, if_true]
    rcases hph with hph | ⟨pos, hpos⟩
    · exact absurd hph hp0
    · have hc5 := core_UpdateBalance t4 ph pos inc hpos
      have hw5 : WalkOK _ (UpdateBalance t4 ph inc) := hw4.of_core hc5
      have hpos5 : (UpdateBalance t4 ph inc).indexedPointData.find ph = some pos := by
        have := hc5
        simp only [core, Prod.mk.injEq] at this
        rw [this.2.1]; exact hpos
      have hposlt : pos < t4.pointDataVector.length := hw4.store.lt_length hpos
      obtain ⟨t', hprop, hcore⟩ := PropagateLoop_ok Dimension Get _ fuel
        (UpdateBalance t4 ph inc) ph pos hw5 hpos5 (by
          show (if pos = rest.getLastD i then t2.pointDataVector.length - 1 else pos) < fuel
          split <;> omega)
      have hc' : core t' = core t4 := by rw [hcore, hc5]
      have hs' : StoreOK t' := hw4.store.of_same_core hc'
      simp only [core, Prod.mk.injEq] at hc'
      refine ⟨t', hprop, hs', by rw [hc'.1, ← hl2]; exact hl4, ?_⟩
      intro g
      rw [hc'.2.1]
      exact hlive4 g

end Coordinates

end gbi
namespace gbi

theorem BaseInv.of_frame {D : Nat} {t s : KDTree} (hb : BaseInv D t) (hf : frame s = frame t) :
    BaseInv D s := by
  simp only [frame, Prod.mk.injEq] at hf
  obtain ⟨h1, h2, h3, h4, h5, h6, h7, h8⟩ := hf
  constructor
  · constructor
    · rw [h1]; exact hb.store.nonnull
    · rw [h1, h2]; exact hb.store.idx_vec
  · constructor
    · rw [h1, h6]; exact hb.topo.parent_lt
    · rw [h4, h5, h6]; exact hb.topo.parent_child
    · rw [h4, h6]; exact hb.topo.lower_parent
    · rw [h5, h6]; exact hb.topo.upper_parent
    · rw [h4, h5]; exact hb.topo.lower_ne_upper
  · rw [h1, h3]; exact hb.floor_some
  · rw [h1, h2, h7]; exact hb.bnd
  · rw [h1, h7]; exact hb.bnd_live
  · rw [h1, h8]; exact hb.origin_head

theorem BalAt.of_same_frame {t s : KDTree} {p : Nat} (hb : BalAt t p) (hf : frame s = frame t)
    (hbal : s.balanceByIndex.find p = t.balanceByIndex.find p) : BalAt s p := by
  simp only [frame, Prod.mk.injEq] at hf
  obtain ⟨h1, h2, h3, h4, h5, h6, h7, h8⟩ := hf
  unfold BalAt IsLeaf at *
  rw [h4, h5, hbal]
  exact hb

theorem frame_floorAt_hit (t : KDTree) (p f : Nat) (hf : t.nodeFloor.find p = some f) :
    (floorAt t p).2 = t := by
  rw [floorAt_hit t p f hf]

/-- On a live handle whose position has a floor, `UpdateBalance` changes only the balance
of that position, by one, and the priority index. -/
theorem UpdateBalance_spec (t : KDTree) (g i f : Nat) (incr : Bool)
    (hg : t.indexedPointData.find g = some i) (hf : t.nodeFloor.find i = some f) :
    frame (UpdateBalance t g incr) = frame t ∧
      ∀ k : Nat, (UpdateBalance t g incr).balanceByIndex.find k =
        if k = i then some ((t.balanceByIndex.find i).getD 0 + (if incr then 1 else -1))
        else t.balanceByIndex.find k := by
  unfold UpdateBalance
  simp only [idxAt_hit t g i hg]
  cases hb : t.balanceByIndex.find i with
  | none =>
    simp only [InternalRemoveBalancePriority, hb, balanceAt, floorAt, hf, Map.find_set]
    refine ⟨rfl, ?_⟩
    intro k
    simp only [Map.find_set, Option.getD_none]
    by_cases hk : k = i
    · cases incr <;> simp [hk]
    · simp [hk]
  | some b =>
    simp only [InternalRemoveBalancePriority, hb, balanceAt, floorAt, hf, Map.find_set]
    refine ⟨rfl, ?_⟩
    intro k
    simp only [Map.find_set, Option.getD_some]
    by_cases hk : k = i
    · cases incr
      · simp [hk]
        omega
      · simp [hk]
    · simp [hk]

theorem balanceAt_spec (t : KDTree) (i : Nat) :
    (balanceAt t i).1 = (t.balanceByIndex.find i).getD 0 ∧
      frame (balanceAt t i).2 = frame t ∧
      ((balanceAt t i).2.balanceByIndex.find i).getD 0 = (t.balanceByIndex.find i).getD 0 ∧
      ∀ k : Nat, k ≠ i → (balanceAt t i).2.balanceByIndex.find k = t.balanceByIndex.find k := by
  unfold balanceAt
  cases hb : t.balanceByIndex.find i with
  | none =>
    refine ⟨rfl, rfl, ?_, ?_⟩
    · simp [Map.find_set]
    · intro k hk
      simp [Map.find_set, hk]
  | some b =>
    refine ⟨rfl, rfl, ?_, ?_⟩
    · simp [hb]
    · intro k _
      rfl

end gbi
namespace gbi

section Coordinates

variable {α : Type} [DecidableEq α] [LT α] [∀ a b : α, Decidable (a < b)]
variable (Dimension : Nat) (Get : PointData → Nat → α)

theorem goesLower_spec (point : Nat) (t : KDTree) (current pc : Nat) (dim : Nat)
    (hc : t.indexedPointData.find current = some pc) :
    frame (goesLower Get point t current dim).2 = frame t ∧
      ((goesLower Get point t current dim).2.balanceByIndex.find pc).getD 0
        = (t.balanceByIndex.find pc).getD 0 ∧
      ∀ k : Nat, k ≠ pc →
        (goesLower Get point t current dim).2.balanceByIndex.find k = t.balanceByIndex.find k := by
  unfold goesLower
  obtain ⟨-, h2, h3, h4⟩ := balanceAt_spec t pc
  split
  · exact ⟨rfl, rfl, fun _ _ => rfl⟩
  · split
    · simp only [idxAt_hit t current pc hc]
      exact ⟨h2, h3, h4⟩
    · exact ⟨rfl, rfl, fun _ _ => rfl⟩

theorem GetLower_hit (t : KDTree) (current pc : Nat)
    (hc : t.indexedPointData.find current = some pc)
    (hv : ∀ c : Nat, t.lowerIndex.find pc = some c → c < t.pointDataVector.length) :
    GetLower t current =
      some (match t.lowerIndex.find pc with
        | some c => t.pointDataVector.getD c 0
        | none => 0, t) := by
  unfold GetLower
  simp only [idxAt_hit t current pc hc]
  cases hl : t.lowerIndex.find pc with
  | none => rfl
  | some c =>
    have := hv c hl
    simp [vecAt, List.getElem?_eq_getElem this, List.getD_eq_getElem?_getD]

theorem GetUpper_hit (t : KDTree) (current pc : Nat)
    (hc : t.indexedPointData.find current = some pc)
    (hv : ∀ c : Nat, t.upperIndex.find pc = some c → c < t.pointDataVector.length) :
    GetUpper t current =
      some (match t.upperIndex.find pc with
        | some c => t.pointDataVector.getD c 0
        | none => 0, t) := by
  unfold GetUpper
  simp only [idxAt_hit t current pc hc]
  cases hl : t.upperIndex.find pc with
  | none => rfl
  | some c =>
    have := hv c hl
    simp [vecAt, List.getElem?_eq_getElem this, List.getD_eq_getElem?_getD]

end Coordinates

end gbi
namespace gbi

theorem frame_fields {s t : KDTree} (h : frame s = frame t) :
    s.pointDataVector = t.pointDataVector ∧ s.indexedPointData = t.indexedPointData ∧
      s.nodeFloor = t.nodeFloor ∧ s.lowerIndex = t.lowerIndex ∧ s.upperIndex = t.upperIndex ∧
      s.parentIndex = t.parentIndex ∧ s.boundaries = t.boundaries ∧ s.origin = t.origin := by
  simpa [frame] using h

section Coordinates

variable {α : Type} [DecidableEq α] [LT α] [∀ a b : α, Decidable (a < b)]
variable (Dimension : Nat) (Get : PointData → Nat → α)

/-- One round of the descent of `Insert` from a live handle returns; it changes balances
and the priority index only, and either reaches a live child further down the vector with
the invariant intact, or stops at a missing child in the state `ExitOK`. -/
theorem InsertStep_spec (point : Nat) (t : KDTree) (inv : InsertInv Dimension t)
    (current pc dim : Nat) (hc : t.indexedPointData.find current = some pc) :
    ∃ (child : Nat) (up : Bool) (t' : KDTree),
      InsertStep Get point t current dim = some ((child, up), t') ∧ frame t' = frame t ∧
      (child ≠ 0 → InsertInv Dimension t' ∧
        ∃ pc' : Nat, t'.indexedPointData.find child = some pc' ∧ pc < pc') ∧
      (child = 0 → ExitOK Dimension t' current up) := by
  obtain ⟨hfr, hb0, hbk⟩ := goesLower_spec Get point t current pc dim hc
  have hpcv := (inv.store.idx_vec current pc).1 hc
  have hcur0 : current ≠ 0 := inv.store.ne_zero hpcv
  have hpclt : pc < t.pointDataVector.length := inv.store.lt_length hc
  obtain ⟨f, hf⟩ := inv.floor_some pc hpclt
  generalize hgo : goesLower Get point t current dim = go at hfr hb0 hbk
  obtain ⟨gl, tb⟩ := go
  simp only at hfr hb0 hbk
  obtain ⟨e1, e2, e3, e4, e5, e6, e7, e8⟩ := frame_fields hfr
  have hcb : tb.indexedPointData.find current = some pc := by rw [e2]; exact hc
  have hfb : tb.nodeFloor.find pc = some f := by rw [e3]; exact hf
  have hUB : ∀ up : Bool, frame (UpdateBalance tb current up) = frame t ∧
      ∀ k : Nat, (UpdateBalance tb current up).balanceByIndex.find k =
        if k = pc then some ((t.balanceByIndex.find pc).getD 0 + (if up then 1 else -1))
        else t.balanceByIndex.find k := by
    intro up
    obtain ⟨h1, h2⟩ := UpdateBalance_spec tb current pc f up hcb hfb
    refine ⟨by rw [h1, hfr], ?_⟩
    intro k
    rw [h2 k]
    by_cases hk : k = pc
    · simp only [hk, if_true, hb0]
    · simp only [hk, if_false]
      exact hbk k hk
  have hothers : ∀ (up : Bool) (p : Nat), p ≠ pc → BalAt (UpdateBalance tb current up) p := by
    intro up p hp
    refine BalAt.of_same_frame (inv.bal p) (hUB up).1 ?_
    rw [(hUB up).2 p]
    simp only [hp, if_false]
  have hlowv : ∀ c : Nat, tb.lowerIndex.find pc = some c → c < tb.pointDataVector.length := by
    intro c h
    rw [e4] at h; rw [e1]
    exact (inv.topo.parent_lt c pc (inv.topo.lower_parent pc c h)).2
  have huppv : ∀ c : Nat, tb.upperIndex.find pc = some c → c < tb.pointDataVector.length := by
    intro c h
    rw [e5] at h; rw [e1]
    exact (inv.topo.parent_lt c pc (inv.topo.upper_parent pc c h)).2
  unfold InsertStep
  simp only [hgo]
  cases gl with
  | true =>
    simp only [if_true, GetLower_hit tb current pc hcb hlowv, Bool.not_true]
    obtain ⟨hF, hB⟩ := hUB false
    obtain ⟨f1, f2, f3, f4, f5, f6, f7, f8⟩ := frame_fields hF
    refine ⟨_, false, _, rfl, hF, ?_, ?_⟩
    · intro hchild
      rw [e4, e1] at hchild
      cases hl : t.lowerIndex.find pc with
      | none => simp [hl] at hchild
      | some c =>
        obtain ⟨hpc_c, hcn⟩ := inv.topo.parent_lt c pc (inv.topo.lower_parent pc c hl)
        refine ⟨⟨inv.base.of_frame hF, ?_⟩, c, ?_, hpc_c⟩
        · intro p
          by_cases hp : p = pc
          · subst hp
            have hnl : IsLeaf t p = false := by
              rw [IsLeaf_false_iff]; left; rw [hl]; simp
            obtain ⟨b1, hb1, -, hb3⟩ := (inv.bal p).1 hnl
            constructor
            · intro _
              refine ⟨b1 + -1, ?_, ?_, ?_⟩
              · rw [hB p]; simp [hb1]
              · intro h; rw [f4, hl] at h; cases h
              · intro h; rw [f5] at h; have := hb3 h; omega
            · intro h
              rw [IsLeaf_true_iff, f4, hl] at h
              cases h.1
          · exact hothers false p hp
        · rw [f2, e4, e1, hl]
          simp only [List.getD_eq_getElem?_getD, List.getElem?_eq_getElem hcn, Option.getD_some]
          exact (inv.store.idx_vec _ c).2 (List.getElem?_eq_getElem hcn)
    · intro hchild
      rw [e4, e1] at hchild
      have hl : t.lowerIndex.find pc = none := by
        cases hl : t.lowerIndex.find pc with
        | none => rfl
        | some c =>
          exfalso
          obtain ⟨_, hcn⟩ := inv.topo.parent_lt c pc (inv.topo.lower_parent pc c hl)
          simp only [hl, List.getD_eq_getElem?_getD, List.getElem?_eq_getElem hcn,
            Option.getD_some] at hchild
          exact inv.store.ne_zero (List.getElem?_eq_getElem hcn) hchild
      refine ⟨inv.base.of_frame hF, fun h => absurd h hcur0, fun _ => ⟨pc, ?_, ?_, ?_, ?_⟩⟩
      · rw [f2]; exact hc
      · exact fun p hp => hothers false p hp
      · intro h; cases h
      · intro _
        refine ⟨by rw [f4]; exact hl, (t.balanceByIndex.find pc).getD 0 + -1, ?_, ?_⟩
        · rw [hB pc]; simp
        · intro hu
          rw [f5] at hu
          have hleaf : IsLeaf t pc = true := (IsLeaf_true_iff t pc).2 ⟨hl, hu⟩
          rw [(inv.bal pc).2 hleaf]
          simp
  | false =>
    simp only [Bool.false_eq_true, if_false, GetUpper_hit tb current pc hcb huppv, Bool.not_false]
    obtain ⟨hF, hB⟩ := hUB true
    obtain ⟨f1, f2, f3, f4, f5, f6, f7, f8⟩ := frame_fields hF
    refine ⟨_, true, _, rfl, hF, ?_, ?_⟩
    · intro hchild
      rw [e5, e1] at hchild
      cases hl : t.upperIndex.find pc with
      | none => simp [hl] at hchild
      | some c =>
        obtain ⟨hpc_c, hcn⟩ := inv.topo.parent_lt c pc (inv.topo.upper_parent pc c hl)
        refine ⟨⟨inv.base.of_frame hF, ?_⟩, c, ?_, hpc_c⟩
        · intro p
          by_cases hp : p = pc
          · subst hp
            have hnl : IsLeaf t p = false := by
              rw [IsLeaf_false_iff]; right; rw [hl]; simp
            obtain ⟨b1, hb1, hb2, -⟩ := (inv.bal p).1 hnl
            constructor
            · intro _
              refine ⟨b1 + 1, ?_, ?_, ?_⟩
              · rw [hB p]; simp [hb1]
              · intro h; rw [f4] at h; have := hb2 h; omega
              · intro h; rw [f5, hl] at h; cases h
            · intro h
              rw [IsLeaf_true_iff, f5, hl] at h
              cases h.2
          · exact hothers true p hp
        · rw [f2, e5, e1, hl]
          simp only [List.getD_eq_getElem?_getD, List.getElem?_eq_getElem hcn, Option.getD_some]
          exact (inv.store.idx_vec _ c).2 (List.getElem?_eq_getElem hcn)
    · intro hchild
      rw [e5, e1] at hchild
      have hl : t.upperIndex.find pc = none := by
        cases hl : t.upperIndex.find pc with
        | none => rfl
        | some c =>
          exfalso
          obtain ⟨_, hcn⟩ := inv.topo.parent_lt c pc (inv.topo.upper_parent pc c hl)
          simp only [hl, List.getD_eq_getElem?_getD, List.getElem?_eq_getElem hcn,
            Option.getD_some] at hchild
          exact inv.store.ne_zero (List.getElem?_eq_getElem hcn) hchild
      refine ⟨inv.base.of_frame hF, fun h => absurd h hcur0, fun _ => ⟨pc, ?_, ?_, ?_, ?_⟩⟩
      · rw [f2]; exact hc
      · exact fun p hp => hothers true p hp
      · intro _
        refine ⟨by rw [f5]; exact hl, (t.balanceByIndex.find pc).getD 0 + 1, ?_, ?_⟩
        · rw [hB pc]; simp
        · intro hu
          rw [f4] at hu
          have hleaf : IsLeaf t pc = true := (IsLeaf_true_iff t pc).2 ⟨hu, hl⟩
          rw [(inv.bal pc).2 hleaf]
          simp
      · intro h; cases h

end Coordinates

end gbi
namespace gbi

section Coordinates

variable {α : Type} [DecidableEq α] [LT α] [∀ a b : α, Decidable (a < b)]
variable (Dimension : Nat) (Get : PointData → Nat → α)

/-- The descent of `Insert`: whenever it returns, it has changed balances and the priority
index only and hands over a state `ExitOK`; it does return when the fuel covers the
positions behind the start. -/
theorem InsertLoop_spec (point : Nat) (fuel : Nat) :
    ∀ (t : KDTree) (current parent dim : Nat) (upper : Bool) (ul : List Nat),
      (current ≠ 0 → InsertInv Dimension t ∧ ∃ pc : Nat,
        t.indexedPointData.find current = some pc ∧ t.pointDataVector.length ≤ fuel + pc) →
      (current = 0 → ExitOK Dimension t parent upper) →
      (∀ q ∈ ul, ∃ pq : Nat, t.indexedPointData.find q = some pq) →
      ∃ (res : Nat × Bool × List Nat) (t1 : KDTree),
        InsertLoop Dimension Get point fuel t current parent dim upper ul = some (res, t1) ∧
        ExitOK Dimension t1 res.1 res.2.1 ∧ frame t1 = frame t ∧
        ∀ q ∈ res.2.2, ∃ pq : Nat, t1.indexedPointData.find q = some pq := by
  induction fuel with
  | zero =>
    intro t current parent dim upper ul h1 h2 h3
    by_cases hc : current = 0
    · exact ⟨(parent, upper, ul), t, by simp [InsertLoop, hc], h2 hc, rfl, h3⟩
    · obtain ⟨inv, pc, hpc, hfuel⟩ := h1 hc
      have := inv.store.lt_length hpc
      omega
  | succ fuel ih =>
    intro t current parent dim upper ul h1 h2 h3
    by_cases hc : current = 0
    · exact ⟨(parent, upper, ul), t, by simp [InsertLoop, hc], h2 hc, rfl, h3⟩
    · obtain ⟨inv, pc, hpc, hfuel⟩ := h1 hc
      obtain ⟨child, up, t', hstep, hF, hA, hB⟩ :=
        InsertStep_spec Dimension Get point t inv current pc dim hpc
      obtain ⟨f1, f2, -⟩ := frame_fields hF
      obtain ⟨res, t1, hloop, hexit, hF1, hul⟩ := ih t' child current ((dim + 1) % Dimension) up
        (ul ++ [current])
        (by
          intro hch
          obtain ⟨inv', pc', hpc', hlt⟩ := hA hch
          exact ⟨inv', pc', hpc', by rw [f1]; omega⟩)
        hB
        (by
          intro q hq
          rw [f2]
          rcases List.mem_append.1 hq with h | h
          · exact h3 q h
          · rw [List.mem_singleton.1 h]
            exact ⟨pc, hpc⟩)
      refine ⟨res, t1, ?_, hexit, by rw [hF1, hF], hul⟩
      simp only [InsertLoop, hc, if_false, hstep]
      exact hloop

end Coordinates

end gbi
namespace gbi

section Coordinates

variable {α : Type} [DecidableEq α] [LT α] [∀ a b : α, Decidable (a < b)]
variable (Dimension : Nat) (Get : PointData → Nat → α)

/-- The descent of `Insert`, whatever the fuel: a result it returns has changed balances
and the priority index only and is a state `ExitOK`. -/
theorem InsertLoop_post (point : Nat) (fuel : Nat) :
    ∀ (t : KDTree) (current parent dim : Nat) (upper : Bool) (ul : List Nat)
      (res : Nat × Bool × List Nat) (t1 : KDTree),
      (current ≠ 0 → InsertInv Dimension t ∧ ∃ pc : Nat,
        t.indexedPointData.find current = some pc) →
      (current = 0 → ExitOK Dimension t parent upper) →
      (∀ q ∈ ul, ∃ pq : Nat, t.indexedPointData.find q = some pq) →
      InsertLoop Dimension Get point fuel t current parent dim upper ul = some (res, t1) →
      ExitOK Dimension t1 res.1 res.2.1 ∧ frame t1 = frame t ∧
        ∀ q ∈ res.2.2, ∃ pq : Nat, t1.indexedPointData.find q = some pq := by
  induction fuel with
  | zero =>
    intro t current parent dim upper ul res t1 h1 h2 h3 hrun
    by_cases hc : current = 0
    · simp only [InsertLoop, hc, if_true, Option.some.injEq, Prod.mk.injEq] at hrun
      obtain ⟨hr, ht⟩ := hrun
      subst hr; subst ht
      exact ⟨h2 hc, rfl, h3⟩
    · simp [InsertLoop, hc] at hrun
  | succ fuel ih =>
    intro t current parent dim upper ul res t1 h1 h2 h3 hrun
    by_cases hc : current = 0
    · simp only [InsertLoop, hc, if_true, Option.some.injEq, Prod.mk.injEq] at hrun
      obtain ⟨hr, ht⟩ := hrun
      subst hr; subst ht
      exact ⟨h2 hc, rfl, h3⟩
    · obtain ⟨inv, pc, hpc⟩ := h1 hc
      obtain ⟨child, up, t', hstep, hF, hA, hB⟩ :=
        InsertStep_spec Dimension Get point t inv current pc dim hpc
      obtain ⟨f1, f2, -⟩ := frame_fields hF
      simp only [InsertLoop, hc, if_false, hstep] at hrun
      obtain ⟨hexit, hF1, hul⟩ := ih t' child current ((dim + 1) % Dimension) up
        (ul ++ [current]) res t1
        (by
          intro hch
          obtain ⟨inv', pc', hpc', -⟩ := hA hch
          exact ⟨inv', pc', hpc'⟩)
        hB
        (by
          intro q hq
          rw [f2]
          rcases List.mem_append.1 hq with h | h
          · exact h3 q h
          · rw [List.mem_singleton.1 h]
            exact ⟨pc, hpc⟩)
        hrun
      exact ⟨hexit, by rw [hF1, hF], hul⟩

end Coordinates

end gbi
namespace gbi

theorem boundaryAssign_find (D : Nat) (b : Map PointData (List PointData)) (q j v g : Nat) :
    (boundaryAssign D b q j v).find g =
      if g = q then some (((b.find q).getD (nullSlots D)).set j v) else b.find g := by
  unfold boundaryAssign
  rw [Map.find_set]

theorem getD_set (arr : List Nat) (j k v : Nat) :
    (arr.set j v).getD k 0 = if j = k ∧ j < arr.length then v else arr.getD k 0 := by
  simp only [List.getD_eq_getElem?_getD, List.getElem?_set]
  by_cases h : j = k
  · subst h
    by_cases h2 : j < arr.length
    · simp [h2]
    · have h3 : arr.length ≤ j := by omega
      simp [h2, List.getElem?_eq_none h3]
  · simp [h]

theorem slotsOK_set (D point : Nat) (P : Nat → Prop) (arr : List Nat) (j : Nat)
    (h : slotsOK D point P arr) : slotsOK D point P (arr.set j point) := by
  obtain ⟨h1, h2⟩ := h
  refine ⟨by simp [h1], ?_⟩
  intro k hk
  rw [getD_set]
  split
  · exact Or.inl rfl
  · exact h2 k hk

/-- A fold of steps that keep a property keeps it. -/
theorem foldl_keeps {β γ : Type} (T : β → Prop) (f : β → γ → β)
    (hf : ∀ b i, T b → T (f b i)) (l : List γ) : ∀ b, T b → T (l.foldl f b) := by
  induction l with
  | nil => intro b hb; exact hb
  | cons x r ih => intro b hb; exact ih (f b x) (hf b x hb)

section Coordinates

variable {α : Type} [DecidableEq α] [LT α] [∀ a b : α, Decidable (a < b)]
variable (Dimension : Nat) (Get : PointData → Nat → α)

theorem entryOK_assign (point : Nat) (P : Nat → Prop) (B : Map PointData (List PointData))
    (q j : Nat) (b : Map PointData (List PointData))
    (h : entryOK Dimension point P B q b) :
    entryOK Dimension point P B q (boundaryAssign Dimension b q j point) := by
  obtain ⟨h1, arr, h2, h3⟩ := h
  constructor
  · intro g hg
    rw [boundaryAssign_find]
    simp only [hg, if_false]
    exact h1 g hg
  · refine ⟨arr.set j point, ?_, slotsOK_set Dimension point P arr j h3⟩
    rw [boundaryAssign_find]
    simp [h2]

/-- An ancestor that already has a boundary entry keeps fine slots. -/
theorem UpdateBoundariesStep_some (point : Nat) (P : Nat → Prop)
    (B : Map PointData (List PointData)) (q : Nat) (arr0 : List Nat)
    (hq : B.find q = some arr0) (h0 : slotsOK Dimension point P arr0) :
    entryOK Dimension point P B q (UpdateBoundariesStep Dimension Get point B q) := by
  unfold UpdateBoundariesStep
  simp only [hq]
  apply foldl_keeps (entryOK Dimension point P B q)
  · intro b i hb
    split
    · split
      · exact entryOK_assign Dimension point P B q _ _
          (entryOK_assign Dimension point P B q _ _ hb)
      · exact entryOK_assign Dimension point P B q _ _ hb
    · split
      · exact entryOK_assign Dimension point P B q _ _ hb
      · exact hb
  · exact ⟨fun _ _ => rfl, arr0, hq, h0⟩

/-- An ancestor without a boundary entry gets one whose slots all hold the new point
(or none at all in dimension zero). -/
theorem UpdateBoundariesStep_none (point : Nat) (B : Map PointData (List PointData)) (q : Nat)
    (hq : B.find q = none) :
    (∀ g : Nat, g ≠ q → (UpdateBoundariesStep Dimension Get point B q).find g = B.find g) ∧
      ((UpdateBoundariesStep Dimension Get point B q).find q = none ∨
        ∃ arr, (UpdateBoundariesStep Dimension Get point B q).find q = some arr ∧
          arr.length = 2 * Dimension ∧ ∀ j : Nat, j < 2 * Dimension → arr.getD j 0 = point) := by
  unfold UpdateBoundariesStep
  simp only [hq]
  have key : ∀ n : Nat, n ≤ Dimension →
      (∀ g : Nat, g ≠ q → ((List.range n).foldl (fun b i =>
        boundaryAssign Dimension (boundaryAssign Dimension b q (2 * i) point) q (2 * i + 1) point)
          B).find g = B.find g) ∧
      (n = 0 → ((List.range n).foldl (fun b i =>
        boundaryAssign Dimension (boundaryAssign Dimension b q (2 * i) point) q (2 * i + 1) point)
          B).find q = none) ∧
      (0 < n → ∃ arr, ((List.range n).foldl (fun b i =>
        boundaryAssign Dimension (boundaryAssign Dimension b q (2 * i) point) q (2 * i + 1) point)
          B).find q = some arr ∧ arr.length = 2 * Dimension ∧
          ∀ j : Nat, j < 2 * n → arr.getD j 0 = point) := by
    intro n
    induction n with
    | zero =>
      intro _
      refine ⟨fun _ _ => rfl, fun _ => hq, fun h => absurd h (by omega)⟩
    | succ n ih =>
      intro hn
      obtain ⟨ih1, ih2, ih3⟩ := ih (by omega)
      rw [List.range_succ, List.foldl_append]
      simp only [List.foldl_cons, List.foldl_nil]
      generalize (List.range n).foldl (fun b i =>
        boundaryAssign Dimension (boundaryAssign Dimension b q (2 * i) point) q (2 * i + 1) point)
          B = F at ih1 ih2 ih3
      refine ⟨?_, fun h => absurd h (by omega), fun _ => ?_⟩
      · intro g hg
        simp only [boundaryAssign_find, hg, if_false]
        exact ih1 g hg
      · have harr : ∃ a0 : List Nat, (F.find q).getD (nullSlots Dimension) = a0 ∧
            a0.length = 2 * Dimension ∧ ∀ j : Nat, j < 2 * n → a0.getD j 0 = point := by
          by_cases hn0 : n = 0
          · rw [ih2 hn0]
            refine ⟨nullSlots Dimension, rfl, by simp [nullSlots], ?_⟩
            intro j hj; omega
          · obtain ⟨arr, h1, h2, h3⟩ := ih3 (by omega)
            exact ⟨arr, by rw [h1]; rfl, h2, h3⟩
        obtain ⟨a0, ha0, hlen, hpts⟩ := harr
        refine ⟨(a0.set (2 * n) point).set (2 * n + 1) point, ?_, by simp [hlen], ?_⟩
        · simp only [boundaryAssign_find, if_true, Option.getD_some, ha0]
        · intro j hj
          rw [getD_set, getD_set]
          by_cases h1 : 2 * n + 1 = j
          · simp [h1, hlen]
            intro h; omega
          · by_cases h2 : 2 * n = j
            · simp [h1, h2, hlen]
              intro h; omega
            · simp only [h1, h2, false_and, if_false]
              exact hpts j (by omega)
  obtain ⟨k1, k2, k3⟩ := key Dimension (Nat.le_refl _)
  refine ⟨k1, ?_⟩
  by_cases hD : Dimension = 0
  · exact Or.inl (k2 hD)
  · obtain ⟨arr, h1, h2, h3⟩ := k3 (by omega)
    exact Or.inr ⟨arr, h1, h2, h3⟩

end Coordinates

end gbi
namespace gbi

section Coordinates

variable {α : Type} [DecidableEq α] [LT α] [∀ a b : α, Decidable (a < b)]
variable (Dimension : Nat) (Get : PointData → Nat → α)

theorem bndGood_step (point : Nat) (t : KDTree) (B : Map PointData (List PointData)) (q pq : Nat)
    (hs : StoreOK t) (hq : t.indexedPointData.find q = some pq)
    (hB : bndGood Dimension point t B) :
    bndGood Dimension point t (UpdateBoundariesStep Dimension Get point B q) := by
  have hqv := (hs.idx_vec q pq).1 hq
  cases hfind : B.find q with
  | none =>
    obtain ⟨h1, h2⟩ := UpdateBoundariesStep_none Dimension Get point B q hfind
    intro g arr hg
    by_cases hgq : g = q
    · subst hgq
      rcases h2 with h2 | ⟨arr', h3, h4, h5⟩
      · rw [h2] at hg; cases hg
      · rw [h3] at hg
        have := Option.some.inj hg
        subst this
        exact ⟨pq, hqv, h4, fun j hj => Or.inl (h5 j hj)⟩
    · rw [h1 g hgq] at hg
      exact hB g arr hg
  | some arr0 =>
    obtain ⟨q0, hq0, hslots⟩ := hB q arr0 hfind
    obtain ⟨h1, arr', h2, h3⟩ := UpdateBoundariesStep_some Dimension Get point _ B q arr0 hfind hslots
    intro g arr hg
    by_cases hgq : g = q
    · subst hgq
      rw [h2] at hg
      have := Option.some.inj hg
      subst this
      exact ⟨q0, hq0, h3⟩
    · rw [h1 g hgq] at hg
      exact hB g arr hg

theorem bndGood_fold (point : Nat) (t : KDTree) (hs : StoreOK t) (ul : List Nat) :
    ∀ B : Map PointData (List PointData),
      (∀ q ∈ ul, ∃ pq : Nat, t.indexedPointData.find q = some pq) →
      bndGood Dimension point t B →
      bndGood Dimension point t (ul.foldl (UpdateBoundariesStep Dimension Get point) B) := by
  induction ul with
  | nil => intro B _ hB; exact hB
  | cons q r ih =>
    intro B hul hB
    obtain ⟨pq, hpq⟩ := hul q (by simp)
    exact ih _ (fun x hx => hul x (by simp [hx]))
      (bndGood_step Dimension Get point t B q pq hs hpq hB)

end Coordinates

theorem bndGood_of_base (D point : Nat) (t : KDTree) (hb : BaseInv D t) :
    bndGood D point t t.boundaries := by
  intro g arr hg
  obtain ⟨q, hq⟩ := hb.bnd_live g arr hg
  obtain ⟨h1, h2⟩ := hb.bnd q g arr hq hg
  exact ⟨q, hq, h1, fun j hj => Or.inr (h2 j hj)⟩

/-- The store after `InsertInternal` of a handle that is not live. -/
theorem append_store (vec : List Nat) (idx : Map PointData SizeT) (point : Nat)
    (hp0 : point ≠ 0) (hnn : 0 ∉ vec)
    (hiv : ∀ h i : Nat, idx.find h = some i ↔ vec[i]? = some h)
    (hnew : idx.find point = none) :
    0 ∉ vec ++ [point] ∧
      ∀ h i : Nat, (idx.set point vec.length).find h = some i ↔ (vec ++ [point])[i]? = some h := by
  constructor
  · intro h
    rcases List.mem_append.1 h with h | h
    · exact hnn h
    · exact hp0 (List.mem_singleton.1 h).symm
  · intro h i
    rw [Map.find_set, List.getElem?_append]
    by_cases hh : h = point
    · subst hh
      simp only [if_true]
      constructor
      · intro e
        have := Option.some.inj e
        subst this
        simp
      · intro e
        by_cases hlt : i < vec.length
        · simp only [hlt, if_true] at e
          rw [(hiv h i).2 e] at hnew
          cases hnew
        · simp only [hlt, if_false] at e
          have h1 := (List.getElem?_eq_some.1 e).1
          simp at h1
          have : i = vec.length := by omega
          rw [this]
    · simp only [hh, if_false]
      constructor
      · intro e
        have hv := (hiv h i).1 e
        have hlt := (List.getElem?_eq_some.1 hv).1
        simp [hlt, hv]
      · intro e
        by_cases hlt : i < vec.length
        · simp only [hlt, if_true] at e
          exact (hiv h i).2 e
        · simp only [hlt, if_false] at e
          have h1 := (List.getElem?_eq_some.1 e).1
          simp at h1
          have h2 : i - vec.length = 0 := by omega
          rw [h2] at e
          simp at e
          exact absurd e.symm hh

end gbi
namespace gbi

/-- Attaching a new last position below `pp`, on the side where `pp` has no child and
with the balance of `pp` already updated, gives a tree that satisfies the invariant. -/
theorem attach_inv (D : Nat) (t : KDTree) (point pp fv : Nat) (up : Bool)
    (B : Map PointData (List PointData)) (ix : PriorityIndex) (n : Nat)
    (hn : n = t.pointDataVector.length) (hb : BaseInv D t) (hp0 : point ≠ 0) (hnew : t.indexedPointData.find point = none)
    (hpp : pp < t.pointDataVector.length) (hB : bndGood D point t B)
    (hbal : ∀ p : Nat, p ≠ pp → BalAt t p)
    (hup : up = true → t.upperIndex.find pp = none ∧
      ∃ b : Int, t.balanceByIndex.find pp = some b ∧ (t.lowerIndex.find pp = none → 1 ≤ b))
    (hlo : up = false → t.lowerIndex.find pp = none ∧
      ∃ b : Int, t.balanceByIndex.find pp = some b ∧ (t.upperIndex.find pp = none → b ≤ -1)) :
    InsertInv D
      { pointDataVector := t.pointDataVector ++ [point]
        indexedPointData := t.indexedPointData.set point n
        nodeFloor := t.nodeFloor.set n fv
        lowerIndex := if up then t.lowerIndex else t.lowerIndex.set pp n
        upperIndex := if up then t.upperIndex.set pp n else t.upperIndex
        parentIndex := t.parentIndex.set n pp
        boundaries := B
        balanceByIndex := t.balanceByIndex
        indexByBalanceAndFloor := ix
        origin := t.origin } := by
  subst hn
  obtain ⟨hs1, hs2⟩ := append_store t.pointDataVector t.indexedPointData point hp0
    hb.store.nonnull hb.store.idx_vec hnew
  have hnokey_l : ∀ c : Nat, t.lowerIndex.find t.pointDataVector.length ≠ some c := by
    intro c h
    have := hb.topo.parent_lt c _ (hb.topo.lower_parent _ c h)
    omega
  have hnokey_u : ∀ c : Nat, t.upperIndex.find t.pointDataVector.length ≠ some c := by
    intro c h
    have := hb.topo.parent_lt c _ (hb.topo.upper_parent _ c h)
    omega
  have hnoval_l : ∀ p : Nat, t.lowerIndex.find p ≠ some t.pointDataVector.length := by
    intro p h
    have := hb.topo.parent_lt _ p (hb.topo.lower_parent p _ h)
    omega
  have hnoval_u : ∀ p : Nat, t.upperIndex.find p ≠ some t.pointDataVector.length := by
    intro p h
    have := hb.topo.parent_lt _ p (hb.topo.upper_parent p _ h)
    omega
  have hlow : ∀ p : Nat, p ≠ pp →
      (if up then t.lowerIndex else t.lowerIndex.set pp t.pointDataVector.length).find p
        = t.lowerIndex.find p := by
    intro p hp
    cases up
    · simp [Map.find_set, hp]
    · simp
  have hupp : ∀ p : Nat, p ≠ pp →
      (if up then t.upperIndex.set pp t.pointDataVector.length else t.upperIndex).find p
        = t.upperIndex.find p := by
    intro p hp
    cases up
    · simp
    · simp [Map.find_set, hp]
  refine ⟨⟨⟨hs1, hs2⟩, ⟨?_, ?_, ?_, ?_, ?_⟩, ?_, ?_, ?_, ?_⟩, ?_⟩
  · -- parent_lt
    intro c p hc
    simp only [Map.find_set, List.length_append, List.length_singleton] at hc ⊢
    by_cases hcn : c = t.pointDataVector.length
    · simp only [hcn, if_true, Option.some.injEq] at hc
      have hc' : (pp : Nat) = p := hc
      omega
    · simp only [hcn, if_false] at hc
      have := hb.topo.parent_lt c p hc
      omega
  · -- parent_child
    intro c p hc
    simp only [Map.find_set] at hc
    by_cases hcn : c = t.pointDataVector.length
    · simp only [hcn, if_true, Option.some.injEq] at hc
      subst hc
      cases up
      · left; simp [Map.find_set, hcn]
      · right; simp [Map.find_set, hcn]
    · simp only [hcn, if_false] at hc
      by_cases hppp : p = pp
      · subst hppp
        rcases hb.topo.parent_child c p hc with h | h
        · cases up
          · rw [(hlo rfl).1] at h; cases h
          · left; simpa using h
        · cases up
          · right; simpa using h
          · rw [(hup rfl).1] at h; cases h
      · rcases hb.topo.parent_child c p hc with h | h
        · left; rw [hlow p hppp]; exact h
        · right; rw [hupp p hppp]; exact h
  · -- lower_parent
    intro p c hc
    simp only [Map.find_set]
    by_cases hppp : p = pp
    · subst hppp
      cases up
      · simp only [Bool.false_eq_true, if_false, Map.find_set, if_true, Option.some.injEq] at hc
        simp [hc.symm]
      · simp only [if_true] at hc
        have := hb.topo.parent_lt c p (hb.topo.lower_parent p c hc)
        have hcn : c ≠ t.pointDataVector.length := by omega
        simp only [hcn, if_false]
        exact hb.topo.lower_parent p c hc
    · rw [hlow p hppp] at hc
      have := hb.topo.parent_lt c p (hb.topo.lower_parent p c hc)
      have hcn : c ≠ t.pointDataVector.length := by omega
      simp only [hcn, if_false]
      exact hb.topo.lower_parent p c hc
  · -- upper_parent
    intro p c hc
    simp only [Map.find_set]
    by_cases hppp : p = pp
    · subst hppp
      cases up
      · simp only [Bool.false_eq_true, if_false] at hc
        have := hb.topo.parent_lt c p (hb.topo.upper_parent p c hc)
        have hcn : c ≠ t.pointDataVector.length := by omega
        simp only [hcn, if_false]
        exact hb.topo.upper_parent p c hc
      · simp only [if_true, Map.find_set, Option.some.injEq] at hc
        simp [hc.symm]
    · rw [hupp p hppp] at hc
      have := hb.topo.parent_lt c p (hb.topo.upper_parent p c hc)
      have hcn : c ≠ t.pointDataVector.length := by omega
      simp only [hcn, if_false]
      exact hb.topo.upper_parent p c hc
  · -- lower_ne_upper
    intro p c hc hu
    by_cases hppp : p = pp
    · subst hppp
      cases up
      · simp only [Bool.false_eq_true, if_false, Map.find_set, if_true, Option.some.injEq] at hc hu
        subst hc
        exact hnoval_u p hu
      · simp only [if_true, Map.find_set, Option.some.injEq] at hc hu
        subst hu
        exact hnoval_l p hc
    · rw [hlow p hppp] at hc
      rw [hupp p hppp] at hu
      exact hb.topo.lower_ne_upper p c hc hu
  · -- floor_some
    intro p hp
    simp only [List.length_append, List.length_singleton] at hp
    simp only [Map.find_set]
    by_cases hpn : p = t.pointDataVector.length
    · exact ⟨fv, by simp [hpn]⟩
    · simp only [hpn, if_false]
      exact hb.floor_some p (by omega)
  · -- bnd
    intro q g arr hq hg
    obtain ⟨q0, hq0, hlen, hslots⟩ := hB g arr hg
    have hq0lt := (List.getElem?_eq_some.1 hq0).1
    have hq0' : (t.pointDataVector ++ [point])[q0]? = some g := by
      rw [List.getElem?_append_left hq0lt]; exact hq0
    have hqq : q = q0 := by
      have e1 := (hs2 g q).2 hq
      rw [(hs2 g q0).2 hq0'] at e1
      exact (Option.some.inj e1).symm
    subst hqq
    refine ⟨hlen, ?_⟩
    intro j hj
    simp only [Map.find_set]
    rcases hslots j hj with h | ⟨r, hr, hlt⟩
    · exact ⟨t.pointDataVector.length, by rw [if_pos h], hq0lt⟩
    · have hne : arr.getD j 0 ≠ point := by
        intro e; rw [e, hnew] at hr; cases hr
      exact ⟨r, by rw [if_neg hne]; exact hr, hlt⟩
  · -- bnd_live
    intro g arr hg
    obtain ⟨q0, hq0, -⟩ := hB g arr hg
    have hq0lt := (List.getElem?_eq_some.1 hq0).1
    exact ⟨q0, by
      show (t.pointDataVector ++ [point])[q0]? = some g
      rw [List.getElem?_append_left hq0lt]; exact hq0⟩
  · -- origin_head
    show t.origin = (t.pointDataVector ++ [point]).headD 0
    rw [hb.origin_head]
    cases hv : t.pointDataVector with
    | nil => rw [hv] at hpp; simp at hpp
    | cons a r => rfl
  · -- balances
    intro p
    by_cases hppp : p = pp
    · subst hppp
      unfold BalAt IsLeaf
      cases up
      · obtain ⟨h1, b, h2, h3⟩ := hlo rfl
        simp only [Bool.false_eq_true, if_false, Map.find_set, if_true, Option.isNone_some,
          Bool.false_and, forall_true_left]
        refine ⟨⟨b, h2, ?_, h3⟩, ?_⟩
        · intro h; cases h
        · intro h; cases h
      · obtain ⟨h1, b, h2, h3⟩ := hup rfl
        simp only [if_true, Map.find_set, Option.isNone_some, Bool.and_false, forall_true_left]
        refine ⟨⟨b, h2, h3, ?_⟩, ?_⟩
        · intro h; cases h
        · intro h; cases h
    · have := hbal p hppp
      unfold BalAt IsLeaf at this ⊢
      simp only [hlow p hppp, hupp p hppp]
      exact this

/-- Making a handle the root of the empty tree gives a tree that satisfies the
invariant. -/
theorem root_inv (D : Nat) (t : KDTree) (point : Nat) (ix : PriorityIndex) (n : Nat)
    (hn : n = t.pointDataVector.length) (hb : BaseInv D t) (hp0 : point ≠ 0)
    (hempty : t.pointDataVector = []) (hbal : ∀ p : Nat, BalAt t p) :
    InsertInv D
      { pointDataVector := t.pointDataVector ++ [point]
        indexedPointData := t.indexedPointData.set point n
        nodeFloor := t.nodeFloor.set n 0
        lowerIndex := t.lowerIndex
        upperIndex := t.upperIndex
        parentIndex := t.parentIndex
        boundaries := t.boundaries
        balanceByIndex := t.balanceByIndex
        indexByBalanceAndFloor := ix
        origin := point } := by
  subst hn
  have hnew : t.indexedPointData.find point = none := by
    cases h : t.indexedPointData.find point with
    | none => rfl
    | some i =>
      have := (hb.store.idx_vec point i).1 h
      rw [hempty] at this
      simp at this
  obtain ⟨hs1, hs2⟩ := append_store t.pointDataVector t.indexedPointData point hp0
    hb.store.nonnull hb.store.idx_vec hnew
  have hnopar : ∀ c p : Nat, t.parentIndex.find c ≠ some p := by
    intro c p h
    have := hb.topo.parent_lt c p h
    rw [hempty] at this
    simp at this
  refine ⟨⟨⟨hs1, hs2⟩, ⟨?_, ?_, ?_, ?_, ?_⟩, ?_, ?_, ?_, ?_⟩, ?_⟩
  · intro c p h; exact absurd h (hnopar c p)
  · intro c p h; exact absurd h (hnopar c p)
  · intro p c h; exact absurd (hb.topo.lower_parent p c h) (hnopar c p)
  · intro p c h; exact absurd (hb.topo.upper_parent p c h) (hnopar c p)
  · intro p c h; exact absurd (hb.topo.lower_parent p c h) (hnopar c p)
  · intro p hp
    simp only [hempty, List.nil_append, List.length_singleton, List.length_nil] at hp ⊢
    have : p = 0 := by omega
    subst this
    exact ⟨0, by simp [Map.find_set]⟩
  · intro q g arr _ hg
    obtain ⟨q0, hq0⟩ := hb.bnd_live g arr hg
    rw [hempty] at hq0
    simp at hq0
  · intro g arr hg
    obtain ⟨q0, hq0⟩ := hb.bnd_live g arr hg
    rw [hempty] at hq0
    simp at hq0
  · show point = (t.pointDataVector ++ [point]).headD 0
    rw [hempty]
    rfl
  · intro p
    exact hbal p

theorem SetLower_eq (t : KDTree) (parent child pp n f : Nat)
    (hp : t.indexedPointData.find parent = some pp)
    (hc : t.indexedPointData.find child = some n) (hf : t.nodeFloor.find pp = some f) :
    SetLower t parent child =
      { t with lowerIndex := t.lowerIndex.set pp n, parentIndex := t.parentIndex.set n pp,
               nodeFloor := t.nodeFloor.set n (f + 1) } := by
  simp [SetLower, idxAt, hp, hc, floorAt, hf]

theorem SetUpper_eq (t : KDTree) (parent child pp n f : Nat)
    (hp : t.indexedPointData.find parent = some pp)
    (hc : t.indexedPointData.find child = some n) (hf : t.nodeFloor.find pp = some f) :
    SetUpper t parent child =
      { t with upperIndex := t.upperIndex.set pp n, parentIndex := t.parentIndex.set n pp,
               nodeFloor := t.nodeFloor.set n (f + 1) } := by
  simp [SetUpper, idxAt, hp, hc, floorAt, hf]

end gbi
namespace gbi

section Coordinates

variable {α : Type} [DecidableEq α] [LT α] [∀ a b : α, Decidable (a < b)]
variable (Dimension : Nat) (Get : PointData → Nat → α)

theorem origin_live (t : KDTree) (inv : InsertInv Dimension t) (h : t.origin ≠ 0) :
    t.indexedPointData.find t.origin = some 0 ∧ 0 < t.pointDataVector.length := by
  have ho := inv.base.origin_head
  cases hv : t.pointDataVector with
  | nil => rw [hv] at ho; exact absurd ho h
  | cons a r =>
    rw [hv] at ho
    have : t.pointDataVector[0]? = some t.origin := by rw [hv, ho]; simp
    exact ⟨(inv.store.idx_vec _ 0).2 this, by simp⟩

theorem origin_null (t : KDTree) (inv : InsertInv Dimension t) (h : t.origin = 0) :
    t.pointDataVector = [] := by
  have ho := inv.base.origin_head
  cases hv : t.pointDataVector with
  | nil => rfl
  | cons a r =>
    rw [hv, h] at ho
    have : (0 : Nat) ∈ t.pointDataVector := by
      rw [hv]
      have ha : a = 0 := ho.symm
      simp [ha]
    exact absurd this inv.store.nonnull

/-- The state handed over by the descent, once `InsertInternal`, the boundary update and
the attachment have run, satisfies the invariant and stores `point` at the end. -/
theorem finish_inv (t1 : KDTree) (parent : Nat) (upper : Bool) (ul : List Nat) (point : Nat)
    (hexit : ExitOK Dimension t1 parent upper) (hp0 : point ≠ 0)
    (hnew : t1.indexedPointData.find point = none)
    (hul : ∀ q ∈ ul, ∃ pq : Nat, t1.indexedPointData.find q = some pq) (t' : KDTree)
    (ht' : (if parent ≠ 0 then
        if upper then
          some (SetUpper (UpdateBoundariesList Dimension Get (InsertInternal t1 point).2 ul point)
            parent point)
        else
          some (SetLower (UpdateBoundariesList Dimension Get (InsertInternal t1 point).2 ul point)
            parent point)
      else
        some { (idxAt { UpdateBoundariesList Dimension Get (InsertInternal t1 point).2 ul point
                with origin := point } point).2 with
          nodeFloor := (idxAt { UpdateBoundariesList Dimension Get (InsertInternal t1 point).2 ul
              point with origin := point } point).2.nodeFloor.set
            (idxAt { UpdateBoundariesList Dimension Get (InsertInternal t1 point).2 ul point
                with origin := point } point).1 0 }) = some t') :
    InsertInv Dimension t' ∧ t'.pointDataVector = t1.pointDataVector ++ [point] ∧
      t'.indexedPointData = t1.indexedPointData.set point t1.pointDataVector.length := by
  have hn : (t1.pointDataVector ++ [point]).length - 1 = t1.pointDataVector.length := by simp
  have hidxp : ∀ s : KDTree,
      s.indexedPointData = t1.indexedPointData.set point ((t1.pointDataVector ++ [point]).length - 1) →
      s.indexedPointData.find point = some t1.pointDataVector.length := by
    intro s hs
    rw [hs, Map.find_set, hn]
    simp
  by_cases hpar : parent = 0
  · obtain ⟨hemp, hbal⟩ := hexit.root_case hpar
    have hulnil : ul = [] := by
      apply List.eq_nil_iff_forall_not_mem.2
      intro q hq
      obtain ⟨pq, hpq⟩ := hul q hq
      have := (hexit.base.store.idx_vec q pq).1 hpq
      rw [hemp] at this
      simp at this
    subst hulnil
    simp only [hpar, ne_eq, not_true_eq_false, if_false] at ht'
    rw [idxAt_hit _ point t1.pointDataVector.length (hidxp _ rfl)] at ht'
    have ht := (Option.some.inj ht').symm
    subst ht
    refine ⟨?_, rfl, by simp [UpdateBoundariesList, InsertInternal]⟩
    have := root_inv Dimension t1 point t1.indexByBalanceAndFloor
      ((t1.pointDataVector ++ [point]).length - 1) hn hexit.base hp0 hemp hbal
    simpa [UpdateBoundariesList, InsertInternal] using this
  · obtain ⟨pp, hpp, hbalo, hup, hlo⟩ := hexit.attach_case hpar
    have hpplt := hexit.base.store.lt_length hpp
    obtain ⟨f, hf⟩ := hexit.base.floor_some pp hpplt
    have hB := bndGood_fold Dimension Get point t1 hexit.base.store ul t1.boundaries hul
      (bndGood_of_base Dimension point t1 hexit.base)
    have hparne : parent ≠ point := by
      intro e; rw [e, hnew] at hpp; cases hpp
    have hidxparent : (UpdateBoundariesList Dimension Get (InsertInternal t1 point).2 ul
        point).indexedPointData.find parent = some pp := by
      simp only [UpdateBoundariesList, InsertInternal, Map.find_set, hparne, if_false]
      exact hpp
    have hidxpoint : (UpdateBoundariesList Dimension Get (InsertInternal t1 point).2 ul
        point).indexedPointData.find point = some t1.pointDataVector.length :=
      hidxp _ rfl
    have hfl : (UpdateBoundariesList Dimension Get (InsertInternal t1 point).2 ul
        point).nodeFloor.find pp = some f := hf
    simp only [hpar, ne_eq, not_false_eq_true, if_true] at ht'
    cases upper with
    | true =>
      simp only [if_true] at ht'
      rw [SetUpper_eq _ parent point pp _ f hidxparent hidxpoint hfl] at ht'
      have ht := (Option.some.inj ht').symm
      subst ht
      refine ⟨?_, rfl, by simp [UpdateBoundariesList, InsertInternal]⟩
      have := attach_inv Dimension t1 point pp (f + 1) true _ t1.indexByBalanceAndFloor
        t1.pointDataVector.length rfl hexit.base hp0 hnew hpplt hB hbalo hup hlo
      simpa [UpdateBoundariesList, InsertInternal] using this
    | false =>
      simp only [Bool.false_eq_true, if_false] at ht'
      rw [SetLower_eq _ parent point pp _ f hidxparent hidxpoint hfl] at ht'
      have ht := (Option.some.inj ht').symm
      subst ht
      refine ⟨?_, rfl, by simp [UpdateBoundariesList, InsertInternal]⟩
      have := attach_inv Dimension t1 point pp (f + 1) false _ t1.indexByBalanceAndFloor
        t1.pointDataVector.length rfl hexit.base hp0 hnew hpplt hB hbalo hup hlo
      simpa [UpdateBoundariesList, InsertInternal] using this

/-- `Insert` of a non-null handle that is not live keeps the invariant of insert-built
trees, appends the handle to the vector and records its position. -/
theorem Insert_inv (fuel : Nat) (t t' : KDTree) (point : Nat) (inv : InsertInv Dimension t)
    (hp0 : point ≠ 0) (hnew : t.indexedPointData.find point = none)
    (hrun : Insert Dimension Get fuel t point = some t') :
    InsertInv Dimension t' ∧ t'.pointDataVector = t.pointDataVector ++ [point] ∧
      t'.indexedPointData = t.indexedPointData.set point t.pointDataVector.length := by
  unfold Insert at hrun
  simp only [hp0, ne_eq, not_false_eq_true, if_true] at hrun
  cases hloop : InsertLoop Dimension Get point fuel t t.origin 0 0 false [] with
  | none => rw [hloop] at hrun; cases hrun
  | some r =>
    obtain ⟨⟨parent, upper, ul⟩, t1⟩ := r
    rw [hloop] at hrun
    simp only at hrun
    obtain ⟨hexit, hF, hul⟩ := InsertLoop_post Dimension Get point fuel t t.origin 0 0 false []
      (parent, upper, ul) t1
      (fun h => ⟨inv, 0, (origin_live Dimension t inv h).1⟩)
      (fun h => ⟨inv.base, fun _ => ⟨origin_null Dimension t inv h, inv.bal⟩,
        fun h0 => absurd rfl h0⟩)
      (by intro q hq; cases hq) hloop
    obtain ⟨f1, f2, -⟩ := frame_fields hF
    obtain ⟨h1, h2, h3⟩ := finish_inv Dimension Get t1 parent upper ul point hexit hp0
      (by rw [f2]; exact hnew) hul t' hrun
    exact ⟨h1, by rw [h2, f1], by rw [h3, f1, f2]⟩

/-- With as much fuel as the tree has points, `Insert` returns on a tree that satisfies
the invariant. -/
theorem Insert_total (fuel : Nat) (t : KDTree) (point : Nat) (inv : InsertInv Dimension t)
    (hfuel : t.pointDataVector.length ≤ fuel) :
    ∃ t', Insert Dimension Get fuel t point = some t' := by
  unfold Insert
  by_cases hp0 : point = 0
  · exact ⟨t, by simp [hp0]⟩
  · simp only [hp0, ne_eq, not_false_eq_true, if_true]
    obtain ⟨res, t1, hloop, -⟩ := InsertLoop_spec Dimension Get point fuel t t.origin 0 0 false []
      (fun h => ⟨inv, 0, (origin_live Dimension t inv h).1, by omega⟩)
      (fun h => ⟨inv.base, fun _ => ⟨origin_null Dimension t inv h, inv.bal⟩,
        fun h0 => absurd rfl h0⟩)
      (by intro q hq; cases hq)
    obtain ⟨parent, upper, ul⟩ := res
    rw [hloop]
    simp only
    split
    · split <;> exact ⟨_, rfl⟩
    · exact ⟨_, rfl⟩

end Coordinates

end gbi
namespace gbi

theorem empty_inv (Dimension : Nat) : InsertInv Dimension KDTree.empty := by
  refine ⟨⟨⟨by simp [KDTree.empty], ?_⟩, ⟨?_, ?_, ?_, ?_, ?_⟩, ?_, ?_, ?_, rfl⟩, ?_⟩
  · intro h i; simp [KDTree.empty, Map.find]
  · intro c p h; simp [KDTree.empty, Map.find] at h
  · intro c p h; simp [KDTree.empty, Map.find] at h
  · intro c p h; simp [KDTree.empty, Map.find] at h
  · intro c p h; simp [KDTree.empty, Map.find] at h
  · intro c p h; simp [KDTree.empty, Map.find] at h
  · intro p h; simp [KDTree.empty] at h
  · intro q g arr h; simp [KDTree.empty] at h
  · intro g arr h; simp [KDTree.empty, Map.find] at h
  · intro p
    constructor
    · intro h; simp [IsLeaf, KDTree.empty, Map.find] at h
    · intro _; simp [KDTree.empty, Map.find]

section Coordinates

variable {α : Type} [DecidableEq α] [LT α] [∀ a b : α, Decidable (a < b)]
variable (Dimension : Nat) (Get : PointData → Nat → α)

/-- Inserting distinct non-null handles that are not live, with enough fuel, returns a
tree that satisfies the invariant and in which exactly the old and the new handles are
live. -/
theorem runInserts (fuel : Nat) (hs : List Nat) :
    ∀ t : KDTree, InsertInv Dimension t → hs.Nodup → 0 ∉ hs →
      (∀ g ∈ hs, t.indexedPointData.find g = none) →
      t.pointDataVector.length + hs.length ≤ fuel →
      ∃ t', runCalls Dimension Get fuel t (hs.map Call.insert) = some t' ∧
        InsertInv Dimension t' ∧ t'.pointDataVector = t.pointDataVector ++ hs ∧
        ∀ g : Nat, live t' g = (live t g || decide (g ∈ hs)) := by
  induction hs with
  | nil =>
    intro t inv _ _ _ _
    exact ⟨t, rfl, inv, by simp, by simp⟩
  | cons a r ih =>
    intro t inv hnd h0 hnew hfuel
    have hlen : (a :: r).length = r.length + 1 := rfl
    obtain ⟨t1, h1⟩ := Insert_total Dimension Get fuel t a inv (by omega)
    have ha0 : a ≠ 0 := fun e => h0 (by simp [e])
    obtain ⟨inv1, hv1, hi1⟩ := Insert_inv Dimension Get fuel t t1 a inv ha0
      (hnew a (by simp)) h1
    have hnd' := List.nodup_cons.1 hnd
    obtain ⟨t', hrun, inv', hv', hl'⟩ := ih t1 inv1 hnd'.2
      (fun h => h0 (List.mem_cons_of_mem _ h))
      (by
        intro g hg
        rw [hi1, Map.find_set]
        have hga : g ≠ a := fun e => hnd'.1 (e ▸ hg)
        rw [if_neg hga]
        exact hnew g (List.mem_cons_of_mem _ hg))
      (by rw [hv1]; simp; omega)
    refine ⟨t', ?_, inv', by rw [hv', hv1]; simp, ?_⟩
    · simp only [List.map_cons, runCalls, h1]
      exact hrun
    · intro g
      rw [hl' g]
      simp only [live, hi1, Map.find_set]
      by_cases hga : g = a
      · simp [hga]
      · simp [hga]

end Coordinates

end gbi
namespace gbi

section Coordinates

variable {α : Type} [DecidableEq α] [LT α] [∀ a b : α, Decidable (a < b)]
variable (Dimension : Nat) (Get : PointData → Nat → α)

/-- C2: let `hs` be distinct non-null handles and let the fuel be at least their number.
The `Insert` calls on `hs`, run from the empty tree, return a tree `t` whose live handles
are exactly `hs`. For every live handle `h` of `t`, `Erase(h)` returns a tree `t'` in which
`h` is not live, every other handle that was live in `t` is still live, the vector and the
reverse map are mutually inverse (`pointDataVector[indexedPointData[g]] = g` for every
live `g`, and `indexedPointData[pointDataVector[i]] = i` for every position `i` below the
new size), and the vector is one element shorter. -/
theorem C2_erase_keeps_store_bijective (hD : 0 < Dimension) (hs : List PointData)
    (hnd : hs.Nodup) (h0 : (0 : PointData) ∉ hs) (fuel : Nat) (hfuel : hs.length ≤ fuel) :
    ∃ t, runCalls Dimension Get fuel KDTree.empty (hs.map Call.insert) = some t ∧
      (∀ g, live t g = true ↔ g ∈ hs) ∧
      ∀ h, live t h = true →
        ∃ t', Erase Dimension Get fuel t h = some t' ∧
          live t' h = false ∧
          (∀ g, g ≠ h → live t g = true → live t' g = true) ∧
          (∀ g i, t'.indexedPointData.find g = some i → t'.pointDataVector[i]? = some g) ∧
          (∀ i, i < t'.pointDataVector.length →
            ∃ g, t'.pointDataVector[i]? = some g ∧ t'.indexedPointData.find g = some i) ∧
          t'.pointDataVector.length + 1 = hs.length := by
  obtain ⟨t, hrun, inv, hv, hl⟩ := runInserts Dimension Get fuel hs KDTree.empty
    (empty_inv Dimension) hnd h0 (fun g _ => rfl) (by simpa [KDTree.empty] using hfuel)
  have hvec : t.pointDataVector = hs := by simpa [KDTree.empty] using hv
  refine ⟨t, hrun, ?_, ?_⟩
  · intro g
    rw [hl g]
    simp [live, KDTree.empty, Map.find]
  · intro h hh
    have hsome : (t.indexedPointData.find h).isSome = true := hh
    obtain ⟨i, hi⟩ := Option.isSome_iff_exists.1 hsome
    obtain ⟨t', hE, hst, hlen, hlive⟩ := Erase_ok Dimension Get hD t inv h i hi fuel
      (by rw [hvec]; exact hfuel)
    have hpos : 0 < t.pointDataVector.length := by
      have := inv.base.store.lt_length hi
      omega
    refine ⟨t', hE, ?_, ?_, ?_, ?_, ?_⟩
    · have := hlive h
      simpa [live] using this
    · intro g hg hgl
      have := hlive g
      have hgl' : (t.indexedPointData.find g).isSome = true := hgl
      simp only [live]
      rw [this, hgl']
      simp [hg]
    · intro g j hgj
      exact (hst.idx_vec g j).1 hgj
    · intro j hj
      have hj' : j < t'.pointDataVector.length := hj
      refine ⟨t'.pointDataVector[j], List.getElem?_eq_getElem hj', ?_⟩
      exact (hst.idx_vec _ j).2 (List.getElem?_eq_getElem hj')
    · rw [hlen, ← hvec]
      omega

end Coordinates

/-- Witness for C2: the handles `2`, `1`, `3` on a line, with fuel `3`. -/
theorem C2_erase_keeps_store_bijective_witness :
    0 < 1 ∧ ([2, 1, 3] : List PointData).Nodup ∧ (0 : PointData) ∉ ([2, 1, 3] : List PointData) ∧
      ([2, 1, 3] : List PointData).length ≤ 3 ∧
      ∃ t, runCalls 1 lineGet 3 KDTree.empty (([2, 1, 3] : List PointData).map Call.insert)
          = some t ∧
        (∀ g, live t g = true ↔ g ∈ ([2, 1, 3] : List PointData)) ∧
        ∀ h, live t h = true →
          ∃ t', Erase 1 lineGet 3 t h = some t' ∧
            live t' h = false ∧
            (∀ g, g ≠ h → live t g = true → live t' g = true) ∧
            (∀ g i, t'.indexedPointData.find g = some i → t'.pointDataVector[i]? = some g) ∧
            (∀ i, i < t'.pointDataVector.length →
              ∃ g, t'.pointDataVector[i]? = some g ∧ t'.indexedPointData.find g = some i) ∧
            t'.pointDataVector.length + 1 = ([2, 1, 3] : List PointData).length :=
  ⟨by decide, by decide, by decide, by decide,
    C2_erase_keeps_store_bijective 1 lineGet (by decide) [2, 1, 3] (by decide) (by decide) 3
      (by decide)⟩

end gbi
namespace gbi

/-- C16: on the tree built by `Insert` of `2`, `1`, `3` on a line, position `0` has the
lower child `1` (handle `1`) and the upper child `2` (handle `3`), both leaves, and the
boundary entry `[1, 3]`.  The recompute `UpdateBoundaries(0)` stores `[3, 3]` for the
handle `2` of position `0`: the minimum slot holds the upper child although the lower child
has the smaller coordinate, so the lower child does not contribute. -/
theorem C16_recompute_drops_lower_child :
    (runCalls 1 lineGet 4 KDTree.empty [Call.insert 2, Call.insert 1, Call.insert 3]).map
        (fun t => (t.pointDataVector, t.lowerIndex.find 0, t.upperIndex.find 0))
      = some ([2, 1, 3], some 1, some 2) ∧
    (runCalls 1 lineGet 4 KDTree.empty [Call.insert 2, Call.insert 1, Call.insert 3]).bind
        (fun t => (UpdateBoundaries 1 lineGet t 0).map (fun t' =>
          (t.boundaries.find 2, t'.boundaries.find 2)))
      = some (some [1, 3], some [3, 3]) := by
  decide

/-- C18: on the tree built by `Insert` of `4`, `2`, `1`, `3` on a line, position `0` has
balance `-3`, its lower child is position `1` (handle `2`) and position `3` (handle `3`) is
a strict descendant of position `1`, hence in the lower subtree of position `0`.
`GetBestReplacementCandidate(0)` returns position `1`, whose coordinate `2` is not the
greatest of the lower subtree. -/
theorem C18_lower_candidate_not_greatest :
    (runCalls 1 lineGet 4 KDTree.empty
        [Call.insert 4, Call.insert 2, Call.insert 1, Call.insert 3]).map
        (fun t => (t.pointDataVector, t.balanceByIndex.find 0, t.lowerIndex.find 0))
      = some ([4, 2, 1, 3], some (-3), some 1) ∧
    (runCalls 1 lineGet 4 KDTree.empty
        [Call.insert 4, Call.insert 2, Call.insert 1, Call.insert 3]).bind
        (fun t => (GetBestReplacementCandidate 1 lineGet t 0).map (fun r =>
          (ancestors t 4 3, r.1)))
      = some ([1, 0], 1) := by
  decide

/-- C20: on the tree built by `Insert` of `4`, `2`, `1`, `3` on a line, `Erase(4)` returns a
tree whose position `0` (floor `0`, so axis `0`) holds handle `2` and has the lower child
position `1`, which holds handle `3`: a point of the lower subtree has a greater coordinate
than the point of its ancestor. -/
theorem C20_erase_breaks_ordering :
    (runCalls 1 lineGet 4 KDTree.empty
        [Call.insert 4, Call.insert 2, Call.insert 1, Call.insert 3, Call.erase 4]).map
        (fun t => (t.pointDataVector, t.nodeFloor.find 0, t.lowerIndex.find 0))
      = some ([2, 3, 1], some 0, some 1) := by
  decide

end gbi
namespace gbi

theorem minKey_le_nat {V : Type} (m : Map Nat V) (k : Nat) (v : V) (h : m.find k = some v) :
    ∃ k0, m.minKey = some k0 ∧ k0 ≤ k := by
  induction m with
  | nil => simp [Map.find] at h
  | cons e r ih =>
    obtain ⟨k1, v1⟩ := e
    simp only [Map.minKey]
    simp only [Map.find] at h
    cases hr : Map.minKey r with
    | none =>
      have hnil : r = [] := (Map.minKey_none r).1 hr
      subst hnil
      by_cases hk : k = k1
      · exact ⟨k1, rfl, by omega⟩
      · simp [hk, Map.find] at h
    | some x =>
      by_cases hk : k = k1
      · by_cases h2 : x < k1
        · exact ⟨x, by simp [h2], by omega⟩
        · exact ⟨k1, by simp [h2], by omega⟩
      · simp only [hk, if_false] at h
        obtain ⟨k0, hk0, hle⟩ := ih h
        rw [hr] at hk0
        have hx : x = k0 := by simpa using hk0
        by_cases h2 : x < k1
        · exact ⟨x, by simp [h2], by omega⟩
        · exact ⟨k1, by simp [h2], by omega⟩

theorem setMin_le (s : List Nat) (x : Nat) (h : setMin s = some x) : ∀ q ∈ s, x ≤ q := by
  induction s generalizing x with
  | nil => simp [setMin] at h
  | cons a r ih =>
    simp only [setMin] at h
    cases hr : setMin r with
    | none =>
      rw [hr] at h
      have hnil : r = [] := by
        cases r with
        | nil => rfl
        | cons b r' =>
          simp only [setMin] at hr
          split at hr
          · cases hr
          · split at hr <;> cases hr
      subst hnil
      have hx : a = x := by simpa using h
      subst hx
      intro q hq
      have hq' : q = a := by simpa using hq
      rw [hq']
    | some m =>
      rw [hr] at h
      have hm := ih m hr
      intro q hq
      by_cases h2 : m < a
      · simp only [h2, if_true, Option.some.injEq] at h
        subst h
        rcases List.mem_cons.1 hq with hqa | hqr
        · rw [hqa]; exact Nat.le_of_lt h2
        · exact hm q hqr
      · simp only [h2, if_false, Option.some.injEq] at h
        subst h
        rcases List.mem_cons.1 hq with hqa | hqr
        · rw [hqa]
        · exact Nat.le_trans (Nat.le_of_not_lt h2) (hm q hqr)

/-- In a balance bucket without empty parts the candidate search returns the least
position of the least floor. -/
theorem firstOfBucket_least (inner : Map UInt (List SizeT)) (hne : inner ≠ [])
    (hsets : ∀ f s, inner.find f = some s → s ≠ []) :
    ∃ (f x : Nat) (s : List Nat), firstOfBucket inner = some x ∧ inner.find f = some s ∧
      x ∈ s ∧ (∀ q ∈ s, x ≤ q) ∧ ∀ (f' : Nat) (s' : List Nat), inner.find f' = some s' → f ≤ f' := by
  cases hm : inner.minKey with
  | none => exact absurd ((Map.minKey_none inner).1 hm) hne
  | some f =>
    obtain ⟨s, hs⟩ := Map.find_isSome_of_minKey inner f hm
    obtain ⟨x, hx, hmem⟩ := setMin_mem s (hsets f s hs)
    refine ⟨f, x, s, by simp [firstOfBucket, hm, hs, hx], hs, hmem, setMin_le s x hx, ?_⟩
    intro f' s' hf'
    obtain ⟨k0, hk0, hle⟩ := minKey_le_nat inner f' s' hf'
    rw [hm] at hk0
    have hfk : f = k0 := by simpa using hk0
    rw [hfk]
    exact hle

/-- The candidate of a balance key with a bucket, in a priority index that is in sync and
has no empty bucket: the search finds it, it has that balance. -/
theorem candidate_of_key (t : KDTree) (hsync : IndexInSync t)
    (hne : NoEmptyBucket t.indexByBalanceAndFloor) (b : Int) (inner : Map UInt (List SizeT))
    (hb : t.indexByBalanceAndFloor.find b = some inner) :
    ∃ x : Nat, firstOfBucket inner = some x ∧ t.balanceByIndex.find x = some b ∧
      isCandidate t.indexByBalanceAndFloor b x := by
  obtain ⟨hin, hsets⟩ := hne b inner hb
  obtain ⟨f, x, s, hx, hfs, hmem, hleast, hfloor⟩ := firstOfBucket_least inner hin hsets
  have hbk : bucket t.indexByBalanceAndFloor b f = s := by simp [bucket, hb, hfs]
  refine ⟨x, hx, (hsync x b).2 ⟨f, by rw [hbk]; exact hmem⟩, f, by rw [hbk]; exact hmem,
    by rw [hbk]; exact hleast, ?_⟩
  intro f' hf'
  cases hfind : inner.find f' with
  | none => simp [bucket, hb, hfind] at hf'
  | some s' => exact hfloor f' s' hfind

section Coordinates

variable {α : Type} [DecidableEq α] [LT α] [∀ a b : α, Decidable (a < b)]
variable (Dimension : Nat) (Get : PointData → Nat → α)

theorem rebalance_of_select (fuel : Nat) (t : KDTree) (h : Nat) (hh : h ≠ 0)
    (hlen : 0 < t.indexByBalanceAndFloor.length) (hsel : selectRebalance t = some (h, t)) :
    RebalanceIteration Dimension Get fuel t =
      ((Erase Dimension Get fuel t h).bind (fun t1 => Insert Dimension Get fuel t1 h)).map
        (fun t2 => (true, t2)) := by
  unfold RebalanceIteration
  simp only [hlen, if_true, hsel, hh, ne_eq, not_false_eq_true]
  cases hE : Erase Dimension Get fuel t h with
  | none => rfl
  | some t1 =>
    simp only [Option.some_bind]
    cases hI : Insert Dimension Get fuel t1 h with
    | none => rfl
    | some t2 => rfl

/-- In a state whose priority index is in sync with `balanceByIndex` and has no empty
bucket, whose vector stores no null handle and covers every position that has a balance,
and in which some balance has absolute value above 1, `RebalanceIteration` acts on the
handle `h` at the position selected by the rule of the specification: its result is that of
`Erase(h)` followed by `Insert(h)`, with `true`, and it ends abnormally when they do. -/
theorem rebalance_selects_and_reinserts (fuel : Nat) (t : KDTree) (hsync : IndexInSync t)
    (hne : NoEmptyBucket t.indexByBalanceAndFloor) (hnull : 0 ∉ t.pointDataVector)
    (hvalid : ∀ (p : Nat) (b : Int), t.balanceByIndex.find p = some b →
      p < t.pointDataVector.length)
    (p0 : Nat) (b0 : Int) (hp : t.balanceByIndex.find p0 = some b0) (hb : 1 < b0.natAbs) :
    ∃ (p : Nat) (h : Nat), specSelected t p ∧ t.pointDataVector[p]? = some h ∧
      RebalanceIteration Dimension Get fuel t =
        ((Erase Dimension Get fuel t h).bind (fun t1 => Insert Dimension Get fuel t1 h)).map
          (fun t2 => (true, t2)) := by
  obtain ⟨f0, hpf⟩ := (hsync p0 b0).1 hp
  have hfind : ∃ inner, t.indexByBalanceAndFloor.find b0 = some inner := by
    cases h : t.indexByBalanceAndFloor.find b0 with
    | none => simp [bucket, h, Map.find] at hpf
    | some inner => exact ⟨inner, rfl⟩
  obtain ⟨inner0, hinner0⟩ := hfind
  have hlen : 0 < t.indexByBalanceAndFloor.length := by
    cases h : t.indexByBalanceAndFloor with
    | nil => rw [h] at hinner0; simp [Map.find] at hinner0
    | cons e r => simp
  obtain ⟨lo, hmin, hlo⟩ := minKey_le_of_find _ b0 inner0 hinner0
  obtain ⟨hi, hmax, hhi⟩ := le_maxKey_of_find _ b0 inner0 hinner0
  obtain ⟨il, hil⟩ := Map.find_isSome_of_minKey _ lo hmin
  obtain ⟨ih, hih⟩ := Map.find_isSome_of_maxKey _ hi hmax
  obtain ⟨xl, hfl, hbl, hcl⟩ := candidate_of_key t hsync hne lo il hil
  obtain ⟨xh, hfh, hbh, hch⟩ := candidate_of_key t hsync hne hi ih hih
  have hill : 0 < il.length := List.length_pos.2 (hne lo il hil).1
  have hihl : 0 < ih.length := List.length_pos.2 (hne hi ih hih).1
  have hxl := hvalid xl lo hbl
  have hxh := hvalid xh hi hbh
  have hleast : ∀ b' : Int, (t.indexByBalanceAndFloor.find b').isSome → lo ≤ b' := by
    intro b' hb'
    obtain ⟨v, hv⟩ := Option.isSome_iff_exists.1 hb'
    obtain ⟨k0, hk0, hle⟩ := minKey_le_of_find _ b' v hv
    rw [hmin] at hk0
    have : lo = k0 := by simpa using hk0
    omega
  have hgreatest : ∀ b' : Int, (t.indexByBalanceAndFloor.find b').isSome → b' ≤ hi := by
    intro b' hb'
    obtain ⟨v, hv⟩ := Option.isSome_iff_exists.1 hb'
    obtain ⟨k0, hk0, hle⟩ := le_maxKey_of_find _ b' v hv
    rw [hmax] at hk0
    have : hi = k0 := by simpa using hk0
    omega
  have hlos : (t.indexByBalanceAndFloor.find lo).isSome := by simp [hil]
  have his : (t.indexByBalanceAndFloor.find hi).isSome := by simp [hih]
  have hvl : vecAt t xl = some (t.pointDataVector[xl]) := List.getElem?_eq_getElem hxl
  have hvh : vecAt t xh = some (t.pointDataVector[xh]) := List.getElem?_eq_getElem hxh
  have hnl : t.pointDataVector[xl] ≠ 0 := fun e => hnull (e ▸ List.getElem_mem hxl)
  have hnh : t.pointDataVector[xh] ≠ 0 := fun e => hnull (e ▸ List.getElem_mem hxh)
  have hsel0 : selectRebalance t =
      (if lo < -1 then
        if 1 < hi then
          if hi.natAbs < lo.natAbs then some (t.pointDataVector[xl], t)
          else some (t.pointDataVector[xh], t)
        else some (t.pointDataVector[xl], t)
      else if 1 < hi then some (t.pointDataVector[xh], t) else some (0, t)) := by
    unfold selectRebalance
    simp only [hmin, hmax, hil, hih, Option.getD_some, hill, hihl, and_true, hfl, hfh,
      Option.map_some']
    by_cases h1 : lo < -1 <;> by_cases h2 : 1 < hi
    · simp only [h1, h2, if_true, balanceAt_hit t xl lo hbl, balanceAt_hit t xh hi hbh, hvl, hvh,
        Option.map_some']
    · simp only [h1, h2, if_true, if_false, hvl, Option.map_some']
    · simp only [h1, h2, if_true, if_false, hvh, Option.map_some']
    · simp only [h1, h2, if_false]
  by_cases h1 : lo < -1 <;> by_cases h2 : 1 < hi
  · by_cases h3 : hi.natAbs < lo.natAbs
    · refine ⟨xl, t.pointDataVector[xl], Or.inr (Or.inr ⟨lo, hi, xl, xh, ⟨h1, hlos, hleast⟩,
        ⟨h2, his, hgreatest⟩, hcl, hch, by simp [hbl, hbh, h3]⟩), List.getElem?_eq_getElem hxl, ?_⟩
      exact rebalance_of_select Dimension Get fuel t _ hnl hlen (by rw [hsel0]; simp [h1, h2, h3])
    · refine ⟨xh, t.pointDataVector[xh], Or.inr (Or.inr ⟨lo, hi, xl, xh, ⟨h1, hlos, hleast⟩,
        ⟨h2, his, hgreatest⟩, hcl, hch, by simp [hbl, hbh, h3]⟩), List.getElem?_eq_getElem hxh, ?_⟩
      exact rebalance_of_select Dimension Get fuel t _ hnh hlen (by rw [hsel0]; simp [h1, h2, h3])
  · refine ⟨xl, t.pointDataVector[xl], Or.inl ⟨lo, ⟨h1, hlos, hleast⟩, ?_, hcl⟩,
      List.getElem?_eq_getElem hxl, ?_⟩
    · intro bp hbp
      have := hgreatest bp hbp.2.1
      have := hbp.1
      omega
    · exact rebalance_of_select Dimension Get fuel t _ hnl hlen (by rw [hsel0]; simp [h1, h2])
  · refine ⟨xh, t.pointDataVector[xh], Or.inr (Or.inl ⟨hi, ⟨h2, his, hgreatest⟩, ?_, hch⟩),
      List.getElem?_eq_getElem hxh, ?_⟩
    · intro bn hbn
      have := hleast bn hbn.2.1
      have := hbn.1
      omega
    · exact rebalance_of_select Dimension Get fuel t _ hnh hlen (by rw [hsel0]; simp [h1, h2])
  · omega

end Coordinates

theorem threeChainTree_inSync : IndexInSync threeChainTree := by
  intro p b
  simp only [threeChainTree, bucket, Map.find]
  constructor
  · intro h
    by_cases hp : p = 0
    · subst hp
      simp at h
      subst h
      exact ⟨0, by decide⟩
    · by_cases hp1 : p = 1
      · subst hp1
        simp at h
        subst h
        exact ⟨1, by decide⟩
      · simp [hp, hp1] at h
  · rintro ⟨f, hf⟩
    by_cases hb1 : b = 1
    · subst hb1
      by_cases hf1 : f = 1
      · subst hf1
        simp [Map.find] at hf
        simp [hf]
      · simp [Map.find, hf1] at hf
    · by_cases hb2 : b = 2
      · subst hb2
        by_cases hf0 : f = 0
        · subst hf0
          simp [Map.find] at hf
          simp [hf]
        · simp [Map.find, hf0] at hf
      · simp [hb1, hb2, Map.find] at hf

theorem threeChainTree_noEmptyBucket : NoEmptyBucket threeChainTree.indexByBalanceAndFloor := by
  intro b inner hb
  simp only [threeChainTree] at hb
  by_cases hb1 : b = 1
  · subst hb1
    simp [Map.find] at hb
    subst hb
    refine ⟨by simp, ?_⟩
    intro f s hf
    by_cases hf1 : f = 1
    · subst hf1
      simp [Map.find] at hf
      subst hf
      simp
    · simp [Map.find, hf1] at hf
  · by_cases hb2 : b = 2
    · subst hb2
      simp [Map.find] at hb
      subst hb
      refine ⟨by simp, ?_⟩
      intro f s hf
      by_cases hf0 : f = 0
      · subst hf0
        simp [Map.find] at hf
        subst hf
        simp
      · simp [Map.find, hf0] at hf
    · simp [Map.find, hb1, hb2] at hb

end gbi
namespace gbi

section Coordinates

variable {α : Type} [DecidableEq α] [LT α] [∀ a b : α, Decidable (a < b)]
variable (Dimension : Nat) (Get : PointData → Nat → α)

theorem goesLower_value (point : Nat) (t : KDTree) (current pc dim : Nat)
    (hc : t.indexedPointData.find current = some pc) :
    (goesLower Get point t current dim).1 =
      decide (Get point dim < Get current dim ∨
        (Get point dim = Get current dim ∧ 0 < (t.balanceByIndex.find pc).getD 0)) := by
  unfold goesLower
  by_cases hlt : Get point dim < Get current dim
  · simp [hlt]
  · by_cases heq : Get point dim = Get current dim
    · have hlt' : ¬ Get current dim < Get current dim := heq ▸ hlt
      simp only [heq, hlt', if_false, if_true, idxAt_hit t current pc hc, (balanceAt_spec t pc).1,
        false_or, true_and]
    · simp [hlt, heq]

/-- One round of the descent of `Insert` from a live handle, in full: the side is the one
of the placement rule, the next handle is the child on that side (null when absent), and
only the balance of the node just left changes, by one. -/
theorem InsertStep_exact (point : Nat) (t : KDTree) (inv : InsertInv Dimension t)
    (current pc dim : Nat) (hc : t.indexedPointData.find current = some pc) (up : Bool)
    (hup : up = !decide (Get point dim < Get current dim ∨
        (Get point dim = Get current dim ∧ 0 < (t.balanceByIndex.find pc).getD 0))) :
    ∃ t' : KDTree,
      InsertStep Get point t current dim =
        some ((((childOn t pc up).map (fun c => t.pointDataVector.getD c 0)).getD 0, up), t') ∧
      frame t' = frame t ∧
      ∀ k : Nat, t'.balanceByIndex.find k =
        if k = pc then some ((t.balanceByIndex.find pc).getD 0 + (if up then 1 else -1))
        else t.balanceByIndex.find k := by
  obtain ⟨hfr, hb0, hbk⟩ := goesLower_spec Get point t current pc dim hc
  have hval := goesLower_value Get point t current pc dim hc
  have hpclt : pc < t.pointDataVector.length := inv.store.lt_length hc
  obtain ⟨f, hf⟩ := inv.floor_some pc hpclt
  generalize hgo : goesLower Get point t current dim = go at hfr hb0 hbk hval
  obtain ⟨gl, tb⟩ := go
  simp only at hfr hb0 hbk hval
  obtain ⟨e1, e2, e3, e4, e5, e6, e7, e8⟩ := frame_fields hfr
  have hcb : tb.indexedPointData.find current = some pc := by rw [e2]; exact hc
  have hfb : tb.nodeFloor.find pc = some f := by rw [e3]; exact hf
  have hupgl : up = !gl := by rw [hup, hval]
  have hUB : frame (UpdateBalance tb current up) = frame t ∧
      ∀ k : Nat, (UpdateBalance tb current up).balanceByIndex.find k =
        if k = pc then some ((t.balanceByIndex.find pc).getD 0 + (if up then 1 else -1))
        else t.balanceByIndex.find k := by
    obtain ⟨h1, h2⟩ := UpdateBalance_spec tb current pc f up hcb hfb
    refine ⟨by rw [h1, hfr], ?_⟩
    intro k
    rw [h2 k]
    by_cases hk : k = pc
    · simp only [hk, if_true, hb0]
    · simp only [hk, if_false]
      exact hbk k hk
  have hlowv : ∀ c : Nat, tb.lowerIndex.find pc = some c → c < tb.pointDataVector.length := by
    intro c h
    rw [e4] at h; rw [e1]
    exact (inv.topo.parent_lt c pc (inv.topo.lower_parent pc c h)).2
  have huppv : ∀ c : Nat, tb.upperIndex.find pc = some c → c < tb.pointDataVector.length := by
    intro c h
    rw [e5] at h; rw [e1]
    exact (inv.topo.parent_lt c pc (inv.topo.upper_parent pc c h)).2
  refine ⟨UpdateBalance tb current up, ?_, hUB.1, hUB.2⟩
  unfold InsertStep
  simp only [hgo]
  cases gl with
  | true =>
    have hu : up = false := by rw [hupgl]; rfl
    subst hu
    simp only [if_true, GetLower_hit tb current pc hcb hlowv, Bool.not_true, childOn,
      Bool.false_eq_true, if_false, e4, e1]
    cases hl : t.lowerIndex.find pc <;> rfl
  | false =>
    have hu : up = true := by rw [hupgl]; rfl
    subst hu
    simp only [Bool.false_eq_true, if_false, GetUpper_hit tb current pc hcb huppv, Bool.not_false,
      childOn, if_true, e5, e1]
    cases hl : t.upperIndex.find pc <;> rfl

end Coordinates

end gbi
namespace gbi

theorem getLast?_cons_of_some {β : Type} (a x : β) (l : List β) (h : l.getLast? = some x) :
    (a :: l).getLast? = some x := by
  cases l with
  | nil => simp at h
  | cons b r => rw [List.getLast?_cons_cons]; exact h

theorem lookup_none_of_lt (path : List (Nat × Bool)) (k c : Nat) (hk : k < c)
    (h : ∀ e ∈ path, c ≤ e.1) : path.lookup k = none := by
  induction path with
  | nil => rfl
  | cons e r ih =>
    obtain ⟨a, s⟩ := e
    have ha : c ≤ a := h (a, s) (by simp)
    have hne : (k == a) = false := by
      rw [beq_eq_false_iff_ne]
      omega
    rw [List.lookup_cons, hne]
    exact ih (fun e he => h e (by simp [he]))

section Coordinates

variable {α : Type} [DecidableEq α] [LT α] [∀ a b : α, Decidable (a < b)]
variable (Dimension : Nat) (Get : PointData → Nat → α)

/-- The descent of `Insert` follows the walk of the placement rule read off the state `t0`
in which it started: it ends at the last node of the walk with the side taken there, it
has collected the handles of the walk, and it has bumped the balances of the visited
positions and no other. -/
theorem InsertLoop_exact (point : Nat) (t0 : KDTree) (fuel : Nat) :
    ∀ (t : KDTree) (current parent dim : Nat) (upper : Bool) (ul : List Nat) (pc depth : Nat)
      (res : Nat × Bool × List Nat) (t1 : KDTree),
      InsertInv Dimension t → frame t = frame t0 →
      t.indexedPointData.find current = some pc →
      (∀ k : Nat, pc ≤ k → t.balanceByIndex.find k = t0.balanceByIndex.find k) →
      dim = depth % Dimension →
      InsertLoop Dimension Get point fuel t current parent dim upper ul = some (res, t1) →
      ∃ (pl : Nat) (up : Bool),
        (specDescent Dimension Get point t0 fuel pc depth).getLast? = some (pl, up) ∧
        t0.pointDataVector[pl]? = some res.1 ∧ res.2.1 = up ∧
        res.2.2 = ul ++ (specDescent Dimension Get point t0 fuel pc depth).map
          (fun e => t0.pointDataVector.getD e.1 0) ∧
        childOn t0 pl up = none ∧
        (∀ e ∈ specDescent Dimension Get point t0 fuel pc depth,
          pc ≤ e.1 ∧ e.1 < t0.pointDataVector.length) ∧
        ∀ k : Nat, t1.balanceByIndex.find k =
          if ((specDescent Dimension Get point t0 fuel pc depth).lookup k).isSome then
            bumped (t0.balanceByIndex.find k)
              ((specDescent Dimension Get point t0 fuel pc depth).lookup k)
          else t.balanceByIndex.find k := by
  induction fuel with
  | zero =>
    intro t current parent dim upper ul pc depth res t1 inv hF hc hbal hdim hrun
    have hcur0 : current ≠ 0 := inv.store.ne_zero ((inv.store.idx_vec current pc).1 hc)
    simp [InsertLoop, hcur0] at hrun
  | succ fuel ih =>
    intro t current parent dim upper ul pc depth res t1 inv hF hc hbal hdim hrun
    have hpcv := (inv.store.idx_vec current pc).1 hc
    have hcur0 : current ≠ 0 := inv.store.ne_zero hpcv
    have hpclt : pc < t.pointDataVector.length := inv.store.lt_length hc
    obtain ⟨e1, e2, e3, e4, e5, e6, e7, e8⟩ := frame_fields hF
    have hnode : t0.pointDataVector.getD pc 0 = current := by
      rw [← e1, List.getD_eq_getElem?_getD, hpcv]; rfl
    have hnode' : t0.pointDataVector[pc]?.getD 0 = current := by
      rw [← e1, hpcv]; rfl
    have hside : specSide Dimension Get point t0 pc depth =
        !decide (Get point dim < Get current dim ∨
          (Get point dim = Get current dim ∧ 0 < (t.balanceByIndex.find pc).getD 0)) := by
      unfold specSide
      rw [hnode, ← hdim, hbal pc (Nat.le_refl _)]
    obtain ⟨t', hstep, hF', hbal'⟩ := InsertStep_exact Dimension Get point t inv current pc dim hc
      (specSide Dimension Get point t0 pc depth) hside
    obtain ⟨child, up2, t'', hstep2, -, hA, -⟩ :=
      InsertStep_spec Dimension Get point t inv current pc dim hc
    rw [hstep] at hstep2
    have hinj := Option.some.inj hstep2
    simp only [Prod.mk.injEq] at hinj
    obtain ⟨⟨hchild, -⟩, ht''⟩ := hinj
    have hchildOn : childOn t0 pc (specSide Dimension Get point t0 pc depth) =
        childOn t pc (specSide Dimension Get point t0 pc depth) := by
      unfold childOn; rw [e4, e5]
    simp only [InsertLoop, hcur0, if_false, hstep] at hrun
    cases hco : childOn t pc (specSide Dimension Get point t0 pc depth) with
    | none =>
      rw [hco] at hrun
      simp only [Option.map_none', Option.getD_none] at hrun
      have hres : (current, specSide Dimension Get point t0 pc depth, ul ++ [current]) = res ∧
          t' = t1 := by
        cases fuel <;> simpa [InsertLoop] using hrun
      obtain ⟨hres, ht1⟩ := hres
      subst hres; subst ht1
      have hpath : specDescent Dimension Get point t0 (fuel + 1) pc depth =
          [(pc, specSide Dimension Get point t0 pc depth)] := by
        simp only [specDescent, hchildOn, hco]
      rw [hpath]
      refine ⟨pc, _, rfl, by rw [← e1]; exact hpcv, rfl, by simp [hnode'], by rw [hchildOn, hco],
        ?_, ?_⟩
      · intro e he
        simp only [List.mem_singleton] at he
        subst he
        exact ⟨Nat.le_refl _, by rw [← e1]; exact hpclt⟩
      · intro k
        rw [hbal' k]
        by_cases hk : k = pc
        · subst hk
          simp [List.lookup_cons, bumped, hbal k (Nat.le_refl _)]
        · have hne : (k == pc) = false := by rw [beq_eq_false_iff_ne]; exact hk
          simp [List.lookup_cons, hne, hk]
    | some c =>
      rw [hco] at hrun hchild
      simp only [Option.map_some', Option.getD_some] at hrun hchild
      have hcp : t.parentIndex.find c = some pc := by
        unfold childOn at hco
        split at hco
        · exact inv.topo.upper_parent pc c hco
        · exact inv.topo.lower_parent pc c hco
      obtain ⟨hpcc, hcn⟩ := inv.topo.parent_lt c pc hcp
      have hcv : t.pointDataVector[c]? = some (t.pointDataVector.getD c 0) := by
        rw [List.getD_eq_getElem?_getD, List.getElem?_eq_getElem hcn]; rfl
      have hch0 : t.pointDataVector.getD c 0 ≠ 0 := inv.store.ne_zero hcv
      obtain ⟨inv', -⟩ := hA (by rw [← hchild]; exact hch0)
      rw [← ht''] at inv'
      obtain ⟨f1, f2, f3, f4, f5, f6, f7, f8⟩ := frame_fields hF'
      have hcidx : t'.indexedPointData.find (t.pointDataVector.getD c 0) = some c := by
        rw [f2]; exact (inv.store.idx_vec _ c).2 hcv
      obtain ⟨pl, up, h1, h2, h3, h4, h5, h6, h7⟩ := ih t' (t.pointDataVector.getD c 0) current
        ((dim + 1) % Dimension) (specSide Dimension Get point t0 pc depth) (ul ++ [current]) c
        (depth + 1) res t1 inv' (by rw [hF', hF]) hcidx
        (by
          intro k hk
          rw [hbal' k, if_neg (by omega)]
          exact hbal k (by omega))
        (by rw [hdim, Nat.mod_add_mod])
        hrun
      have hpath : specDescent Dimension Get point t0 (fuel + 1) pc depth =
          (pc, specSide Dimension Get point t0 pc depth) ::
            specDescent Dimension Get point t0 fuel c (depth + 1) := by
        simp only [specDescent, hchildOn, hco]
      rw [hpath]
      refine ⟨pl, up, getLast?_cons_of_some _ _ _ h1, h2, h3, ?_, h5, ?_, ?_⟩
      · rw [h4]; simp [hnode']
      · intro e he
        rcases List.mem_cons.1 he with he | he
        · subst he
          exact ⟨Nat.le_refl _, by rw [← e1]; exact hpclt⟩
        · obtain ⟨g1, g2⟩ := h6 e he
          exact ⟨by omega, g2⟩
      · intro k
        rw [h7 k]
        by_cases hk : k = pc
        · subst hk
          have hnone := lookup_none_of_lt (specDescent Dimension Get point t0 fuel c (depth + 1))
            k c hpcc (fun e he => (h6 e he).1)
          rw [hnone, hbal' k]
          simp [List.lookup_cons, bumped, hbal k (Nat.le_refl _)]
        · have hne : (k == pc) = false := by rw [beq_eq_false_iff_ne]; exact hk
          rw [List.lookup_cons, hne, hbal' k, if_neg hk]

end Coordinates

end gbi
namespace gbi

section Coordinates

variable {α : Type} [DecidableEq α] [LT α] [∀ a b : α, Decidable (a < b)]
variable (Dimension : Nat) (Get : PointData → Nat → α)

/-- `Insert` of a new handle into a tree with a root attaches it at the end of the walk of
the placement rule. -/
theorem Insert_attached (fuel : Nat) (t t' : KDTree) (point : Nat)
    (inv : InsertInv Dimension t) (hp0 : point ≠ 0)
    (hnew : t.indexedPointData.find point = none) (hne : t.pointDataVector ≠ [])
    (hrun : Insert Dimension Get fuel t point = some t') :
    ∃ (pl : Nat) (up : Bool),
      Attached Dimension Get point t t' (specWalk Dimension Get point t fuel) pl up := by
  have horg : t.origin ≠ 0 := fun h => hne (origin_null Dimension t inv h)
  obtain ⟨hol, -⟩ := origin_live Dimension t inv horg
  have hwalk : specWalk Dimension Get point t fuel =
      specDescent Dimension Get point t fuel 0 0 := by
    simp [specWalk, horg, hol]
  rw [hwalk]
  unfold Insert at hrun
  simp only [hp0, ne_eq, not_false_eq_true, if_true] at hrun
  cases hloop : InsertLoop Dimension Get point fuel t t.origin 0 0 false [] with
  | none => rw [hloop] at hrun; cases hrun
  | some r =>
    obtain ⟨⟨parent, upper, ul⟩, t1⟩ := r
    rw [hloop] at hrun
    simp only at hrun
    obtain ⟨-, hF, -⟩ := InsertLoop_post Dimension Get point fuel t t.origin 0 0 false []
      (parent, upper, ul) t1
      (fun h => ⟨inv, 0, (origin_live Dimension t inv h).1⟩)
      (fun h => absurd h horg)
      (by intro q hq; cases hq) hloop
    obtain ⟨pl, up, h1, h2, h3, h4, h5, h6, h7⟩ := InsertLoop_exact Dimension Get point t fuel t
      t.origin 0 0 false [] 0 0 (parent, upper, ul) t1 inv rfl hol (fun _ _ => rfl)
      (Nat.zero_mod _).symm hloop
    simp only at h2 h3 h4
    subst h3
    obtain ⟨f1, f2, f3, f4, f5, f6, f7, f8⟩ := frame_fields hF
    have hpar0 : parent ≠ 0 := inv.store.ne_zero h2
    have hpl : t.indexedPointData.find parent = some pl := (inv.store.idx_vec parent pl).2 h2
    have hpllt : pl < t.pointDataVector.length := inv.store.lt_length hpl
    obtain ⟨f, hf⟩ := inv.floor_some pl hpllt
    have hparne : parent ≠ point := by
      intro e; rw [e, hnew] at hpl; cases hpl
    have hn : (t1.pointDataVector ++ [point]).length - 1 = t.pointDataVector.length := by
      rw [f1]; simp
    have hidxparent : (UpdateBoundariesList Dimension Get (InsertInternal t1 point).2 ul
        point).indexedPointData.find parent = some pl := by
      simp only [UpdateBoundariesList, InsertInternal, Map.find_set, hparne, if_false, f2]
      exact hpl
    have hidxpoint : (UpdateBoundariesList Dimension Get (InsertInternal t1 point).2 ul
        point).indexedPointData.find point = some t.pointDataVector.length := by
      simp only [UpdateBoundariesList, InsertInternal, Map.find_set, if_true, hn]
    have hfl : (UpdateBoundariesList Dimension Get (InsertInternal t1 point).2 ul
        point).nodeFloor.find pl = some f := by
      simp only [UpdateBoundariesList, InsertInternal, f3]
      exact hf
    have hbal : ∀ k : Nat, t1.balanceByIndex.find k = bumped (t.balanceByIndex.find k)
        ((specDescent Dimension Get point t fuel 0 0).lookup k) := by
      intro k
      rw [h7 k]
      cases hlk : (specDescent Dimension Get point t fuel 0 0).lookup k with
      | none => simp [bumped]
      | some s => simp
    simp only [hpar0, ne_eq, not_false_eq_true, if_true] at hrun
    refine ⟨pl, upper, ?_⟩
    cases upper with
    | true =>
      simp only [if_true] at hrun
      rw [SetUpper_eq _ parent point pl _ f hidxparent hidxpoint hfl] at hrun
      have ht := (Option.some.inj hrun).symm
      subst ht
      exact {
        last := h1
        absent := h5
        range := fun e he => (h6 e he).2
        vec := by simp [UpdateBoundariesList, InsertInternal, f1]
        idx := by simp [UpdateBoundariesList, InsertInternal, f1, f2]
        lower := by simp [UpdateBoundariesList, InsertInternal, f4]
        upper := by simp [UpdateBoundariesList, InsertInternal, f5]
        parent := by simp [UpdateBoundariesList, InsertInternal, f6]
        floor := ⟨f, hf, by simp [UpdateBoundariesList, InsertInternal, f3]⟩
        bnd := by simp [UpdateBoundariesList, InsertInternal, f7, h4]
        bal := by simpa [UpdateBoundariesList, InsertInternal] using hbal
        origin := by simp [UpdateBoundariesList, InsertInternal, f8] }
    | false =>
      simp only [Bool.false_eq_true, if_false] at hrun
      rw [SetLower_eq _ parent point pl _ f hidxparent hidxpoint hfl] at hrun
      have ht := (Option.some.inj hrun).symm
      subst ht
      exact {
        last := h1
        absent := h5
        range := fun e he => (h6 e he).2
        vec := by simp [UpdateBoundariesList, InsertInternal, f1]
        idx := by simp [UpdateBoundariesList, InsertInternal, f1, f2]
        lower := by simp [UpdateBoundariesList, InsertInternal, f4]
        upper := by simp [UpdateBoundariesList, InsertInternal, f5]
        parent := by simp [UpdateBoundariesList, InsertInternal, f6]
        floor := ⟨f, hf, by simp [UpdateBoundariesList, InsertInternal, f3]⟩
        bnd := by simp [UpdateBoundariesList, InsertInternal, f7, h4]
        bal := by simpa [UpdateBoundariesList, InsertInternal] using hbal
        origin := by simp [UpdateBoundariesList, InsertInternal, f8] }

/-- `Insert` of a new handle into a tree without points stores it as the root; the walk of
the placement rule visits no node. -/
theorem Insert_rooted (fuel : Nat) (t t' : KDTree) (point : Nat)
    (inv : InsertInv Dimension t) (hp0 : point ≠ 0) (hemp : t.pointDataVector = [])
    (hrun : Insert Dimension Get fuel t point = some t') :
    Rooted point t t' ∧ specWalk Dimension Get point t fuel = [] := by
  have horg : t.origin = 0 := by
    rw [inv.base.origin_head, hemp]; rfl
  have hloop : InsertLoop Dimension Get point fuel t t.origin 0 0 false [] =
      some ((0, false, []), t) := by
    cases fuel <;> simp [InsertLoop, horg]
  have hn : t.indexedPointData.find point = none := by
    cases h : t.indexedPointData.find point with
    | none => rfl
    | some i =>
      have := (inv.store.idx_vec point i).1 h
      rw [hemp] at this
      simp at this
  unfold Insert at hrun
  simp only [hp0, ne_eq, not_false_eq_true, if_true, hloop, not_true_eq_false, if_false] at hrun
  have hidx : (idxAt { UpdateBoundariesList Dimension Get (InsertInternal t point).2 [] point
      with origin := point } point) = (0, { UpdateBoundariesList Dimension Get
        (InsertInternal t point).2 [] point with origin := point }) := by
    apply idxAt_hit
    simp [UpdateBoundariesList, InsertInternal, Map.find_set, hemp]
  rw [hidx] at hrun
  have ht := (Option.some.inj hrun).symm
  subst ht
  refine ⟨?_, by simp [specWalk, horg]⟩
  exact {
    vec := by simp [UpdateBoundariesList, InsertInternal, hemp]
    idx := by simp [UpdateBoundariesList, InsertInternal, hemp]
    lower := rfl
    upper := rfl
    parent := rfl
    floor := rfl
    bnd := by simp [UpdateBoundariesList, InsertInternal]
    bal := rfl
    origin := rfl }

end Coordinates

end gbi
namespace gbi

theorem childOn_parent {D : Nat} (t : KDTree) (inv : InsertInv D t) (p c : Nat) (up : Bool)
    (h : childOn t p up = some c) : t.parentIndex.find c = some p := by
  unfold childOn at h
  split at h
  · exact inv.topo.upper_parent p c h
  · exact inv.topo.lower_parent p c h

theorem lookup_of_mem_sorted (path : List (Nat × Bool)) :
    ∀ (c : Nat), (∀ e ∈ path, c ≤ e.1) →
      List.Pairwise (fun a b : Nat × Bool => a.1 < b.1) path →
      ∀ (p : Nat) (up : Bool), (p, up) ∈ path → path.lookup p = some up := by
  induction path with
  | nil => intro c _ _ p up h; cases h
  | cons e r ih =>
    intro c hge hpw p up hmem
    obtain ⟨a, s⟩ := e
    rw [List.pairwise_cons] at hpw
    rcases List.mem_cons.1 hmem with h | h
    · simp only [Prod.mk.injEq] at h
      obtain ⟨h1, h2⟩ := h
      subst h1; subst h2
      simp [List.lookup_cons]
    · have hlt : a < p := hpw.1 (p, up) h
      have hne : (p == a) = false := by
        rw [beq_eq_false_iff_ne]; omega
      rw [List.lookup_cons, hne]
      exact ih a (fun e he => Nat.le_of_lt (hpw.1 e he)) hpw.2 p up h

theorem lookup_none_of_not_mem (path : List (Nat × Bool)) (p : Nat)
    (h : ∀ up : Bool, (p, up) ∉ path) : path.lookup p = none := by
  induction path with
  | nil => rfl
  | cons e r ih =>
    obtain ⟨a, s⟩ := e
    have hne : (p == a) = false := by
      rw [beq_eq_false_iff_ne]
      intro e
      subst e
      exact h s (by simp)
    rw [List.lookup_cons, hne]
    exact ih (fun up hm => h up (by simp [hm]))

section Coordinates

variable {α : Type} [DecidableEq α] [LT α] [∀ a b : α, Decidable (a < b)]
variable (Dimension : Nat) (Get : PointData → Nat → α)

/-- The walk of the placement rule on a tree built by `Insert` visits positions in
increasing order, starting with its start position. -/
theorem specDescent_sorted (point : Nat) (t : KDTree) (inv : InsertInv Dimension t)
    (fuel : Nat) :
    ∀ (p d : Nat), (∀ e ∈ specDescent Dimension Get point t fuel p d, p ≤ e.1) ∧
      List.Pairwise (fun a b : Nat × Bool => a.1 < b.1)
        (specDescent Dimension Get point t fuel p d) := by
  induction fuel with
  | zero => intro p d; simp [specDescent]
  | succ fuel ih =>
    intro p d
    simp only [specDescent]
    cases hc : childOn t p (specSide Dimension Get point t p d) with
    | none => simp
    | some c =>
      have hpc := (inv.topo.parent_lt c p (childOn_parent t inv p c _ hc)).1
      obtain ⟨h1, h2⟩ := ih c (d + 1)
      simp only
      constructor
      · intro e he
        rcases List.mem_cons.1 he with h | h
        · subst h; exact Nat.le_refl _
        · have := h1 e h; omega
      · rw [List.pairwise_cons]
        refine ⟨?_, h2⟩
        intro e he
        have := h1 e he
        simp only
        omega

theorem specWalk_lookup (point : Nat) (t : KDTree) (inv : InsertInv Dimension t) (fuel : Nat)
    (p : Nat) (up : Bool) (h : (p, up) ∈ specWalk Dimension Get point t fuel) :
    (specWalk Dimension Get point t fuel).lookup p = some up := by
  unfold specWalk at h ⊢
  split
  · rename_i h0; simp [h0] at h
  · rename_i h0
    simp only [h0, if_false] at h
    obtain ⟨h1, h2⟩ := specDescent_sorted Dimension Get point t inv fuel
      ((t.indexedPointData.find t.origin).getD 0) 0
    exact lookup_of_mem_sorted _ _ h1 h2 p up h

end Coordinates

end gbi
namespace gbi

section Coordinates

variable {α : Type} [DecidableEq α] [LT α] [∀ a b : α, Decidable (a < b)]
variable (Dimension : Nat) (Get : PointData → Nat → α)

/-- The tree built from the empty tree by `Insert` calls on distinct non-null handles: the
calls return, the invariant holds, the vector lists the handles in order and exactly they
are live. -/
theorem built_tree (fuel : Nat) (hs : List Nat) (hnd : hs.Nodup) (h0 : 0 ∉ hs)
    (hfuel : hs.length ≤ fuel) :
    ∃ t, runCalls Dimension Get fuel KDTree.empty (hs.map Call.insert) = some t ∧
      InsertInv Dimension t ∧ t.pointDataVector = hs ∧
      ∀ g : Nat, g ∉ hs → t.indexedPointData.find g = none := by
  obtain ⟨t, hrun, inv, hv, hl⟩ := runInserts Dimension Get fuel hs KDTree.empty
    (empty_inv Dimension) hnd h0 (fun g _ => rfl) (by simpa [KDTree.empty] using hfuel)
  refine ⟨t, hrun, inv, by simpa [KDTree.empty] using hv, ?_⟩
  intro g hg
  have := hl g
  simp only [live, KDTree.empty, Map.find, Option.isSome_none, Bool.false_or, hg,
    decide_False] at this
  cases h : t.indexedPointData.find g with
  | none => rfl
  | some i => rw [h] at this; simp at this

/-- A property that every `Insert` of a new non-null handle keeps on trees with the
invariant is kept by a run of such calls. -/
theorem runInserts_keeps (fuel : Nat) (P : KDTree → Prop)
    (hstep : ∀ (t t' : KDTree) (h : Nat), InsertInv Dimension t → P t → h ≠ 0 →
      t.indexedPointData.find h = none → Insert Dimension Get fuel t h = some t' → P t')
    (hs : List Nat) :
    ∀ t : KDTree, InsertInv Dimension t → P t → hs.Nodup → 0 ∉ hs →
      (∀ g ∈ hs, t.indexedPointData.find g = none) →
      ∀ t', runCalls Dimension Get fuel t (hs.map Call.insert) = some t' → P t' := by
  induction hs with
  | nil =>
    intro t _ hP _ _ _ t' hrun
    simp only [List.map_nil, runCalls, Option.some.injEq] at hrun
    subst hrun
    exact hP
  | cons a r ih =>
    intro t inv hP hnd h0 hnew t' hrun
    simp only [List.map_cons, runCalls] at hrun
    cases h1 : Insert Dimension Get fuel t a with
    | none => rw [h1] at hrun; cases hrun
    | some t1 =>
      rw [h1] at hrun
      simp only at hrun
      have ha0 : a ≠ 0 := fun e => h0 (by simp [e])
      obtain ⟨inv1, hv1, hi1⟩ := Insert_inv Dimension Get fuel t t1 a inv ha0
        (hnew a (by simp)) h1
      have hnd' := List.nodup_cons.1 hnd
      refine ih t1 inv1 (hstep t t1 a inv hP ha0 (hnew a (by simp)) h1) hnd'.2
        (fun h => h0 (List.mem_cons_of_mem _ h)) ?_ t' hrun
      intro g hg
      rw [hi1, Map.find_set]
      have hga : g ≠ a := fun e => hnd'.1 (e ▸ hg)
      rw [if_neg hga]
      exact hnew g (List.mem_cons_of_mem _ hg)

/-- A position at or behind the end of the vector has no links and no balance. -/
theorem fresh_position {D : Nat} (t : KDTree) (inv : InsertInv D t) (n : Nat)
    (hn : t.pointDataVector.length ≤ n) :
    t.lowerIndex.find n = none ∧ t.upperIndex.find n = none ∧ t.parentIndex.find n = none ∧
      t.balanceByIndex.find n = none := by
  have hl : t.lowerIndex.find n = none := by
    cases h : t.lowerIndex.find n with
    | none => rfl
    | some c =>
      have := inv.topo.parent_lt c n (inv.topo.lower_parent n c h)
      omega
  have hu : t.upperIndex.find n = none := by
    cases h : t.upperIndex.find n with
    | none => rfl
    | some c =>
      have := inv.topo.parent_lt c n (inv.topo.upper_parent n c h)
      omega
  have hp : t.parentIndex.find n = none := by
    cases h : t.parentIndex.find n with
    | none => rfl
    | some p =>
      have := inv.topo.parent_lt n p h
      omega
  exact ⟨hl, hu, hp, (inv.bal n).2 ((IsLeaf_true_iff t n).2 ⟨hl, hu⟩)⟩

/-- Position `0` has no parent entry. -/
theorem fresh_root {D : Nat} (t : KDTree) (inv : InsertInv D t) :
    t.parentIndex.find 0 = none := by
  cases h : t.parentIndex.find 0 with
  | none => rfl
  | some p =>
    have := inv.topo.parent_lt 0 p h
    omega

/-- C12: let `hs` be distinct non-null handles, `h` a further non-null handle and the fuel
at least the number of handles.  The `Insert` calls on `hs` from the empty tree return a
tree `t`, and `Insert(h)` returns a tree `t'` that stores `h` at the end of the vector.
If `hs` is empty the walk of the placement rule visits no node and `h` becomes `origin`,
at position `0` with floor `0` and no parent.  Otherwise the walk (from `origin`, axis
`depth mod Dimension`, lower exactly when the coordinate of `h` is strictly less than the
node's or equal to it with the node's balance above `0`, else upper) ends at a node `pl`
with the side `up` on which `pl` has no child in `t`, and in `t'` the new position is the
child of `pl` on that side with `pl` as its parent; no other link changes. -/
theorem C12_insert_placement (_ : 0 < Dimension) (hs : List PointData) (hnd : hs.Nodup)
    (h0 : (0 : PointData) ∉ hs) (h : PointData) (hh : h ≠ 0) (hnew : h ∉ hs) (fuel : Nat)
    (hfuel : hs.length ≤ fuel) :
    ∃ t t', runCalls Dimension Get fuel KDTree.empty (hs.map Call.insert) = some t ∧
      Insert Dimension Get fuel t h = some t' ∧
      t'.pointDataVector = t.pointDataVector ++ [h] ∧
      t'.indexedPointData.find h = some hs.length ∧
      (hs = [] → specWalk Dimension Get h t fuel = [] ∧ t'.origin = h ∧
        t'.nodeFloor.find 0 = some 0 ∧ t'.parentIndex.find 0 = none) ∧
      (hs ≠ [] → ∃ (pl : SizeT) (up : Bool),
        (specWalk Dimension Get h t fuel).getLast? = some (pl, up) ∧
        childOn t pl up = none ∧
        childOn t' pl up = some hs.length ∧
        t'.parentIndex.find hs.length = some pl ∧
        childOn t' pl (!up) = childOn t pl (!up) ∧
        (∀ k : SizeT, k ≠ pl → t'.lowerIndex.find k = t.lowerIndex.find k ∧
          t'.upperIndex.find k = t.upperIndex.find k) ∧
        (∀ k : SizeT, k ≠ hs.length → t'.parentIndex.find k = t.parentIndex.find k) ∧
        t'.origin = t.origin) := by
  obtain ⟨t, hrun, inv, hv, hfresh⟩ := built_tree Dimension Get fuel hs hnd h0 hfuel
  obtain ⟨t', hI⟩ := Insert_total Dimension Get fuel t h inv (by rw [hv]; exact hfuel)
  obtain ⟨-, hvec, hidx⟩ := Insert_inv Dimension Get fuel t t' h inv hh (hfresh h hnew) hI
  refine ⟨t, t', hrun, hI, hvec, by rw [hidx, Map.find_set, hv]; simp, ?_, ?_⟩
  · intro hemp
    obtain ⟨hr, hw⟩ := Insert_rooted Dimension Get fuel t t' h inv hh (by rw [hv, hemp]) hI
    refine ⟨hw, hr.origin, by rw [hr.floor, Map.find_set]; simp, ?_⟩
    rw [hr.parent]
    exact (fresh_position t inv 0 (by rw [hv, hemp]; simp)).2.2.1
  · intro hne
    obtain ⟨pl, up, ha⟩ := Insert_attached Dimension Get fuel t t' h inv hh (hfresh h hnew)
      (by rw [hv]; exact hne) hI
    have hlo := ha.lower
    have hupp := ha.upper
    have hpar := ha.parent
    rw [hv] at hlo hupp hpar
    refine ⟨pl, up, ha.last, ha.absent, ?_, by rw [hpar, Map.find_set]; simp, ?_, ?_, ?_,
      ha.origin⟩
    · cases up
      · simp only [childOn, Bool.false_eq_true, if_false] at hlo ⊢
        rw [hlo, Map.find_set]; simp
      · simp only [childOn, if_true] at hupp ⊢
        rw [hupp, Map.find_set]; simp
    · cases up
      · simp only [childOn, Bool.not_false, if_true, Bool.false_eq_true, if_false] at hupp ⊢
        rw [hupp]
      · simp only [childOn, Bool.not_true, Bool.false_eq_true, if_false, if_true] at hlo ⊢
        rw [hlo]
    · intro k hk
      cases up
      · simp only [Bool.false_eq_true, if_false] at hlo hupp
        rw [hlo, hupp, Map.find_set, if_neg hk]
        exact ⟨rfl, rfl⟩
      · simp only [if_true] at hlo hupp
        rw [hlo, hupp, Map.find_set, if_neg hk]
        exact ⟨rfl, rfl⟩
    · intro k hk
      rw [hpar, Map.find_set, if_neg hk]

/-- C13: let `hs` be distinct non-null handles, `h` a further non-null handle and the fuel
at least the number of handles.  After `Insert(h)` on the tree built from `hs`, the
balance of every position visited by the walk of the placement rule is its old balance
(an absent entry counting as `0`) plus one when the walk left it through the upper side and
minus one when through the lower side; the balance entry of every position that was not
visited is as before; and the position of the new leaf has no balance entry. -/
theorem C13_insert_balance (_ : 0 < Dimension) (hs : List PointData) (hnd : hs.Nodup)
    (h0 : (0 : PointData) ∉ hs) (h : PointData) (hh : h ≠ 0) (hnew : h ∉ hs) (fuel : Nat)
    (hfuel : hs.length ≤ fuel) :
    ∃ t t', runCalls Dimension Get fuel KDTree.empty (hs.map Call.insert) = some t ∧
      Insert Dimension Get fuel t h = some t' ∧
      (∀ (p : SizeT) (up : Bool), (p, up) ∈ specWalk Dimension Get h t fuel →
        t'.balanceByIndex.find p =
          some ((t.balanceByIndex.find p).getD 0 + (if up then 1 else -1))) ∧
      (∀ p : SizeT, (∀ up : Bool, (p, up) ∉ specWalk Dimension Get h t fuel) →
        t'.balanceByIndex.find p = t.balanceByIndex.find p) ∧
      t'.indexedPointData.find h = some hs.length ∧
      t'.balanceByIndex.find hs.length = none := by
  obtain ⟨t, hrun, inv, hv, hfresh⟩ := built_tree Dimension Get fuel hs hnd h0 hfuel
  obtain ⟨t', hI⟩ := Insert_total Dimension Get fuel t h inv (by rw [hv]; exact hfuel)
  obtain ⟨-, hvec, hidx⟩ := Insert_inv Dimension Get fuel t t' h inv hh (hfresh h hnew) hI
  have hbal : ∀ k : Nat, t'.balanceByIndex.find k =
      bumped (t.balanceByIndex.find k) ((specWalk Dimension Get h t fuel).lookup k) := by
    by_cases hemp : t.pointDataVector = []
    · obtain ⟨hr, hw⟩ := Insert_rooted Dimension Get fuel t t' h inv hh hemp hI
      intro k
      rw [hr.bal, hw]
      rfl
    · obtain ⟨pl, up, ha⟩ := Insert_attached Dimension Get fuel t t' h inv hh (hfresh h hnew)
        hemp hI
      exact ha.bal
  have hrange : ∀ e ∈ specWalk Dimension Get h t fuel, e.1 < t.pointDataVector.length := by
    by_cases hemp : t.pointDataVector = []
    · obtain ⟨-, hw⟩ := Insert_rooted Dimension Get fuel t t' h inv hh hemp hI
      rw [hw]
      intro e he
      cases he
    · obtain ⟨pl, up, ha⟩ := Insert_attached Dimension Get fuel t t' h inv hh (hfresh h hnew)
        hemp hI
      exact ha.range
  refine ⟨t, t', hrun, hI, ?_, ?_, by rw [hidx, Map.find_set, hv]; simp, ?_⟩
  · intro p up hmem
    rw [hbal p, specWalk_lookup Dimension Get h t inv fuel p up hmem]
    rfl
  · intro p hp
    rw [hbal p, lookup_none_of_not_mem _ p hp]
    rfl
  · have hnone : (specWalk Dimension Get h t fuel).lookup hs.length = none := by
      apply lookup_none_of_not_mem
      intro up hmem
      have := hrange _ hmem
      rw [hv] at this
      simp at this
    rw [hbal, hnone]
    exact (fresh_position t inv hs.length (by rw [hv])).2.2.2

end Coordinates

/-- Witness for C12: the handle `3` inserted after `2` and `1` on a line. -/
theorem C12_insert_placement_witness :
    ∃ t t', runCalls 1 lineGet 2 KDTree.empty (([2, 1] : List PointData).map Call.insert)
        = some t ∧
      Insert 1 lineGet 2 t 3 = some t' ∧
      t'.pointDataVector = t.pointDataVector ++ [3] ∧
      t'.indexedPointData.find 3 = some ([2, 1] : List PointData).length ∧
      (([2, 1] : List PointData) = [] → specWalk 1 lineGet 3 t 2 = [] ∧ t'.origin = 3 ∧
        t'.nodeFloor.find 0 = some 0 ∧ t'.parentIndex.find 0 = none) ∧
      (([2, 1] : List PointData) ≠ [] → ∃ (pl : SizeT) (up : Bool),
        (specWalk 1 lineGet 3 t 2).getLast? = some (pl, up) ∧
        childOn t pl up = none ∧
        childOn t' pl up = some ([2, 1] : List PointData).length ∧
        t'.parentIndex.find ([2, 1] : List PointData).length = some pl ∧
        childOn t' pl (!up) = childOn t pl (!up) ∧
        (∀ k : SizeT, k ≠ pl → t'.lowerIndex.find k = t.lowerIndex.find k ∧
          t'.upperIndex.find k = t.upperIndex.find k) ∧
        (∀ k : SizeT, k ≠ ([2, 1] : List PointData).length →
          t'.parentIndex.find k = t.parentIndex.find k) ∧
        t'.origin = t.origin) :=
  C12_insert_placement 1 lineGet (by decide) [2, 1] (by decide) (by decide) 3 (by decide)
    (by decide) 2 (by decide)

/-- Witness for C13: the handle `3` inserted after `2` and `1` on a line. -/
theorem C13_insert_balance_witness :
    ∃ t t', runCalls 1 lineGet 2 KDTree.empty (([2, 1] : List PointData).map Call.insert)
        = some t ∧
      Insert 1 lineGet 2 t 3 = some t' ∧
      (∀ (p : SizeT) (up : Bool), (p, up) ∈ specWalk 1 lineGet 3 t 2 →
        t'.balanceByIndex.find p =
          some ((t.balanceByIndex.find p).getD 0 + (if up then 1 else -1))) ∧
      (∀ p : SizeT, (∀ up : Bool, (p, up) ∉ specWalk 1 lineGet 3 t 2) →
        t'.balanceByIndex.find p = t.balanceByIndex.find p) ∧
      t'.indexedPointData.find 3 = some ([2, 1] : List PointData).length ∧
      t'.balanceByIndex.find ([2, 1] : List PointData).length = none :=
  C13_insert_balance 1 lineGet (by decide) [2, 1] (by decide) (by decide) 3 (by decide)
    (by decide) 2 (by decide)

end gbi
namespace gbi

theorem empty_floorInv : FloorInv KDTree.empty := by
  refine ⟨fun h => absurd rfl h, ?_, ?_⟩
  · intro c p h; simp [KDTree.empty, Map.find] at h
  · intro c _ h; simp [KDTree.empty] at h

theorem getLast?_mem {β : Type} (l : List β) (x : β) (h : l.getLast? = some x) : x ∈ l := by
  induction l with
  | nil => simp at h
  | cons a r ih =>
    cases r with
    | nil =>
      simp at h
      simp [h]
    | cons b r' =>
      rw [List.getLast?_cons_cons] at h
      exact List.mem_cons_of_mem _ (ih h)

section Coordinates

variable {α : Type} [DecidableEq α] [LT α] [∀ a b : α, Decidable (a < b)]
variable (Dimension : Nat) (Get : PointData → Nat → α)

theorem Attached.pl_lt {point : Nat} {t t' : KDTree} {path : List (Nat × Bool)} {pl : Nat}
    {up : Bool} (ha : Attached Dimension Get point t t' path pl up) :
    pl < t.pointDataVector.length :=
  ha.range (pl, up) (getLast?_mem path (pl, up) ha.last)

theorem Attached.floorInv {point : Nat} {t t' : KDTree} {path : List (Nat × Bool)} {pl : Nat}
    {up : Bool} (ha : Attached Dimension Get point t t' path pl up)
    (inv : InsertInv Dimension t) (hf : FloorInv t) : FloorInv t' := by
  have hpl := Attached.pl_lt Dimension Get ha
  obtain ⟨f, hfpl, hfloor⟩ := ha.floor
  have hne : t.pointDataVector ≠ [] := by
    intro h; rw [h] at hpl; simp at hpl
  have h0n : (0 : Nat) ≠ t.pointDataVector.length := by omega
  have hpln : pl ≠ t.pointDataVector.length := by omega
  constructor
  · intro _
    rw [hfloor, Map.find_set, if_neg h0n]
    exact hf.root hne
  · intro c p hcp
    rw [ha.parent, Map.find_set] at hcp
    by_cases hc : c = t.pointDataVector.length
    · rw [if_pos hc] at hcp
      have hp : pl = p := Option.some.inj hcp
      subst hp
      refine ⟨f, ?_, ?_⟩
      · rw [hfloor, Map.find_set, if_neg hpln]; exact hfpl
      · rw [hfloor, Map.find_set, if_pos hc]
    · rw [if_neg hc] at hcp
      obtain ⟨g, hg1, hg2⟩ := hf.child c p hcp
      have := inv.topo.parent_lt c p hcp
      have hpn : p ≠ t.pointDataVector.length := by omega
      refine ⟨g, ?_, ?_⟩
      · rw [hfloor, Map.find_set, if_neg hpn]; exact hg1
      · rw [hfloor, Map.find_set, if_neg hc]; exact hg2
  · intro c hc0 hcl
    rw [ha.vec] at hcl
    simp only [List.length_append, List.length_singleton] at hcl
    rw [ha.parent, Map.find_set]
    by_cases hc : c = t.pointDataVector.length
    · exact ⟨pl, by rw [if_pos hc]⟩
    · rw [if_neg hc]
      exact hf.has_parent c hc0 (by omega)

theorem Rooted.floorInv_root {D : Nat} {point : Nat} {t t' : KDTree} (hr : Rooted point t t')
    (inv : InsertInv D t) (hemp : t.pointDataVector = []) : FloorInv t' := by
  constructor
  · intro _
    rw [hr.floor, Map.find_set]; simp
  · intro c p hcp
    rw [hr.parent] at hcp
    have := inv.topo.parent_lt c p hcp
    rw [hemp] at this
    simp at this
  · intro c hc0 hcl
    rw [hr.vec] at hcl
    simp at hcl
    omega

/-- `Insert` of a new handle keeps the floors in step with the depth. -/
theorem Insert_floorInv (fuel : Nat) (t t' : KDTree) (h : Nat) (inv : InsertInv Dimension t)
    (hf : FloorInv t) (hh : h ≠ 0) (hnew : t.indexedPointData.find h = none)
    (hI : Insert Dimension Get fuel t h = some t') : FloorInv t' := by
  by_cases hemp : t.pointDataVector = []
  · exact Rooted.floorInv_root (Insert_rooted Dimension Get fuel t t' h inv hh hemp hI).1 inv hemp
  · obtain ⟨pl, up, ha⟩ := Insert_attached Dimension Get fuel t t' h inv hh hnew hemp hI
    exact Attached.floorInv Dimension Get ha inv hf

/-- The tree built by `Insert` calls, with both invariants. -/
theorem built_floor (fuel : Nat) (hs : List Nat) (hnd : hs.Nodup) (h0 : 0 ∉ hs)
    (hfuel : hs.length ≤ fuel) :
    ∃ t, runCalls Dimension Get fuel KDTree.empty (hs.map Call.insert) = some t ∧
      InsertInv Dimension t ∧ FloorInv t ∧ t.pointDataVector = hs := by
  obtain ⟨t, hrun, inv, hv, -⟩ := built_tree Dimension Get fuel hs hnd h0 hfuel
  refine ⟨t, hrun, inv, ?_, hv⟩
  exact runInserts_keeps Dimension Get fuel FloorInv
    (fun t t' h inv hP hh hnew hI => Insert_floorInv Dimension Get fuel t t' h inv hP hh hnew hI)
    hs KDTree.empty (empty_inv Dimension) empty_floorInv hnd h0 (fun _ _ => rfl) t hrun

/-- C14: the tree `t` built from the empty tree by `Insert` calls on distinct non-null
handles `hs` is structurally consistent.  The vector and the reverse map are mutually
inverse; when `hs` is not empty, `origin` is the handle at a position without a parent
entry, that position has floor `0` and no other position lacks a parent entry; every
`parentIndex` entry `c -> p` is matched by exactly one of `lowerIndex[p] = c` and
`upperIndex[p] = c`, and every lower or upper link has its `parentIndex` entry; and a child
has the floor of its parent plus one. -/
theorem C14_insert_built_consistent (_ : 0 < Dimension) (hs : List PointData) (hnd : hs.Nodup)
    (h0 : (0 : PointData) ∉ hs) (fuel : Nat) (hfuel : hs.length ≤ fuel) :
    ∃ t, runCalls Dimension Get fuel KDTree.empty (hs.map Call.insert) = some t ∧
      t.pointDataVector = hs ∧
      (∀ (g : PointData) (i : SizeT),
        t.indexedPointData.find g = some i ↔ t.pointDataVector[i]? = some g) ∧
      (hs = [] → t.origin = 0) ∧
      (hs ≠ [] → ∃ r : SizeT, t.pointDataVector[r]? = some t.origin ∧
        t.parentIndex.find r = none ∧ t.nodeFloor.find r = some 0 ∧
        ∀ q : SizeT, q < t.pointDataVector.length → t.parentIndex.find q = none → q = r) ∧
      (∀ c p : SizeT, t.parentIndex.find c = some p →
        (t.lowerIndex.find p = some c ∧ t.upperIndex.find p ≠ some c) ∨
        (t.upperIndex.find p = some c ∧ t.lowerIndex.find p ≠ some c)) ∧
      (∀ p c : SizeT, t.lowerIndex.find p = some c → t.parentIndex.find c = some p) ∧
      (∀ p c : SizeT, t.upperIndex.find p = some c → t.parentIndex.find c = some p) ∧
      (∀ p c : SizeT, t.lowerIndex.find p = some c ∨ t.upperIndex.find p = some c →
        ∃ f : UInt, t.nodeFloor.find p = some f ∧ t.nodeFloor.find c = some (f + 1)) := by
  obtain ⟨t, hrun, inv, hf, hv⟩ := built_floor Dimension Get fuel hs hnd h0 hfuel
  refine ⟨t, hrun, hv, inv.store.idx_vec, ?_, ?_, ?_, inv.topo.lower_parent,
    inv.topo.upper_parent, ?_⟩
  · intro hemp
    rw [inv.base.origin_head, hv, hemp]; rfl
  · intro hne
    have hne' : t.pointDataVector ≠ [] := by rw [hv]; exact hne
    have horg : t.origin ≠ 0 := fun h => hne' (origin_null Dimension t inv h)
    obtain ⟨hol, hpos⟩ := origin_live Dimension t inv horg
    refine ⟨0, (inv.store.idx_vec _ 0).1 hol, (fresh_root t inv), hf.root hne', ?_⟩
    intro q hq hpar
    by_contra hq0
    obtain ⟨p, hp⟩ := hf.has_parent q (Nat.pos_of_ne_zero hq0) hq
    rw [hp] at hpar
    cases hpar
  · intro c p hcp
    rcases inv.topo.parent_child c p hcp with hl | hu
    · exact Or.inl ⟨hl, inv.topo.lower_ne_upper p c hl⟩
    · refine Or.inr ⟨hu, ?_⟩
      intro hl
      exact inv.topo.lower_ne_upper p c hl hu
  · intro p c hpc
    have hcp : t.parentIndex.find c = some p := by
      rcases hpc with h | h
      · exact inv.topo.lower_parent p c h
      · exact inv.topo.upper_parent p c h
    exact hf.child c p hcp

end Coordinates

/-- Witness for C14: the handles `2`, `1`, `3` on a line. -/
theorem C14_insert_built_consistent_witness :
    ∃ t, runCalls 1 lineGet 3 KDTree.empty (([2, 1, 3] : List PointData).map Call.insert)
        = some t ∧
      t.pointDataVector = [2, 1, 3] ∧
      (∀ (g : PointData) (i : SizeT),
        t.indexedPointData.find g = some i ↔ t.pointDataVector[i]? = some g) ∧
      (([2, 1, 3] : List PointData) = [] → t.origin = 0) ∧
      (([2, 1, 3] : List PointData) ≠ [] → ∃ r : SizeT, t.pointDataVector[r]? = some t.origin ∧
        t.parentIndex.find r = none ∧ t.nodeFloor.find r = some 0 ∧
        ∀ q : SizeT, q < t.pointDataVector.length → t.parentIndex.find q = none → q = r) ∧
      (∀ c p : SizeT, t.parentIndex.find c = some p →
        (t.lowerIndex.find p = some c ∧ t.upperIndex.find p ≠ some c) ∨
        (t.upperIndex.find p = some c ∧ t.lowerIndex.find p ≠ some c)) ∧
      (∀ p c : SizeT, t.lowerIndex.find p = some c → t.parentIndex.find c = some p) ∧
      (∀ p c : SizeT, t.upperIndex.find p = some c → t.parentIndex.find c = some p) ∧
      (∀ p c : SizeT, t.lowerIndex.find p = some c ∨ t.upperIndex.find p = some c →
        ∃ f : UInt, t.nodeFloor.find p = some f ∧ t.nodeFloor.find c = some (f + 1)) :=
  C14_insert_built_consistent 1 lineGet (by decide) [2, 1, 3] (by decide) (by decide) 3
    (by decide)

end gbi
namespace gbi

theorem ancestors_lt (t : KDTree) (hpl : ∀ c p : Nat, t.parentIndex.find c = some p → p < c)
    (fuel : Nat) : ∀ q a : Nat, a ∈ ancestors t fuel q → a < q := by
  induction fuel with
  | zero => intro q a h; simp [ancestors] at h
  | succ fuel ih =>
    intro q a h
    simp only [ancestors] at h
    cases hp : t.parentIndex.find q with
    | none => rw [hp] at h; simp at h
    | some p =>
      rw [hp] at h
      have hpq := hpl q p hp
      rcases List.mem_cons.1 h with h1 | h1
      · omega
      · have := ih p a h1
        omega

theorem ancestors_fuel (t : KDTree) (hpl : ∀ c p : Nat, t.parentIndex.find c = some p → p < c)
    (f1 : Nat) : ∀ f2 q : Nat, q ≤ f1 → q ≤ f2 → ancestors t f1 q = ancestors t f2 q := by
  induction f1 with
  | zero =>
    intro f2 q h1 _
    have hq : q = 0 := by omega
    subst hq
    cases f2 with
    | zero => rfl
    | succ f2 =>
      simp only [ancestors]
      cases hp : t.parentIndex.find 0 with
      | none => rfl
      | some p => have := hpl 0 p hp; omega
  | succ f1 ih =>
    intro f2 q h1 h2
    cases f2 with
    | zero =>
      have hq : q = 0 := by omega
      subst hq
      simp only [ancestors]
      cases hp : t.parentIndex.find 0 with
      | none => rfl
      | some p => have := hpl 0 p hp; omega
    | succ f2 =>
      simp only [ancestors]
      cases hp : t.parentIndex.find q with
      | none => rfl
      | some p =>
        have := hpl q p hp
        simp only
        rw [ih f2 p (by omega) (by omega)]

/-- With parents at smaller positions, the way up from `q` takes at most `q` steps. -/
theorem ancestors_norm (t : KDTree) (hpl : ∀ c p : Nat, t.parentIndex.find c = some p → p < c)
    (hval : ∀ c p : Nat, t.parentIndex.find c = some p → c < t.pointDataVector.length)
    (q : Nat) : ancestors t t.pointDataVector.length q = ancestors t q q := by
  by_cases hq : q ≤ t.pointDataVector.length
  · exact ancestors_fuel t hpl _ _ q hq (Nat.le_refl _)
  · have hnone : t.parentIndex.find q = none := by
      cases hp : t.parentIndex.find q with
      | none => rfl
      | some p => have := hval q p hp; omega
    have h1 : ∀ f : Nat, ancestors t f q = [] := by
      intro f
      cases f with
      | zero => rfl
      | succ f => simp [ancestors, hnone]
    rw [h1, h1]

theorem ancestors_step (t : KDTree) (hpl : ∀ c p : Nat, t.parentIndex.find c = some p → p < c)
    (q p : Nat) (hp : t.parentIndex.find q = some p) :
    ancestors t q q = p :: ancestors t p p := by
  have hpq := hpl q p hp
  cases q with
  | zero => omega
  | succ q =>
    simp only [ancestors, hp]
    rw [ancestors_fuel t hpl q p p (by omega) (Nat.le_refl _)]

theorem ancestors_none (t : KDTree) (q : Nat) (hp : t.parentIndex.find q = none) (fuel : Nat) :
    ancestors t fuel q = [] := by
  cases fuel with
  | zero => rfl
  | succ f => simp [ancestors, hp]

/-- Every position met on the way up is the parent of the start or of a position met
before. -/
theorem ancestors_is_parent (t : KDTree)
    (hpl : ∀ c p : Nat, t.parentIndex.find c = some p → p < c) (q : Nat) :
    ∀ a : Nat, a ∈ ancestors t q q →
      ∃ c : Nat, (c = q ∨ c ∈ ancestors t q q) ∧ t.parentIndex.find c = some a := by
  induction q using Nat.strong_induction_on with
  | _ q ih =>
    intro a ha
    cases hp : t.parentIndex.find q with
    | none => rw [ancestors_none t q hp] at ha; cases ha
    | some p =>
      rw [ancestors_step t hpl q p hp] at ha ⊢
      rcases List.mem_cons.1 ha with h | h
      · subst h
        exact ⟨q, Or.inl rfl, hp⟩
      · obtain ⟨c, hc, hca⟩ := ih p (hpl q p hp) a h
        refine ⟨c, Or.inr ?_, hca⟩
        rcases hc with hc | hc
        · subst hc; simp
        · exact List.mem_cons_of_mem _ hc

/-- The parent of a position met on the way up is met as well. -/
theorem ancestors_parent_mem (t : KDTree)
    (hpl : ∀ c p : Nat, t.parentIndex.find c = some p → p < c) (q : Nat) :
    ∀ c a : Nat, (c = q ∨ c ∈ ancestors t q q) → t.parentIndex.find c = some a →
      a ∈ ancestors t q q := by
  induction q using Nat.strong_induction_on with
  | _ q ih =>
    intro c a hc hca
    rcases hc with hc | hc
    · subst hc
      rw [ancestors_step t hpl c a hca]
      simp
    · cases hp : t.parentIndex.find q with
      | none => rw [ancestors_none t q hp] at hc; cases hc
      | some p =>
        rw [ancestors_step t hpl q p hp] at hc ⊢
        rcases List.mem_cons.1 hc with h | h
        · exact List.mem_cons_of_mem _ (ih p (hpl q p hp) c a (Or.inl h) hca)
        · exact List.mem_cons_of_mem _ (ih p (hpl q p hp) c a (Or.inr h) hca)

/-- Being met on the way up is transitive. -/
theorem ancestors_trans (t : KDTree)
    (hpl : ∀ c p : Nat, t.parentIndex.find c = some p → p < c) (q : Nat) :
    ∀ a b : Nat, a ∈ ancestors t b b → b ∈ ancestors t q q → a ∈ ancestors t q q := by
  induction q using Nat.strong_induction_on with
  | _ q ih =>
    intro a b hab hbq
    cases hp : t.parentIndex.find q with
    | none => rw [ancestors_none t q hp] at hbq; cases hbq
    | some p =>
      rw [ancestors_step t hpl q p hp] at hbq ⊢
      rcases List.mem_cons.1 hbq with h | h
      · subst h
        exact List.mem_cons_of_mem _ hab
      · exact List.mem_cons_of_mem _ (ih p (hpl q p hp) a b hab h)

theorem strictDescendant_iff {D : Nat} (t : KDTree) (inv : InsertInv D t) (p q : Nat) :
    strictDescendant t p q ↔ p ∈ ancestors t q q := by
  unfold strictDescendant
  rw [ancestors_norm t (fun c p h => (inv.topo.parent_lt c p h).1)
    (fun c p h => (inv.topo.parent_lt c p h).2) q]

end gbi
namespace gbi

section Coordinates

variable {α : Type} [DecidableEq α] [LT α] [∀ a b : α, Decidable (a < b)]
variable (Dimension : Nat) (Get : PointData → Nat → α)

/-- On a tree built by `Insert` every node of the walk is met at its floor, with the side
of the placement rule. -/
theorem specDescent_floor (point : Nat) (t : KDTree) (inv : InsertInv Dimension t)
    (hf : FloorInv t) (fuel : Nat) :
    ∀ (p0 d : Nat), t.nodeFloor.find p0 = some d →
      ∀ (a : Nat) (s : Bool), (a, s) ∈ specDescent Dimension Get point t fuel p0 d →
        ∃ da : Nat, t.nodeFloor.find a = some da ∧ s = specSide Dimension Get point t a da := by
  induction fuel with
  | zero => intro p0 d _ a s h; simp [specDescent] at h
  | succ fuel ih =>
    intro p0 d hd a s h
    simp only [specDescent] at h
    cases hc : childOn t p0 (specSide Dimension Get point t p0 d) with
    | none =>
      rw [hc] at h
      simp only [List.mem_singleton, Prod.mk.injEq] at h
      obtain ⟨h1, h2⟩ := h
      subst h1
      exact ⟨d, hd, h2⟩
    | some c =>
      rw [hc] at h
      simp only [List.mem_cons, Prod.mk.injEq] at h
      rcases h with ⟨h1, h2⟩ | h
      · subst h1
        exact ⟨d, hd, h2⟩
      · obtain ⟨f, hf1, hf2⟩ := hf.child c p0 (childOn_parent t inv p0 c _ hc)
        rw [hd] at hf1
        have hfd : d = f := Option.some.inj hf1
        subst hfd
        exact ih c (d + 1) hf2 a s h

/-- The start of the walk is its last node or is met on the way up from it. -/
theorem specDescent_start (point : Nat) (t : KDTree) (inv : InsertInv Dimension t)
    (fuel : Nat) :
    ∀ (p0 d pl : Nat) (up : Bool),
      (specDescent Dimension Get point t fuel p0 d).getLast? = some (pl, up) →
      p0 = pl ∨ p0 ∈ ancestors t pl pl := by
  induction fuel with
  | zero => intro p0 d pl up h; simp [specDescent] at h
  | succ fuel ih =>
    intro p0 d pl up h
    simp only [specDescent] at h
    cases hc : childOn t p0 (specSide Dimension Get point t p0 d) with
    | none =>
      rw [hc] at h
      simp only [List.getLast?_singleton, Option.some.injEq, Prod.mk.injEq] at h
      exact Or.inl h.1
    | some c =>
      rw [hc] at h
      simp only at h
      cases hrest : specDescent Dimension Get point t fuel c (d + 1) with
      | nil =>
        rw [hrest] at h
        simp only [List.getLast?_singleton, Option.some.injEq, Prod.mk.injEq] at h
        exact Or.inl h.1
      | cons e r =>
        rw [hrest, List.getLast?_cons_cons, ← hrest] at h
        have hpar := childOn_parent t inv p0 c _ hc
        exact Or.inr (ancestors_parent_mem t (fun c p h => (inv.topo.parent_lt c p h).1) pl c p0
          (ih c (d + 1) pl up h) hpar)

/-- A position on the way up from the last node of the walk, but not on the way up from
its start, is the child that the walk entered from its parent. -/
theorem specDescent_child (point : Nat) (t : KDTree) (inv : InsertInv Dimension t)
    (fuel : Nat) :
    ∀ (p0 d pl : Nat) (up : Bool),
      (specDescent Dimension Get point t fuel p0 d).getLast? = some (pl, up) →
      ∀ c p : Nat, (c = pl ∨ c ∈ ancestors t pl pl) → ¬ (c = p0 ∨ c ∈ ancestors t p0 p0) →
        t.parentIndex.find c = some p →
        ∃ s : Bool, (p, s) ∈ specDescent Dimension Get point t fuel p0 d ∧
          childOn t p s = some c := by
  induction fuel with
  | zero => intro p0 d pl up h; simp [specDescent] at h
  | succ fuel ih =>
    intro p0 d pl up h c p hc hnot hcp
    simp only [specDescent] at h ⊢
    cases hch : childOn t p0 (specSide Dimension Get point t p0 d) with
    | none =>
      rw [hch] at h
      simp only [List.getLast?_singleton, Option.some.injEq, Prod.mk.injEq] at h
      rw [← h.1] at hc
      exact absurd hc hnot
    | some c1 =>
      rw [hch] at h
      simp only at h ⊢
      have hpar := childOn_parent t inv p0 c1 _ hch
      have hstep := ancestors_step t (fun c p h => (inv.topo.parent_lt c p h).1) c1 p0 hpar
      cases hrest : specDescent Dimension Get point t fuel c1 (d + 1) with
      | nil =>
        rw [hrest] at h
        simp only [List.getLast?_singleton, Option.some.injEq, Prod.mk.injEq] at h
        rw [← h.1] at hc
        exact absurd hc hnot
      | cons e r =>
        rw [hrest, List.getLast?_cons_cons, ← hrest] at h
        rw [← hrest]
        by_cases hc1 : c = c1 ∨ c ∈ ancestors t c1 c1
        · have hcc : c = c1 := by
            rcases hc1 with h1 | h1
            · exact h1
            · rw [hstep] at h1
              rcases List.mem_cons.1 h1 with h2 | h2
              · exact absurd (Or.inl h2) hnot
              · exact absurd (Or.inr h2) hnot
          subst hcc
          rw [hpar] at hcp
          have hp : p0 = p := Option.some.inj hcp
          subst hp
          exact ⟨_, by simp, hch⟩
        · obtain ⟨s, hs1, hs2⟩ := ih c1 (d + 1) pl up h c p hc hc1 hcp
          exact ⟨s, List.mem_cons_of_mem _ hs1, hs2⟩

/-- Every node of the walk is its last node or is met on the way up from it. -/
theorem specDescent_mem (point : Nat) (t : KDTree) (inv : InsertInv Dimension t)
    (fuel : Nat) :
    ∀ (p0 d pl : Nat) (up : Bool),
      (specDescent Dimension Get point t fuel p0 d).getLast? = some (pl, up) →
      ∀ (a : Nat) (s : Bool), (a, s) ∈ specDescent Dimension Get point t fuel p0 d →
        a = pl ∨ a ∈ ancestors t pl pl := by
  induction fuel with
  | zero => intro p0 d pl up h; simp [specDescent] at h
  | succ fuel ih =>
    intro p0 d pl up h a s hmem
    have hstart := specDescent_start Dimension Get point t inv (fuel + 1) p0 d pl up h
    simp only [specDescent] at h hmem
    cases hch : childOn t p0 (specSide Dimension Get point t p0 d) with
    | none =>
      rw [hch] at hmem
      simp only [List.mem_singleton, Prod.mk.injEq] at hmem
      rw [hmem.1]
      exact hstart
    | some c1 =>
      rw [hch] at h hmem
      simp only at h hmem
      rcases List.mem_cons.1 hmem with h1 | h1
      · simp only [Prod.mk.injEq] at h1
        rw [h1.1]
        exact hstart
      · cases hrest : specDescent Dimension Get point t fuel c1 (d + 1) with
        | nil => rw [hrest] at h1; cases h1
        | cons e r =>
          rw [hrest, List.getLast?_cons_cons, ← hrest] at h
          exact ih c1 (d + 1) pl up h a s h1

/-- The walk from the root of a tree built by `Insert`: its nodes are the last node and
the positions on the way up from it, each met at its floor with the side of the placement
rule, and each but the root entered from its parent on the side taken there. -/
theorem specWalk_facts (point : Nat) (t : KDTree) (inv : InsertInv Dimension t)
    (hf : FloorInv t) (fuel : Nat) (hne : t.pointDataVector ≠ []) (pl : Nat) (up : Bool)
    (hlast : (specWalk Dimension Get point t fuel).getLast? = some (pl, up)) :
    (∀ a : Nat, (∃ s : Bool, (a, s) ∈ specWalk Dimension Get point t fuel) ↔
      (a = pl ∨ a ∈ ancestors t pl pl)) ∧
    (∀ (a : Nat) (s : Bool), (a, s) ∈ specWalk Dimension Get point t fuel →
      ∃ da : Nat, t.nodeFloor.find a = some da ∧ s = specSide Dimension Get point t a da) ∧
    (∀ c p : Nat, (c = pl ∨ c ∈ ancestors t pl pl) → t.parentIndex.find c = some p →
      ∃ s : Bool, (p, s) ∈ specWalk Dimension Get point t fuel ∧ childOn t p s = some c) := by
  have horg : t.origin ≠ 0 := fun h => hne (origin_null Dimension t inv h)
  obtain ⟨hol, -⟩ := origin_live Dimension t inv horg
  have hwalk : specWalk Dimension Get point t fuel =
      specDescent Dimension Get point t fuel 0 0 := by
    simp [specWalk, horg, hol]
  rw [hwalk] at hlast ⊢
  have hroot : t.parentIndex.find 0 = none := fresh_root t inv
  have hanc0 : ancestors t 0 0 = [] := rfl
  have hchild : ∀ c p : Nat, (c = pl ∨ c ∈ ancestors t pl pl) → t.parentIndex.find c = some p →
      ∃ s : Bool, (p, s) ∈ specDescent Dimension Get point t fuel 0 0 ∧
        childOn t p s = some c := by
    intro c p hc hcp
    apply specDescent_child Dimension Get point t inv fuel 0 0 pl up hlast c p hc _ hcp
    rw [hanc0]
    intro h
    rcases h with h | h
    · rw [h, hroot] at hcp; cases hcp
    · cases h
  refine ⟨?_, specDescent_floor Dimension Get point t inv hf fuel 0 0 (hf.root hne), hchild⟩
  intro a
  constructor
  · rintro ⟨s, hs⟩
    exact specDescent_mem Dimension Get point t inv fuel 0 0 pl up hlast a s hs
  · intro ha
    rcases ha with ha | ha
    · subst ha
      exact ⟨up, getLast?_mem _ _ hlast⟩
    · obtain ⟨c, hc, hca⟩ := ancestors_is_parent t (fun c p h => (inv.topo.parent_lt c p h).1)
        pl a ha
      obtain ⟨s, hs, -⟩ := hchild c a hc hca
      exact ⟨s, hs⟩

end Coordinates

end gbi
namespace gbi

section Coordinates

variable {α : Type} [DecidableEq α] [LT α] [∀ a b : α, Decidable (a < b)]
variable (Dimension : Nat) (Get : PointData → Nat → α)

theorem Attached.ancestors_old {point : Nat} {t t' : KDTree} {path : List (Nat × Bool)}
    {pl : Nat} {up : Bool} (ha : Attached Dimension Get point t t' path pl up)
    (inv : InsertInv Dimension t) (fuel : Nat) :
    ∀ q : Nat, q < t.pointDataVector.length → ancestors t' fuel q = ancestors t fuel q := by
  induction fuel with
  | zero => intro q _; rfl
  | succ fuel ih =>
    intro q hq
    have hqn : q ≠ t.pointDataVector.length := by omega
    simp only [ancestors, ha.parent, Map.find_set, if_neg hqn]
    cases hp : t.parentIndex.find q with
    | none => rfl
    | some p =>
      have := inv.topo.parent_lt q p hp
      simp only
      rw [ih p (by omega)]

theorem Attached.ancestors_new {point : Nat} {t t' : KDTree} {path : List (Nat × Bool)}
    {pl : Nat} {up : Bool} (ha : Attached Dimension Get point t t' path pl up)
    (inv : InsertInv Dimension t) :
    ancestors t' t.pointDataVector.length t.pointDataVector.length =
      pl :: ancestors t pl pl := by
  have hpl := Attached.pl_lt Dimension Get ha
  have hlen : t.pointDataVector.length = (t.pointDataVector.length - 1) + 1 := by omega
  have hpar : t'.parentIndex.find t.pointDataVector.length = some pl := by
    rw [ha.parent, Map.find_set, if_pos rfl]
  rw [hlen]
  simp only [ancestors]
  rw [← hlen, hpar]
  simp only
  rw [Attached.ancestors_old Dimension Get ha inv _ pl hpl]
  rw [ancestors_fuel t (fun c p h => (inv.topo.parent_lt c p h).1) _ pl pl (by omega)
    (Nat.le_refl _)]

theorem Attached.vec_old {point : Nat} {t t' : KDTree} {path : List (Nat × Bool)}
    {pl : Nat} {up : Bool} (ha : Attached Dimension Get point t t' path pl up) (q : Nat)
    (hq : q < t.pointDataVector.length) : t'.pointDataVector[q]? = t.pointDataVector[q]? := by
  rw [ha.vec, List.getElem?_append_left hq]

theorem Attached.vec_new {point : Nat} {t t' : KDTree} {path : List (Nat × Bool)}
    {pl : Nat} {up : Bool} (ha : Attached Dimension Get point t t' path pl up) :
    t'.pointDataVector[t.pointDataVector.length]? = some point := by
  rw [ha.vec]
  simp

theorem Attached.childOn_eq {point : Nat} {t t' : KDTree} {path : List (Nat × Bool)}
    {pl : Nat} {up : Bool} (ha : Attached Dimension Get point t t' path pl up) (p : Nat)
    (s : Bool) :
    childOn t' p s =
      if p = pl ∧ s = up then some t.pointDataVector.length else childOn t p s := by
  unfold childOn
  rw [ha.lower, ha.upper]
  cases s <;> cases up <;> by_cases hp : p = pl <;>
    simp [hp, Map.find_set]

theorem Attached.floor_old {point : Nat} {t t' : KDTree} {path : List (Nat × Bool)}
    {pl : Nat} {up : Bool} (ha : Attached Dimension Get point t t' path pl up) (a : Nat)
    (hq : a ≠ t.pointDataVector.length) : t'.nodeFloor.find a = t.nodeFloor.find a := by
  obtain ⟨f, -, hfl⟩ := ha.floor
  rw [hfl, Map.find_set, if_neg hq]

theorem IsLeaf_childOn (t : KDTree) (p : Nat) :
    IsLeaf t p = true ↔ ∀ s : Bool, childOn t p s = none := by
  rw [IsLeaf_true_iff]
  constructor
  · rintro ⟨h1, h2⟩ s
    cases s
    · simpa [childOn] using h1
    · simpa [childOn] using h2
  · intro h
    exact ⟨by simpa [childOn] using h false, by simpa [childOn] using h true⟩

theorem Attached.leaf_new {point : Nat} {t t' : KDTree} {path : List (Nat × Bool)}
    {pl : Nat} {up : Bool} (ha : Attached Dimension Get point t t' path pl up)
    (inv : InsertInv Dimension t) : IsLeaf t' t.pointDataVector.length = true := by
  have hpl := Attached.pl_lt Dimension Get ha
  obtain ⟨h1, h2, -, -⟩ := fresh_position t inv t.pointDataVector.length (Nat.le_refl _)
  rw [IsLeaf_childOn]
  intro s
  rw [Attached.childOn_eq Dimension Get ha]
  have hne : ¬ (t.pointDataVector.length = pl ∧ s = up) := by
    intro h; omega
  rw [if_neg hne]
  cases s
  · simpa [childOn] using h1
  · simpa [childOn] using h2

theorem Attached.leaf_old {point : Nat} {t t' : KDTree} {path : List (Nat × Bool)}
    {pl : Nat} {up : Bool} (ha : Attached Dimension Get point t t' path pl up) (a : Nat) :
    IsLeaf t' a = true ↔ IsLeaf t a = true ∧ a ≠ pl := by
  rw [IsLeaf_childOn, IsLeaf_childOn]
  constructor
  · intro h
    have hapl : a ≠ pl := by
      intro e
      have := h up
      rw [Attached.childOn_eq Dimension Get ha, if_pos ⟨e, rfl⟩] at this
      cases this
    refine ⟨?_, hapl⟩
    intro s
    have := h s
    rw [Attached.childOn_eq Dimension Get ha, if_neg (fun h => hapl h.1)] at this
    exact this
  · rintro ⟨h, hapl⟩ s
    rw [Attached.childOn_eq Dimension Get ha, if_neg (fun h => hapl h.1)]
    exact h s

/-- A leaf has no strict descendant. -/
theorem leaf_no_descendant {D : Nat} (t : KDTree) (inv : InsertInv D t) (a q : Nat)
    (hleaf : IsLeaf t a = true) : a ∉ ancestors t q q := by
  intro h
  obtain ⟨c, -, hca⟩ := ancestors_is_parent t (fun c p h => (inv.topo.parent_lt c p h).1) q a h
  rw [IsLeaf_true_iff] at hleaf
  rcases inv.topo.parent_child c a hca with h1 | h1
  · rw [hleaf.1] at h1; cases h1
  · rw [hleaf.2] at h1; cases h1

end Coordinates

end gbi
namespace gbi

section Ordered

variable {α : Type} [LinearOrder α]
variable (Dimension : Nat) (Get : PointData → Nat → α)

theorem empty_kdOrdered : KDOrdered Dimension Get KDTree.empty := by
  intro p c q f gp gq hf
  simp [KDTree.empty, Map.find] at hf

/-- What the side of the placement rule says about the coordinates. -/
theorem specSide_order (point : Nat) (t : KDTree) (p d : Nat) :
    (specSide Dimension Get point t p d = false →
      Get point (d % Dimension) ≤ Get (t.pointDataVector.getD p 0) (d % Dimension)) ∧
    (specSide Dimension Get point t p d = true →
      Get (t.pointDataVector.getD p 0) (d % Dimension) ≤ Get point (d % Dimension)) := by
  unfold specSide
  constructor
  · intro h
    simp only [Bool.not_eq_false', decide_eq_true_eq] at h
    rcases h with h | h
    · exact le_of_lt h
    · exact le_of_eq h.1
  · intro h
    simp only [Bool.not_eq_true', decide_eq_false_iff_not, not_or] at h
    exact not_lt.1 h.1

theorem Rooted.kdOrdered_root {point : Nat} {t t' : KDTree} (hr : Rooted point t t')
    (inv : InsertInv Dimension t) (hemp : t.pointDataVector = []) :
    KDOrdered Dimension Get t' := by
  intro p c q f gp gq _ _ _ _
  constructor
  · intro h
    rw [hr.lower] at h
    have := inv.topo.parent_lt c p (inv.topo.lower_parent p c h)
    rw [hemp] at this
    simp at this
  · intro h
    rw [hr.upper] at h
    have := inv.topo.parent_lt c p (inv.topo.upper_parent p c h)
    rw [hemp] at this
    simp at this

/-- The node under which the child `c`, on the way up from the new leaf, hangs on side
`s` was left by the walk through that side. -/
theorem Attached.side_of_child (fuel : Nat) {point : Nat} {t t' : KDTree} {pl : Nat} {up : Bool}
    (ha : Attached Dimension Get point t t' (specWalk Dimension Get point t fuel) pl up)
    (inv : InsertInv Dimension t) (hf : FloorInv t) (p c : Nat) (s : Bool)
    (hc : c = t.pointDataVector.length ∨ c = pl ∨ c ∈ ancestors t pl pl)
    (hch : childOn t' p s = some c) :
    (p, s) ∈ specWalk Dimension Get point t fuel := by
  have hpl := Attached.pl_lt Dimension Get ha
  have hne : t.pointDataVector ≠ [] := by
    intro h; rw [h] at hpl; simp at hpl
  obtain ⟨-, -, hfacts⟩ := specWalk_facts Dimension Get point t inv hf fuel hne pl up ha.last
  rw [Attached.childOn_eq Dimension Get ha] at hch
  by_cases hps : p = pl ∧ s = up
  · rw [hps.1, hps.2]
    exact getLast?_mem _ _ ha.last
  · rw [if_neg hps] at hch
    have hpar := childOn_parent t inv p c s hch
    have hcn := (inv.topo.parent_lt c p hpar).2
    have hc' : c = pl ∨ c ∈ ancestors t pl pl := by
      rcases hc with h | h
      · omega
      · exact h
    obtain ⟨s', hs1, hs2⟩ := hfacts c p hc' hpar
    have hss : s' = s := by
      cases s <;> cases s'
      · rfl
      · simp only [childOn, Bool.false_eq_true, if_false, if_true] at hch hs2
        exact absurd hs2 (inv.topo.lower_ne_upper p c hch)
      · simp only [childOn, Bool.false_eq_true, if_false, if_true] at hch hs2
        exact absurd hch (inv.topo.lower_ne_upper p c hs2)
      · rfl
    rw [← hss]
    exact hs1

theorem Attached.kdOrdered (fuel : Nat) {point : Nat} {t t' : KDTree} {pl : Nat} {up : Bool}
    (ha : Attached Dimension Get point t t' (specWalk Dimension Get point t fuel) pl up)
    (inv : InsertInv Dimension t) (inv' : InsertInv Dimension t') (hf : FloorInv t)
    (hK : KDOrdered Dimension Get t) : KDOrdered Dimension Get t' := by
  have hpl := Attached.pl_lt Dimension Get ha
  have hne : t.pointDataVector ≠ [] := by
    intro h; rw [h] at hpl; simp at hpl
  obtain ⟨-, hfloor, -⟩ := specWalk_facts Dimension Get point t inv hf fuel hne pl up ha.last
  intro p c q f gp gq hfp hgp hgq hsub
  have hqlt : q < t.pointDataVector.length + 1 := by
    have := (List.getElem?_eq_some.1 hgq).1
    rw [ha.vec] at this
    simpa using this
  have hsub' : c = q ∨ c ∈ ancestors t' q q := by
    rcases hsub with h | h
    · exact Or.inl h.symm
    · exact Or.inr ((strictDescendant_iff t' inv' c q).1 h)
  -- the common argument for both sides
  have key : ∀ s : Bool, childOn t' p s = some c →
      (q < t.pointDataVector.length → childOn t p s = some c ∧
        t.nodeFloor.find p = some f ∧ t.pointDataVector[p]? = some gp ∧
        t.pointDataVector[q]? = some gq ∧ inSubtree t c q) ∧
      (q = t.pointDataVector.length → gq = point ∧ t.pointDataVector.getD p 0 = gp ∧
        s = specSide Dimension Get point t p f) := by
    intro s hch
    have hpc : t'.parentIndex.find c = some p := childOn_parent t' inv' p c s hch
    have hpltc := (inv'.topo.parent_lt c p hpc).1
    constructor
    · intro hq
      have hcq : c ≤ q := by
        rcases hsub' with h | h
        · omega
        · exact Nat.le_of_lt (ancestors_lt t' (fun c p h => (inv'.topo.parent_lt c p h).1) q q c h)
      have hch' := hch
      rw [Attached.childOn_eq Dimension Get ha] at hch'
      have hnot : ¬ (p = pl ∧ s = up) := by
        intro h
        rw [if_pos h] at hch'
        have := Option.some.inj hch'
        omega
      rw [if_neg hnot] at hch'
      refine ⟨hch', ?_, ?_, ?_, ?_⟩
      · rw [← Attached.floor_old Dimension Get ha p (by omega)]; exact hfp
      · rw [← Attached.vec_old Dimension Get ha p (by omega)]; exact hgp
      · rw [← Attached.vec_old Dimension Get ha q hq]; exact hgq
      · rcases hsub' with h | h
        · exact Or.inl h.symm
        · refine Or.inr ((strictDescendant_iff t inv c q).2 ?_)
          rw [← Attached.ancestors_old Dimension Get ha inv q q hq]
          exact h
    · intro hq
      subst hq
      have hcs : c = t.pointDataVector.length ∨ c = pl ∨ c ∈ ancestors t pl pl := by
        rcases hsub' with h | h
        · exact Or.inl h
        · rw [Attached.ancestors_new Dimension Get ha inv] at h
          exact Or.inr (List.mem_cons.1 h)
      have hmem := Attached.side_of_child Dimension Get fuel ha inv hf p c s hcs hch
      obtain ⟨da, hda, hs⟩ := hfloor p s hmem
      have hpn : p < t.pointDataVector.length := ha.range _ hmem
      rw [Attached.floor_old Dimension Get ha p (by omega), hda] at hfp
      have hdf : da = f := Option.some.inj hfp
      subst hdf
      rw [Attached.vec_new Dimension Get ha] at hgq
      rw [Attached.vec_old Dimension Get ha p hpn] at hgp
      refine ⟨(Option.some.inj hgq).symm, ?_, hs⟩
      rw [List.getD_eq_getElem?_getD, hgp]
      rfl
  have hcase : q < t.pointDataVector.length ∨ q = t.pointDataVector.length := by omega
  constructor
  · intro hlow
    obtain ⟨k1, k2⟩ := key false (by simpa [childOn] using hlow)
    rcases hcase with hq | hq
    · obtain ⟨h1, h2, h3, h4, h5⟩ := k1 hq
      exact (hK p c q f gp gq h2 h3 h4 h5).1 (by simpa [childOn] using h1)
    · obtain ⟨h1, h2, h3⟩ := k2 hq
      have := (specSide_order Dimension Get point t p f).1 h3.symm
      rw [h2] at this
      rw [h1]
      exact this
  · intro hupp
    obtain ⟨k1, k2⟩ := key true (by simpa [childOn] using hupp)
    rcases hcase with hq | hq
    · obtain ⟨h1, h2, h3, h4, h5⟩ := k1 hq
      exact (hK p c q f gp gq h2 h3 h4 h5).2 (by simpa [childOn] using h1)
    · obtain ⟨h1, h2, h3⟩ := k2 hq
      have := (specSide_order Dimension Get point t p f).2 h3.symm
      rw [h2] at this
      rw [h1]
      exact this

/-- `Insert` of a new handle keeps the KD ordering. -/
theorem Insert_kdOrdered (fuel : Nat) (t t' : KDTree) (h : Nat) (inv : InsertInv Dimension t)
    (hP : FloorInv t ∧ KDOrdered Dimension Get t) (hh : h ≠ 0)
    (hnew : t.indexedPointData.find h = none)
    (hI : Insert Dimension Get fuel t h = some t') :
    FloorInv t' ∧ KDOrdered Dimension Get t' := by
  refine ⟨Insert_floorInv Dimension Get fuel t t' h inv hP.1 hh hnew hI, ?_⟩
  by_cases hemp : t.pointDataVector = []
  · exact Rooted.kdOrdered_root Dimension Get
      (Insert_rooted Dimension Get fuel t t' h inv hh hemp hI).1 inv hemp
  · obtain ⟨pl, up, ha⟩ := Insert_attached Dimension Get fuel t t' h inv hh hnew hemp hI
    obtain ⟨inv', -, -⟩ := Insert_inv Dimension Get fuel t t' h inv hh hnew hI
    exact Attached.kdOrdered Dimension Get fuel ha inv inv' hP.1 hP.2

/-- C19: in the tree `t` built from the empty tree by `Insert` calls on distinct non-null
handles, with coordinates from a total order, for every position `p` with floor `f` and
child `c`, every point `gq` stored in the subtree of `c` compares with the point `gp` of
`p` on the axis `f mod Dimension`: it is less than or equal when `c` is the lower child,
greater than or equal when `c` is the upper child. -/
theorem C19_insert_keeps_kd_ordering (_ : 0 < Dimension) (hs : List PointData)
    (hnd : hs.Nodup) (h0 : (0 : PointData) ∉ hs) (fuel : Nat) (hfuel : hs.length ≤ fuel) :
    ∃ t, runCalls Dimension Get fuel KDTree.empty (hs.map Call.insert) = some t ∧
      ∀ (p c q : SizeT) (f : UInt) (gp gq : PointData), t.nodeFloor.find p = some f →
        t.pointDataVector[p]? = some gp → t.pointDataVector[q]? = some gq →
        inSubtree t c q →
        (t.lowerIndex.find p = some c → Get gq (f % Dimension) ≤ Get gp (f % Dimension)) ∧
        (t.upperIndex.find p = some c → Get gp (f % Dimension) ≤ Get gq (f % Dimension)) := by
  obtain ⟨t, hrun, inv, hv, -⟩ := built_tree Dimension Get fuel hs hnd h0 hfuel
  refine ⟨t, hrun, ?_⟩
  exact (runInserts_keeps Dimension Get fuel (fun t => FloorInv t ∧ KDOrdered Dimension Get t)
    (fun t t' h inv hP hh hnew hI => Insert_kdOrdered Dimension Get fuel t t' h inv hP hh hnew hI)
    hs KDTree.empty (empty_inv Dimension) ⟨empty_floorInv, empty_kdOrdered Dimension Get⟩ hnd h0
    (fun _ _ => rfl) t hrun).2

end Ordered

/-- Witness for C19: the handles `2`, `1`, `3` on a line. -/
theorem C19_insert_keeps_kd_ordering_witness :
    ∃ t, runCalls 1 lineGet 3 KDTree.empty (([2, 1, 3] : List PointData).map Call.insert)
        = some t ∧
      ∀ (p c q : SizeT) (f : UInt) (gp gq : PointData), t.nodeFloor.find p = some f →
        t.pointDataVector[p]? = some gp → t.pointDataVector[q]? = some gq →
        inSubtree t c q →
        (t.lowerIndex.find p = some c → lineGet gq (f % 1) ≤ lineGet gp (f % 1)) ∧
        (t.upperIndex.find p = some c → lineGet gp (f % 1) ≤ lineGet gq (f % 1)) :=
  C19_insert_keeps_kd_ordering 1 lineGet (by decide) [2, 1, 3] (by decide) (by decide) 3
    (by decide)

end gbi
namespace gbi

section Coordinates

variable {α : Type} [DecidableEq α] [LT α] [∀ a b : α, Decidable (a < b)]
variable (Dimension : Nat) (Get : PointData → Nat → α)

/-- One round of the boundary update touches the entry of its ancestor only. -/
theorem UpdateBoundariesStep_other (point : Nat) (B : Map PointData (List PointData))
    (q g : Nat) (hg : g ≠ q) :
    (UpdateBoundariesStep Dimension Get point B q).find g = B.find g := by
  have hassign : ∀ (b : Map PointData (List PointData)) (j : Nat),
      b.find g = B.find g → (boundaryAssign Dimension b q j point).find g = B.find g := by
    intro b j hb
    rw [boundaryAssign_find, if_neg hg]
    exact hb
  unfold UpdateBoundariesStep
  split
  · exact foldl_keeps (fun b : Map PointData (List PointData) => b.find g = B.find g) _
      (fun b i hb => hassign _ _ (hassign _ _ hb)) _ B rfl
  · refine foldl_keeps (fun b : Map PointData (List PointData) => b.find g = B.find g) _
      ?_ _ B rfl
    intro b i hb
    simp only
    split
    · split
      · exact hassign _ _ (hassign _ _ hb)
      · exact hassign _ _ hb
    · split
      · exact hassign _ _ hb
      · exact hb

/-- In a positive dimension one round of the boundary update leaves an entry for its
ancestor. -/
theorem UpdateBoundariesStep_isSome (hD : 0 < Dimension) (point : Nat)
    (B : Map PointData (List PointData)) (q : Nat) (hq : B.find q = none) :
    (UpdateBoundariesStep Dimension Get point B q).find q ≠ none := by
  have hrange : List.range Dimension = List.range (Dimension - 1) ++ [Dimension - 1] := by
    have h : Dimension = (Dimension - 1) + 1 := by omega
    conv_lhs => rw [h]
    exact List.range_succ _
  unfold UpdateBoundariesStep
  simp only [hq]
  rw [hrange, List.foldl_append]
  simp [boundaryAssign_find]

/-- One round of the boundary update on an ancestor that has an entry: each minimum slot
takes the new point when its coordinate is strictly smaller, each maximum slot when it is
strictly greater. -/
theorem UpdateBoundariesStep_exact (point : Nat) (B : Map PointData (List PointData)) (q : Nat)
    (arr0 : List Nat) (hq : B.find q = some arr0) (hlen : arr0.length = 2 * Dimension) :
    ∃ arr : List Nat, (UpdateBoundariesStep Dimension Get point B q).find q = some arr ∧
      arr.length = 2 * Dimension ∧
      ∀ i : Nat, i < Dimension →
        arr.getD (2 * i) 0 =
          (if Get point i < Get (arr0.getD (2 * i) 0) i then point else arr0.getD (2 * i) 0) ∧
        arr.getD (2 * i + 1) 0 =
          (if Get (arr0.getD (2 * i + 1) 0) i < Get point i then point
            else arr0.getD (2 * i + 1) 0) := by
  unfold UpdateBoundariesStep
  simp only [hq]
  have key : ∀ n : Nat, n ≤ Dimension →
      ∃ arr : List Nat, ((List.range n).foldl
        (fun b i =>
          let b1 := if Get point i < Get (boundaryRead Dimension b q (2 * i)) i
            then boundaryAssign Dimension b q (2 * i) point else b
          if Get (boundaryRead Dimension b1 q (2 * i + 1)) i < Get point i
            then boundaryAssign Dimension b1 q (2 * i + 1) point else b1) B).find q = some arr ∧
        arr.length = 2 * Dimension ∧
        (∀ i : Nat, i < n →
          arr.getD (2 * i) 0 =
            (if Get point i < Get (arr0.getD (2 * i) 0) i then point else arr0.getD (2 * i) 0) ∧
          arr.getD (2 * i + 1) 0 =
            (if Get (arr0.getD (2 * i + 1) 0) i < Get point i then point
              else arr0.getD (2 * i + 1) 0)) ∧
        ∀ j : Nat, 2 * n ≤ j → arr.getD j 0 = arr0.getD j 0 := by
    intro n
    induction n with
    | zero =>
      intro _
      exact ⟨arr0, hq, hlen, fun i hi => absurd hi (by omega), fun _ _ => rfl⟩
    | succ n ih =>
      intro hn
      obtain ⟨arr, h1, h2, h3, h4⟩ := ih (by omega)
      rw [List.range_succ, List.foldl_append]
      simp only [List.foldl_cons, List.foldl_nil]
      generalize (List.range n).foldl
        (fun b i =>
          let b1 := if Get point i < Get (boundaryRead Dimension b q (2 * i)) i
            then boundaryAssign Dimension b q (2 * i) point else b
          if Get (boundaryRead Dimension b1 q (2 * i + 1)) i < Get point i
            then boundaryAssign Dimension b1 q (2 * i + 1) point else b1) B = F at h1
      have hr0 : boundaryRead Dimension F q (2 * n) = arr0.getD (2 * n) 0 := by
        simp only [boundaryRead, h1, Option.getD_some]
        exact h4 (2 * n) (Nat.le_refl _)
      -- the entry after the first assignment
      have hfirst : ∃ arr1 : List Nat,
          (if Get point n < Get (boundaryRead Dimension F q (2 * n)) n
            then boundaryAssign Dimension F q (2 * n) point else F).find q = some arr1 ∧
          arr1.length = 2 * Dimension ∧
          arr1.getD (2 * n) 0 =
            (if Get point n < Get (arr0.getD (2 * n) 0) n then point else arr0.getD (2 * n) 0) ∧
          ∀ j : Nat, j ≠ 2 * n → arr1.getD j 0 = arr.getD j 0 := by
        rw [hr0]
        by_cases hc : Get point n < Get (arr0.getD (2 * n) 0) n
        · simp only [hc, if_true]
          refine ⟨arr.set (2 * n) point, ?_, by simp [h2], ?_, ?_⟩
          · rw [boundaryAssign_find, if_pos rfl, h1]; rfl
          · rw [getD_set, if_pos ⟨rfl, by omega⟩]
          · intro j hj
            rw [getD_set, if_neg (fun h => hj h.1.symm)]
        · simp only [hc, if_false]
          exact ⟨arr, h1, h2, h4 (2 * n) (Nat.le_refl _), fun _ _ => rfl⟩
      obtain ⟨arr1, g1, g2, g3, g4⟩ := hfirst
      generalize (if Get point n < Get (boundaryRead Dimension F q (2 * n)) n
            then boundaryAssign Dimension F q (2 * n) point else F) = F1 at g1
      have hr1 : boundaryRead Dimension F1 q (2 * n + 1) = arr0.getD (2 * n + 1) 0 := by
        simp only [boundaryRead, g1, Option.getD_some]
        rw [g4 (2 * n + 1) (by omega)]
        exact h4 (2 * n + 1) (by omega)
      rw [hr1]
      have hsecond : ∃ arr2 : List Nat,
          (if Get (arr0.getD (2 * n + 1) 0) n < Get point n
            then boundaryAssign Dimension F1 q (2 * n + 1) point else F1).find q = some arr2 ∧
          arr2.length = 2 * Dimension ∧
          arr2.getD (2 * n + 1) 0 =
            (if Get (arr0.getD (2 * n + 1) 0) n < Get point n then point
              else arr0.getD (2 * n + 1) 0) ∧
          ∀ j : Nat, j ≠ 2 * n + 1 → arr2.getD j 0 = arr1.getD j 0 := by
        by_cases hc : Get (arr0.getD (2 * n + 1) 0) n < Get point n
        · simp only [hc, if_true]
          refine ⟨arr1.set (2 * n + 1) point, ?_, by simp [g2], ?_, ?_⟩
          · rw [boundaryAssign_find, if_pos rfl, g1]; rfl
          · rw [getD_set, if_pos ⟨rfl, by omega⟩]
          · intro j hj
            rw [getD_set, if_neg (fun h => hj h.1.symm)]
        · simp only [hc, if_false]
          refine ⟨arr1, g1, g2, ?_, fun _ _ => rfl⟩
          rw [g4 (2 * n + 1) (by omega)]
          exact h4 (2 * n + 1) (by omega)
      obtain ⟨arr2, k1, k2, k3, k4⟩ := hsecond
      refine ⟨arr2, k1, k2, ?_, ?_⟩
      · intro i hi
        by_cases hin : i = n
        · subst hin
          exact ⟨by rw [k4 (2 * i) (by omega), g3], k3⟩
        · have hlt : i < n := by omega
          obtain ⟨x1, x2⟩ := h3 i hlt
          constructor
          · rw [k4 (2 * i) (by omega), g4 (2 * i) (by omega)]; exact x1
          · rw [k4 (2 * i + 1) (by omega), g4 (2 * i + 1) (by omega)]; exact x2
      · intro j hj
        rw [k4 j (by omega), g4 j (by omega)]
        exact h4 j (by omega)
  obtain ⟨arr, h1, h2, h3, -⟩ := key Dimension (Nat.le_refl _)
  exact ⟨arr, h1, h2, h3⟩

/-- The boundary update of `Insert` over a list of distinct ancestors: an entry outside
the list stays, an ancestor without an entry gets one whose slots all hold the new point,
and an ancestor with an entry gets the slot-wise minimum and maximum with the new point. -/
theorem boundary_fold (hD : 0 < Dimension) (point : Nat) (ul : List Nat) :
    ∀ B : Map PointData (List PointData), ul.Nodup →
      (∀ g : Nat, g ∉ ul →
        (ul.foldl (UpdateBoundariesStep Dimension Get point) B).find g = B.find g) ∧
      (∀ g : Nat, g ∈ ul → B.find g = none →
        ∃ arr : List Nat,
          (ul.foldl (UpdateBoundariesStep Dimension Get point) B).find g = some arr ∧
          arr.length = 2 * Dimension ∧ ∀ j : Nat, j < 2 * Dimension → arr.getD j 0 = point) ∧
      (∀ (g : Nat) (arr0 : List Nat), g ∈ ul → B.find g = some arr0 →
        arr0.length = 2 * Dimension →
        ∃ arr : List Nat,
          (ul.foldl (UpdateBoundariesStep Dimension Get point) B).find g = some arr ∧
          arr.length = 2 * Dimension ∧
          ∀ i : Nat, i < Dimension →
            arr.getD (2 * i) 0 =
              (if Get point i < Get (arr0.getD (2 * i) 0) i then point
                else arr0.getD (2 * i) 0) ∧
            arr.getD (2 * i + 1) 0 =
              (if Get (arr0.getD (2 * i + 1) 0) i < Get point i then point
                else arr0.getD (2 * i + 1) 0)) := by
  induction ul using List.reverseRecOn with
  | nil =>
    intro B _
    exact ⟨fun _ _ => rfl, fun g hg => absurd hg (by simp), fun g _ hg => absurd hg (by simp)⟩
  | append_singleton r q ih =>
    intro B hnd
    rw [List.nodup_append] at hnd
    obtain ⟨hr, -, hdisj⟩ := hnd
    have hqr : q ∉ r := fun h => hdisj h (by simp)
    obtain ⟨i1, i2, i3⟩ := ih B hr
    simp only [List.foldl_append, List.foldl_cons, List.foldl_nil]
    refine ⟨?_, ?_, ?_⟩
    · intro g hg
      simp only [List.mem_append, List.mem_singleton, not_or] at hg
      rw [UpdateBoundariesStep_other Dimension Get point _ q g hg.2]
      exact i1 g hg.1
    · intro g hg hnone
      by_cases hgq : g = q
      · subst hgq
        have hF := i1 g hqr
        rw [hnone] at hF
        obtain ⟨-, h2⟩ := UpdateBoundariesStep_none Dimension Get point _ g hF
        rcases h2 with h2 | h2
        · exact absurd h2 (UpdateBoundariesStep_isSome Dimension Get hD point _ g hF)
        · exact h2
      · rw [UpdateBoundariesStep_other Dimension Get point _ q g hgq]
        simp only [List.mem_append, List.mem_singleton, hgq, or_false] at hg
        exact i2 g hg hnone
    · intro g arr0 hg hsome hlen
      by_cases hgq : g = q
      · subst hgq
        have hF := i1 g hqr
        rw [hsome] at hF
        exact UpdateBoundariesStep_exact Dimension Get point _ g arr0 hF hlen
      · rw [UpdateBoundariesStep_other Dimension Get point _ q g hgq]
        simp only [List.mem_append, List.mem_singleton, hgq, or_false] at hg
        exact i3 g arr0 hg hsome hlen

end Coordinates

end gbi
namespace gbi

section Coordinates

variable {α : Type} [DecidableEq α] [LT α] [∀ a b : α, Decidable (a < b)]
variable (Dimension : Nat) (Get : PointData → Nat → α)

/-- The handles of the walk are distinct, and a stored handle is among them exactly when
its position is visited. -/
theorem Attached.handles (fuel : Nat) {point : Nat} {t t' : KDTree} {pl : Nat} {up : Bool}
    (ha : Attached Dimension Get point t t' (specWalk Dimension Get point t fuel) pl up)
    (inv : InsertInv Dimension t) :
    ((specWalk Dimension Get point t fuel).map
        (fun e => t.pointDataVector.getD e.1 0)).Nodup ∧
      ∀ (a g : Nat), t.pointDataVector[a]? = some g →
        (g ∈ (specWalk Dimension Get point t fuel).map (fun e => t.pointDataVector.getD e.1 0) ↔
          ∃ s : Bool, (a, s) ∈ specWalk Dimension Get point t fuel) := by
  have hsorted : List.Pairwise (fun a b : Nat × Bool => a.1 < b.1)
      (specWalk Dimension Get point t fuel) := by
    unfold specWalk
    split
    · exact List.Pairwise.nil
    · exact (specDescent_sorted Dimension Get point t inv fuel _ 0).2
  have hget : ∀ e ∈ specWalk Dimension Get point t fuel,
      t.pointDataVector[e.1]? = some (t.pointDataVector.getD e.1 0) := by
    intro e he
    have := ha.range e he
    rw [List.getD_eq_getElem?_getD, List.getElem?_eq_getElem this]
    rfl
  constructor
  · unfold List.Nodup
    rw [List.pairwise_map]
    refine List.Pairwise.imp_of_mem ?_ hsorted
    intro a b hma hmb hab heq
    have h1 := hget a hma
    have h2 := hget b hmb
    rw [heq] at h1
    have := inv.store.inj h1 h2
    omega
  · intro a g hag
    rw [List.mem_map]
    constructor
    · rintro ⟨e, he, heg⟩
      have h1 := hget e he
      rw [heg] at h1
      have hea : e.1 = a := inv.store.inj h1 hag
      exact ⟨e.2, by rw [← hea]; exact he⟩
    · rintro ⟨s, hs⟩
      refine ⟨(a, s), hs, ?_⟩
      simp only [List.getD_eq_getElem?_getD, hag]
      rfl

end Coordinates

end gbi
namespace gbi

section Ordered

variable {α : Type} [LinearOrder α]
variable (Dimension : Nat) (Get : PointData → Nat → α)

theorem empty_bndExact : BndExact Dimension Get KDTree.empty := by
  intro p g h
  simp [KDTree.empty] at h

theorem Rooted.bndExact_root {point : Nat} {t t' : KDTree} (hr : Rooted point t t')
    (inv : InsertInv Dimension t) (hemp : t.pointDataVector = []) :
    BndExact Dimension Get t' := by
  intro p g hpg
  rw [hr.vec] at hpg
  have hp : p = 0 := by
    have := (List.getElem?_eq_some.1 hpg).1
    simpa using this
  subst hp
  have hg : point = g := by simpa using hpg
  subst hg
  obtain ⟨h1, h2, -, -⟩ := fresh_position t inv 0 (by rw [hemp]; simp)
  have hleaf : IsLeaf t' 0 = true := by
    rw [IsLeaf_true_iff, hr.lower, hr.upper]
    exact ⟨h1, h2⟩
  constructor
  · intro _
    rw [hr.bnd]
    cases hb : t.boundaries.find point with
    | none => rfl
    | some arr =>
      obtain ⟨q, hq⟩ := inv.base.bnd_live point arr hb
      rw [hemp] at hq
      simp at hq
  · intro h
    rw [hleaf] at h
    cases h

theorem Attached.bndExact (hD : 0 < Dimension) (fuel : Nat) {point : Nat} {t t' : KDTree}
    {pl : Nat} {up : Bool}
    (ha : Attached Dimension Get point t t' (specWalk Dimension Get point t fuel) pl up)
    (inv : InsertInv Dimension t) (inv' : InsertInv Dimension t') (hf : FloorInv t)
    (hnew : t.indexedPointData.find point = none) (hB : BndExact Dimension Get t) :
    BndExact Dimension Get t' := by
  have hpl := Attached.pl_lt Dimension Get ha
  have hne : t.pointDataVector ≠ [] := by
    intro h; rw [h] at hpl; simp at hpl
  obtain ⟨hon, -, -⟩ := specWalk_facts Dimension Get point t inv hf fuel hne pl up ha.last
  obtain ⟨hnodup, hmem⟩ := Attached.handles Dimension Get fuel ha inv
  obtain ⟨f1, f2, f3⟩ := boundary_fold Dimension Get hD point _ t.boundaries hnodup
  rw [← ha.bnd] at f1 f2 f3
  have hparlt : ∀ c p : Nat, t.parentIndex.find c = some p → p < c :=
    fun c p h => (inv.topo.parent_lt c p h).1
  -- descendants before and after
  have hdesc_old : ∀ a q : Nat, q < t.pointDataVector.length →
      (strictDescendant t' a q ↔ strictDescendant t a q) := by
    intro a q hq
    rw [strictDescendant_iff t' inv', strictDescendant_iff t inv,
      Attached.ancestors_old Dimension Get ha inv q q hq]
  have hdesc_new : ∀ a : Nat, strictDescendant t' a t.pointDataVector.length ↔
      (a = pl ∨ a ∈ ancestors t pl pl) := by
    intro a
    rw [strictDescendant_iff t' inv', Attached.ancestors_new Dimension Get ha inv,
      List.mem_cons]
  have hidx_old : ∀ s r : Nat, t.indexedPointData.find s = some r →
      t'.indexedPointData.find s = some r := by
    intro s r hs
    have hsp : s ≠ point := by
      intro e; rw [e, hnew] at hs; cases hs
    rw [ha.idx, Map.find_set, if_neg hsp]
    exact hs
  have hidx_new : t'.indexedPointData.find point = some t.pointDataVector.length := by
    rw [ha.idx, Map.find_set, if_pos rfl]
  have hq_cases : ∀ (q x : Nat), t'.pointDataVector[q]? = some x →
      (q < t.pointDataVector.length ∧ t.pointDataVector[q]? = some x) ∨
      (q = t.pointDataVector.length ∧ x = point) := by
    intro q x hqx
    have hlt : q < t.pointDataVector.length + 1 := by
      have := (List.getElem?_eq_some.1 hqx).1
      rw [ha.vec] at this
      simpa using this
    by_cases hq : q < t.pointDataVector.length
    · left
      rw [Attached.vec_old Dimension Get ha q hq] at hqx
      exact ⟨hq, hqx⟩
    · right
      have hqn : q = t.pointDataVector.length := by omega
      subst hqn
      rw [Attached.vec_new Dimension Get ha] at hqx
      exact ⟨rfl, (Option.some.inj hqx).symm⟩
  have hdesc_lt : ∀ a r s : Nat, t.indexedPointData.find s = some r →
      r < t.pointDataVector.length := fun a r s h => inv.store.lt_length h
  -- slots of a position that gains no descendant
  have keepMin : ∀ (a i s : Nat), ¬ strictDescendant t' a t.pointDataVector.length →
      minSlot Get t a i s → minSlot Get t' a i s := by
    rintro a i s hno ⟨⟨r, hr, hd⟩, hall⟩
    refine ⟨⟨r, hidx_old s r hr, (hdesc_old a r (inv.store.lt_length hr)).2 hd⟩, ?_⟩
    intro q x hdq hqx
    rcases hq_cases q x hqx with ⟨hq, hx⟩ | ⟨hq, hx⟩
    · exact hall q x ((hdesc_old a q hq).1 hdq) hx
    · rw [hq] at hdq
      exact absurd hdq hno
  have keepMax : ∀ (a i s : Nat), ¬ strictDescendant t' a t.pointDataVector.length →
      maxSlot Get t a i s → maxSlot Get t' a i s := by
    rintro a i s hno ⟨⟨r, hr, hd⟩, hall⟩
    refine ⟨⟨r, hidx_old s r hr, (hdesc_old a r (inv.store.lt_length hr)).2 hd⟩, ?_⟩
    intro q x hdq hqx
    rcases hq_cases q x hqx with ⟨hq, hx⟩ | ⟨hq, hx⟩
    · exact hall q x ((hdesc_old a q hq).1 hdq) hx
    · rw [hq] at hdq
      exact absurd hdq hno
  -- slots of a position that gains the new leaf
  have growMin : ∀ (a i s0 : Nat), strictDescendant t' a t.pointDataVector.length →
      minSlot Get t a i s0 →
      minSlot Get t' a i (if Get point i < Get s0 i then point else s0) := by
    rintro a i s0 hyes ⟨⟨r, hr, hd⟩, hall⟩
    by_cases hc : Get point i < Get s0 i
    · rw [if_pos hc]
      refine ⟨⟨_, hidx_new, hyes⟩, ?_⟩
      intro q x hdq hqx
      rcases hq_cases q x hqx with ⟨hq, hx⟩ | ⟨hq, hx⟩
      · exact le_trans (le_of_lt hc) (hall q x ((hdesc_old a q hq).1 hdq) hx)
      · rw [hx]
    · rw [if_neg hc]
      refine ⟨⟨r, hidx_old s0 r hr, (hdesc_old a r (inv.store.lt_length hr)).2 hd⟩, ?_⟩
      intro q x hdq hqx
      rcases hq_cases q x hqx with ⟨hq, hx⟩ | ⟨hq, hx⟩
      · exact hall q x ((hdesc_old a q hq).1 hdq) hx
      · rw [hx]
        exact not_lt.1 hc
  have growMax : ∀ (a i s0 : Nat), strictDescendant t' a t.pointDataVector.length →
      maxSlot Get t a i s0 →
      maxSlot Get t' a i (if Get s0 i < Get point i then point else s0) := by
    rintro a i s0 hyes ⟨⟨r, hr, hd⟩, hall⟩
    by_cases hc : Get s0 i < Get point i
    · rw [if_pos hc]
      refine ⟨⟨_, hidx_new, hyes⟩, ?_⟩
      intro q x hdq hqx
      rcases hq_cases q x hqx with ⟨hq, hx⟩ | ⟨hq, hx⟩
      · exact le_trans (hall q x ((hdesc_old a q hq).1 hdq) hx) (le_of_lt hc)
      · rw [hx]
    · rw [if_neg hc]
      refine ⟨⟨r, hidx_old s0 r hr, (hdesc_old a r (inv.store.lt_length hr)).2 hd⟩, ?_⟩
      intro q x hdq hqx
      rcases hq_cases q x hqx with ⟨hq, hx⟩ | ⟨hq, hx⟩
      · exact hall q x ((hdesc_old a q hq).1 hdq) hx
      · rw [hx]
        exact not_lt.1 hc
  -- the main case analysis
  intro p g hpg
  rcases hq_cases p g hpg with ⟨hp, hg⟩ | ⟨hp, hg⟩
  · by_cases hwalk : ∃ s : Bool, (p, s) ∈ specWalk Dimension Get point t fuel
    · -- a visited position: it is not a leaf afterwards
      have hanc := (hon p).1 hwalk
      have hyes : strictDescendant t' p t.pointDataVector.length := (hdesc_new p).2 hanc
      have hgH := (hmem p g hg).2 hwalk
      have hnl' : IsLeaf t' p = false := by
        cases hl : IsLeaf t' p with
        | false => rfl
        | true =>
          exfalso
          have hno := leaf_no_descendant t' inv' p t.pointDataVector.length hl
          exact hno ((strictDescendant_iff t' inv' p _).1 hyes)
      constructor
      · intro h; rw [hnl'] at h; cases h
      · intro _
        cases hl : IsLeaf t p with
        | true =>
          have hnone := (hB p g hg).1 hl
          obtain ⟨arr, h1, h2, h3⟩ := f2 g hgH hnone
          refine ⟨arr, h1, h2, ?_⟩
          intro i hi
          rw [h3 (2 * i) (by omega), h3 (2 * i + 1) (by omega)]
          have hnod : ∀ q : Nat, q < t.pointDataVector.length → ¬ strictDescendant t' p q := by
            intro q hq hdq
            have := (hdesc_old p q hq).1 hdq
            exact leaf_no_descendant t inv p q hl ((strictDescendant_iff t inv p q).1 this)
          constructor
          · refine ⟨⟨_, hidx_new, hyes⟩, ?_⟩
            intro q x hdq hqx
            rcases hq_cases q x hqx with ⟨hq, hx⟩ | ⟨hq, hx⟩
            · exact absurd hdq (hnod q hq)
            · rw [hx]
          · refine ⟨⟨_, hidx_new, hyes⟩, ?_⟩
            intro q x hdq hqx
            rcases hq_cases q x hqx with ⟨hq, hx⟩ | ⟨hq, hx⟩
            · exact absurd hdq (hnod q hq)
            · rw [hx]
        | false =>
          obtain ⟨arr0, hb0, hlen0, hex0⟩ := (hB p g hg).2 hl
          obtain ⟨arr, h1, h2, h3⟩ := f3 g arr0 hgH hb0 hlen0
          refine ⟨arr, h1, h2, ?_⟩
          intro i hi
          obtain ⟨e1, e2⟩ := h3 i hi
          rw [e1, e2]
          exact ⟨growMin p i _ hyes (hex0 i hi).1, growMax p i _ hyes (hex0 i hi).2⟩
    · -- a position off the walk: nothing changes
      have hno : ¬ strictDescendant t' p t.pointDataVector.length := by
        intro h
        exact hwalk ((hon p).2 ((hdesc_new p).1 h))
      have hgH : g ∉ (specWalk Dimension Get point t fuel).map
          (fun e => t.pointDataVector.getD e.1 0) := fun h => hwalk ((hmem p g hg).1 h)
      have hppl : p ≠ pl := by
        intro e
        exact hwalk ((hon p).2 (Or.inl e))
      rw [f1 g hgH]
      constructor
      · intro hl
        exact (hB p g hg).1 ((Attached.leaf_old Dimension Get ha p).1 hl).1
      · intro hl
        have hl0 : IsLeaf t p = false := by
          cases h : IsLeaf t p with
          | false => rfl
          | true =>
            rw [(Attached.leaf_old Dimension Get ha p).2 ⟨h, hppl⟩] at hl
            cases hl
        obtain ⟨arr0, hb0, hlen0, hex0⟩ := (hB p g hg).2 hl0
        refine ⟨arr0, hb0, hlen0, ?_⟩
        intro i hi
        exact ⟨keepMin p i _ hno (hex0 i hi).1, keepMax p i _ hno (hex0 i hi).2⟩
  · -- the new leaf
    rw [hp, hg]
    have hleaf := Attached.leaf_new Dimension Get ha inv
    constructor
    · intro _
      have hgH : point ∉ (specWalk Dimension Get point t fuel).map
          (fun e => t.pointDataVector.getD e.1 0) := by
        intro h
        obtain ⟨e, he, heq⟩ := List.mem_map.1 h
        have hr := ha.range e he
        have hv : t.pointDataVector[e.1]? = some point := by
          rw [← heq, List.getD_eq_getElem?_getD, List.getElem?_eq_getElem hr]
          rfl
        rw [(inv.store.idx_vec point e.1).2 hv] at hnew
        cases hnew
      rw [f1 point hgH]
      cases hb : t.boundaries.find point with
      | none => rfl
      | some arr =>
        obtain ⟨q, hq⟩ := inv.base.bnd_live point arr hb
        rw [(inv.store.idx_vec point q).2 hq] at hnew
        cases hnew
    · intro h
      rw [hleaf] at h
      cases h

/-- `Insert` of a new handle keeps the boundaries exact. -/
theorem Insert_bndExact (hD : 0 < Dimension) (fuel : Nat) (t t' : KDTree) (h : Nat)
    (inv : InsertInv Dimension t) (hP : FloorInv t ∧ BndExact Dimension Get t) (hh : h ≠ 0)
    (hnew : t.indexedPointData.find h = none)
    (hI : Insert Dimension Get fuel t h = some t') :
    FloorInv t' ∧ BndExact Dimension Get t' := by
  refine ⟨Insert_floorInv Dimension Get fuel t t' h inv hP.1 hh hnew hI, ?_⟩
  by_cases hemp : t.pointDataVector = []
  · exact Rooted.bndExact_root Dimension Get
      (Insert_rooted Dimension Get fuel t t' h inv hh hemp hI).1 inv hemp
  · obtain ⟨pl, up, ha⟩ := Insert_attached Dimension Get fuel t t' h inv hh hnew hemp hI
    obtain ⟨inv', -, -⟩ := Insert_inv Dimension Get fuel t t' h inv hh hnew hI
    exact Attached.bndExact Dimension Get hD fuel ha inv inv' hP.1 hnew hP.2

/-- C15: in the tree `t` built from the empty tree by `Insert` calls on distinct non-null
handles, with coordinates from a total order, the handle `g` of a position `p` has a
boundary entry exactly when `p` is not a leaf, and an entry has `2 * Dimension` slots of
which, for every axis `i`, slot `2i` holds a handle stored at a strict descendant of `p`
whose coordinate on axis `i` is the minimum over all strict descendants of `p`, and slot
`2i+1` one whose coordinate is the maximum. -/
theorem C15_insert_built_boundaries_exact (hD : 0 < Dimension) (hs : List PointData)
    (hnd : hs.Nodup) (h0 : (0 : PointData) ∉ hs) (fuel : Nat) (hfuel : hs.length ≤ fuel) :
    ∃ t, runCalls Dimension Get fuel KDTree.empty (hs.map Call.insert) = some t ∧
      ∀ (p : SizeT) (g : PointData), t.pointDataVector[p]? = some g →
        ((t.boundaries.find g).isSome ↔ IsLeaf t p = false) ∧
        ∀ arr : List PointData, t.boundaries.find g = some arr →
          arr.length = 2 * Dimension ∧
          ∀ i : Nat, i < Dimension →
            minSlot Get t p i (arr.getD (2 * i) 0) ∧
            maxSlot Get t p i (arr.getD (2 * i + 1) 0) := by
  obtain ⟨t, hrun, inv, hv, -⟩ := built_tree Dimension Get fuel hs hnd h0 hfuel
  have hB := (runInserts_keeps Dimension Get fuel
    (fun t => FloorInv t ∧ BndExact Dimension Get t)
    (fun t t' h inv hP hh hnew hI =>
      Insert_bndExact Dimension Get hD fuel t t' h inv hP hh hnew hI)
    hs KDTree.empty (empty_inv Dimension) ⟨empty_floorInv, empty_bndExact Dimension Get⟩ hnd h0
    (fun _ _ => rfl) t hrun).2
  refine ⟨t, hrun, ?_⟩
  intro p g hpg
  obtain ⟨h1, h2⟩ := hB p g hpg
  cases hl : IsLeaf t p with
  | true =>
    have hnone := h1 hl
    refine ⟨by simp [hnone], ?_⟩
    intro arr harr
    rw [hnone] at harr
    cases harr
  | false =>
    obtain ⟨arr0, hb0, hlen0, hex0⟩ := h2 hl
    refine ⟨by simp [hb0], ?_⟩
    intro arr harr
    rw [hb0] at harr
    have := Option.some.inj harr
    subst this
    exact ⟨hlen0, hex0⟩

end Ordered

/-- Witness for C15: the handles `2`, `1`, `3` on a line. -/
theorem C15_insert_built_boundaries_exact_witness :
    ∃ t, runCalls 1 lineGet 3 KDTree.empty (([2, 1, 3] : List PointData).map Call.insert)
        = some t ∧
      ∀ (p : SizeT) (g : PointData), t.pointDataVector[p]? = some g →
        ((t.boundaries.find g).isSome ↔ IsLeaf t p = false) ∧
        ∀ arr : List PointData, t.boundaries.find g = some arr →
          arr.length = 2 * 1 ∧
          ∀ i : Nat, i < 1 →
            minSlot lineGet t p i (arr.getD (2 * i) 0) ∧
            maxSlot lineGet t p i (arr.getD (2 * i + 1) 0) :=
  C15_insert_built_boundaries_exact 1 lineGet (by decide) [2, 1, 3] (by decide) (by decide) 3
    (by decide)

end gbi
namespace gbi

/-- On two valid positions `SwapNodes` returns: the two handles change places in the
vector, the reverse map follows, the links stay, and `origin` follows the handle of the
first position. -/
theorem SwapNodes_exact (t : KDTree) (a b x y : Nat) (hs : StoreOK t)
    (hx : t.pointDataVector[a]? = some x) (hy : t.pointDataVector[b]? = some y) :
    ∃ t', SwapNodes t a b = some t' ∧ StoreOK t' ∧ links t' = links t ∧
      t'.pointDataVector = (t.pointDataVector.set a y).set b x ∧
      t'.origin = if x = t.origin then y else t.origin := by
  have hix : t.indexedPointData.find x = some a := (hs.idx_vec x a).2 hx
  have hiy : t.indexedPointData.find y = some b := (hs.idx_vec y b).2 hy
  obtain ⟨hnn, hiv⟩ := swap_store t.pointDataVector t.indexedPointData a b x y hs.nonnull
    hs.idx_vec hx hy
  have hx' : vecAt t a = some x := hx
  have hy' : vecAt t b = some y := hy
  unfold SwapNodes
  simp only [hx', hy']
  by_cases ho : x = t.origin
  · simp only [ho, if_true, idxAt, hiy]
    rw [← ho]
    simp only [hix]
    exact ⟨_, rfl, ⟨hnn, hiv⟩, rfl, rfl, rfl⟩
  · simp only [ho, if_false, idxAt, hix, hiy]
    exact ⟨_, rfl, ⟨hnn, hiv⟩, rfl, rfl, rfl⟩

theorem getElem?_set_set (vec : List Nat) (a b x y q : Nat) (ha : a < vec.length)
    (hb : b < vec.length) :
    ((vec.set a y).set b x)[q]? =
      if q = b then some x else if q = a then some y else vec[q]? := by
  rw [List.getElem?_set, List.getElem?_set]
  simp only [List.length_set]
  by_cases hqb : b = q
  · subst hqb
    simp [hb]
  · have hqb' : ¬ q = b := fun h => hqb h.symm
    simp only [hqb, if_false, hqb']
    by_cases hqa : a = q
    · subst hqa
      simp [ha]
    · have hqa' : ¬ q = a := fun h => hqa h.symm
      simp only [hqa, if_false, hqa']

/-- The pairwise swaps along an increasing chain of valid positions: the first handle
ends at the last position, every other position of the chain receives the handle of its
successor, positions off the chain keep their handle, the store stays consistent, the links
stay, and `origin` stays the handle of position `0`. -/
theorem SwapAlong_exact (rest : List Nat) :
    ∀ (a : Nat) (t : KDTree), StoreOK t → List.Pairwise (fun u v : Nat => u < v) (a :: rest) →
      (∀ x ∈ a :: rest, x < t.pointDataVector.length) →
      t.pointDataVector[0]? = some t.origin →
      ∃ t', SwapAlong t (a :: rest) = some t' ∧ StoreOK t' ∧ links t' = links t ∧
        t'.pointDataVector.length = t.pointDataVector.length ∧
        t'.pointDataVector[rest.getLastD a]? = t.pointDataVector[a]? ∧
        (∀ u v : Nat, (u, v) ∈ (a :: rest).zip rest →
          t'.pointDataVector[u]? = t.pointDataVector[v]?) ∧
        (∀ q : Nat, q ∉ a :: rest → t'.pointDataVector[q]? = t.pointDataVector[q]?) ∧
        t'.pointDataVector[0]? = some t'.origin := by
  induction rest with
  | nil =>
    intro a t hs _ _ horg
    exact ⟨t, rfl, hs, rfl, rfl, rfl, fun u v h => by simp at h, fun _ _ => rfl, horg⟩
  | cons b r ih =>
    intro a t hs hpw hval horg
    rw [List.pairwise_cons] at hpw
    obtain ⟨hab_all, hpw'⟩ := hpw
    have hab : a < b := hab_all b (by simp)
    have ha : a < t.pointDataVector.length := hval a (by simp)
    have hb : b < t.pointDataVector.length := hval b (by simp)
    obtain ⟨x, hx⟩ : ∃ x, t.pointDataVector[a]? = some x :=
      ⟨_, List.getElem?_eq_getElem ha⟩
    obtain ⟨y, hy⟩ : ∃ y, t.pointDataVector[b]? = some y :=
      ⟨_, List.getElem?_eq_getElem hb⟩
    obtain ⟨t1, h1, hs1, hk1, hv1, ho1⟩ := SwapNodes_exact t a b x y hs hx hy
    have hget : ∀ q : Nat, t1.pointDataVector[q]? =
        if q = b then some x else if q = a then some y else t.pointDataVector[q]? := by
      intro q
      rw [hv1]
      exact getElem?_set_set t.pointDataVector a b x y q ha hb
    have hlen1 : t1.pointDataVector.length = t.pointDataVector.length := by
      rw [hv1]; simp
    have horg1 : t1.pointDataVector[0]? = some t1.origin := by
      rw [ho1, hget 0, if_neg (by omega)]
      by_cases ha0 : a = 0
      · subst ha0
        rw [hx] at horg
        have hxo : x = t.origin := Option.some.inj horg
        simp [hxo]
      · have ha0' : ¬ (0 = a) := fun h => ha0 h.symm
        rw [if_neg ha0']
        have hxo : ¬ x = t.origin := by
          intro e
          rw [e] at hx
          exact ha0 (hs.inj hx horg)
        rw [if_neg hxo]
        exact horg
    obtain ⟨t2, h2, hs2, hk2, hl2, hg2, hz2, hq2, ho2⟩ := ih b t1 hs1 hpw'
      (by
        intro z hz
        rw [hlen1]
        exact hval z (List.mem_cons_of_mem _ hz))
      horg1
    have hpw_b : ∀ z ∈ r, b < z := by
      rw [List.pairwise_cons] at hpw'
      exact hpw'.1
    refine ⟨t2, ?_, hs2, by rw [hk2, hk1], by rw [hl2, hlen1], ?_, ?_, ?_, ho2⟩
    · simp only [SwapAlong, h1]
      exact h2
    · rw [List.getLastD_cons, hg2, hget b, if_pos rfl, hx]
    · intro u v huv
      simp only [List.zip_cons_cons, List.mem_cons, Prod.mk.injEq] at huv
      rcases huv with ⟨hu, hv⟩ | huv
      · subst hu; subst hv
        have hnot : u ∉ v :: r := by
          intro h
          rcases List.mem_cons.1 h with h | h
          · omega
          · have := hpw_b u h; omega
        rw [hq2 u hnot, hget u, if_neg (by omega), if_pos rfl, hy]
      · rw [hz2 u v huv]
        have hvr : v ∈ r := (List.of_mem_zip huv).2
        have := hpw_b v hvr
        rw [hget v, if_neg (by omega), if_neg (by omega)]
    · intro q hq
      simp only [List.mem_cons, not_or] at hq
      rw [hq2 q (by simp only [List.mem_cons, not_or]; exact ⟨hq.2.1, hq.2.2⟩), hget q,
        if_neg hq.2.1, if_neg hq.1]

section Coordinates

variable {α : Type} [DecidableEq α] [LT α] [∀ a b : α, Decidable (a < b)]
variable (Dimension : Nat) (Get : PointData → Nat → α)

/-- The swap chain of a tree built by `Insert` goes down the vector: its positions
increase. -/
theorem SwapChainLoop_sorted (hD : 0 < Dimension) (t : KDTree) (inv : InsertInv Dimension t)
    (fuel : Nat) :
    ∀ (current : Nat) (acc : List Nat), current < t.pointDataVector.length →
      t.pointDataVector.length ≤ fuel + current + 1 →
      ∃ rest : List Nat,
        SwapChainLoop Dimension Get fuel t current acc = some (acc ++ current :: rest, t) ∧
        (∀ x ∈ rest, x < t.pointDataVector.length) ∧
        IsLeaf t (rest.getLastD current) = true ∧
        List.Pairwise (fun u v : Nat => u < v) (current :: rest) := by
  induction fuel with
  | zero =>
    intro current acc hc hf
    cases hl : IsLeaf t current with
    | true =>
      refine ⟨[], ?_, by simp, by simpa using hl, by simp⟩
      simp [SwapChainLoop, hl]
    | false =>
      obtain ⟨c, -, h1, h2⟩ := GetBestReplacementCandidate_ok Dimension Get hD t inv current hc hl
      omega
  | succ fuel ih =>
    intro current acc hc hf
    cases hl : IsLeaf t current with
    | true =>
      refine ⟨[], ?_, by simp, by simpa using hl, by simp⟩
      simp [SwapChainLoop, hl]
    | false =>
      obtain ⟨c, hg, h1, h2⟩ := GetBestReplacementCandidate_ok Dimension Get hD t inv current hc hl
      obtain ⟨rest, hr, hall, hleaf, hpw⟩ := ih c (acc ++ [current]) h2 (by omega)
      refine ⟨c :: rest, ?_, ?_, ?_, ?_⟩
      · simp only [SwapChainLoop, hl, hg]
        simpa using hr
      · intro x hx
        rcases List.mem_cons.1 hx with h | h
        · rw [h]; exact h2
        · exact hall x h
      · rw [List.getLastD_cons]
        exact hleaf
      · rw [List.pairwise_cons]
        refine ⟨?_, hpw⟩
        intro z hz
        rcases List.mem_cons.1 hz with h | h
        · omega
        · rw [List.pairwise_cons] at hpw
          have := hpw.1 z h
          omega

/-- C17: in the tree `t` built from the empty tree by `Insert` calls on distinct non-null
handles, let `h` be live at position `c0`.  The swap-chain loop of `Erase` returns a chain
`c0 :: rest` that ends at a leaf and leaves `t` as it is, and the pairwise `SwapNodes`
calls along it return a tree `t2` in which the last position of the chain holds `h`, every
other position of the chain holds the handle that its successor held, every position off
the chain holds the handle it held, the reverse map agrees with the vector,
`lowerIndex`, `upperIndex`, `parentIndex`, `nodeFloor` and `balanceByIndex` are those of
`t`, and `origin` is the handle at position `0`, the position without a parent entry. -/
theorem C17_swap_chain_relocates (hD : 0 < Dimension) (hs : List PointData) (hnd : hs.Nodup)
    (h0 : (0 : PointData) ∉ hs) (fuel : Nat) (hfuel : hs.length ≤ fuel) :
    ∃ t, runCalls Dimension Get fuel KDTree.empty (hs.map Call.insert) = some t ∧
      ∀ (h : PointData) (c0 : SizeT), t.indexedPointData.find h = some c0 →
        ∃ (rest : List SizeT) (t2 : KDTree),
          SwapChainLoop Dimension Get fuel t c0 [] = some (c0 :: rest, t) ∧
          SwapAlong t (c0 :: rest) = some t2 ∧
          IsLeaf t (rest.getLastD c0) = true ∧
          t2.pointDataVector[rest.getLastD c0]? = some h ∧
          (∀ u v : SizeT, (u, v) ∈ (c0 :: rest).zip rest →
            t2.pointDataVector[u]? = t.pointDataVector[v]?) ∧
          (∀ q : SizeT, q ∉ c0 :: rest → t2.pointDataVector[q]? = t.pointDataVector[q]?) ∧
          (∀ (g : PointData) (i : SizeT),
            t2.indexedPointData.find g = some i ↔ t2.pointDataVector[i]? = some g) ∧
          t2.lowerIndex = t.lowerIndex ∧ t2.upperIndex = t.upperIndex ∧
          t2.parentIndex = t.parentIndex ∧ t2.nodeFloor = t.nodeFloor ∧
          t2.balanceByIndex = t.balanceByIndex ∧
          t2.pointDataVector[0]? = some t2.origin ∧ t2.parentIndex.find 0 = none := by
  obtain ⟨t, hrun, inv, hv, -⟩ := built_tree Dimension Get fuel hs hnd h0 hfuel
  refine ⟨t, hrun, ?_⟩
  intro h c0 hlive
  have hc0 : c0 < t.pointDataVector.length := inv.store.lt_length hlive
  have hhv : t.pointDataVector[c0]? = some h := (inv.store.idx_vec h c0).1 hlive
  obtain ⟨rest, hchain, hall, hleaf, hpw⟩ := SwapChainLoop_sorted Dimension Get hD t inv fuel
    c0 [] hc0 (by rw [hv]; omega)
  have hne : t.pointDataVector ≠ [] := by
    intro e; rw [e] at hc0; simp at hc0
  have horg : t.origin ≠ 0 := fun e => hne (origin_null Dimension t inv e)
  obtain ⟨hol, -⟩ := origin_live Dimension t inv horg
  obtain ⟨t2, h2, hs2, hk2, hl2, hg2, hz2, hq2, ho2⟩ := SwapAlong_exact rest c0 t inv.store hpw
    (by
      intro x hx
      rcases List.mem_cons.1 hx with e | e
      · rw [e]; exact hc0
      · exact hall x e)
    ((inv.store.idx_vec _ 0).1 hol)
  simp only [links, Prod.mk.injEq] at hk2
  obtain ⟨k1, k2, k3, k4, k5, -⟩ := hk2
  refine ⟨rest, t2, by simpa using hchain, h2, hleaf, by rw [hg2, hhv], hz2, hq2,
    hs2.idx_vec, k2, k3, k1, k4, k5, ho2, ?_⟩
  rw [k1]
  exact fresh_root t inv

end Coordinates

/-- Witness for C17: the handles `2`, `1`, `3` on a line. -/
theorem C17_swap_chain_relocates_witness :
    ∃ t, runCalls 1 lineGet 3 KDTree.empty (([2, 1, 3] : List PointData).map Call.insert)
        = some t ∧
      ∀ (h : PointData) (c0 : SizeT), t.indexedPointData.find h = some c0 →
        ∃ (rest : List SizeT) (t2 : KDTree),
          SwapChainLoop 1 lineGet 3 t c0 [] = some (c0 :: rest, t) ∧
          SwapAlong t (c0 :: rest) = some t2 ∧
          IsLeaf t (rest.getLastD c0) = true ∧
          t2.pointDataVector[rest.getLastD c0]? = some h ∧
          (∀ u v : SizeT, (u, v) ∈ (c0 :: rest).zip rest →
            t2.pointDataVector[u]? = t.pointDataVector[v]?) ∧
          (∀ q : SizeT, q ∉ c0 :: rest → t2.pointDataVector[q]? = t.pointDataVector[q]?) ∧
          (∀ (g : PointData) (i : SizeT),
            t2.indexedPointData.find g = some i ↔ t2.pointDataVector[i]? = some g) ∧
          t2.lowerIndex = t.lowerIndex ∧ t2.upperIndex = t.upperIndex ∧
          t2.parentIndex = t.parentIndex ∧ t2.nodeFloor = t.nodeFloor ∧
          t2.balanceByIndex = t.balanceByIndex ∧
          t2.pointDataVector[0]? = some t2.origin ∧ t2.parentIndex.find 0 = none :=
  C17_swap_chain_relocates 1 lineGet (by decide) [2, 1, 3] (by decide) (by decide) 3
    (by decide)

end gbi
namespace gbi

theorem mem_setInsert (s : List SizeT) (p x : Nat) : x ∈ setInsert s p ↔ x = p ∨ x ∈ s := by
  induction s with
  | nil => simp [setInsert]
  | cons q r ih =>
    unfold setInsert
    by_cases h1 : p = q
    · simp only [h1, if_true, List.mem_cons]
      constructor
      · intro h; exact Or.inr h
      · rintro (h | h)
        · exact Or.inl h
        · exact h
    · simp only [h1, if_false]
      by_cases h2 : p < q
      · simp only [h2, if_true, List.mem_cons]
      · simp only [h2, if_false, List.mem_cons, ih]
        constructor
        · rintro (h | h | h)
          · exact Or.inr (Or.inl h)
          · exact Or.inl h
          · exact Or.inr (Or.inr h)
        · rintro (h | h | h)
          · exact Or.inr (Or.inl h)
          · exact Or.inl h
          · exact Or.inr (Or.inr h)

theorem mem_setErase (s : List SizeT) (p x : Nat) : x ∈ setErase s p ↔ x ∈ s ∧ x ≠ p := by
  simp [setErase]

theorem setInsert_ne_nil (s : List SizeT) (p : Nat) : setInsert s p ≠ [] := by
  intro h
  have : p ∈ setInsert s p := (mem_setInsert s p p).2 (Or.inl rfl)
  rw [h] at this
  cases this

theorem Map.set_ne_nil {K V : Type} [DecidableEq K] [LT K] [∀ a b : K, Decidable (a < b)]
    (m : Map K V) (k : K) (v : V) : m.set k v ≠ [] := by
  intro h
  have := Map.find_set m k k v
  rw [h] at this
  simp [Map.find] at this

/-- The bucket read after `index[b][f].insert(p)`. -/
theorem bucket_indexInsert (ix : PriorityIndex) (b : Int) (f p : Nat) (b' : Int) (f' : Nat) :
    bucket (indexInsert ix b f p) b' f' =
      if b' = b ∧ f' = f then setInsert (bucket ix b f) p else bucket ix b' f' := by
  unfold bucket indexInsert
  simp only [Map.find_set]
  by_cases hb : b' = b
  · subst hb
    simp only [if_true, Option.getD_some, Map.find_set, true_and]
    by_cases hf : f' = f
    · subst hf
      simp
    · simp only [hf, if_false]
  · simp only [hb, if_false, false_and]

/-- The bucket read after the erase-and-prune block. -/
theorem bucket_indexErase (ix : PriorityIndex) (b : Int) (f p : Nat) (b' : Int) (f' : Nat) :
    bucket (indexErase ix b f p) b' f' =
      if b' = b ∧ f' = f then setErase (bucket ix b f) p else bucket ix b' f' := by
  unfold indexErase
  simp only
  by_cases hs : (setErase ((((ix.find b).getD []).find f).getD []) p).length = 0
  · have hs' : setErase (bucket ix b f) p = [] := List.length_eq_zero.1 hs
    simp only [hs, if_true]
    by_cases hi : (((ix.find b).getD []).erase f).length = 0
    · have hi' : ((ix.find b).getD []).erase f = [] := List.length_eq_zero.1 hi
      simp only [hi, if_true]
      unfold bucket
      simp only [Map.find_erase]
      by_cases hb : b' = b
      · subst hb
        simp only [if_true, Option.getD_none, true_and]
        by_cases hf : f' = f
        · subst hf
          simp only [if_true]
          exact hs'.symm
        · simp only [hf, if_false]
          have := Map.find_erase ((ix.find b').getD []) f f'
          rw [hi', if_neg hf] at this
          rw [← this]
      · simp only [hb, if_false, false_and]
    · simp only [hi, if_false]
      unfold bucket
      simp only [Map.find_set]
      by_cases hb : b' = b
      · subst hb
        simp only [if_true, Option.getD_some, true_and, Map.find_erase]
        by_cases hf : f' = f
        · subst hf
          simp only [if_true, Option.getD_none]
          exact hs'.symm
        · simp only [hf, if_false]
      · simp only [hb, if_false, false_and]
  · simp only [hs, if_false]
    unfold bucket
    simp only [Map.find_set]
    by_cases hb : b' = b
    · subst hb
      simp only [if_true, Option.getD_some, true_and, Map.find_set]
      by_cases hf : f' = f
      · subst hf
        simp
      · simp only [hf, if_false]
    · simp only [hb, if_false, false_and]

theorem NoEmptyBucket_indexInsert (ix : PriorityIndex) (b : Int) (f p : Nat)
    (hne : NoEmptyBucket ix) : NoEmptyBucket (indexInsert ix b f p) := by
  intro b' inner' hfind
  unfold indexInsert at hfind
  simp only [Map.find_set] at hfind
  by_cases hb : b' = b
  · subst hb
    simp only [if_true, Option.some.injEq] at hfind
    subst hfind
    refine ⟨Map.set_ne_nil _ _ _, ?_⟩
    intro f' s' hs'
    rw [Map.find_set] at hs'
    by_cases hf : f' = f
    · rw [if_pos hf] at hs'
      rw [← Option.some.inj hs']
      exact setInsert_ne_nil _ _
    · rw [if_neg hf] at hs'
      cases hix : ix.find b' with
      | none =>
        rw [hix] at hs'
        simp [Map.find] at hs'
      | some inner =>
        rw [hix] at hs'
        exact (hne b' inner hix).2 f' s' hs'
  · simp only [hb, if_false] at hfind
    exact hne b' inner' hfind

theorem NoEmptyBucket_indexErase (ix : PriorityIndex) (b : Int) (f p : Nat)
    (hne : NoEmptyBucket ix) : NoEmptyBucket (indexErase ix b f p) := by
  intro b' inner' hfind
  have hinner : ∀ f' s', ((ix.find b).getD []).find f' = some s' → s' ≠ [] := by
    intro f' s' hs'
    cases hix : ix.find b with
    | none =>
      rw [hix] at hs'
      simp [Map.find] at hs'
    | some inner =>
      rw [hix] at hs'
      exact (hne b inner hix).2 f' s' hs'
  unfold indexErase at hfind
  simp only at hfind
  by_cases hs : (setErase ((((ix.find b).getD []).find f).getD []) p).length = 0
  · simp only [hs, if_true] at hfind
    by_cases hi : (((ix.find b).getD []).erase f).length = 0
    · simp only [hi, if_true, Map.find_erase] at hfind
      by_cases hb : b' = b
      · simp [hb] at hfind
      · simp only [hb, if_false] at hfind
        exact hne b' inner' hfind
    · simp only [hi, if_false, Map.find_set] at hfind
      by_cases hb : b' = b
      · simp only [hb, if_true, Option.some.injEq] at hfind
        subst hfind
        refine ⟨fun h => hi (by rw [h]; rfl), ?_⟩
        intro f' s' hs'
        rw [Map.find_erase] at hs'
        by_cases hf : f' = f
        · simp [hf] at hs'
        · rw [if_neg hf] at hs'
          exact hinner f' s' hs'
      · simp only [hb, if_false] at hfind
        exact hne b' inner' hfind
  · simp only [hs, if_false, Map.find_set] at hfind
    by_cases hb : b' = b
    · simp only [hb, if_true, Option.some.injEq] at hfind
      subst hfind
      refine ⟨Map.set_ne_nil _ _ _, ?_⟩
      intro f' s' hs'
      rw [Map.find_set] at hs'
      by_cases hf : f' = f
      · rw [if_pos hf] at hs'
        rw [← Option.some.inj hs']
        intro h
        exact hs (by rw [h]; rfl)
      · rw [if_neg hf] at hs'
        exact hinner f' s' hs'
    · simp only [hb, if_false] at hfind
      exact hne b' inner' hfind

/-- The priority index after `InternalRemoveBalancePriority` on a position that has a floor
entry. -/
theorem InternalRemoveBalancePriority_index (t : KDTree) (i f : Nat)
    (hf : t.nodeFloor.find i = some f) :
    (InternalRemoveBalancePriority t i).indexByBalanceAndFloor =
      match t.balanceByIndex.find i with
      | some b => indexErase t.indexByBalanceAndFloor b f i
      | none => t.indexByBalanceAndFloor := by
  unfold InternalRemoveBalancePriority
  cases hb : t.balanceByIndex.find i with
  | none => rfl
  | some b => simp only [floorAt_hit t i f hf]

/-- The priority index after `UpdateBalance` on a live handle whose position has a floor
entry: the position leaves the bucket of its old balance, if it has one, and enters the
bucket of its new balance at the same floor. -/
theorem UpdateBalance_index (t : KDTree) (g i f : Nat) (incr : Bool)
    (hg : t.indexedPointData.find g = some i) (hf : t.nodeFloor.find i = some f) :
    (UpdateBalance t g incr).indexByBalanceAndFloor =
      indexInsert (InternalRemoveBalancePriority t i).indexByBalanceAndFloor
        ((t.balanceByIndex.find i).getD 0 + (if incr then 1 else -1)) f i := by
  unfold UpdateBalance
  simp only [idxAt_hit t g i hg]
  unfold InternalRemoveBalancePriority
  cases hb : t.balanceByIndex.find i with
  | none =>
    simp only [balanceAt, hb, floorAt, Option.getD_none]
    simp only [Map.find_set, if_true, hf]
    cases incr <;> simp
  | some b =>
    simp only [floorAt_hit t i f hf, Option.getD_some]
    simp only [balanceAt, hb, floorAt, hf]
    cases incr
    · simp
      rfl
    · simp

end gbi
namespace gbi

/-- C22: let the priority index of `t` be in sync with `balanceByIndex` and `nodeFloor` and
have no empty bucket, and let `h` be a live handle whose position `p` has the floor entry
`f`.  After `UpdateBalance(h, increment)` the balance of `p`, an absent entry counting as
`0`, has changed by `+1` when `increment` is true and by `-1` otherwise, no other balance
and no floor has changed, the priority index is again in sync, `p` is a member of the
bucket of its new balance and its floor and of no other bucket, and no bucket of the index
is empty. -/
theorem C22_update_balance_keeps_index (t : KDTree) (hsync : IndexFaithful t)
    (hne : NoEmptyBucket t.indexByBalanceAndFloor) (h : PointData) (p : SizeT) (f : UInt)
    (hlive : t.indexedPointData.find h = some p) (hfloor : t.nodeFloor.find p = some f)
    (increment : Bool) :
    (UpdateBalance t h increment).balanceByIndex.find p =
        some ((t.balanceByIndex.find p).getD 0 + (if increment then 1 else -1)) ∧
      (∀ q : SizeT, q ≠ p →
        (UpdateBalance t h increment).balanceByIndex.find q = t.balanceByIndex.find q) ∧
      (UpdateBalance t h increment).nodeFloor = t.nodeFloor ∧
      IndexFaithful (UpdateBalance t h increment) ∧
      (∀ (b : Int) (f' : UInt),
        p ∈ bucket (UpdateBalance t h increment).indexByBalanceAndFloor b f' ↔
          (b = (t.balanceByIndex.find p).getD 0 + (if increment then 1 else -1) ∧ f' = f)) ∧
      NoEmptyBucket (UpdateBalance t h increment).indexByBalanceAndFloor := by
  obtain ⟨hframe, hbal⟩ := UpdateBalance_spec t h p f increment hlive hfloor
  have hfl : (UpdateBalance t h increment).nodeFloor = t.nodeFloor := (frame_fields hframe).2.2.1
  have hix := UpdateBalance_index t h p f increment hlive hfloor
  -- the index between the removal and the insertion
  have hmem1 : ∀ (q : Nat) (b' : Int) (f' : Nat),
      q ∈ bucket (InternalRemoveBalancePriority t p).indexByBalanceAndFloor b' f' ↔
        (q ∈ bucket t.indexByBalanceAndFloor b' f' ∧ q ≠ p) := by
    intro q b' f'
    rw [InternalRemoveBalancePriority_index t p f hfloor]
    cases hb : t.balanceByIndex.find p with
    | none =>
      simp only
      constructor
      · intro hq
        refine ⟨hq, ?_⟩
        intro e
        rw [e] at hq
        have := ((hsync p b' f').1 hq).1
        rw [hb] at this
        cases this
      · exact fun hq => hq.1
    | some b0 =>
      simp only
      rw [bucket_indexErase]
      by_cases hc : b' = b0 ∧ f' = f
      · rw [if_pos hc, mem_setErase, hc.1, hc.2]
      · rw [if_neg hc]
        constructor
        · intro hq
          refine ⟨hq, ?_⟩
          intro e
          rw [e] at hq
          obtain ⟨h1, h2⟩ := (hsync p b' f').1 hq
          rw [hb] at h1
          rw [hfloor] at h2
          exact hc ⟨(Option.some.inj h1).symm, (Option.some.inj h2).symm⟩
        · exact fun hq => hq.1
  have hne1 : NoEmptyBucket (InternalRemoveBalancePriority t p).indexByBalanceAndFloor := by
    rw [InternalRemoveBalancePriority_index t p f hfloor]
    cases hb : t.balanceByIndex.find p with
    | none => exact hne
    | some b0 => exact NoEmptyBucket_indexErase _ _ _ _ hne
  have hmem : ∀ (q : Nat) (b' : Int) (f' : Nat),
      q ∈ bucket (UpdateBalance t h increment).indexByBalanceAndFloor b' f' ↔
        if b' = (t.balanceByIndex.find p).getD 0 + (if increment then 1 else -1) ∧ f' = f
        then q = p ∨ (q ∈ bucket t.indexByBalanceAndFloor b' f' ∧ q ≠ p)
        else q ∈ bucket t.indexByBalanceAndFloor b' f' ∧ q ≠ p := by
    intro q b' f'
    rw [hix, bucket_indexInsert]
    by_cases hc : b' = (t.balanceByIndex.find p).getD 0 + (if increment then 1 else -1) ∧ f' = f
    · rw [if_pos hc, if_pos hc, mem_setInsert, hmem1, hc.1, hc.2]
    · rw [if_neg hc, if_neg hc, hmem1]
  refine ⟨by rw [hbal, if_pos rfl], fun q hq => by rw [hbal, if_neg hq], hfl, ?_, ?_, ?_⟩
  · intro q b' f'
    rw [hmem, hbal, hfl]
    by_cases hq : q = p
    · subst hq
      rw [if_pos rfl, hfloor]
      by_cases hc : b' = (t.balanceByIndex.find q).getD 0 + (if increment then 1 else -1) ∧ f' = f
      · rw [if_pos hc, hc.1, hc.2]
        simp
      · rw [if_neg hc]
        constructor
        · intro hx; exact absurd rfl hx.2
        · intro hx
          exact absurd ⟨(Option.some.inj hx.1).symm, (Option.some.inj hx.2).symm⟩ hc
    · rw [if_neg hq, ← hsync q b' f']
      by_cases hc : b' = (t.balanceByIndex.find p).getD 0 + (if increment then 1 else -1) ∧ f' = f
      · rw [if_pos hc]
        constructor
        · rintro (hx | hx)
          · exact absurd hx hq
          · exact hx.1
        · intro hx; exact Or.inr ⟨hx, hq⟩
      · rw [if_neg hc]
        exact ⟨fun hx => hx.1, fun hx => ⟨hx, hq⟩⟩
  · intro b' f'
    rw [hmem]
    by_cases hc : b' = (t.balanceByIndex.find p).getD 0 + (if increment then 1 else -1) ∧ f' = f
    · rw [if_pos hc]
      exact ⟨fun _ => hc, fun _ => Or.inl rfl⟩
    · rw [if_neg hc]
      exact ⟨fun hx => absurd rfl hx.2, fun hx => absurd hx hc⟩
  · rw [hix]
    exact NoEmptyBucket_indexInsert _ _ _ _ hne1

theorem threeChainTree_faithful : IndexFaithful threeChainTree := by
  intro p b f
  simp only [threeChainTree, bucket, Map.find]
  by_cases hb1 : b = 1
  · subst hb1
    by_cases hf : f = 1
    · subst hf
      by_cases hp : p = 1
      · subst hp; simp [Map.find]
      · by_cases hp0 : p = 0
        · subst hp0; simp [Map.find]
        · simp [Map.find, hp, hp0]
    · by_cases hp : p = 1
      · subst hp
        simp [Map.find, hf]
        exact fun e => hf e.symm
      · by_cases hp0 : p = 0
        · subst hp0; simp [Map.find, hf]
        · simp [Map.find, hf, hp, hp0]
  · by_cases hb2 : b = 2
    · subst hb2
      by_cases hf : f = 0
      · subst hf
        by_cases hp0 : p = 0
        · subst hp0; simp [Map.find]
        · by_cases hp : p = 1
          · subst hp; simp [Map.find]
          · simp [Map.find, hp, hp0]
      · by_cases hp0 : p = 0
        · subst hp0
          simp [Map.find, hf]
          exact fun e => hf e.symm
        · by_cases hp : p = 1
          · subst hp; simp [Map.find, hf]
          · simp [Map.find, hf, hp, hp0]
    · by_cases hp0 : p = 0
      · subst hp0
        simp [Map.find, hb1, hb2]
        exact fun e => absurd e.symm hb2
      · by_cases hp : p = 1
        · subst hp
          simp [Map.find, hb1, hb2]
          exact fun e => absurd e.symm hb1
        · simp [Map.find, hb1, hb2, hp, hp0]

/-- Witness for C22: `UpdateBalance(1, false)` on the chain of `1`, `2`, `3`, whose root
moves from the bucket of balance `2`, which is pruned, to the bucket of balance `1`. -/
theorem C22_update_balance_keeps_index_witness :
    (UpdateBalance threeChainTree 1 false).balanceByIndex.find 0 =
        some ((threeChainTree.balanceByIndex.find 0).getD 0 + (if false then 1 else -1)) ∧
      (∀ q : SizeT, q ≠ 0 →
        (UpdateBalance threeChainTree 1 false).balanceByIndex.find q =
          threeChainTree.balanceByIndex.find q) ∧
      (UpdateBalance threeChainTree 1 false).nodeFloor = threeChainTree.nodeFloor ∧
      IndexFaithful (UpdateBalance threeChainTree 1 false) ∧
      (∀ (b : Int) (f' : UInt),
        0 ∈ bucket (UpdateBalance threeChainTree 1 false).indexByBalanceAndFloor b f' ↔
          (b = (threeChainTree.balanceByIndex.find 0).getD 0 + (if false then 1 else -1) ∧
            f' = 0)) ∧
      NoEmptyBucket (UpdateBalance threeChainTree 1 false).indexByBalanceAndFloor :=
  C22_update_balance_keeps_index threeChainTree threeChainTree_faithful
    threeChainTree_noEmptyBucket 1 0 0 (by decide) (by decide) false

end gbi
namespace gbi

section Coordinates

variable {α : Type} [DecidableEq α] [LT α] [∀ a b : α, Decidable (a < b)]
variable (Dimension : Nat) (Get : PointData → Nat → α)

theorem empty_bndDesc : BndDesc Dimension KDTree.empty := by
  intro p g h
  simp [KDTree.empty] at h

theorem Rooted.bndDesc_root {point : Nat} {t t' : KDTree} (hr : Rooted point t t')
    (inv : InsertInv Dimension t) (hemp : t.pointDataVector = []) :
    BndDesc Dimension t' := by
  intro p g hpg
  rw [hr.vec] at hpg
  have hp : p = 0 := by
    have := (List.getElem?_eq_some.1 hpg).1
    simpa using this
  subst hp
  have hg : point = g := by simpa using hpg
  subst hg
  obtain ⟨h1, h2, -, -⟩ := fresh_position t inv 0 (by rw [hemp]; simp)
  have hleaf : IsLeaf t' 0 = true := by
    rw [IsLeaf_true_iff, hr.lower, hr.upper]
    exact ⟨h1, h2⟩
  constructor
  · intro _
    rw [hr.bnd]
    cases hb : t.boundaries.find point with
    | none => rfl
    | some arr =>
      obtain ⟨q, hq⟩ := inv.base.bnd_live point arr hb
      rw [hemp] at hq
      simp at hq
  · intro h
    rw [hleaf] at h
    cases h

theorem Attached.bndDesc (hD : 0 < Dimension) (fuel : Nat) {point : Nat} {t t' : KDTree}
    {pl : Nat} {up : Bool}
    (ha : Attached Dimension Get point t t' (specWalk Dimension Get point t fuel) pl up)
    (inv : InsertInv Dimension t) (inv' : InsertInv Dimension t') (hf : FloorInv t)
    (hnew : t.indexedPointData.find point = none) (hB : BndDesc Dimension t) :
    BndDesc Dimension t' := by
  have hpl := Attached.pl_lt Dimension Get ha
  have hne : t.pointDataVector ≠ [] := by
    intro h; rw [h] at hpl; simp at hpl
  obtain ⟨hon, -, -⟩ := specWalk_facts Dimension Get point t inv hf fuel hne pl up ha.last
  obtain ⟨hnodup, hmem⟩ := Attached.handles Dimension Get fuel ha inv
  obtain ⟨f1, f2, f3⟩ := boundary_fold Dimension Get hD point _ t.boundaries hnodup
  rw [← ha.bnd] at f1 f2 f3
  have hdesc_old : ∀ a q : Nat, q < t.pointDataVector.length →
      (strictDescendant t' a q ↔ strictDescendant t a q) := by
    intro a q hq
    rw [strictDescendant_iff t' inv', strictDescendant_iff t inv,
      Attached.ancestors_old Dimension Get ha inv q q hq]
  have hdesc_new : ∀ a : Nat, strictDescendant t' a t.pointDataVector.length ↔
      (a = pl ∨ a ∈ ancestors t pl pl) := by
    intro a
    rw [strictDescendant_iff t' inv', Attached.ancestors_new Dimension Get ha inv,
      List.mem_cons]
  have hidx_old : ∀ s r : Nat, t.indexedPointData.find s = some r →
      t'.indexedPointData.find s = some r := by
    intro s r hs
    have hsp : s ≠ point := by
      intro e; rw [e, hnew] at hs; cases hs
    rw [ha.idx, Map.find_set, if_neg hsp]
    exact hs
  have hidx_new : t'.indexedPointData.find point = some t.pointDataVector.length := by
    rw [ha.idx, Map.find_set, if_pos rfl]
  have hq_cases : ∀ (q x : Nat), t'.pointDataVector[q]? = some x →
      (q < t.pointDataVector.length ∧ t.pointDataVector[q]? = some x) ∨
      (q = t.pointDataVector.length ∧ x = point) := by
    intro q x hqx
    have hlt : q < t.pointDataVector.length + 1 := by
      have := (List.getElem?_eq_some.1 hqx).1
      rw [ha.vec] at this
      simpa using this
    by_cases hq : q < t.pointDataVector.length
    · left
      rw [Attached.vec_old Dimension Get ha q hq] at hqx
      exact ⟨hq, hqx⟩
    · right
      have hqn : q = t.pointDataVector.length := by omega
      subst hqn
      rw [Attached.vec_new Dimension Get ha] at hqx
      exact ⟨rfl, (Option.some.inj hqx).symm⟩
  have keep : ∀ (a s : Nat),
      (∃ r : Nat, t.indexedPointData.find s = some r ∧ strictDescendant t a r) →
      ∃ r : Nat, t'.indexedPointData.find s = some r ∧ strictDescendant t' a r := by
    rintro a s ⟨r, hr, hd⟩
    exact ⟨r, hidx_old s r hr, (hdesc_old a r (inv.store.lt_length hr)).2 hd⟩
  intro p g hpg
  rcases hq_cases p g hpg with ⟨hp, hg⟩ | ⟨hp, hg⟩
  · by_cases hwalk : ∃ s : Bool, (p, s) ∈ specWalk Dimension Get point t fuel
    · have hanc := (hon p).1 hwalk
      have hyes : strictDescendant t' p t.pointDataVector.length := (hdesc_new p).2 hanc
      have hgH := (hmem p g hg).2 hwalk
      have hnl' : IsLeaf t' p = false := by
        cases hl : IsLeaf t' p with
        | false => rfl
        | true =>
          exfalso
          have hno := leaf_no_descendant t' inv' p t.pointDataVector.length hl
          exact hno ((strictDescendant_iff t' inv' p _).1 hyes)
      constructor
      · intro h; rw [hnl'] at h; cases h
      · intro _
        cases hl : IsLeaf t p with
        | true =>
          have hnone := (hB p g hg).1 hl
          obtain ⟨arr, h1, h2, h3⟩ := f2 g hgH hnone
          refine ⟨arr, h1, h2, ?_⟩
          intro j hj
          rw [h3 j hj]
          exact ⟨_, hidx_new, hyes⟩
        | false =>
          obtain ⟨arr0, hb0, hlen0, hex0⟩ := (hB p g hg).2 hl
          obtain ⟨arr, h1, h2, h3⟩ := f3 g arr0 hgH hb0 hlen0
          refine ⟨arr, h1, h2, ?_⟩
          intro j hj
          have hsl : arr.getD j 0 = point ∨ arr.getD j 0 = arr0.getD j 0 := by
            obtain ⟨e1, e2⟩ := h3 (j / 2) (by omega)
            rcases Nat.mod_two_eq_zero_or_one j with hm | hm
            · have hj2 : 2 * (j / 2) = j := by omega
              rw [hj2] at e1
              rw [e1]
              split
              · exact Or.inl rfl
              · exact Or.inr rfl
            · have hj2 : 2 * (j / 2) + 1 = j := by omega
              rw [hj2] at e2
              rw [e2]
              split
              · exact Or.inl rfl
              · exact Or.inr rfl
          rcases hsl with e | e
          · rw [e]
            exact ⟨_, hidx_new, hyes⟩
          · rw [e]
            exact keep p _ (hex0 j hj)
    · have hgH : g ∉ (specWalk Dimension Get point t fuel).map
          (fun e => t.pointDataVector.getD e.1 0) := fun h => hwalk ((hmem p g hg).1 h)
      have hppl : p ≠ pl := by
        intro e
        exact hwalk ((hon p).2 (Or.inl e))
      rw [f1 g hgH]
      constructor
      · intro hl
        exact (hB p g hg).1 ((Attached.leaf_old Dimension Get ha p).1 hl).1
      · intro hl
        have hl0 : IsLeaf t p = false := by
          cases h : IsLeaf t p with
          | false => rfl
          | true =>
            rw [(Attached.leaf_old Dimension Get ha p).2 ⟨h, hppl⟩] at hl
            cases hl
        obtain ⟨arr0, hb0, hlen0, hex0⟩ := (hB p g hg).2 hl0
        refine ⟨arr0, hb0, hlen0, ?_⟩
        intro j hj
        exact keep p _ (hex0 j hj)
  · rw [hp, hg]
    have hleaf := Attached.leaf_new Dimension Get ha inv
    constructor
    · intro _
      have hgH : point ∉ (specWalk Dimension Get point t fuel).map
          (fun e => t.pointDataVector.getD e.1 0) := by
        intro h
        obtain ⟨e, he, heq⟩ := List.mem_map.1 h
        have hr := ha.range e he
        have hv : t.pointDataVector[e.1]? = some point := by
          rw [← heq, List.getD_eq_getElem?_getD, List.getElem?_eq_getElem hr]
          rfl
        rw [(inv.store.idx_vec point e.1).2 hv] at hnew
        cases hnew
      rw [f1 point hgH]
      cases hb : t.boundaries.find point with
      | none => rfl
      | some arr =>
        obtain ⟨q, hq⟩ := inv.base.bnd_live point arr hb
        rw [(inv.store.idx_vec point q).2 hq] at hnew
        cases hnew
    · intro h
      rw [hleaf] at h
      cases h

/-- `Insert` of a new handle keeps the boundary slots pointing at strict descendants. -/
theorem Insert_bndDesc (hD : 0 < Dimension) (fuel : Nat) (t t' : KDTree) (h : Nat)
    (inv : InsertInv Dimension t) (hP : FloorInv t ∧ BndDesc Dimension t) (hh : h ≠ 0)
    (hnew : t.indexedPointData.find h = none)
    (hI : Insert Dimension Get fuel t h = some t') :
    FloorInv t' ∧ BndDesc Dimension t' := by
  refine ⟨Insert_floorInv Dimension Get fuel t t' h inv hP.1 hh hnew hI, ?_⟩
  by_cases hemp : t.pointDataVector = []
  · exact Rooted.bndDesc_root Dimension
      (Insert_rooted Dimension Get fuel t t' h inv hh hemp hI).1 inv hemp
  · obtain ⟨pl, up, ha⟩ := Insert_attached Dimension Get fuel t t' h inv hh hnew hemp hI
    obtain ⟨inv', -, -⟩ := Insert_inv Dimension Get fuel t t' h inv hh hnew hI
    exact Attached.bndDesc Dimension Get hD fuel ha inv inv' hP.1 hnew hP.2

/-- The tree built by `Insert` calls on distinct non-null handles, with the invariants
that the claims about `Erase` rely on. -/
theorem built_desc (hD : 0 < Dimension) (fuel : Nat) (hs : List Nat) (hnd : hs.Nodup)
    (h0 : 0 ∉ hs) (hfuel : hs.length ≤ fuel) :
    ∃ t, runCalls Dimension Get fuel KDTree.empty (hs.map Call.insert) = some t ∧
      InsertInv Dimension t ∧ FloorInv t ∧ BndDesc Dimension t ∧ t.pointDataVector = hs := by
  obtain ⟨t, hrun, inv, hv, -⟩ := built_tree Dimension Get fuel hs hnd h0 hfuel
  have hB := runInserts_keeps Dimension Get fuel
    (fun t => FloorInv t ∧ BndDesc Dimension t)
    (fun t t' h inv hP hh hnew hI =>
      Insert_bndDesc Dimension Get hD fuel t t' h inv hP hh hnew hI)
    hs KDTree.empty (empty_inv Dimension) ⟨empty_floorInv, empty_bndDesc Dimension⟩ hnd h0
    (fun _ _ => rfl) t hrun
  exact ⟨t, hrun, inv, hB.1, hB.2, hv⟩

end Coordinates

end gbi
namespace gbi

theorem le_foldl_max (l : List Nat) : ∀ a : Nat, a ≤ l.foldl max a ∧ ∀ x ∈ l, x ≤ l.foldl max a := by
  induction l with
  | nil => intro a; simp
  | cons y r ih =>
    intro a
    obtain ⟨h1, h2⟩ := ih (max a y)
    simp only [List.foldl_cons, List.mem_cons]
    refine ⟨Nat.le_trans (Nat.le_max_left a y) h1, ?_⟩
    rintro x (hx | hx)
    · rw [hx]; exact Nat.le_trans (Nat.le_max_right a y) h1
    · exact h2 x hx

theorem foldl_max_le (l : List Nat) (b : Nat) (hl : ∀ x ∈ l, x ≤ b) :
    ∀ a : Nat, a ≤ b → l.foldl max a ≤ b := by
  induction l with
  | nil => intro a ha; simpa using ha
  | cons y r ih =>
    intro a ha
    simp only [List.foldl_cons]
    exact ih (fun x hx => hl x (List.mem_cons_of_mem _ hx)) (max a y)
      (Nat.max_le.2 ⟨ha, hl y (List.mem_cons_self _ _)⟩)

/-- The floor of a position of the vector is at most the height. -/
theorem floor_le_height (t : KDTree) (p f : Nat) (hp : p < t.pointDataVector.length)
    (hf : t.nodeFloor.find p = some f) : f ≤ height t := by
  unfold height
  apply (le_foldl_max _ 0).2
  rw [List.mem_map]
  exact ⟨p, List.mem_range.2 hp, by rw [hf]; rfl⟩

/-- On a tree built by `Insert` the floor of a position is at most the position. -/
theorem floor_le_position {D : Nat} (t : KDTree) (inv : InsertInv D t) (hfl : FloorInv t) :
    ∀ (n q f : Nat), q ≤ n → q < t.pointDataVector.length → t.nodeFloor.find q = some f →
      f ≤ q := by
  intro n
  induction n with
  | zero =>
    intro q f hq hlt hf
    have hq0 : q = 0 := by omega
    subst hq0
    have hne : t.pointDataVector ≠ [] := by
      intro e; rw [e] at hlt; simp at hlt
    rw [hfl.root hne] at hf
    rw [← Option.some.inj hf]
  | succ n ih =>
    intro q f hq hlt hf
    by_cases hq0 : q = 0
    · subst hq0
      have hne : t.pointDataVector ≠ [] := by
        intro e; rw [e] at hlt; simp at hlt
      rw [hfl.root hne] at hf
      rw [← Option.some.inj hf]
    · obtain ⟨p, hp⟩ := hfl.has_parent q (by omega) hlt
      obtain ⟨fp, hfp, hfq⟩ := hfl.child q p hp
      have hpq := (inv.topo.parent_lt q p hp).1
      have := ih p fp (by omega) (by omega) hfp
      rw [hfq] at hf
      have := Option.some.inj hf
      omega

theorem height_le_length {D : Nat} (t : KDTree) (inv : InsertInv D t) (hfl : FloorInv t) :
    height t ≤ t.pointDataVector.length := by
  unfold height
  apply foldl_max_le _ _ _ 0 (Nat.zero_le _)
  intro x hx
  rw [List.mem_map] at hx
  obtain ⟨p, hp, hpx⟩ := hx
  have hp' := List.mem_range.1 hp
  obtain ⟨f, hf⟩ := inv.floor_some p hp'
  rw [hf] at hpx
  have := floor_le_position t inv hfl p p f (Nat.le_refl _) hp' hf
  have hxf : f = x := hpx
  omega

/-- Floors grow strictly from a position to its strict descendants. -/
theorem floor_lt_of_ancestor {D : Nat} (t : KDTree) (inv : InsertInv D t) (hfl : FloorInv t)
    (p : Nat) :
    ∀ (n q : Nat), q ≤ n → p ∈ ancestors t q q →
      ∃ fp fq : Nat, t.nodeFloor.find p = some fp ∧ t.nodeFloor.find q = some fq ∧ fp < fq := by
  have hparlt : ∀ c p : Nat, t.parentIndex.find c = some p → p < c :=
    fun c p h => (inv.topo.parent_lt c p h).1
  intro n
  induction n with
  | zero =>
    intro q hq hmem
    have hq0 : q = 0 := by omega
    subst hq0
    simp [ancestors] at hmem
  | succ n ih =>
    intro q hq hmem
    cases hpar : t.parentIndex.find q with
    | none =>
      rw [ancestors_none t q hpar] at hmem
      cases hmem
    | some a =>
      rw [ancestors_step t hparlt q a hpar] at hmem
      obtain ⟨fa, hfa, hfq⟩ := hfl.child q a hpar
      have haq := hparlt q a hpar
      rcases List.mem_cons.1 hmem with e | e
      · rw [e]
        exact ⟨fa, fa + 1, hfa, hfq, Nat.lt_succ_self _⟩
      · obtain ⟨fp, fa', h1, h2, h3⟩ := ih a (by omega) e
        rw [hfa] at h2
        have := Option.some.inj h2
        exact ⟨fp, fa + 1, h1, hfq, by omega⟩

/-- A position that is not a leaf is a position of the vector. -/
theorem nonleaf_lt {D : Nat} (t : KDTree) (inv : InsertInv D t) (p : Nat)
    (hnl : IsLeaf t p = false) : p < t.pointDataVector.length := by
  rcases (IsLeaf_false_iff t p).1 hnl with h | h
  · cases hc : t.lowerIndex.find p with
    | none => exact absurd hc h
    | some c =>
      have := inv.topo.parent_lt c p (inv.topo.lower_parent p c hc)
      omega
  · cases hc : t.upperIndex.find p with
    | none => exact absurd hc h
    | some c =>
      have := inv.topo.parent_lt c p (inv.topo.upper_parent p c hc)
      omega

section Coordinates

variable {α : Type} [DecidableEq α] [LT α] [∀ a b : α, Decidable (a < b)]
variable (Dimension : Nat) (Get : PointData → Nat → α)

/-- On a tree built by `Insert`, `GetBestReplacementCandidate` on a position that is not a
leaf finds every entry it reads, leaves the tree as it is and returns a position of the
vector that is a strict descendant of its argument. -/
theorem GetBestReplacementCandidate_desc (hD : 0 < Dimension) (t : KDTree)
    (inv : InsertInv Dimension t) (hB : BndDesc Dimension t) (p : Nat)
    (hnl : IsLeaf t p = false) :
    ∃ c : Nat, GetBestReplacementCandidate Dimension Get t p = some (c, t) ∧
      c < t.pointDataVector.length ∧ strictDescendant t p c := by
  have hp := nonleaf_lt t inv p hnl
  have hparlt : ∀ c p : Nat, t.parentIndex.find c = some p → p < c :=
    fun c p h => (inv.topo.parent_lt c p h).1
  obtain ⟨f, hf⟩ := inv.floor_some p hp
  obtain ⟨b, hb, hb1, hb2⟩ := inv.bal_nonleaf p hnl
  have hdim : f % Dimension * 2 < 2 * Dimension := by
    have h : f % Dimension < Dimension := Nat.mod_lt f hD
    rw [Nat.mul_comm 2 Dimension]
    exact Nat.mul_lt_mul_of_pos_right h (by decide)
  have tail : ∀ l, t.parentIndex.find l = some p →
      ∀ cmp : KDTree → UInt → PointData → SizeT → Option (Bool × KDTree),
      (∀ (g : Nat) (r : Nat) (x : Nat), t.indexedPointData.find g = some r →
        t.pointDataVector[r]? = some g → t.pointDataVector[l]? = some x →
        ∃ bb, cmp t (f % Dimension) g l = some (bb, t)) →
      ∃ c : Nat, (match vecAt t l with
        | none => none
        | some child =>
          match t.boundaries.find child with
          | none => some (l, t)
          | some arr =>
            match cmp t (f % Dimension) (arr.getD (f % Dimension * 2) 0) l with
            | none => none
            | some (true, t1) =>
              let ri := idxAt t1 (arr.getD (f % Dimension * 2) 0)
              some (ri.1, ri.2)
            | some (false, t1) => some (l, t1)) = some (c, t) ∧
        c < t.pointDataVector.length ∧ strictDescendant t p c := by
    intro l hl cmp hcmp
    obtain ⟨hpl, hln⟩ := inv.topo.parent_lt l p hl
    have hdl : strictDescendant t p l := by
      rw [strictDescendant_iff t inv, ancestors_step t hparlt l p hl]
      exact List.mem_cons_self _ _
    obtain ⟨child, hchild⟩ := vecAt_some_of_lt t l hln
    have hchild' : t.pointDataVector[l]? = some child := hchild
    simp only [hchild]
    cases hbd : t.boundaries.find child with
    | none => exact ⟨l, rfl, hln, hdl⟩
    | some arr =>
      have hnll : IsLeaf t l = false := by
        cases h : IsLeaf t l with
        | false => rfl
        | true =>
          rw [(hB l child hchild').1 h] at hbd
          cases hbd
      obtain ⟨arr', harr', -, hslots⟩ := (hB l child hchild').2 hnll
      rw [hbd] at harr'
      have harr := Option.some.inj harr'
      subst harr
      obtain ⟨r, hr, hdr⟩ := hslots _ hdim
      have hrv := (inv.store.idx_vec _ r).1 hr
      have hrn := inv.store.lt_length hr
      obtain ⟨bb, hbb⟩ := hcmp _ r child hr hrv hchild'
      simp only [hbb]
      cases bb with
      | true =>
        simp only [idxAt_hit t _ r hr]
        refine ⟨r, rfl, hrn, ?_⟩
        rw [strictDescendant_iff t inv] at hdr ⊢
        exact ancestors_parent_mem t hparlt r l p (Or.inr hdr) hl
      | false => exact ⟨l, rfl, hln, hdl⟩
  unfold GetBestReplacementCandidate
  simp only [floorAt_hit t p f hf, balanceAt_hit t p b hb]
  by_cases hneg : b < 0
  · simp only [hneg, if_true]
    cases hl : t.lowerIndex.find p with
    | none => have := hb1 hl; omega
    | some l =>
      simp only [lowerAt_hit t p l hl]
      exact tail l (inv.topo.lower_parent p l hl) (HasHigherCoordinateData Get)
        (fun g r x h1 h2 h3 => ⟨_, HasHigherCoordinateData_hit Get t _ g r l x h1 h2 h3⟩)
  · simp only [hneg, if_false]
    cases hu : t.upperIndex.find p with
    | none => have := hb2 hu; omega
    | some u =>
      simp only [upperAt_hit t p u hu]
      exact tail u (inv.topo.upper_parent p u hu) (HasLowerCoordinateData Get)
        (fun g r x h1 h2 h3 => ⟨_, HasLowerCoordinateData_hit Get t _ g r u x h1 h2 h3⟩)

/-- More fuel does not change the result of the swap-chain loop. -/
theorem SwapChainLoop_mono (fuel : Nat) :
    ∀ (t : KDTree) (current : Nat) (acc : List Nat) (r : List SizeT × KDTree),
      SwapChainLoop Dimension Get fuel t current acc = some r →
      SwapChainLoop Dimension Get (fuel + 1) t current acc = some r := by
  induction fuel with
  | zero =>
    intro t current acc r h
    cases hl : IsLeaf t current with
    | true =>
      simp only [SwapChainLoop, hl, if_true] at h ⊢
      exact h
    | false => simp [SwapChainLoop, hl] at h
  | succ fuel ih =>
    intro t current acc r h
    cases hl : IsLeaf t current with
    | true =>
      simp only [SwapChainLoop, hl, if_true] at h ⊢
      exact h
    | false =>
      rw [SwapChainLoop] at h ⊢
      simp only [hl, Bool.false_eq_true, if_false] at h ⊢
      cases hg : GetBestReplacementCandidate Dimension Get t current with
      | none => rw [hg] at h; cases h
      | some v =>
        rw [hg] at h
        simp only at h ⊢
        exact ih _ _ _ _ h

theorem SwapChainLoop_mono_le (fuel k : Nat) (hk : fuel ≤ k) (t : KDTree) (current : Nat)
    (acc : List Nat) (r : List SizeT × KDTree)
    (h : SwapChainLoop Dimension Get fuel t current acc = some r) :
    SwapChainLoop Dimension Get k t current acc = some r := by
  induction k with
  | zero =>
    have : fuel = 0 := by omega
    subst this
    exact h
  | succ k ih =>
    by_cases hk' : fuel ≤ k
    · exact SwapChainLoop_mono Dimension Get k t current acc r (ih hk')
    · have : fuel = k + 1 := by omega
      subst this
      exact h

/-- On a tree built by `Insert` the swap-chain loop started at a position of floor `f`
ends at a leaf within `height - f` rounds; the positions of the chain increase. -/
theorem SwapChainLoop_height (hD : 0 < Dimension) (t : KDTree) (inv : InsertInv Dimension t)
    (hfl : FloorInv t) (hB : BndDesc Dimension t) (fuel : Nat) :
    ∀ (current : Nat) (acc : List Nat) (f : Nat), current < t.pointDataVector.length →
      t.nodeFloor.find current = some f → height t ≤ fuel + f →
      ∃ rest : List Nat,
        SwapChainLoop Dimension Get fuel t current acc = some (acc ++ current :: rest, t) ∧
        (∀ x ∈ rest, x < t.pointDataVector.length) ∧
        IsLeaf t (rest.getLastD current) = true ∧
        List.Pairwise (fun u v : Nat => u < v) (current :: rest) ∧
        rest.length + f ≤ height t := by
  have hparlt : ∀ c p : Nat, t.parentIndex.find c = some p → p < c :=
    fun c p h => (inv.topo.parent_lt c p h).1
  have step : ∀ (current f : Nat), t.nodeFloor.find current = some f →
      IsLeaf t current = false →
      ∃ c fc : Nat, GetBestReplacementCandidate Dimension Get t current = some (c, t) ∧
        c < t.pointDataVector.length ∧ current < c ∧ t.nodeFloor.find c = some fc ∧
        f < fc := by
    intro current f hf hl
    obtain ⟨c, hg, hc, hd⟩ := GetBestReplacementCandidate_desc Dimension Get hD t inv hB current hl
    rw [strictDescendant_iff t inv] at hd
    obtain ⟨fp, fc, h1, h2, h3⟩ := floor_lt_of_ancestor t inv hfl current c c (Nat.le_refl _) hd
    rw [hf] at h1
    have := Option.some.inj h1
    exact ⟨c, fc, hg, hc, ancestors_lt t hparlt c c current hd, h2, by omega⟩
  induction fuel with
  | zero =>
    intro current acc f hc hf hh
    have hfh := floor_le_height t current f hc hf
    cases hl : IsLeaf t current with
    | true =>
      refine ⟨[], ?_, by simp, by simpa using hl, by simp, by simpa using hfh⟩
      simp [SwapChainLoop, hl]
    | false =>
      obtain ⟨c, fc, -, h1, -, h2, h3⟩ := step current f hf hl
      have := floor_le_height t c fc h1 h2
      omega
  | succ fuel ih =>
    intro current acc f hc hf hh
    have hfh := floor_le_height t current f hc hf
    cases hl : IsLeaf t current with
    | true =>
      refine ⟨[], ?_, by simp, by simpa using hl, by simp, by simpa using hfh⟩
      simp [SwapChainLoop, hl]
    | false =>
      obtain ⟨c, fc, hg, h1, hlt, h2, h3⟩ := step current f hf hl
      obtain ⟨rest, hr, hall, hleaf, hpw, hlen⟩ := ih c (acc ++ [current]) fc h1 h2 (by omega)
      refine ⟨c :: rest, ?_, ?_, ?_, ?_, ?_⟩
      · simp only [SwapChainLoop, hl, hg]
        simpa using hr
      · intro x hx
        rcases List.mem_cons.1 hx with h | h
        · rw [h]; exact h1
        · exact hall x h
      · rw [List.getLastD_cons]
        exact hleaf
      · rw [List.pairwise_cons]
        refine ⟨?_, hpw⟩
        intro z hz
        rcases List.mem_cons.1 hz with h | h
        · omega
        · rw [List.pairwise_cons] at hpw
          have := hpw.1 z h
          omega
      · simp only [List.length_cons]
        omega

/-- C24: in the tree `t` built from the empty tree by `Insert` calls on distinct non-null
handles, every position `p` that is not a leaf has a balance entry, a floor entry and a
boundary entry for its handle, has a lower child when its balance is negative and an upper
child otherwise, and `GetBestReplacementCandidate(p)` returns with the tree unchanged, so
that no read inserted a missing entry; the swap-chain loop of `Erase`, which makes these
calls, returns for every live handle with the tree unchanged. -/
theorem C24_candidate_assertions_hold (hD : 0 < Dimension) (hs : List PointData)
    (hnd : hs.Nodup) (h0 : (0 : PointData) ∉ hs) (fuel : Nat) (hfuel : hs.length ≤ fuel) :
    ∃ t, runCalls Dimension Get fuel KDTree.empty (hs.map Call.insert) = some t ∧
      (∀ p : SizeT, IsLeaf t p = false →
        (∃ b : Int, t.balanceByIndex.find p = some b ∧
          (b < 0 → ∃ c : SizeT, t.lowerIndex.find p = some c ∧ c < t.pointDataVector.length) ∧
          (0 ≤ b → ∃ c : SizeT, t.upperIndex.find p = some c ∧ c < t.pointDataVector.length)) ∧
        (∃ f : UInt, t.nodeFloor.find p = some f) ∧
        (∃ (g : PointData) (arr : List PointData),
          t.pointDataVector[p]? = some g ∧ t.boundaries.find g = some arr) ∧
        ∃ c : SizeT, GetBestReplacementCandidate Dimension Get t p = some (c, t)) ∧
      ∀ (h : PointData) (c0 : SizeT), t.indexedPointData.find h = some c0 →
        ∃ chain : List SizeT, SwapChainLoop Dimension Get fuel t c0 [] = some (chain, t) := by
  obtain ⟨t, hrun, inv, hfl, hB, hv⟩ := built_desc Dimension Get hD fuel hs hnd h0 hfuel
  refine ⟨t, hrun, ?_, ?_⟩
  · intro p hnl
    have hp := nonleaf_lt t inv p hnl
    obtain ⟨b, hb, hb1, hb2⟩ := inv.bal_nonleaf p hnl
    obtain ⟨g, hg⟩ : ∃ g, t.pointDataVector[p]? = some g := ⟨_, List.getElem?_eq_getElem hp⟩
    obtain ⟨arr, harr, -, -⟩ := (hB p g hg).2 hnl
    obtain ⟨c, hc, -, -⟩ := GetBestReplacementCandidate_desc Dimension Get hD t inv hB p hnl
    refine ⟨⟨b, hb, ?_, ?_⟩, inv.floor_some p hp, ⟨g, arr, hg, harr⟩, ⟨c, hc⟩⟩
    · intro hneg
      cases hl : t.lowerIndex.find p with
      | none => have := hb1 hl; omega
      | some l =>
        exact ⟨l, rfl, (inv.topo.parent_lt l p (inv.topo.lower_parent p l hl)).2⟩
    · intro hpos
      cases hu : t.upperIndex.find p with
      | none => have := hb2 hu; omega
      | some u =>
        exact ⟨u, rfl, (inv.topo.parent_lt u p (inv.topo.upper_parent p u hu)).2⟩
  · intro h c0 hlive
    have hc0 : c0 < t.pointDataVector.length := inv.store.lt_length hlive
    obtain ⟨rest, hchain, -⟩ := SwapChainLoop_ok Dimension Get hD t inv fuel c0 [] hc0
      (by rw [hv]; omega)
    exact ⟨c0 :: rest, by simpa using hchain⟩

/-- C25: in the tree `t` built from the empty tree by `Insert` calls on distinct non-null
handles, `GetBestReplacementCandidate(p)` on a position `p` that is not a leaf returns a
position of the vector that is a strict descendant of `p`, of strictly greater floor.  For
every live handle, at position `c0`, the loop `while (!IsLeaf(current))` run with any fuel
not below the height of the tree, the fuel of `Erase` among them, returns one and the same
chain `c0 :: rest`; the chain ends at a leaf, the loop makes `rest.length` rounds, which is
at most the height, and no position occurs twice in the chain. -/
theorem C25_swap_chain_terminates (hD : 0 < Dimension) (hs : List PointData)
    (hnd : hs.Nodup) (h0 : (0 : PointData) ∉ hs) (fuel : Nat) (hfuel : hs.length ≤ fuel) :
    ∃ t, runCalls Dimension Get fuel KDTree.empty (hs.map Call.insert) = some t ∧
      (∀ p : SizeT, IsLeaf t p = false →
        ∃ (c : SizeT) (fp fc : UInt),
          GetBestReplacementCandidate Dimension Get t p = some (c, t) ∧
          c < t.pointDataVector.length ∧ strictDescendant t p c ∧
          t.nodeFloor.find p = some fp ∧ t.nodeFloor.find c = some fc ∧ fp < fc) ∧
      height t ≤ fuel ∧
      ∀ (h : PointData) (c0 : SizeT), t.indexedPointData.find h = some c0 →
        ∃ rest : List SizeT,
          (∀ k : Nat, height t ≤ k →
            SwapChainLoop Dimension Get k t c0 [] = some (c0 :: rest, t)) ∧
          IsLeaf t (rest.getLastD c0) = true ∧
          rest.length ≤ height t ∧
          (c0 :: rest).Nodup := by
  obtain ⟨t, hrun, inv, hfl, hB, hv⟩ := built_desc Dimension Get hD fuel hs hnd h0 hfuel
  refine ⟨t, hrun, ?_, ?_, ?_⟩
  · intro p hnl
    obtain ⟨c, hg, hc, hd⟩ := GetBestReplacementCandidate_desc Dimension Get hD t inv hB p hnl
    obtain ⟨fp, fc, h1, h2, h3⟩ := floor_lt_of_ancestor t inv hfl p c c (Nat.le_refl _)
      ((strictDescendant_iff t inv p c).1 hd)
    exact ⟨c, fp, fc, hg, hc, hd, h1, h2, h3⟩
  · have := height_le_length t inv hfl
    rw [hv] at this
    omega
  · intro h c0 hlive
    have hc0 : c0 < t.pointDataVector.length := inv.store.lt_length hlive
    obtain ⟨f, hf⟩ := inv.floor_some c0 hc0
    obtain ⟨rest, hchain, -, hleaf, hpw, hlen⟩ :=
      SwapChainLoop_height Dimension Get hD t inv hfl hB (height t) c0 [] f hc0 hf (by omega)
    refine ⟨rest, ?_, hleaf, by omega, ?_⟩
    · intro k hk
      exact SwapChainLoop_mono_le Dimension Get (height t) k hk t c0 [] _ (by simpa using hchain)
    · exact hpw.imp (fun h => Nat.ne_of_lt h)

end Coordinates

/-- Witness for C24: the handles `2`, `1`, `3` on a line. -/
theorem C24_candidate_assertions_hold_witness :
    ∃ t, runCalls 1 lineGet 3 KDTree.empty (([2, 1, 3] : List PointData).map Call.insert)
        = some t ∧
      (∀ p : SizeT, IsLeaf t p = false →
        (∃ b : Int, t.balanceByIndex.find p = some b ∧
          (b < 0 → ∃ c : SizeT, t.lowerIndex.find p = some c ∧ c < t.pointDataVector.length) ∧
          (0 ≤ b → ∃ c : SizeT, t.upperIndex.find p = some c ∧ c < t.pointDataVector.length)) ∧
        (∃ f : UInt, t.nodeFloor.find p = some f) ∧
        (∃ (g : PointData) (arr : List PointData),
          t.pointDataVector[p]? = some g ∧ t.boundaries.find g = some arr) ∧
        ∃ c : SizeT, GetBestReplacementCandidate 1 lineGet t p = some (c, t)) ∧
      ∀ (h : PointData) (c0 : SizeT), t.indexedPointData.find h = some c0 →
        ∃ chain : List SizeT, SwapChainLoop 1 lineGet 3 t c0 [] = some (chain, t) :=
  C24_candidate_assertions_hold 1 lineGet (by decide) [2, 1, 3] (by decide) (by decide) 3
    (by decide)

/-- Witness for C25: the handles `2`, `1`, `3` on a line. -/
theorem C25_swap_chain_terminates_witness :
    ∃ t, runCalls 1 lineGet 3 KDTree.empty (([2, 1, 3] : List PointData).map Call.insert)
        = some t ∧
      (∀ p : SizeT, IsLeaf t p = false →
        ∃ (c : SizeT) (fp fc : UInt),
          GetBestReplacementCandidate 1 lineGet t p = some (c, t) ∧
          c < t.pointDataVector.length ∧ strictDescendant t p c ∧
          t.nodeFloor.find p = some fp ∧ t.nodeFloor.find c = some fc ∧ fp < fc) ∧
      height t ≤ 3 ∧
      ∀ (h : PointData) (c0 : SizeT), t.indexedPointData.find h = some c0 →
        ∃ rest : List SizeT,
          (∀ k : Nat, height t ≤ k →
            SwapChainLoop 1 lineGet k t c0 [] = some (c0 :: rest, t)) ∧
          IsLeaf t (rest.getLastD c0) = true ∧
          rest.length ≤ height t ∧
          (c0 :: rest).Nodup :=
  C25_swap_chain_terminates 1 lineGet (by decide) [2, 1, 3] (by decide) (by decide) 3
    (by decide)

end gbi
namespace gbi

theorem lookup_mem (path : List (Nat × Bool)) (p : Nat) (s : Bool)
    (h : path.lookup p = some s) : (p, s) ∈ path := by
  induction path with
  | nil => simp at h
  | cons e r ih =>
    obtain ⟨k, v⟩ := e
    by_cases hk : p = k
    · subst hk
      simp only [List.lookup_cons, beq_self_eq_true] at h
      rw [← Option.some.inj h]
      exact List.mem_cons_self _ _
    · have hb : (p == k) = false := by simpa using hk
      simp only [List.lookup_cons, hb] at h
      exact List.mem_cons_of_mem _ (ih h)

theorem empty_sizeSkew : SizeSkew KDTree.empty := by
  intro p
  simp [KDTree.empty, sideCount, childOn, Map.find]

/-- No point lies in the subtree of a position behind the vector. -/
theorem subtreeCount_fresh {D : Nat} (t : KDTree) (inv : InsertInv D t) (c : Nat)
    (hc : t.pointDataVector.length ≤ c) : subtreeCount t c = 0 := by
  unfold subtreeCount
  rw [List.length_eq_zero, List.filter_eq_nil_iff]
  intro q hq
  have hq' := List.mem_range.1 hq
  simp only [decide_eq_true_eq]
  rintro (h | h)
  · exact absurd (h ▸ hq') (Nat.not_lt.2 hc)
  · rw [strictDescendant_iff t inv] at h
    have := ancestors_lt t (fun c p h => (inv.topo.parent_lt c p h).1) q q c h
    omega

theorem Rooted.sizeSkew_root {D : Nat} {point : Nat} {t t' : KDTree} (hr : Rooted point t t')
    (inv : InsertInv D t) (hemp : t.pointDataVector = []) : SizeSkew t' := by
  intro p
  obtain ⟨h1, h2, -, h4⟩ := fresh_position t inv p (by rw [hemp]; simp)
  have hs : ∀ s : Bool, sideCount t' p s = 0 := by
    intro s
    unfold sideCount childOn
    rw [hr.lower, hr.upper, h1, h2]
    cases s <;> rfl
  rw [hr.bal, h4, hs true, hs false]
  rfl

section Coordinates

variable {α : Type} [DecidableEq α] [LT α] [∀ a b : α, Decidable (a < b)]
variable (Dimension : Nat) (Get : PointData → Nat → α)

/-- The node under which a position on the way up from the new leaf hangs on side `s` was
left by the walk through that side. -/
theorem Attached.walk_of_child (fuel : Nat) {point : Nat} {t t' : KDTree} {pl : Nat} {up : Bool}
    (ha : Attached Dimension Get point t t' (specWalk Dimension Get point t fuel) pl up)
    (inv : InsertInv Dimension t) (hf : FloorInv t) (p c : Nat) (s : Bool)
    (hc : c = t.pointDataVector.length ∨ c = pl ∨ c ∈ ancestors t pl pl)
    (hch : childOn t' p s = some c) :
    (p, s) ∈ specWalk Dimension Get point t fuel := by
  have hpl := Attached.pl_lt Dimension Get ha
  have hne : t.pointDataVector ≠ [] := by
    intro h; rw [h] at hpl; simp at hpl
  obtain ⟨-, -, hfacts⟩ := specWalk_facts Dimension Get point t inv hf fuel hne pl up ha.last
  rw [Attached.childOn_eq Dimension Get ha] at hch
  by_cases hps : p = pl ∧ s = up
  · rw [hps.1, hps.2]
    exact getLast?_mem _ _ ha.last
  · rw [if_neg hps] at hch
    have hpar := childOn_parent t inv p c s hch
    have hcn := (inv.topo.parent_lt c p hpar).2
    have hc' : c = pl ∨ c ∈ ancestors t pl pl := by
      rcases hc with h | h
      · omega
      · exact h
    obtain ⟨s', hs1, hs2⟩ := hfacts c p hc' hpar
    have hss : s' = s := by
      cases s <;> cases s'
      · rfl
      · simp only [childOn, Bool.false_eq_true, if_false, if_true] at hch hs2
        exact absurd hs2 (inv.topo.lower_ne_upper p c hch)
      · simp only [childOn, Bool.false_eq_true, if_false, if_true] at hch hs2
        exact absurd hch (inv.topo.lower_ne_upper p c hs2)
      · rfl
    rw [← hss]
    exact hs1

theorem Attached.sizeSkew (fuel : Nat) {point : Nat} {t t' : KDTree} {pl : Nat} {up : Bool}
    (ha : Attached Dimension Get point t t' (specWalk Dimension Get point t fuel) pl up)
    (inv : InsertInv Dimension t) (inv' : InsertInv Dimension t') (hf : FloorInv t)
    (hS : SizeSkew t) : SizeSkew t' := by
  have hpl := Attached.pl_lt Dimension Get ha
  have hne : t.pointDataVector ≠ [] := by
    intro h; rw [h] at hpl; simp at hpl
  have hparlt : ∀ c p : Nat, t.parentIndex.find c = some p → p < c :=
    fun c p h => (inv.topo.parent_lt c p h).1
  obtain ⟨hon, -, hchild⟩ := specWalk_facts Dimension Get point t inv hf fuel hne pl up ha.last
  have hlast : (pl, up) ∈ specWalk Dimension Get point t fuel := getLast?_mem _ _ ha.last
  have huniq : ∀ (p : Nat) (s s' : Bool), (p, s) ∈ specWalk Dimension Get point t fuel →
      (p, s') ∈ specWalk Dimension Get point t fuel → s = s' := by
    intro p s s' h1 h2
    have e1 := specWalk_lookup Dimension Get point t inv fuel p s h1
    have e2 := specWalk_lookup Dimension Get point t inv fuel p s' h2
    rw [e1] at e2
    exact Option.some.inj e2
  have hdesc_old : ∀ a q : Nat, q < t.pointDataVector.length →
      (strictDescendant t' a q ↔ strictDescendant t a q) := by
    intro a q hq
    rw [strictDescendant_iff t' inv', strictDescendant_iff t inv,
      Attached.ancestors_old Dimension Get ha inv q q hq]
  have hnew_in : ∀ c : Nat, inSubtree t' c t.pointDataVector.length ↔
      (c = t.pointDataVector.length ∨ c = pl ∨ c ∈ ancestors t pl pl) := by
    intro c
    unfold inSubtree
    rw [strictDescendant_iff t' inv', Attached.ancestors_new Dimension Get ha inv,
      List.mem_cons]
    constructor
    · rintro (h | h)
      · exact Or.inl h.symm
      · exact Or.inr h
    · rintro (h | h)
      · exact Or.inl h.symm
      · exact Or.inr h
  have hcount : ∀ c : Nat, subtreeCount t' c =
      subtreeCount t c + (if inSubtree t' c t.pointDataVector.length then 1 else 0) := by
    intro c
    unfold subtreeCount
    rw [ha.vec, List.length_append, List.length_singleton, List.range_succ, List.filter_append,
      List.length_append]
    congr 1
    · congr 1
      apply List.filter_congr
      intro q hq
      have hq' := List.mem_range.1 hq
      rw [decide_eq_decide]
      unfold inSubtree
      rw [hdesc_old c q hq']
    · by_cases hin : inSubtree t' c t.pointDataVector.length
      · rw [if_pos hin]
        simp [hin]
      · rw [if_neg hin]
        simp [hin]
  have hside : ∀ (p : Nat) (s : Bool), sideCount t' p s =
      sideCount t p s + (if (p, s) ∈ specWalk Dimension Get point t fuel then 1 else 0) := by
    intro p s
    unfold sideCount
    rw [Attached.childOn_eq Dimension Get ha p s]
    by_cases hw : (p, s) ∈ specWalk Dimension Get point t fuel
    · rw [if_pos hw]
      by_cases hc : p = pl ∧ s = up
      · rw [if_pos hc, hc.1, hc.2, ha.absent]
        simp only
        have hin : inSubtree t' t.pointDataVector.length t.pointDataVector.length := Or.inl rfl
        rw [hcount, subtreeCount_fresh t inv _ (Nat.le_refl _), if_pos hin]
      · rw [if_neg hc]
        have hppl : p ≠ pl := by
          intro e
          rw [e] at hw
          exact hc ⟨e, huniq pl s up hw hlast⟩
        have hanc : p ∈ ancestors t pl pl := by
          rcases (hon p).1 ⟨s, hw⟩ with e | e
          · exact absurd e hppl
          · exact e
        obtain ⟨c, hc1, hc2⟩ := ancestors_is_parent t hparlt pl p hanc
        obtain ⟨s', hs1, hs2⟩ := hchild c p hc1 hc2
        have hss : s' = s := huniq p s' s hs1 hw
        rw [hss] at hs2
        rw [hs2]
        simp only
        rw [hcount c, if_pos ((hnew_in c).2 (Or.inr hc1))]
    · rw [if_neg hw]
      have hc : ¬ (p = pl ∧ s = up) := by
        rintro ⟨e1, e2⟩
        rw [e1, e2] at hw
        exact hw hlast
      rw [if_neg hc]
      cases hch : childOn t p s with
      | none => rfl
      | some c =>
        simp only
        have hno : ¬ inSubtree t' c t.pointDataVector.length := by
          intro hin
          have hch' : childOn t' p s = some c := by
            rw [Attached.childOn_eq Dimension Get ha p s, if_neg hc]
            exact hch
          exact hw (Attached.walk_of_child Dimension Get fuel ha inv hf p c s
            ((hnew_in c).1 hin) hch')
        rw [hcount c, if_neg hno]
  intro p
  rw [ha.bal p, hside p true, hside p false]
  have hSp := hS p
  cases hl : (specWalk Dimension Get point t fuel).lookup p with
  | none =>
    have h1 : ∀ s : Bool, (p, s) ∉ specWalk Dimension Get point t fuel := by
      intro s hm
      rw [specWalk_lookup Dimension Get point t inv fuel p s hm] at hl
      cases hl
    rw [if_neg (h1 true), if_neg (h1 false)]
    simp only [bumped, Nat.add_zero]
    exact hSp
  | some s0 =>
    have hm := lookup_mem _ p s0 hl
    cases s0 with
    | true =>
      have h2 : (p, false) ∉ specWalk Dimension Get point t fuel := by
        intro hm'
        have := huniq p true false hm hm'
        cases this
      rw [if_pos hm, if_neg h2]
      simp only [bumped, if_true, Option.getD_some, Nat.add_zero]
      push_cast
      omega
    | false =>
      have h2 : (p, true) ∉ specWalk Dimension Get point t fuel := by
        intro hm'
        have := huniq p false true hm hm'
        cases this
      rw [if_neg h2, if_pos hm]
      simp only [bumped, Bool.false_eq_true, if_false, Option.getD_some, Nat.add_zero]
      push_cast
      omega

/-- `Insert` of a new handle keeps the balances exact size skews. -/
theorem Insert_sizeSkew (fuel : Nat) (t t' : KDTree) (h : Nat)
    (inv : InsertInv Dimension t) (hP : FloorInv t ∧ SizeSkew t) (hh : h ≠ 0)
    (hnew : t.indexedPointData.find h = none)
    (hI : Insert Dimension Get fuel t h = some t') :
    FloorInv t' ∧ SizeSkew t' := by
  refine ⟨Insert_floorInv Dimension Get fuel t t' h inv hP.1 hh hnew hI, ?_⟩
  by_cases hemp : t.pointDataVector = []
  · exact Rooted.sizeSkew_root (Insert_rooted Dimension Get fuel t t' h inv hh hemp hI).1 inv hemp
  · obtain ⟨pl, up, ha⟩ := Insert_attached Dimension Get fuel t t' h inv hh hnew hemp hI
    obtain ⟨inv', -, -⟩ := Insert_inv Dimension Get fuel t t' h inv hh hnew hI
    exact Attached.sizeSkew Dimension Get fuel ha inv inv' hP.1 hP.2

/-- C23: in the tree `t` built from the empty tree by `Insert` calls on distinct non-null
handles, the value of `balanceByIndex[p]` (`0` when `p` has no entry) is, for every
position `p`, the number of points in the upper subtree of `p` minus the number of points
in its lower subtree; the subtree on a side is the child on that side with its strict
descendants, and it is empty when the child is absent. -/
theorem C23_balance_is_size_skew (_ : 0 < Dimension) (hs : List PointData) (hnd : hs.Nodup)
    (h0 : (0 : PointData) ∉ hs) (fuel : Nat) (hfuel : hs.length ≤ fuel) :
    ∃ t, runCalls Dimension Get fuel KDTree.empty (hs.map Call.insert) = some t ∧
      ∀ p : SizeT, (t.balanceByIndex.find p).getD 0 =
        (sideCount t p true : Int) - (sideCount t p false : Int) := by
  obtain ⟨t, hrun, inv, hv, -⟩ := built_tree Dimension Get fuel hs hnd h0 hfuel
  have hB := runInserts_keeps Dimension Get fuel
    (fun t => FloorInv t ∧ SizeSkew t)
    (fun t t' h inv hP hh hnew hI =>
      Insert_sizeSkew Dimension Get fuel t t' h inv hP hh hnew hI)
    hs KDTree.empty (empty_inv Dimension) ⟨empty_floorInv, empty_sizeSkew⟩ hnd h0
    (fun _ _ => rfl) t hrun
  exact ⟨t, hrun, hB.2⟩

end Coordinates

/-- Witness for C23: the handles `2`, `1`, `3` on a line. -/
theorem C23_balance_is_size_skew_witness :
    ∃ t, runCalls 1 lineGet 3 KDTree.empty (([2, 1, 3] : List PointData).map Call.insert)
        = some t ∧
      ∀ p : SizeT, (t.balanceByIndex.find p).getD 0 =
        (sideCount t p true : Int) - (sideCount t p false : Int) :=
  C23_balance_is_size_skew 1 lineGet (by decide) [2, 1, 3] (by decide) (by decide) 3
    (by decide)

end gbi
namespace gbi

/-- The containers that `MoveLastElementTo(item)` returns, read at a position `k`. -/
theorem MoveLastElementTo_fields (td t3 : KDTree) (item : Nat)
    (h : MoveLastElementTo td item = some t3) :
    (∀ k : Nat, t3.balanceByIndex.find k =
      if k = td.pointDataVector.length - 1 then none
      else if k = item then td.balanceByIndex.find (td.pointDataVector.length - 1)
      else td.balanceByIndex.find k) ∧
    ∀ k : Nat, k ≠ item → k ≠ td.pointDataVector.length - 1 →
      t3.parentIndex.find k = td.parentIndex.find k ∧
      t3.nodeFloor.find k = td.nodeFloor.find k ∧
      t3.lowerIndex.find k =
        (if item ≠ td.pointDataVector.length - 1 ∧
            td.parentIndex.find (td.pointDataVector.length - 1) = some k ∧
            td.lowerIndex.find k = some (td.pointDataVector.length - 1) then some item
          else td.lowerIndex.find k) ∧
      t3.upperIndex.find k =
        (if item ≠ td.pointDataVector.length - 1 ∧
            td.parentIndex.find (td.pointDataVector.length - 1) = some k ∧
            td.lowerIndex.find k ≠ some (td.pointDataVector.length - 1) ∧
            td.upperIndex.find k = some (td.pointDataVector.length - 1) then some item
          else td.upperIndex.find k) ∧
      (k < td.pointDataVector.length - 1 → t3.pointDataVector[k]? = td.pointDataVector[k]?) := by
  unfold MoveLastElementTo at h
  cases hx : vecAt td item with
  | none => simp [hx] at h
  | some x =>
    cases hy : vecAt td (td.pointDataVector.length - 1) with
    | none => simp [hx, hy] at h
    | some y =>
      simp only [hx, hy] at h
      have h3 := (Option.some.inj h).symm
      by_cases hil : item = td.pointDataVector.length - 1
      · simp only [hil, ne_eq, not_true_eq_false, if_false] at h3
        constructor
        · intro k
          rw [h3]
          simp only [Map.find_erase]
          by_cases hk : k = td.pointDataVector.length - 1
          · simp only [hk, if_true]
          · simp only [hk, if_false, hil]
        · intro k hk1 hk2
          rw [h3]
          simp only [Map.find_erase, hk2, if_false, hil, ne_eq, not_true_eq_false, false_and]
          refine ⟨trivial, trivial, trivial, trivial, ?_⟩
          intro hlt
          rw [List.getElem?_take]
          simp only [hlt, if_true]
      · simp only [hil, ne_eq, not_false_eq_true, if_true] at h3
        constructor
        · intro k
          rw [h3]
          simp only [Map.find_erase, copyEntry_find]
        · intro k hk1 hk2
          rw [h3]
          simp only [Map.find_erase, copyEntry_find, Map.find_set, hk1, hk2, if_false,
            relinkLower_find, relinkUpper_find, hil, ne_eq, not_false_eq_true, true_and]
          intro hlt
          rw [List.getElem?_take]
          simp only [List.length_set, hlt, if_true]
          rw [List.getElem?_set]
          have : ¬ item = k := fun e => hk1 e.symm
          simp only [this, if_false]

/-- `RemoveLeaf` of a leaf that has a parent, on a tree whose last position has no balance
entry: balances stay as they are, and so do the parent, floor and handle of every position
in front of the leaf and the child links between such positions. -/
theorem RemoveLeaf_exact (s : KDTree) (L x pp ph : Nat) (incr : Bool) (hs : StoreOK s)
    (ht : TopoOK s) (hx : s.pointDataVector[L]? = some x) (hleaf : IsLeaf s L = true)
    (hpar : s.parentIndex.find L = some pp) (hph : s.pointDataVector[pp]? = some ph)
    (hbL : s.balanceByIndex.find L = none)
    (hbl : s.balanceByIndex.find (s.pointDataVector.length - 1) = none) :
    ∃ t3 : KDTree,
      RemoveLeaf s L incr = some ((ph, decide (s.lowerIndex.find pp = some L)), t3) ∧
      StoreOK t3 ∧
      t3.pointDataVector.length = s.pointDataVector.length - 1 ∧
      (∀ p c : Nat, t3.lowerIndex.find p = some c → c < t3.pointDataVector.length) ∧
      (∀ p c : Nat, t3.upperIndex.find p = some c → c < t3.pointDataVector.length) ∧
      (∀ k : Nat, t3.balanceByIndex.find k = s.balanceByIndex.find k) ∧
      (∀ k : Nat, k < L → t3.parentIndex.find k = s.parentIndex.find k ∧
        t3.nodeFloor.find k = s.nodeFloor.find k ∧
        t3.pointDataVector[k]? = s.pointDataVector[k]?) ∧
      (∀ k c : Nat, k < L → c < L →
        (t3.lowerIndex.find k = some c ↔ s.lowerIndex.find k = some c) ∧
        (t3.upperIndex.find k = some c ↔ s.upperIndex.find k = some c)) := by
  obtain ⟨ph', inc', t3, hrl, hw, hlen, -, -⟩ := RemoveLeaf_ok s L x incr hs ht hx hleaf
  have hLlt : L < s.pointDataVector.length := (List.getElem?_eq_some.1 hx).1
  have hrl' := hrl
  unfold RemoveLeaf at hrl'
  simp only [hpar] at hrl'
  have hph' : vecAt s pp = some ph := hph
  simp only [hph'] at hrl'
  cases hm : MoveLastElementTo (detachLeaf s L (decide (s.lowerIndex.find pp = some L))) L with
  | none => simp [hm] at hrl'
  | some t4 =>
    simp only [hm, Option.some.injEq, Prod.mk.injEq] at hrl'
    obtain ⟨⟨e1, e2⟩, e3⟩ := hrl'
    subst e3
    obtain ⟨hbal, hfld⟩ := MoveLastElementTo_fields _ _ _ hm
    have hdlen : (detachLeaf s L (decide (s.lowerIndex.find pp = some L))).pointDataVector.length
        = s.pointDataVector.length := rfl
    rw [hdlen] at hbal hfld
    have hdbal : (detachLeaf s L (decide (s.lowerIndex.find pp = some L))).balanceByIndex
        = s.balanceByIndex := by
      simp only [detachLeaf, hbL]
    rw [hdbal] at hbal
    refine ⟨t4, ?_, hw.store, hlen, hw.lower_ok, hw.upper_ok, ?_, ?_, ?_⟩
    · rw [hrl, ← e1, ← e2]
    · intro k
      rw [hbal k]
      by_cases hk : k = s.pointDataVector.length - 1
      · rw [if_pos hk, hk, hbl]
      · rw [if_neg hk]
        by_cases hkL : k = L
        · rw [if_pos hkL, hbl, hkL, hbL]
        · rw [if_neg hkL]
    · intro k hk
      have hkL : ¬ k = L := by omega
      obtain ⟨f1, f2, -, -, f5⟩ := hfld k (by omega) (by omega)
      refine ⟨?_, ?_, ?_⟩
      · rw [f1]
        simp only [detachLeaf, Map.find_erase]
        rw [if_neg hkL]
      · rw [f2]
        simp only [detachLeaf, Map.find_erase]
        rw [if_neg hkL]
      · have hkl : k < s.pointDataVector.length - 1 := by omega
        exact f5 hkl
    · intro k c hk hc
      obtain ⟨-, -, f3, f4, -⟩ := hfld k (by omega) (by omega)
      have hcl : c ≠ s.pointDataVector.length - 1 := by omega
      have hcL : c ≠ L := by omega
      have hdl : ∀ k : Nat, (detachLeaf s L (decide (s.lowerIndex.find pp = some L))).lowerIndex.find k
          = if k = pp ∧ s.lowerIndex.find pp = some L then none else s.lowerIndex.find k := by
        intro k
        simp only [detachLeaf, hpar]
        by_cases hlow : s.lowerIndex.find pp = some L
        · simp only [hlow, decide_True, if_true, Map.find_erase, and_true]
        · simp only [hlow, decide_False, Bool.false_eq_true, if_false, and_false]
      have hdu : ∀ k : Nat, (detachLeaf s L (decide (s.lowerIndex.find pp = some L))).upperIndex.find k
          = if k = pp ∧ ¬ s.lowerIndex.find pp = some L then none else s.upperIndex.find k := by
        intro k
        simp only [detachLeaf, hpar]
        by_cases hlow : s.lowerIndex.find pp = some L
        · simp only [hlow, decide_True, if_true, not_true_eq_false, and_false, if_false]
        · simp only [hlow, decide_False, Bool.false_eq_true, if_false, Map.find_erase,
            not_false_eq_true, and_true]
      rw [hdl] at f3
      rw [hdl, hdu] at f4
      constructor
      · rw [f3]
        by_cases hn1 : k = pp ∧ s.lowerIndex.find pp = some L
        · have hsk : s.lowerIndex.find k ≠ some c := by
            rw [hn1.1, hn1.2]
            intro e
            exact hcL (Option.some.inj e).symm
          rw [if_pos hn1]
          have hA : ¬ (L ≠ s.pointDataVector.length - 1 ∧
              (detachLeaf s L (decide (s.lowerIndex.find pp = some L))).parentIndex.find
                (s.pointDataVector.length - 1) = some k ∧
              (none : Option Nat) = some (s.pointDataVector.length - 1)) := by
            rintro ⟨-, -, e⟩
            cases e
          rw [if_neg hA]
          exact ⟨fun e => Option.noConfusion e, fun e => absurd e hsk⟩
        · rw [if_neg hn1]
          by_cases hA : L ≠ s.pointDataVector.length - 1 ∧
              (detachLeaf s L (decide (s.lowerIndex.find pp = some L))).parentIndex.find
                (s.pointDataVector.length - 1) = some k ∧
              s.lowerIndex.find k = some (s.pointDataVector.length - 1)
          · rw [if_pos hA]
            constructor
            · intro e
              exact absurd (Option.some.inj e).symm hcL
            · intro e
              rw [hA.2.2] at e
              exact absurd (Option.some.inj e).symm hcl
          · rw [if_neg hA]
      · rw [f4]
        by_cases hn1 : k = pp ∧ ¬ s.lowerIndex.find pp = some L
        · have hsk : s.upperIndex.find k ≠ some c := by
            rw [hn1.1]
            intro e
            rcases ht.parent_child L pp hpar with h' | h'
            · exact hn1.2 h'
            · rw [h'] at e
              exact hcL (Option.some.inj e).symm
          rw [if_pos hn1]
          have hA : ¬ (L ≠ s.pointDataVector.length - 1 ∧
              (detachLeaf s L (decide (s.lowerIndex.find pp = some L))).parentIndex.find
                (s.pointDataVector.length - 1) = some k ∧
              (if k = pp ∧ s.lowerIndex.find pp = some L then none else s.lowerIndex.find k) ≠
                some (s.pointDataVector.length - 1) ∧
              (none : Option Nat) = some (s.pointDataVector.length - 1)) := by
            rintro ⟨-, -, -, e⟩
            cases e
          rw [if_neg hA]
          exact ⟨fun e => Option.noConfusion e, fun e => absurd e hsk⟩
        · rw [if_neg hn1]
          by_cases hA : L ≠ s.pointDataVector.length - 1 ∧
              (detachLeaf s L (decide (s.lowerIndex.find pp = some L))).parentIndex.find
                (s.pointDataVector.length - 1) = some k ∧
              (if k = pp ∧ s.lowerIndex.find pp = some L then none else s.lowerIndex.find k) ≠
                some (s.pointDataVector.length - 1) ∧
              s.upperIndex.find k = some (s.pointDataVector.length - 1)
          · rw [if_pos hA]
            constructor
            · intro e
              exact absurd (Option.some.inj e).symm hcL
            · intro e
              rw [hA.2.2.2] at e
              exact absurd (Option.some.inj e).symm hcl
          · rw [if_neg hA]

end gbi
namespace gbi

section Coordinates

variable {α : Type} [DecidableEq α] [LT α] [∀ a b : α, Decidable (a < b)]
variable (Dimension : Nat) (Get : PointData → Nat → α)

/-- The per-position recompute touches only `boundaries`. -/
theorem UpdateBoundaries_frame (t : KDTree) (i : Nat) (hi : i < t.pointDataVector.length)
    (hl : ∀ c, t.lowerIndex.find i = some c → c < t.pointDataVector.length)
    (hu : ∀ c, t.upperIndex.find i = some c → c < t.pointDataVector.length) :
    ∃ t', UpdateBoundaries Dimension Get t i = some t' ∧ core t' = core t ∧
      t'.nodeFloor = t.nodeFloor ∧ t'.balanceByIndex = t.balanceByIndex ∧
      t'.indexByBalanceAndFloor = t.indexByBalanceAndFloor := by
  unfold UpdateBoundaries
  obtain ⟨self, hself⟩ := vecAt_some_of_lt t i hi
  rw [hself]
  simp only
  cases hcl : t.lowerIndex.find i with
  | none =>
    cases hcu : t.upperIndex.find i with
    | none =>
      simp only
      split <;> exact ⟨_, rfl, rfl, rfl, rfl, rfl⟩
    | some cu =>
      obtain ⟨gu, hgu⟩ := vecAt_some_of_lt t cu (hu cu hcu)
      simp only [vecAt] at hgu
      simp only [vecAt, hgu]
      split <;> exact ⟨_, rfl, rfl, rfl, rfl, rfl⟩
  | some cl =>
    obtain ⟨gl, hgl⟩ := vecAt_some_of_lt t cl (hl cl hcl)
    simp only [vecAt] at hgl
    cases hcu : t.upperIndex.find i with
    | none =>
      simp only [vecAt, hgl]
      split <;> exact ⟨_, rfl, rfl, rfl, rfl, rfl⟩
    | some cu =>
      obtain ⟨gu, hgu⟩ := vecAt_some_of_lt t cu (hu cu hcu)
      simp only [vecAt] at hgu
      simp only [vecAt, hgl, hgu]
      split <;> exact ⟨_, rfl, rfl, rfl, rfl, rfl⟩

end Coordinates

/-- The child test of the propagation loop holds exactly when the link names the position
of `current`. -/
theorem childIs_eq (s : KDTree) (hs : StoreOK s) (m : Map SizeT SizeT) (i current pc : Nat)
    (hc : s.indexedPointData.find current = some pc)
    (hm : ∀ c, m.find i = some c → c < s.pointDataVector.length) :
    childIs s m i current = some (decide (m.find i = some pc)) := by
  unfold childIs
  cases hf : m.find i with
  | none => simp
  | some c =>
    obtain ⟨g, hg⟩ := vecAt_some_of_lt s c (hm c hf)
    simp only [hg]
    have hg' : s.pointDataVector[c]? = some g := hg
    have hpc : s.pointDataVector[pc]? = some current := (hs.idx_vec current pc).1 hc
    congr 1
    rw [decide_eq_decide]
    constructor
    · intro e
      rw [e] at hg'
      rw [hs.inj hg' hpc]
    · intro e
      have e' : c = pc := Option.some.inj e
      rw [e'] at hg'
      rw [hg'] at hpc
      exact Option.some.inj hpc

section Coordinates

variable {α : Type} [DecidableEq α] [LT α] [∀ a b : α, Decidable (a < b)]
variable (Dimension : Nat) (Get : PointData → Nat → α)

/-- The upward walk of `Erase`, started at the handle stored at position `pc` of a state
`s` that agrees with the consistent tree `t` on the parents, floors and child links of the
positions up to `pc`: it returns, leaves vector, reverse map, topology and floors alone,
keeps the balance of every position that is not a strict ancestor of `pc`, and moves the
balance of a strict ancestor `k`, reached from its child `c` on the way up, by `+1` when
`c` is the lower child of `k` and by `-1` otherwise. -/
theorem PropagateLoop_exact (t : KDTree) (ht : TopoOK t)
    (hfl : ∀ p : Nat, p < t.pointDataVector.length → ∃ f : Nat, t.nodeFloor.find p = some f)
    (fuel : Nat) :
    ∀ (s : KDTree) (current pc : Nat), StoreOK s →
      (∀ p c : Nat, s.lowerIndex.find p = some c → c < s.pointDataVector.length) →
      (∀ p c : Nat, s.upperIndex.find p = some c → c < s.pointDataVector.length) →
      s.indexedPointData.find current = some pc → pc < fuel →
      (∀ k : Nat, k ≤ pc → s.parentIndex.find k = t.parentIndex.find k ∧
        s.nodeFloor.find k = t.nodeFloor.find k) →
      (∀ k c : Nat, k ≤ pc → c ≤ pc →
        (s.lowerIndex.find k = some c ↔ t.lowerIndex.find k = some c) ∧
        (s.upperIndex.find k = some c ↔ t.upperIndex.find k = some c)) →
      ∃ s', PropagateLoop Dimension Get fuel s current = some s' ∧ core s' = core s ∧
        s'.nodeFloor = s.nodeFloor ∧
        (∀ k : Nat, k ∉ ancestors t pc pc →
          s'.balanceByIndex.find k = s.balanceByIndex.find k) ∧
        (∀ c k : Nat, (c = pc ∨ c ∈ ancestors t pc pc) → t.parentIndex.find c = some k →
          s'.balanceByIndex.find k =
            some ((s.balanceByIndex.find k).getD 0 +
              (if t.lowerIndex.find k = some c then 1 else -1))) := by
  have hparlt : ∀ c p : Nat, t.parentIndex.find c = some p → p < c :=
    fun c p h => (ht.parent_lt c p h).1
  induction fuel with
  | zero => intro s current pc _ _ _ _ h; omega
  | succ fuel ih =>
    intro s current pc hs hlo hup hc hfuel hpar hlink
    have hpcv := (hs.idx_vec current pc).1 hc
    have hcur : current ≠ 0 := hs.ne_zero hpcv
    have hpclt : pc < s.pointDataVector.length := hs.lt_length hc
    unfold PropagateLoop
    simp only [hcur, if_false]
    unfold GetParent
    simp only [idxAt_hit s current pc hc]
    obtain ⟨s2, hs2, hcore2, hfl2, hbal2, -⟩ := UpdateBoundaries_frame Dimension Get s pc hpclt
      (fun c h => hlo pc c h) (fun c h => hup pc c h)
    have hcf2 := hcore2
    simp only [core, Prod.mk.injEq] at hcf2
    obtain ⟨c21, c22, c23, c24, c25⟩ := hcf2
    have hsp : s.parentIndex.find pc = t.parentIndex.find pc := (hpar pc (Nat.le_refl _)).1
    cases hp : t.parentIndex.find pc with
    | none =>
      rw [hp] at hsp
      simp only [hsp, idxAt_hit s current pc hc, hs2, ne_eq, not_true_eq_false, if_false]
      refine ⟨s2, PropagateLoop_null Dimension Get fuel s2, hcore2, hfl2, ?_, ?_⟩
      · intro k _
        rw [hbal2]
      · intro c k hck hpk
        rw [ancestors_none t pc hp] at hck
        rcases hck with e | e
        · rw [e, hp] at hpk
          cases hpk
        · cases e
    | some A =>
      rw [hp] at hsp
      have hApc := hparlt pc A hp
      have hAlt := Nat.lt_trans hApc hpclt
      obtain ⟨ph, hph⟩ := vecAt_some_of_lt s A hAlt
      have hph0 : ph ≠ 0 := hs.ne_zero hph
      have hidx : s.indexedPointData.find ph = some A := (hs.idx_vec ph A).2 hph
      have hidx2 : s2.indexedPointData.find ph = some A := by rw [c22]; exact hidx
      have hc2 : s2.indexedPointData.find current = some pc := by rw [c22]; exact hc
      have hs2ok : StoreOK s2 := hs.of_same_core hcore2
      obtain ⟨fA, hfA⟩ := hfl A (by have := (ht.parent_lt pc A hp).2; omega)
      have hfloor2 : s2.nodeFloor.find A = some fA := by
        rw [hfl2, (hpar A (Nat.le_of_lt hApc)).2]
        exact hfA
      simp only [hsp, hph, idxAt_hit s current pc hc, hs2, hph0, ne_eq, not_false_eq_true,
        if_true, idxAt_hit s2 ph A hidx2]
      have hlo2 : ∀ p c : Nat, s2.lowerIndex.find p = some c → c < s2.pointDataVector.length := by
        intro p c h
        rw [c21]
        rw [c24] at h
        exact hlo p c h
      have hup2 : ∀ p c : Nat, s2.upperIndex.find p = some c → c < s2.pointDataVector.length := by
        intro p c h
        rw [c21]
        rw [c25] at h
        exact hup p c h
      have key : ∀ inc : Bool, (inc = true ↔ t.lowerIndex.find A = some pc) →
          ∃ s', PropagateLoop Dimension Get fuel (UpdateBalance s2 ph inc) ph = some s' ∧
            core s' = core s ∧ s'.nodeFloor = s.nodeFloor ∧
            (∀ k : Nat, k ∉ ancestors t pc pc →
              s'.balanceByIndex.find k = s.balanceByIndex.find k) ∧
            (∀ c k : Nat, (c = pc ∨ c ∈ ancestors t pc pc) → t.parentIndex.find c = some k →
              s'.balanceByIndex.find k =
                some ((s.balanceByIndex.find k).getD 0 +
                  (if t.lowerIndex.find k = some c then 1 else -1))) := by
        intro inc hinc
        obtain ⟨hframe3, hbal3⟩ := UpdateBalance_spec s2 ph A fA inc hidx2 hfloor2
        have hcore3 := core_UpdateBalance s2 ph A inc hidx2
        obtain ⟨g1, g2, g3, g4, g5, g6, -, -⟩ := frame_fields hframe3
        obtain ⟨s', hrun, hcore', hfl', h1, h2⟩ := ih (UpdateBalance s2 ph inc) ph A
          (hs2ok.of_same_core hcore3)
          (by intro p c h; rw [g1]; rw [g4] at h; exact hlo2 p c h)
          (by intro p c h; rw [g1]; rw [g5] at h; exact hup2 p c h)
          (by rw [g2]; exact hidx2) (by omega)
          (by
            intro k hk
            rw [g6, g3, c23, hfl2]
            exact hpar k (by omega))
          (by
            intro k c hk hck
            rw [g4, g5, c24, c25]
            exact hlink k c (by omega) (by omega))
        have hAnot : A ∉ ancestors t A A := by
          intro h
          have := ancestors_lt t hparlt A A A h
          omega
        refine ⟨s', hrun, by rw [hcore', hcore3, hcore2], by rw [hfl', g3, hfl2], ?_, ?_⟩
        · intro k hk
          rw [ancestors_step t hparlt pc A hp, List.mem_cons, not_or] at hk
          rw [h1 k hk.2, hbal3 k, if_neg hk.1, hbal2]
        · intro c k hck hpk
          rw [ancestors_step t hparlt pc A hp] at hck
          rcases hck with e | e
          · rw [e, hp] at hpk
            have hkA : A = k := Option.some.inj hpk
            rw [← hkA, e, h1 A hAnot, hbal3 A, if_pos rfl, hbal2]
            cases inc with
            | true =>
              have := hinc.1 rfl
              simp [this]
            | false =>
              have : ¬ t.lowerIndex.find A = some pc := fun h => by
                have := hinc.2 h
                cases this
              simp [this]
          · have hcA : c = A ∨ c ∈ ancestors t A A := List.mem_cons.1 e
            have hcle : c ≤ A := by
              rcases hcA with e' | e'
              · exact Nat.le_of_eq e'
              · exact Nat.le_of_lt (ancestors_lt t hparlt A A c e')
            have hkc := hparlt c k hpk
            have hkA : ¬ k = A := by omega
            rw [h2 c k hcA hpk, hbal3 k, if_neg hkA, hbal2]
      rw [childIs_eq s2 hs2ok s2.lowerIndex A current pc hc2 (fun c h => hlo2 A c h)]
      by_cases hlow : t.lowerIndex.find A = some pc
      · have hl2 : s2.lowerIndex.find A = some pc := by
          rw [c24]
          exact (hlink A pc (Nat.le_of_lt hApc) (Nat.le_refl _)).1.2 hlow
        simp only [hl2, decide_True]
        exact key true (by simp [hlow])
      · have hl2 : ¬ s2.lowerIndex.find A = some pc := by
          rw [c24]
          intro h
          exact hlow ((hlink A pc (Nat.le_of_lt hApc) (Nat.le_refl _)).1.1 h)
        have hupp : t.upperIndex.find A = some pc := by
          rcases ht.parent_child pc A hp with h | h
          · exact absurd h hlow
          · exact h
        have hu2 : s2.upperIndex.find A = some pc := by
          rw [c25]
          exact (hlink A pc (Nat.le_of_lt hApc) (Nat.le_refl _)).2.2 hupp
        simp only [hl2, decide_False]
        rw [childIs_eq s2 hs2ok s2.upperIndex A current pc hc2 (fun c h => hup2 A c h)]
        simp only [hu2, decide_True]
        exact key false (by simp [hlow])

end Coordinates

end gbi
namespace gbi

/-- Two positions on the way up from `L` that have the same parent are the same position. -/
theorem chain_child_unique (t : KDTree)
    (hparlt : ∀ c p : Nat, t.parentIndex.find c = some p → p < c) :
    ∀ (n L : Nat), L ≤ n → ∀ (c c' q : Nat), (c = L ∨ c ∈ ancestors t L L) →
      (c' = L ∨ c' ∈ ancestors t L L) → t.parentIndex.find c = some q →
      t.parentIndex.find c' = some q → c = c' := by
  intro n
  induction n with
  | zero =>
    intro L hL c c' q hc hc' _ _
    have hL0 : L = 0 := by omega
    subst hL0
    simp only [ancestors, List.not_mem_nil, or_false] at hc hc'
    rw [hc, hc']
  | succ n ih =>
    intro L hL c c' q hc hc' hp hp'
    cases hpar : t.parentIndex.find L with
    | none =>
      rw [ancestors_none t L hpar] at hc hc'
      simp only [List.not_mem_nil, or_false] at hc hc'
      rw [hc, hc']
    | some a =>
      have haL := hparlt L a hpar
      rw [ancestors_step t hparlt L a hpar] at hc hc'
      have low : ∀ x : Nat, x ∈ a :: ancestors t a a → x ≤ a := by
        intro x hx
        rcases List.mem_cons.1 hx with e | e
        · exact Nat.le_of_eq e
        · exact Nat.le_of_lt (ancestors_lt t hparlt a a x e)
      rcases hc with e | e
      · rcases hc' with e' | e'
        · rw [e, e']
        · exfalso
          rw [e, hpar] at hp
          have hqa : a = q := Option.some.inj hp
          have h1 := low c' e'
          have h2 := hparlt c' q hp'
          rw [← hqa] at h2
          omega
      · rcases hc' with e' | e'
        · exfalso
          rw [e', hpar] at hp'
          have hqa : a = q := Option.some.inj hp'
          have h1 := low c e
          have h2 := hparlt c q hp
          rw [← hqa] at h2
          omega
        · exact ih a (by omega) c c' q (List.mem_cons.1 e) (List.mem_cons.1 e') hp hp'

theorem getLastD_mem (l : List Nat) : ∀ a : Nat, l.getLastD a = a ∨ l.getLastD a ∈ l := by
  induction l with
  | nil => intro a; exact Or.inl rfl
  | cons y ys ih =>
    intro a
    rw [List.getLastD_cons]
    rcases ih y with e | e
    · rw [e]; exact Or.inr (List.mem_cons_self _ _)
    · exact Or.inr (List.mem_cons_of_mem _ e)

/-- In a tree with at least two points the root position is not a leaf. -/
theorem root_not_leaf {D : Nat} (t : KDTree) (inv : InsertInv D t) (hfl : FloorInv t)
    (hn : 2 ≤ t.pointDataVector.length) : IsLeaf t 0 = false := by
  obtain ⟨p, hp⟩ := hfl.has_parent 1 (by decide) (by omega)
  have hlt := (inv.topo.parent_lt 1 p hp).1
  have hp0 : p = 0 := by omega
  rw [hp0] at hp
  rw [IsLeaf_false_iff]
  rcases inv.topo.parent_child 1 0 hp with h | h
  · left; rw [h]; simp
  · right; rw [h]; simp

/-- The last position of the vector is a leaf. -/
theorem last_is_leaf {D : Nat} (t : KDTree) (inv : InsertInv D t) :
    IsLeaf t (t.pointDataVector.length - 1) = true := by
  rw [IsLeaf_true_iff]
  constructor
  · cases h : t.lowerIndex.find (t.pointDataVector.length - 1) with
    | none => rfl
    | some c =>
      have := inv.topo.parent_lt c _ (inv.topo.lower_parent _ c h)
      omega
  · cases h : t.upperIndex.find (t.pointDataVector.length - 1) with
    | none => rfl
    | some c =>
      have := inv.topo.parent_lt c _ (inv.topo.upper_parent _ c h)
      omega

section Coordinates

variable {α : Type} [DecidableEq α] [LT α] [∀ a b : α, Decidable (a < b)]
variable (Dimension : Nat) (Get : PointData → Nat → α)

/-- `Erase` of a live handle on a tree built by `Insert` with at least two points: it
returns, removes the leaf `L` at the end of the swap chain, moves the balance of every
strict ancestor of `L` by one according to the side on which `L` hangs, and keeps every
other balance entry; the entry of the former last position is read at `L`. -/
theorem Erase_balance (hD : 0 < Dimension) (t : KDTree) (inv : InsertInv Dimension t)
    (hfl : FloorInv t) (hn : 2 ≤ t.pointDataVector.length) (h c0 : Nat)
    (hlive : t.indexedPointData.find h = some c0) (fuel : Nat)
    (hf : t.pointDataVector.length ≤ fuel) :
    ∃ (rest : List Nat) (t' : KDTree),
      SwapChainLoop Dimension Get fuel t c0 [] = some (c0 :: rest, t) ∧
      Erase Dimension Get fuel t h = some t' ∧
      IsLeaf t (rest.getLastD c0) = true ∧
      rest.getLastD c0 < t.pointDataVector.length ∧
      t'.pointDataVector.length + 1 = t.pointDataVector.length ∧
      (∀ k : Nat, k ∉ ancestors t (rest.getLastD c0) (rest.getLastD c0) →
        t'.balanceByIndex.find k = t.balanceByIndex.find k) ∧
      (t'.balanceByIndex.find (rest.getLastD c0) = none) ∧
      (∀ c k : Nat, (c = rest.getLastD c0 ∨
          c ∈ ancestors t (rest.getLastD c0) (rest.getLastD c0)) →
        t.parentIndex.find c = some k →
        t'.balanceByIndex.find k =
          some ((t.balanceByIndex.find k).getD 0 +
            (if t.lowerIndex.find k = some c then 1 else -1))) := by
  have hparlt : ∀ c p : Nat, t.parentIndex.find c = some p → p < c :=
    fun c p h => (inv.topo.parent_lt c p h).1
  have hc0 : c0 < t.pointDataVector.length := inv.store.lt_length hlive
  have hhv : t.pointDataVector[c0]? = some h := (inv.store.idx_vec h c0).1 hlive
  obtain ⟨rest, hchain, hall, hleaf, hpw⟩ := SwapChainLoop_sorted Dimension Get hD t inv fuel
    c0 [] hc0 (by omega)
  have hvalid : ∀ x ∈ c0 :: rest, x < t.pointDataVector.length := by
    intro x hx
    rcases List.mem_cons.1 hx with e | e
    · rw [e]; exact hc0
    · exact hall x e
  have hne : t.pointDataVector ≠ [] := by
    intro e; rw [e] at hc0; simp at hc0
  have horg : t.origin ≠ 0 := fun e => hne (origin_null Dimension t inv e)
  obtain ⟨hol, -⟩ := origin_live Dimension t inv horg
  obtain ⟨t2, hsw, hs2, hk2, hl2, hg2, -, -, -⟩ := SwapAlong_exact rest c0 t inv.store hpw
    hvalid ((inv.store.idx_vec _ 0).1 hol)
  have ht2 : TopoOK t2 := inv.topo.of_links hk2 hl2
  simp only [links, Prod.mk.injEq] at hk2
  obtain ⟨k1, k2, k3, k4, k5, -⟩ := hk2
  -- the leaf at the end of the chain
  have hLlt : rest.getLastD c0 < t.pointDataVector.length := by
    rcases getLastD_mem rest c0 with e | e
    · rw [e]; exact hc0
    · exact hall _ e
  have hL0 : rest.getLastD c0 ≠ 0 := by
    intro e
    rw [e, root_not_leaf t inv hfl hn] at hleaf
    cases hleaf
  obtain ⟨pp, hpp⟩ := hfl.has_parent (rest.getLastD c0) (Nat.pos_of_ne_zero hL0) hLlt
  have hppL := hparlt _ pp hpp
  have hleaf2 : IsLeaf t2 (rest.getLastD c0) = true := by
    unfold IsLeaf at hleaf ⊢
    rw [k2, k3]
    exact hleaf
  obtain ⟨ph, hph⟩ : ∃ ph, t2.pointDataVector[pp]? = some ph :=
    ⟨_, List.getElem?_eq_getElem (by rw [hl2]; omega)⟩
  have hph0 : ph ≠ 0 := hs2.ne_zero hph
  have hbL : t.balanceByIndex.find (rest.getLastD c0) = none := (inv.bal _).2 hleaf
  have hbl : t.balanceByIndex.find (t.pointDataVector.length - 1) = none :=
    (inv.bal _).2 (last_is_leaf t inv)
  obtain ⟨t3, hrl, hs3, hl3, hlo3, hup3, hb3, hp3, hc3⟩ :=
    RemoveLeaf_exact t2 (rest.getLastD c0) h pp ph false hs2 ht2 (by rw [hg2]; exact hhv) hleaf2
      (by rw [k1]; exact hpp) hph (by rw [k5]; exact hbL) (by rw [k5, hl2]; exact hbl)
  rw [k2] at hrl
  have hidx3 : t3.indexedPointData.find ph = some pp := by
    rw [hs3.idx_vec, (hp3 pp hppL).2.2]
    exact hph
  obtain ⟨fpp, hfpp⟩ := inv.floor_some pp (by omega)
  have hfl3 : t3.nodeFloor.find pp = some fpp := by
    rw [(hp3 pp hppL).2.1, k4]
    exact hfpp
  obtain ⟨hframe4, hbal4⟩ := UpdateBalance_spec t3 ph pp fpp
    (decide (t.lowerIndex.find pp = some (rest.getLastD c0))) hidx3 hfl3
  have hcore4 := core_UpdateBalance t3 ph pp
    (decide (t.lowerIndex.find pp = some (rest.getLastD c0))) hidx3
  obtain ⟨g1, g2, g3, g4, g5, g6, -, -⟩ := frame_fields hframe4
  obtain ⟨t', hrun, hcore', -, h1, h2⟩ := PropagateLoop_exact Dimension Get t inv.topo
    inv.floor_some fuel
    (UpdateBalance t3 ph (decide (t.lowerIndex.find pp = some (rest.getLastD c0)))) ph pp
    (hs3.of_same_core hcore4)
    (by intro p c hh; rw [g1]; rw [g4] at hh; exact hlo3 p c hh)
    (by intro p c hh; rw [g1]; rw [g5] at hh; exact hup3 p c hh)
    (by rw [g2]; exact hidx3) (by omega)
    (by
      intro k hk
      have hkL : k < rest.getLastD c0 := by omega
      rw [g6, g3, (hp3 k hkL).1, (hp3 k hkL).2.1, k1, k4]
      exact ⟨rfl, rfl⟩)
    (by
      intro k c hk hc
      have hkL : k < rest.getLastD c0 := by omega
      have hcL : c < rest.getLastD c0 := by omega
      rw [g4, g5, (hc3 k c hkL hcL).1, (hc3 k c hkL hcL).2, k2, k3]
      exact ⟨Iff.rfl, Iff.rfl⟩)
  have hppnot : pp ∉ ancestors t pp pp := by
    intro hin
    have := ancestors_lt t hparlt pp pp pp hin
    omega
  have hanc : ancestors t (rest.getLastD c0) (rest.getLastD c0) = pp :: ancestors t pp pp :=
    ancestors_step t hparlt _ pp hpp
  have hlen' : t'.pointDataVector.length + 1 = t.pointDataVector.length := by
    have e1 : t'.pointDataVector = t3.pointDataVector := by
      have := hcore'
      rw [hcore4] at this
      simp only [core, Prod.mk.injEq] at this
      exact this.1
    rw [e1, hl3, hl2]
    omega
  refine ⟨rest, t', by simpa using hchain, ?_, hleaf, hLlt, hlen', ?_, ?_, ?_⟩
  · unfold Erase
    simp only [hlive, hchain, List.nil_append, hsw, List.getLastD_cons, hrl, hph0, ne_eq,
      not_false_eq_true, if_true]
    exact hrun
  · intro k hk
    rw [hanc, List.mem_cons, not_or] at hk
    rw [h1 k hk.2, hbal4 k, if_neg hk.1, hb3 k, k5]
  · have hLpp : ¬ rest.getLastD c0 = pp := by omega
    have hLnot : rest.getLastD c0 ∉ ancestors t pp pp := by
      intro hin
      have := ancestors_lt t hparlt pp pp _ hin
      omega
    rw [h1 _ hLnot, hbal4, if_neg hLpp, hb3, k5]
    exact hbL
  · intro c k hck hpk
    rw [hanc] at hck
    rcases hck with e | e
    · rw [e, hpp] at hpk
      have hkpp : pp = k := Option.some.inj hpk
      rw [← hkpp, e, h1 pp hppnot, hbal4 pp, if_pos rfl, hb3 pp, k5]
      by_cases hlow : t.lowerIndex.find pp = some (rest.getLastD c0)
      · simp [hlow]
      · simp [hlow]
    · have hcpp : c = pp ∨ c ∈ ancestors t pp pp := List.mem_cons.1 e
      have hcle : c ≤ pp := by
        rcases hcpp with e' | e'
        · exact Nat.le_of_eq e'
        · exact Nat.le_of_lt (ancestors_lt t hparlt pp pp c e')
      have hkc := hparlt c k hpk
      have hkpp : ¬ k = pp := by omega
      rw [h2 c k hcpp hpk, hbal4 k, if_neg hkpp, hb3 k, k5]

/-- C21: in the tree `t` built from the empty tree by `Insert` calls on at least two
distinct non-null handles, let `h` be live at position `c0` and let `L` be the leaf at the
end of the swap chain, which is the position that `Erase(h)` removes.  `Erase(h)` returns a
tree `t'` with one position less.  A surviving position `q` of `t` is read in `t'` at
`compacted t L q`: at `L` when `q` is the former last position, at `q` otherwise.  If `q`
is a strict ancestor of `L` then `L` lies in the subtree of a child of `q`, and the balance
of `q` has increased by exactly `1` if `L` lies in the subtree of the lower child and
decreased by exactly `1` if in that of the upper child; if `q` is not a strict ancestor of
`L` its balance entry is unchanged. -/
theorem C21_erase_balance_propagation (hD : 0 < Dimension) (hs : List PointData)
    (hnd : hs.Nodup) (h0 : (0 : PointData) ∉ hs) (hmany : 2 ≤ hs.length) (fuel : Nat)
    (hfuel : hs.length ≤ fuel) :
    ∃ t, runCalls Dimension Get fuel KDTree.empty (hs.map Call.insert) = some t ∧
      ∀ (h : PointData) (c0 : SizeT), t.indexedPointData.find h = some c0 →
        ∃ (rest : List SizeT) (t' : KDTree),
          SwapChainLoop Dimension Get fuel t c0 [] = some (c0 :: rest, t) ∧
          Erase Dimension Get fuel t h = some t' ∧
          IsLeaf t (rest.getLastD c0) = true ∧
          t'.pointDataVector.length + 1 = t.pointDataVector.length ∧
          ∀ q : SizeT, q < t.pointDataVector.length → q ≠ rest.getLastD c0 →
            (strictDescendant t q (rest.getLastD c0) →
              (∃ (up : Bool) (c : SizeT), childOn t q up = some c ∧
                inSubtree t c (rest.getLastD c0)) ∧
              (∀ c : SizeT, t.lowerIndex.find q = some c → inSubtree t c (rest.getLastD c0) →
                t'.balanceByIndex.find (compacted t (rest.getLastD c0) q) =
                  some ((t.balanceByIndex.find q).getD 0 + 1)) ∧
              (∀ c : SizeT, t.upperIndex.find q = some c → inSubtree t c (rest.getLastD c0) →
                t'.balanceByIndex.find (compacted t (rest.getLastD c0) q) =
                  some ((t.balanceByIndex.find q).getD 0 - 1))) ∧
            (¬ strictDescendant t q (rest.getLastD c0) →
              t'.balanceByIndex.find (compacted t (rest.getLastD c0) q) =
                t.balanceByIndex.find q) := by
  obtain ⟨t, hrun, inv, hfl, hv⟩ := built_floor Dimension Get fuel hs hnd h0 hfuel
  refine ⟨t, hrun, ?_⟩
  intro h c0 hlive
  have hparlt : ∀ c p : Nat, t.parentIndex.find c = some p → p < c :=
    fun c p h => (inv.topo.parent_lt c p h).1
  obtain ⟨rest, t', hchain, hE, hleaf, hLlt, hlen', hkeep, hLnone, hmove⟩ :=
    Erase_balance Dimension Get hD t inv hfl (by rw [hv]; exact hmany) h c0 hlive fuel
      (by rw [hv]; exact hfuel)
  refine ⟨rest, t', hchain, hE, hleaf, hlen', ?_⟩
  intro q hq hqL
  have hin : ∀ c : Nat, inSubtree t c (rest.getLastD c0) →
      (c = rest.getLastD c0 ∨ c ∈ ancestors t (rest.getLastD c0) (rest.getLastD c0)) := by
    intro c hc
    rcases hc with e | e
    · exact Or.inl e.symm
    · exact Or.inr ((strictDescendant_iff t inv c _).1 e)
  constructor
  · intro hd
    have hqa := (strictDescendant_iff t inv q _).1 hd
    have hqlt := ancestors_lt t hparlt _ _ q hqa
    have hqn' : t.pointDataVector.length - 1 ≠ q := by omega
    have hqn : ¬ q = t.pointDataVector.length - 1 := fun e => hqn' e.symm
    have hcomp : compacted t (rest.getLastD c0) q = q := by
      unfold compacted
      rw [if_neg hqn]
    rw [hcomp]
    obtain ⟨c, hc1, hc2⟩ := ancestors_is_parent t hparlt _ q hqa
    have hsub : inSubtree t c (rest.getLastD c0) := by
      rcases hc1 with e | e
      · exact Or.inl e.symm
      · exact Or.inr ((strictDescendant_iff t inv c _).2 e)
    refine ⟨?_, ?_, ?_⟩
    · rcases inv.topo.parent_child c q hc2 with hl | hu
      · exact ⟨false, c, by simp [childOn, hl], hsub⟩
      · exact ⟨true, c, by simp [childOn, hu], hsub⟩
    · intro c' hl hs'
      have hcc : c' = c := chain_child_unique t hparlt _ _ (Nat.le_refl _) c' c q (hin c' hs')
        hc1 (inv.topo.lower_parent q c' hl) hc2
      rw [hcc] at hl
      rw [hmove c q hc1 hc2, if_pos hl]
    · intro c' hu hs'
      have hcc : c' = c := chain_child_unique t hparlt _ _ (Nat.le_refl _) c' c q (hin c' hs')
        hc1 (inv.topo.upper_parent q c' hu) hc2
      rw [hcc] at hu
      have hnl : ¬ t.lowerIndex.find q = some c := fun hl => inv.topo.lower_ne_upper q c hl hu
      rw [hmove c q hc1 hc2, if_neg hnl]
      rfl
  · intro hnd'
    have hqa : q ∉ ancestors t (rest.getLastD c0) (rest.getLastD c0) :=
      fun hx => hnd' ((strictDescendant_iff t inv q _).2 hx)
    unfold compacted
    by_cases hql : q = t.pointDataVector.length - 1
    · rw [if_pos hql, hLnone, hql]
      exact ((inv.bal _).2 (last_is_leaf t inv)).symm
    · rw [if_neg hql]
      exact hkeep q hqa

end Coordinates

/-- Witness for C21: the handles `2`, `1`, `3` on a line. -/
theorem C21_erase_balance_propagation_witness :
    ∃ t, runCalls 1 lineGet 3 KDTree.empty (([2, 1, 3] : List PointData).map Call.insert)
        = some t ∧
      ∀ (h : PointData) (c0 : SizeT), t.indexedPointData.find h = some c0 →
        ∃ (rest : List SizeT) (t' : KDTree),
          SwapChainLoop 1 lineGet 3 t c0 [] = some (c0 :: rest, t) ∧
          Erase 1 lineGet 3 t h = some t' ∧
          IsLeaf t (rest.getLastD c0) = true ∧
          t'.pointDataVector.length + 1 = t.pointDataVector.length ∧
          ∀ q : SizeT, q < t.pointDataVector.length → q ≠ rest.getLastD c0 →
            (strictDescendant t q (rest.getLastD c0) →
              (∃ (up : Bool) (c : SizeT), childOn t q up = some c ∧
                inSubtree t c (rest.getLastD c0)) ∧
              (∀ c : SizeT, t.lowerIndex.find q = some c → inSubtree t c (rest.getLastD c0) →
                t'.balanceByIndex.find (compacted t (rest.getLastD c0) q) =
                  some ((t.balanceByIndex.find q).getD 0 + 1)) ∧
              (∀ c : SizeT, t.upperIndex.find q = some c → inSubtree t c (rest.getLastD c0) →
                t'.balanceByIndex.find (compacted t (rest.getLastD c0) q) =
                  some ((t.balanceByIndex.find q).getD 0 - 1))) ∧
            (¬ strictDescendant t q (rest.getLastD c0) →
              t'.balanceByIndex.find (compacted t (rest.getLastD c0) q) =
                t.balanceByIndex.find q) :=
  C21_erase_balance_propagation 1 lineGet (by decide) [2, 1, 3] (by decide) (by decide)
    (by decide) 3 (by decide)

end gbi
namespace gbi

theorem Keeps.refl (t : KDTree) : Keeps t t := ⟨rfl, rfl⟩

theorem Keeps.trans {t s u : KDTree} (h1 : Keeps t s) (h2 : Keeps s u) : Keeps t u :=
  ⟨h2.1.trans h1.1, h2.2.trans h1.2⟩

theorem Sound.of_keeps {t s : KDTree} (h : Sound t) (hk : Keeps t s) : Sound s := by
  unfold Sound
  rw [hk.1, hk.2]
  exact h

theorem keeps_idxAt (t : KDTree) (k : Nat) : Keeps t (idxAt t k).2 := by
  unfold idxAt
  split <;> exact ⟨rfl, rfl⟩

theorem keeps_floorAt (t : KDTree) (k : Nat) : Keeps t (floorAt t k).2 := by
  unfold floorAt
  split <;> exact ⟨rfl, rfl⟩

theorem keeps_balanceAt (t : KDTree) (k : Nat) : Keeps t (balanceAt t k).2 := by
  unfold balanceAt
  split <;> exact ⟨rfl, rfl⟩

theorem keeps_lowerAt (t : KDTree) (k : Nat) : Keeps t (lowerAt t k).2 := by
  unfold lowerAt
  split <;> exact ⟨rfl, rfl⟩

theorem keeps_upperAt (t : KDTree) (k : Nat) : Keeps t (upperAt t k).2 := by
  unfold upperAt
  split <;> exact ⟨rfl, rfl⟩

theorem keeps_GetLower (t : KDTree) (p h : Nat) (t' : KDTree)
    (hg : GetLower t p = some (h, t')) : Keeps t t' := by
  unfold GetLower at hg
  simp only at hg
  cases h1 : (idxAt t p).2.lowerIndex.find (idxAt t p).1 with
  | none =>
    simp only [h1, Option.some.injEq, Prod.mk.injEq] at hg
    rw [← hg.2]
    exact keeps_idxAt t p
  | some l =>
    simp only [h1] at hg
    cases h2 : vecAt (idxAt t p).2 l with
    | none => simp [h2] at hg
    | some x =>
      simp only [h2, Option.some.injEq, Prod.mk.injEq] at hg
      rw [← hg.2]
      exact keeps_idxAt t p

theorem keeps_GetUpper (t : KDTree) (p h : Nat) (t' : KDTree)
    (hg : GetUpper t p = some (h, t')) : Keeps t t' := by
  unfold GetUpper at hg
  simp only at hg
  cases h1 : (idxAt t p).2.upperIndex.find (idxAt t p).1 with
  | none =>
    simp only [h1, Option.some.injEq, Prod.mk.injEq] at hg
    rw [← hg.2]
    exact keeps_idxAt t p
  | some l =>
    simp only [h1] at hg
    cases h2 : vecAt (idxAt t p).2 l with
    | none => simp [h2] at hg
    | some x =>
      simp only [h2, Option.some.injEq, Prod.mk.injEq] at hg
      rw [← hg.2]
      exact keeps_idxAt t p

theorem keeps_GetParent (t : KDTree) (p h : Nat) (t' : KDTree)
    (hg : GetParent t p = some (h, t')) : Keeps t t' := by
  unfold GetParent at hg
  simp only at hg
  cases h1 : (idxAt t p).2.parentIndex.find (idxAt t p).1 with
  | none =>
    simp only [h1, Option.some.injEq, Prod.mk.injEq] at hg
    rw [← hg.2]
    exact keeps_idxAt t p
  | some l =>
    simp only [h1] at hg
    cases h2 : vecAt (idxAt t p).2 l with
    | none => simp [h2] at hg
    | some x =>
      simp only [h2, Option.some.injEq, Prod.mk.injEq] at hg
      rw [← hg.2]
      exact keeps_idxAt t p

theorem keeps_SetLower (t : KDTree) (a b : Nat) : Keeps t (SetLower t a b) := by
  have h1 := keeps_idxAt t a
  have h2 := keeps_idxAt (idxAt t a).2 b
  have h3 := keeps_floorAt
    { { (idxAt (idxAt t a).2 b).2 with
          lowerIndex := (idxAt (idxAt t a).2 b).2.lowerIndex.set (idxAt t a).1
            (idxAt (idxAt t a).2 b).1 } with
        parentIndex := (idxAt (idxAt t a).2 b).2.parentIndex.set (idxAt (idxAt t a).2 b).1
          (idxAt t a).1 } (idxAt t a).1
  exact ⟨h3.1.trans (h2.1.trans h1.1), h3.2.trans (h2.2.trans h1.2)⟩

theorem keeps_SetUpper (t : KDTree) (a b : Nat) : Keeps t (SetUpper t a b) := by
  have h1 := keeps_idxAt t a
  have h2 := keeps_idxAt (idxAt t a).2 b
  have h3 := keeps_floorAt
    { { (idxAt (idxAt t a).2 b).2 with
          upperIndex := (idxAt (idxAt t a).2 b).2.upperIndex.set (idxAt t a).1
            (idxAt (idxAt t a).2 b).1 } with
        parentIndex := (idxAt (idxAt t a).2 b).2.parentIndex.set (idxAt (idxAt t a).2 b).1
          (idxAt t a).1 } (idxAt t a).1
  exact ⟨h3.1.trans (h2.1.trans h1.1), h3.2.trans (h2.2.trans h1.2)⟩

theorem Sound_InternalRemoveBalancePriority (t : KDTree) (i : Nat) (hs : Sound t) :
    Sound (InternalRemoveBalancePriority t i) := by
  unfold InternalRemoveBalancePriority
  cases hb : t.balanceByIndex.find i with
  | none => exact hs
  | some b =>
    have hk := keeps_floorAt t i
    refine ⟨?_, ?_⟩
    · show NoEmptyBucket (indexErase (floorAt t i).2.indexByBalanceAndFloor b (floorAt t i).1 i)
      apply NoEmptyBucket_indexErase
      rw [hk.1]
      exact hs.1
    · show 0 ∉ (floorAt t i).2.pointDataVector
      rw [hk.2]
      exact hs.2

theorem Sound_UpdateBalance (t : KDTree) (g : Nat) (incr : Bool) (hs : Sound t) :
    Sound (UpdateBalance t g incr) := by
  have h1 : Sound (InternalRemoveBalancePriority (idxAt t g).2 (idxAt t g).1) :=
    Sound_InternalRemoveBalancePriority _ _ (hs.of_keeps (keeps_idxAt t g))
  have h2 := h1.of_keeps (keeps_balanceAt _ (idxAt t g).1)
  unfold UpdateBalance
  simp only
  generalize hnb : (if incr = true then
      (balanceAt (InternalRemoveBalancePriority (idxAt t g).2 (idxAt t g).1) (idxAt t g).1).1 + 1
    else
      (balanceAt (InternalRemoveBalancePriority (idxAt t g).2 (idxAt t g).1) (idxAt t g).1).1 - 1)
    = nb
  have h3 : Sound { (balanceAt (InternalRemoveBalancePriority (idxAt t g).2 (idxAt t g).1)
      (idxAt t g).1).2 with
      balanceByIndex := (balanceAt (InternalRemoveBalancePriority (idxAt t g).2 (idxAt t g).1)
        (idxAt t g).1).2.balanceByIndex.set (idxAt t g).1 nb } := h2
  have h4 := h3.of_keeps (keeps_floorAt _ (idxAt t g).1)
  exact ⟨NoEmptyBucket_indexInsert _ _ _ _ h4.1, h4.2⟩

section Coordinates

variable {α : Type} [DecidableEq α] [LT α] [∀ a b : α, Decidable (a < b)]
variable (Dimension : Nat) (Get : PointData → Nat → α)

theorem keeps_goesLower (point : Nat) (t : KDTree) (current dim : Nat) :
    Keeps t (goesLower Get point t current dim).2 := by
  unfold goesLower
  split
  · exact Keeps.refl t
  · split
    · exact (keeps_idxAt t current).trans (keeps_balanceAt _ _)
    · exact Keeps.refl t

theorem Sound_InsertStep (point : Nat) (t : KDTree) (current dim : Nat)
    (r : PointData × Bool) (t' : KDTree)
    (h : InsertStep Get point t current dim = some (r, t')) (hs : Sound t) : Sound t' := by
  unfold InsertStep at h
  simp only at h
  have hg := hs.of_keeps (keeps_goesLower Get point t current dim)
  cases hn : (if (goesLower Get point t current dim).1 = true
      then GetLower (goesLower Get point t current dim).2 current
      else GetUpper (goesLower Get point t current dim).2 current) with
  | none => simp [hn] at h
  | some v =>
    obtain ⟨child, t1⟩ := v
    simp only [hn, Option.some.injEq, Prod.mk.injEq] at h
    rw [← h.2]
    apply Sound_UpdateBalance
    apply hg.of_keeps
    by_cases hl : (goesLower Get point t current dim).1 = true
    · rw [if_pos hl] at hn
      exact keeps_GetLower _ _ _ _ hn
    · rw [if_neg hl] at hn
      exact keeps_GetUpper _ _ _ _ hn

theorem Sound_InsertLoop (point : Nat) (fuel : Nat) :
    ∀ (t : KDTree) (current parent dim : Nat) (upper : Bool) (ul : List Nat)
      (res : PointData × Bool × List PointData) (t' : KDTree),
      InsertLoop Dimension Get point fuel t current parent dim upper ul = some (res, t') →
      Sound t → Sound t' := by
  induction fuel with
  | zero =>
    intro t current parent dim upper ul res t' h hs
    unfold InsertLoop at h
    by_cases hc : current = 0
    · simp only [hc, if_true, Option.some.injEq, Prod.mk.injEq] at h
      rw [← h.2]
      exact hs
    · simp [hc] at h
  | succ fuel ih =>
    intro t current parent dim upper ul res t' h hs
    unfold InsertLoop at h
    by_cases hc : current = 0
    · simp only [hc, if_true, Option.some.injEq, Prod.mk.injEq] at h
      rw [← h.2]
      exact hs
    · simp only [hc, if_false] at h
      cases hst : InsertStep Get point t current dim with
      | none => simp [hst] at h
      | some v =>
        obtain ⟨⟨child, up1⟩, t1⟩ := v
        simp only [hst] at h
        exact ih _ _ _ _ _ _ _ _ h (Sound_InsertStep Get point t current dim _ t1 hst hs)

theorem Sound_Insert (fuel : Nat) (t : KDTree) (point : Nat) (t' : KDTree)
    (h : Insert Dimension Get fuel t point = some t') (hs : Sound t) : Sound t' := by
  unfold Insert at h
  by_cases hp : point = 0
  · simp only [hp, ne_eq, not_true_eq_false, if_false, Option.some.injEq] at h
    rw [← h]
    exact hs
  · simp only [hp, ne_eq, not_false_eq_true, if_true] at h
    cases hl : InsertLoop Dimension Get point fuel t t.origin 0 0 false [] with
    | none => simp [hl] at h
    | some v =>
      obtain ⟨⟨parent, upper, ul⟩, t1⟩ := v
      simp only [hl] at h
      have h1 := Sound_InsertLoop Dimension Get point fuel _ _ _ _ _ _ _ _ hl hs
      have h2 : Sound (InsertInternal t1 point).2 := by
        refine ⟨h1.1, ?_⟩
        show 0 ∉ t1.pointDataVector ++ [point]
        intro hm
        rcases List.mem_append.1 hm with e | e
        · exact h1.2 e
        · simp at e
          exact hp e.symm
      have h3 : Sound (UpdateBoundariesList Dimension Get (InsertInternal t1 point).2 ul point) :=
        h2
      by_cases hpar : parent = 0
      · simp only [hpar, ne_eq, not_true_eq_false, if_false, Option.some.injEq] at h
        rw [← h]
        have h4 : Sound { UpdateBoundariesList Dimension Get (InsertInternal t1 point).2 ul point
            with origin := point } := h3
        exact h4.of_keeps (keeps_idxAt _ point)
      · simp only [hpar, ne_eq, not_false_eq_true, if_true] at h
        cases upper with
        | true =>
          simp only [if_true, Option.some.injEq] at h
          rw [← h]
          exact h3.of_keeps (keeps_SetUpper _ _ _)
        | false =>
          simp only [Bool.false_eq_true, if_false, Option.some.injEq] at h
          rw [← h]
          exact h3.of_keeps (keeps_SetLower _ _ _)

end Coordinates

end gbi
namespace gbi

theorem mem_set_of_mem (l : List Nat) (i x a : Nat) (h : a ∈ l.set i x) : a ∈ l ∨ a = x :=
  List.mem_or_eq_of_mem_set h

theorem ne_zero_of_vecAt (t : KDTree) (hs : Sound t) (i x : Nat) (h : vecAt t i = some x) :
    x ≠ 0 := by
  intro e
  rw [e] at h
  have h' : t.pointDataVector[i]? = some 0 := h
  exact hs.2 (List.getElem?_mem h')

section Coordinates

variable {α : Type} [DecidableEq α] [LT α] [∀ a b : α, Decidable (a < b)]
variable (Dimension : Nat) (Get : PointData → Nat → α)

theorem keeps_UpdateBoundaries (t : KDTree) (i : Nat) (t' : KDTree)
    (h : UpdateBoundaries Dimension Get t i = some t') : Keeps t t' := by
  unfold UpdateBoundaries at h
  cases hs : vecAt t i with
  | none => simp [hs] at h
  | some self =>
    simp only [hs] at h
    split at h
    · split at h
      · rw [← Option.some.inj h]
        exact ⟨rfl, rfl⟩
      · rw [← Option.some.inj h]
        exact ⟨rfl, rfl⟩
    · cases h

theorem keeps_HasLowerCoordinateData (t : KDTree) (dim g c : Nat) (b : Bool) (t' : KDTree)
    (h : HasLowerCoordinateData Get t dim g c = some (b, t')) : Keeps t t' := by
  unfold HasLowerCoordinateData at h
  simp only at h
  cases hh : HasLowerCoordinate Get (idxAt t g).2 dim (idxAt t g).1 c with
  | none => simp [hh] at h
  | some b0 =>
    simp only [hh, Option.some.injEq, Prod.mk.injEq] at h
    rw [← h.2]
    exact keeps_idxAt t g

theorem keeps_HasHigherCoordinateData (t : KDTree) (dim g c : Nat) (b : Bool) (t' : KDTree)
    (h : HasHigherCoordinateData Get t dim g c = some (b, t')) : Keeps t t' := by
  unfold HasHigherCoordinateData at h
  simp only at h
  cases hh : HasHigherCoordinate Get (idxAt t g).2 dim (idxAt t g).1 c with
  | none => simp [hh] at h
  | some b0 =>
    simp only [hh, Option.some.injEq, Prod.mk.injEq] at h
    rw [← h.2]
    exact keeps_idxAt t g

theorem keeps_GetBestReplacementCandidate (t : KDTree) (index c : Nat) (t' : KDTree)
    (h : GetBestReplacementCandidate Dimension Get t index = some (c, t')) : Keeps t t' := by
  have tail : ∀ (s : KDTree) (result dim : Nat)
      (cmp : KDTree → UInt → PointData → SizeT → Option (Bool × KDTree)),
      (∀ (u : KDTree) (d g x : Nat) (b : Bool) (u' : KDTree), cmp u d g x = some (b, u') →
        Keeps u u') →
      (match vecAt s result with
        | none => none
        | some child =>
          match s.boundaries.find child with
          | none => some (result, s)
          | some arr =>
            match cmp s dim (arr.getD (dim * 2) 0) result with
            | none => none
            | some (true, t1) =>
              let ri := idxAt t1 (arr.getD (dim * 2) 0)
              some (ri.1, ri.2)
            | some (false, t1) => some (result, t1)) = some (c, t') → Keeps s t' := by
    intro s result dim cmp hcmp hm
    cases hv : vecAt s result with
    | none => simp [hv] at hm
    | some child =>
      simp only [hv] at hm
      cases hb : s.boundaries.find child with
      | none =>
        simp only [hb, Option.some.injEq, Prod.mk.injEq] at hm
        rw [← hm.2]
        exact Keeps.refl s
      | some arr =>
        simp only [hb] at hm
        split at hm
        · cases hm
        · rename_i t1 hc
          have k1 := hcmp _ _ _ _ _ _ hc
          simp only [Option.some.injEq, Prod.mk.injEq] at hm
          rw [← hm.2]
          exact k1.trans (keeps_idxAt _ _)
        · rename_i t1 hc
          have k1 := hcmp _ _ _ _ _ _ hc
          simp only [Option.some.injEq, Prod.mk.injEq] at hm
          rw [← hm.2]
          exact k1
  unfold GetBestReplacementCandidate at h
  simp only at h
  have k0 : Keeps t (balanceAt (floorAt t index).2 index).2 :=
    (keeps_floorAt t index).trans (keeps_balanceAt _ index)
  by_cases hneg : (balanceAt (floorAt t index).2 index).1 < 0
  · simp only [hneg, if_true] at h
    exact (k0.trans (keeps_lowerAt _ index)).trans
      (tail _ _ _ (HasHigherCoordinateData Get)
        (fun u d g x b u' hh => keeps_HasHigherCoordinateData Get u d g x b u' hh) h)
  · simp only [hneg, if_false] at h
    exact (k0.trans (keeps_upperAt _ index)).trans
      (tail _ _ _ (HasLowerCoordinateData Get)
        (fun u d g x b u' hh => keeps_HasLowerCoordinateData Get u d g x b u' hh) h)

theorem keeps_SwapChainLoop (fuel : Nat) :
    ∀ (t : KDTree) (current : Nat) (acc : List Nat) (chain : List SizeT) (t' : KDTree),
      SwapChainLoop Dimension Get fuel t current acc = some (chain, t') → Keeps t t' := by
  induction fuel with
  | zero =>
    intro t current acc chain t' h
    unfold SwapChainLoop at h
    by_cases hl : IsLeaf t current = true
    · simp only [hl, if_true, Option.some.injEq, Prod.mk.injEq] at h
      rw [← h.2]
      exact Keeps.refl t
    · simp [hl] at h
  | succ fuel ih =>
    intro t current acc chain t' h
    unfold SwapChainLoop at h
    by_cases hl : IsLeaf t current = true
    · simp only [hl, if_true, Option.some.injEq, Prod.mk.injEq] at h
      rw [← h.2]
      exact Keeps.refl t
    · simp only [hl, if_false] at h
      cases hg : GetBestReplacementCandidate Dimension Get t current with
      | none => simp [hg] at h
      | some v =>
        obtain ⟨next, t1⟩ := v
        simp only [hg] at h
        exact (keeps_GetBestReplacementCandidate Dimension Get t current next t1 hg).trans
          (ih _ _ _ _ _ h)

end Coordinates

theorem Sound_SwapNodes (t : KDTree) (a b : Nat) (t' : KDTree)
    (h : SwapNodes t a b = some t') (hs : Sound t) : Sound t' := by
  unfold SwapNodes at h
  cases hx : vecAt t a with
  | none => simp [hx] at h
  | some x =>
    cases hy : vecAt t b with
    | none => simp [hx, hy] at h
    | some y =>
      simp only [hx, hy] at h
      have h' := Option.some.inj h
      have hx0 := ne_zero_of_vecAt t hs a x hx
      have hy0 := ne_zero_of_vecAt t hs b y hy
      have e1 : (if x = t.origin then { t with origin := y } else t).indexByBalanceAndFloor
          = t.indexByBalanceAndFloor := by split <;> rfl
      have e2 : (if x = t.origin then { t with origin := y } else t).pointDataVector
          = t.pointDataVector := by split <;> rfl
      rw [← h']
      refine ⟨?_, ?_⟩
      · simp only [(keeps_idxAt _ _).1, e1]
        exact hs.1
      · simp only [(keeps_idxAt _ _).2, e2]
        intro hm
        rcases mem_set_of_mem _ _ _ _ hm with m1 | m1
        · rcases mem_set_of_mem _ _ _ _ m1 with m2 | m2
          · exact hs.2 m2
          · exact hy0 m2.symm
        · exact hx0 m1.symm

theorem Sound_SwapAlong (chain : List Nat) :
    ∀ (t t' : KDTree), SwapAlong t chain = some t' → Sound t → Sound t' := by
  induction chain with
  | nil =>
    intro t t' h hs
    simp only [SwapAlong, Option.some.injEq] at h
    rw [← h]
    exact hs
  | cons a r ih =>
    intro t t' h hs
    cases r with
    | nil =>
      simp only [SwapAlong, Option.some.injEq] at h
      rw [← h]
      exact hs
    | cons b r' =>
      simp only [SwapAlong] at h
      cases hsw : SwapNodes t a b with
      | none => simp [hsw] at h
      | some t1 =>
        simp only [hsw] at h
        exact ih t1 t' h (Sound_SwapNodes t a b t1 hsw hs)

theorem Sound_detachLeaf (t : KDTree) (i : Nat) (b : Bool) (hs : Sound t) :
    Sound (detachLeaf t i b) := by
  refine ⟨?_, hs.2⟩
  show NoEmptyBucket (match t.balanceByIndex.find i with
    | some b => indexErase t.indexByBalanceAndFloor b ((t.nodeFloor.find i).getD 0) i
    | none => t.indexByBalanceAndFloor)
  cases t.balanceByIndex.find i with
  | none => exact hs.1
  | some b0 => exact NoEmptyBucket_indexErase _ _ _ _ hs.1

theorem Sound_MoveLastElementTo (t : KDTree) (item : Nat) (t' : KDTree)
    (h : MoveLastElementTo t item = some t') (hs : Sound t) : Sound t' := by
  unfold MoveLastElementTo at h
  cases hx : vecAt t item with
  | none => simp [hx] at h
  | some x =>
    cases hy : vecAt t (t.pointDataVector.length - 1) with
    | none => simp [hx, hy] at h
    | some y =>
      simp only [hx, hy] at h
      have h' := Option.some.inj h
      have hy0 := ne_zero_of_vecAt t hs _ y hy
      rw [← h']
      by_cases hil : item = t.pointDataVector.length - 1
      · simp only [hil, ne_eq, not_true_eq_false, if_false]
        refine ⟨NoEmptyBucket_indexErase _ _ _ _ hs.1, ?_⟩
        intro hm
        exact hs.2 (List.mem_of_mem_take hm)
      · simp only [hil, ne_eq, not_false_eq_true, if_true]
        refine ⟨?_, ?_⟩
        · apply NoEmptyBucket_indexErase
          cases t.balanceByIndex.find (t.pointDataVector.length - 1) with
          | none => exact hs.1
          | some bl => exact NoEmptyBucket_indexInsert _ _ _ _ hs.1
        · intro hm
          rcases mem_set_of_mem _ _ _ _ (List.mem_of_mem_take hm) with m | m
          · exact hs.2 m
          · exact hy0 m.symm

theorem Sound_RemoveLeaf (t : KDTree) (i : Nat) (incr : Bool) (r : PointData × Bool)
    (t' : KDTree) (h : RemoveLeaf t i incr = some (r, t')) (hs : Sound t) : Sound t' := by
  unfold RemoveLeaf at h
  simp only at h
  split at h
  · cases h
  · split at h
    · simp only [Option.some.injEq, Prod.mk.injEq] at h
      rw [← h.2]
      rename_i t4 hm
      exact Sound_MoveLastElementTo _ _ _ hm (Sound_detachLeaf _ _ _ hs)
    · cases h

section Coordinates

variable {α : Type} [DecidableEq α] [LT α] [∀ a b : α, Decidable (a < b)]
variable (Dimension : Nat) (Get : PointData → Nat → α)

theorem Sound_PropagateLoop (fuel : Nat) :
    ∀ (t : KDTree) (current : Nat) (t' : KDTree),
      PropagateLoop Dimension Get fuel t current = some t' → Sound t → Sound t' := by
  induction fuel with
  | zero =>
    intro t current t' h hs
    unfold PropagateLoop at h
    by_cases hc : current = 0
    · simp only [hc, if_true, Option.some.injEq] at h
      rw [← h]
      exact hs
    · simp [hc] at h
  | succ fuel ih =>
    intro t current t' h hs
    unfold PropagateLoop at h
    by_cases hc : current = 0
    · simp only [hc, if_true, Option.some.injEq] at h
      rw [← h]
      exact hs
    · simp only [hc, if_false] at h
      cases hg : GetParent t current with
      | none => simp [hg] at h
      | some v =>
        obtain ⟨parent, t1⟩ := v
        simp only [hg] at h
        have s1 := hs.of_keeps (keeps_GetParent t current parent t1 hg)
        have s2 := s1.of_keeps (keeps_idxAt t1 current)
        cases hu : UpdateBoundaries Dimension Get (idxAt t1 current).2 (idxAt t1 current).1 with
        | none => simp [hu] at h
        | some t2 =>
          simp only [hu] at h
          have s3 := s2.of_keeps (keeps_UpdateBoundaries Dimension Get _ _ t2 hu)
          by_cases hp : parent = 0
          · simp only [hp, ne_eq, not_true_eq_false, if_false] at h
            exact ih _ _ _ h s3
          · simp only [hp, ne_eq, not_false_eq_true, if_true] at h
            have s4 := s3.of_keeps (keeps_idxAt t2 parent)
            split at h
            · cases h
            · exact ih _ _ _ h (Sound_UpdateBalance _ _ _ s4)
            · split at h
              · cases h
              · exact ih _ _ _ h (Sound_UpdateBalance _ _ _ s4)
              · exact ih _ _ _ h s4

theorem Sound_Erase (fuel : Nat) (t : KDTree) (point : Nat) (t' : KDTree)
    (h : Erase Dimension Get fuel t point = some t') (hs : Sound t) : Sound t' := by
  have fin : ∀ (newLeaf : Nat) (incr : Bool) (t3 : KDTree), Sound t3 →
      (if newLeaf ≠ 0 then
          PropagateLoop Dimension Get fuel (UpdateBalance t3 newLeaf incr) newLeaf
        else some { t3 with origin := 0 }) = some t' → Sound t' := by
    intro newLeaf incr t3 h3 hf
    by_cases hn : newLeaf = 0
    · simp only [hn, ne_eq, not_true_eq_false, if_false, Option.some.injEq] at hf
      rw [← hf]
      exact h3
    · simp only [hn, ne_eq, not_false_eq_true, if_true] at hf
      exact Sound_PropagateLoop Dimension Get fuel _ _ _ hf (Sound_UpdateBalance _ _ _ h3)
  unfold Erase at h
  simp only at h
  cases hi : t.indexedPointData.find point with
  | none =>
    simp only [hi] at h
    exact fin 0 false t hs h
  | some pi =>
    simp only [hi] at h
    cases hc : SwapChainLoop Dimension Get fuel t pi [] with
    | none => simp [hc] at h
    | some v =>
      obtain ⟨chain, t1⟩ := v
      simp only [hc] at h
      have s1 := hs.of_keeps (keeps_SwapChainLoop Dimension Get fuel t pi [] chain t1 hc)
      cases hsw : SwapAlong t1 chain with
      | none => simp [hsw] at h
      | some t2 =>
        simp only [hsw] at h
        have s2 := Sound_SwapAlong chain t1 t2 hsw s1
        split at h
        · cases h
        · rename_i newLeaf incr t3 hr
          exact fin newLeaf incr t3 (Sound_RemoveLeaf t2 _ false _ t3 hr s2) h

end Coordinates

end gbi
namespace gbi

theorem Sound_empty : Sound KDTree.empty := by
  refine ⟨?_, by simp [KDTree.empty]⟩
  intro b inner h
  simp [KDTree.empty, Map.find] at h

theorem keeps_selectRebalance (t : KDTree) (h : PointData) (t' : KDTree)
    (hsel : selectRebalance t = some (h, t')) : Keeps t t' := by
  have hk : ∀ a b : Nat, Keeps t (balanceAt (balanceAt t a).2 b).2 :=
    fun a b => (keeps_balanceAt t a).trans (keeps_balanceAt _ b)
  have hmap : ∀ (s : KDTree) (o : Option PointData), Keeps t s →
      o.map (fun g => (g, s)) = some (h, t') → Keeps t t' := by
    intro s o hs ho
    cases o with
    | none => cases ho
    | some g =>
      simp only [Option.map_some', Option.some.injEq, Prod.mk.injEq] at ho
      rw [← ho.2]
      exact hs
  unfold selectRebalance at hsel
  split at hsel
  · simp only at hsel
    split at hsel
    · split at hsel
      · exact hmap _ _ (hk _ _) hsel
      · exact hmap _ _ (hk _ _) hsel
    · exact hmap _ _ (Keeps.refl t) hsel
    · exact hmap _ _ (Keeps.refl t) hsel
    · simp only [Option.some.injEq, Prod.mk.injEq] at hsel
      rw [← hsel.2]
      exact Keeps.refl t
    · cases hsel
  · cases hsel

section Coordinates

variable {α : Type} [DecidableEq α] [LT α] [∀ a b : α, Decidable (a < b)]
variable (Dimension : Nat) (Get : PointData → Nat → α)

theorem Sound_RebalanceIteration (fuel : Nat) (t : KDTree) (b : Bool) (t' : KDTree)
    (h : RebalanceIteration Dimension Get fuel t = some (b, t')) (hs : Sound t) : Sound t' := by
  unfold RebalanceIteration at h
  by_cases hlen : 0 < t.indexByBalanceAndFloor.length
  · simp only [hlen, if_true] at h
    cases hsel : selectRebalance t with
    | none => simp [hsel] at h
    | some v =>
      obtain ⟨g, t1⟩ := v
      simp only [hsel] at h
      have s1 := hs.of_keeps (keeps_selectRebalance t g t1 hsel)
      by_cases hg : g = 0
      · simp only [hg, ne_eq, not_true_eq_false, if_false, Option.some.injEq, Prod.mk.injEq] at h
        rw [← h.2]
        exact s1
      · simp only [hg, ne_eq, not_false_eq_true, if_true] at h
        cases hE : Erase Dimension Get fuel t1 g with
        | none => simp [hE] at h
        | some t2 =>
          simp only [hE] at h
          cases hI : Insert Dimension Get fuel t2 g with
          | none => simp [hI] at h
          | some t3 =>
            simp only [hI, Option.some.injEq, Prod.mk.injEq] at h
            rw [← h.2]
            exact Sound_Insert Dimension Get fuel t2 g t3 hI
              (Sound_Erase Dimension Get fuel t1 g t2 hE s1)
  · simp only [hlen, if_false, Option.some.injEq, Prod.mk.injEq] at h
    rw [← h.2]
    exact hs

/-- Every state that public calls reach has a priority index without empty bucket and a
vector without null handle. -/
theorem Sound_runOps (fuel : Nat) (ops : List Op) :
    ∀ (t t' : KDTree), runOps Dimension Get fuel t ops = some t' → Sound t → Sound t' := by
  induction ops with
  | nil =>
    intro t t' h hs
    simp only [runOps, Option.some.injEq] at h
    rw [← h]
    exact hs
  | cons op r ih =>
    intro t t' h hs
    cases op with
    | insert g =>
      simp only [runOps] at h
      cases hI : Insert Dimension Get fuel t g with
      | none => simp [hI] at h
      | some t1 =>
        simp only [hI] at h
        exact ih t1 t' h (Sound_Insert Dimension Get fuel t g t1 hI hs)
    | erase g =>
      simp only [runOps] at h
      cases hE : Erase Dimension Get fuel t g with
      | none => simp [hE] at h
      | some t1 =>
        simp only [hE] at h
        exact ih t1 t' h (Sound_Erase Dimension Get fuel t g t1 hE hs)
    | rebalance =>
      simp only [runOps] at h
      cases hR : RebalanceIteration Dimension Get fuel t with
      | none => simp [hR] at h
      | some res =>
        simp only [hR] at h
        exact ih res.2 t' h (Sound_RebalanceIteration Dimension Get fuel t res.1 res.2 hR hs)

/-- C10: let `t` be a state reached from the empty tree by calls of `Insert`, `Erase` and
`RebalanceIteration` that return, and let its priority index be in sync with
`balanceByIndex`.  Then `RebalanceIteration` returns `false` if and only if no position has
a balance of absolute value greater than 1, and a call that returns `false` leaves every
component of the state unchanged. -/
theorem C10_rebalance_false_iff_balanced (fuel : Nat) (ops : List Op) (t : KDTree)
    (hreach : runOps Dimension Get fuel KDTree.empty ops = some t) (hsync : IndexInSync t)
    (fuel' : Nat) :
    ((∃ t', RebalanceIteration Dimension Get fuel' t = some (false, t')) ↔
        ∀ p b, t.balanceByIndex.find p = some b → b.natAbs ≤ 1) ∧
      ∀ t', RebalanceIteration Dimension Get fuel' t = some (false, t') → t' = t := by
  have hs := Sound_runOps Dimension Get fuel ops KDTree.empty t hreach Sound_empty
  exact rebalance_false_iff_balanced Dimension Get fuel' t hsync hs.1 hs.2

end Coordinates

/-- Witness for C10: the state reached by `Insert(1)`, `Insert(2)` on a line. -/
theorem C10_rebalance_false_iff_balanced_witness :
    runOps 1 lineGet 4 KDTree.empty [Op.insert 1, Op.insert 2] =
        some ⟨[1, 2], [(1, 0), (2, 1)], [(0, 0), (1, 1)], [], [(0, 1)], [(1, 0)],
          [(1, [2, 2])], [(0, 1)], [(1, [(0, [0])])], 1⟩ ∧
      ((∃ t', RebalanceIteration 1 lineGet 4
            ⟨[1, 2], [(1, 0), (2, 1)], [(0, 0), (1, 1)], [], [(0, 1)], [(1, 0)],
              [(1, [2, 2])], [(0, 1)], [(1, [(0, [0])])], 1⟩ = some (false, t')) ↔
          ∀ p b, Map.find ([(0, 1)] : Map SizeT Int) p = some b → b.natAbs ≤ 1) ∧
      ∀ t', RebalanceIteration 1 lineGet 4
          ⟨[1, 2], [(1, 0), (2, 1)], [(0, 0), (1, 1)], [], [(0, 1)], [(1, 0)],
            [(1, [2, 2])], [(0, 1)], [(1, [(0, [0])])], 1⟩ = some (false, t') →
        t' = ⟨[1, 2], [(1, 0), (2, 1)], [(0, 0), (1, 1)], [], [(0, 1)], [(1, 0)],
            [(1, [2, 2])], [(0, 1)], [(1, [(0, [0])])], 1⟩ :=
  ⟨by decide,
    C10_rebalance_false_iff_balanced 1 lineGet 4 [Op.insert 1, Op.insert 2] _ (by decide)
      twoPointTree_inSync 4⟩

theorem staleParentTree_inSync : IndexInSync staleParentTree := by
  intro p b
  simp only [staleParentTree, bucket, Map.find]
  constructor
  · intro h
    by_cases hp : p = 0
    · subst hp
      simp at h
      subst h
      exact ⟨0, by decide⟩
    · by_cases hp1 : p = 1
      · subst hp1
        simp at h
        subst h
        exact ⟨0, by decide⟩
      · simp [hp, hp1] at h
  · rintro ⟨f, hf⟩
    by_cases hb1 : b = 1
    · subst hb1
      by_cases hf0 : f = 0
      · subst hf0
        simp [Map.find] at hf
        simp [hf]
      · simp [Map.find, hf0] at hf
    · by_cases hb2 : b = 2
      · subst hb2
        by_cases hf0 : f = 0
        · subst hf0
          simp [Map.find] at hf
          simp [hf]
        · simp [Map.find, hf0] at hf
      · simp [hb1, hb2, Map.find] at hf

/-- With any fuel the swap-chain loop on `staleParentTree` from position `0` either runs
out of fuel or returns the chain `0`, `1`, `2`. -/
theorem staleParentTree_chain (fuel : Nat) :
    SwapChainLoop 1 lineGet fuel staleParentTree 0 [] = none ∨
      SwapChainLoop 1 lineGet fuel staleParentTree 0 [] = some ([0, 1, 2], staleParentTree) := by
  have l0 : IsLeaf staleParentTree 0 = false := by decide
  have l1 : IsLeaf staleParentTree 1 = false := by decide
  have l2 : IsLeaf staleParentTree 2 = true := by decide
  have g0 : GetBestReplacementCandidate 1 lineGet staleParentTree 0 = some (1, staleParentTree) := by
    decide
  have g1 : GetBestReplacementCandidate 1 lineGet staleParentTree 1 = some (2, staleParentTree) := by
    decide
  cases fuel with
  | zero =>
    left
    simp [SwapChainLoop, l0]
  | succ n =>
    cases n with
    | zero =>
      left
      simp [SwapChainLoop, l0, l1, g0]
    | succ m =>
      right
      cases m with
      | zero => simp [SwapChainLoop, l0, l1, l2, g0, g1]
      | succ k => simp [SwapChainLoop, l0, l1, l2, g0, g1]

/-- C11: the state `staleParentTree` is reached by `Insert` of `3`, `1`, `2`, `4`, `5` and
`Erase` of `1`, `2` on a line.  Its priority index is in sync with `balanceByIndex` and
position `0` has balance `2`.  `RebalanceIteration` selects handle `3` at position `0`; the
`Erase` it calls computes the swap chain `0`, `1`, `2` and swaps along it, and `RemoveLeaf`
of position `2` then reads `pointDataVector[parentIndex[2]]` with `parentIndex[2] = 3` in a
vector of three handles.  So `RebalanceIteration` does not return, whatever the fuel. -/
theorem C11_rebalance_aborts_on_stale_parent :
    runCalls 1 lineGet 8 KDTree.empty
        [Call.insert 3, Call.insert 1, Call.insert 2, Call.insert 4, Call.insert 5,
          Call.erase 1, Call.erase 2] = some staleParentTree ∧
      IndexInSync staleParentTree ∧
      staleParentTree.balanceByIndex.find 0 = some 2 ∧
      selectRebalance staleParentTree = some (3, staleParentTree) ∧
      SwapChainLoop 1 lineGet 8 staleParentTree 0 [] = some ([0, 1, 2], staleParentTree) ∧
      (SwapAlong staleParentTree [0, 1, 2]).map
          (fun t2 => (t2.pointDataVector, t2.parentIndex.find 2,
            (RemoveLeaf t2 2 false).isSome)) = some ([4, 5, 3], some 3, false) ∧
      ∀ fuel : Nat, RebalanceIteration 1 lineGet fuel staleParentTree = none := by
  refine ⟨by decide, staleParentTree_inSync, by decide, by decide, by decide, by decide, ?_⟩
  intro fuel
  have hsel : selectRebalance staleParentTree = some (3, staleParentTree) := by decide
  have hlen : 0 < staleParentTree.indexByBalanceAndFloor.length := by decide
  have hidx : staleParentTree.indexedPointData.find 3 = some 0 := by decide
  have hsw : SwapAlong staleParentTree [0, 1, 2] =
      some ⟨[4, 5, 3], [(3, 2), (4, 0), (5, 1)], [(0, 0), (1, 1), (2, 2)], [], [(0, 1), (1, 2)],
        [(1, 0), (2, 3)], [], [(0, 2), (1, 1)], [(1, [(0, [1])]), (2, [(0, [0])])], 4⟩ := by
    decide
  have hrl : RemoveLeaf ⟨[4, 5, 3], [(3, 2), (4, 0), (5, 1)], [(0, 0), (1, 1), (2, 2)], [],
      [(0, 1), (1, 2)], [(1, 0), (2, 3)], [], [(0, 2), (1, 1)],
      [(1, [(0, [1])]), (2, [(0, [0])])], 4⟩ 2 false = none := by
    decide
  have hE : Erase 1 lineGet fuel staleParentTree 3 = none := by
    unfold Erase
    rcases staleParentTree_chain fuel with hc | hc
    · simp only [hidx, hc]
    · simp only [hidx, hc, hsw, List.getLastD_cons, List.getLastD_nil, hrl]
  unfold RebalanceIteration
  simp only [hlen, if_true, hsel, hE]
  simp

end gbi
